import Mathlib

/-!
# s21::BinaryTree — AVL tree with parent references

A shallow embedding of `src/src/s21_binary_tree.h`.

* A `Node*` that owns its subtree is a value of `Node α`: `Node.null` is
  `nullptr`, `Node.mk addr data left right parent height` is a node living at
  address `addr`.  The `left`/`right` links own their subtrees, the `parent`
  link is a bare address (`Ptr`), exactly the non-owning back-reference of the
  source; it may be null or dangle.
* `new Node(value)` returns the tree's next unused address (`fresh`); addresses
  are never reused, so a pointer to a deleted node never aliases a live one.
* Dereferencing a null or dangling pointer is undefined behaviour: internal
  helpers return `none`, public operations return `Res.undefined`.
* A thrown exception is `Res.throws` and carries the state at the throw.
* Loops that follow pointers take a step bound; `Res.out_of_fuel` says the bound
  was hit and is not a behaviour of the program.
* `std::less<Key>` is `<` of a linear order on the key type; `extract_key` is
  the parameter `key`.
* Every tree value has its own address numbering: no operation of the source
  hands a node from one tree to another (`merge` and the copy constructor
  allocate new nodes for the values), so two trees never share a node.
* Where it matters that two trees lie in the same memory (a copy and its
  source), the tree is embedded a second time, pointer by pointer, over one
  memory of nodes (`TreeHeap`, `Mem`): there a write through a pointer into
  another tree's nodes changes that tree, and that no such write happens is
  proved (`Safe`), not built in.  `Stored` ties the two embeddings together.
* `set`, `multiset` and `map` (`s21_set.h`, `s21_multiset.h`, `s21_map.h`) are
  the tree with `key` the identity or the first component of the pair.
* `s21::list` (`s21_list.h`) is embedded over one memory of nodes (`ListHeap`),
  because `merge` and `swap` move nodes between two lists; an iterator is the
  address of a node.
-/

namespace s21

/-- The value of a `Node*` used as a bare address: `none` is `nullptr`. -/
abbrev Ptr := Option Nat

/-- The struct `Node` together with the subtrees its child links own. -/
inductive Node (α : Type) where
  | null : Node α
  | mk (addr : Nat) (data : α) (left right : Node α) (parent : Ptr) (height : Int) : Node α
  deriving DecidableEq, Repr

/-- The exceptions the containers throw. -/
inductive Exn where
  | runtime_error (what : String)
  | out_of_range (what : String)
  deriving DecidableEq, Repr

/-- Outcome of a public operation on a state `σ` returning a `ρ`. -/
inductive Res (σ ρ : Type) where
  | ok (s : σ) (r : ρ)
  | throws (s : σ) (e : Exn)
  | undefined
  | out_of_fuel
  deriving DecidableEq, Repr

/-- The data members of `BinaryTree<T>`; `fresh` is the address the next
`new Node` returns.  `size_` is the `std::size_t` counter as a natural number:
`++size_` cannot wrap (one live node per count, bounded by the address space)
and `--size_` is only reached after a node of the tree was found. -/
structure BinaryTree (α : Type) where
  root_ : Node α
  min_node_ : Ptr
  max_node_ : Ptr
  end_node_ : Node α
  size_ : Nat
  fresh : Nat
  deriving DecidableEq, Repr

variable {α κ : Type}

namespace Node

/-- The pointer value of a `Node*`. -/
def addr? : Node α → Ptr
  | null => none
  | mk a _ _ _ _ _ => some a

/-- Field `parent` of a non-null node (`none` for `nullptr`). -/
def parent? : Node α → Ptr
  | null => none
  | mk _ _ _ _ p _ => p

/-- Field `left` (null for a null node). -/
def left? : Node α → Node α
  | null => null
  | mk _ _ l _ _ _ => l

/-- Field `right` (null for a null node). -/
def right? : Node α → Node α
  | null => null
  | mk _ _ _ r _ _ => r

/-- Guarded parent assignment, `if (n) n->parent = p;`. -/
def setParent (n : Node α) (p : Ptr) : Node α :=
  match n with
  | null => null
  | mk a d l r _ h => mk a d l r p h

/-- Assignment `n->left = c` on a non-null node. -/
def setLeft (n : Node α) (c : Node α) : Node α :=
  match n with
  | null => null
  | mk a d _ r p h => mk a d c r p h

/-- Assignment `n->right = c` on a non-null node. -/
def setRight (n : Node α) (c : Node α) : Node α :=
  match n with
  | null => null
  | mk a d l _ p h => mk a d l c p h

/-- In-order sequence of the stored values. -/
def toList : Node α → List α
  | null => []
  | mk _ d l r _ _ => toList l ++ d :: toList r

/-- In-order sequence of the node addresses. -/
def addrs : Node α → List Nat
  | null => []
  | mk a _ l r _ _ => addrs l ++ a :: addrs r

/-- In-order sequence of (address, value) pairs: which node holds which value. -/
def entries : Node α → List (Nat × α)
  | null => []
  | mk a d l r _ _ => entries l ++ (a, d) :: entries r

/-- Reading through the address `a` inside the tree owned by `t`: the node
living at `a`, `none` when no live node of `t` has that address. -/
def deref : Node α → Nat → Option (Node α)
  | null, _ => none
  | mk b d l r p h, a =>
    if b = a then some (mk b d l r p h)
    else match deref l a with
      | some n => some n
      | none => deref r a

/-- Writing through the address `a`: the node living at `a` becomes `f` of it. -/
def store : Node α → Nat → (Node α → Node α) → Node α
  | null, _, _ => null
  | mk b d l r p h, a, f =>
    if b = a then f (mk b d l r p h)
    else mk b d (store l a f) (store r a f) p h

end Node

open Node

/-- `get_height`: 0 for null, else the cached height. -/
def get_height : Node α → Int
  | null => 0
  | mk _ _ _ _ _ h => h

/-- `get_balance_factor`: 0 for null, else height(left) − height(right). -/
def get_balance_factor : Node α → Int
  | null => 0
  | mk _ _ l r _ _ => get_height l - get_height r

/-- `update_height` (every call site has dereferenced the node before). -/
def update_height : Node α → Node α
  | null => null
  | mk a d l r p _ => mk a d l r p (1 + max (get_height l) (get_height r))

/-- `leftmost_node`: follow `left` links while there is one. -/
def leftmost_node : Node α → Node α
  | null => null
  | mk a d l r p h =>
    match l with
    | null => mk a d l r p h
    | mk _ _ _ _ _ _ => leftmost_node l

/-- `rightmost_node`: follow `right` links while there is one. -/
def rightmost_node : Node α → Node α
  | null => null
  | mk a d l r p h =>
    match r with
    | null => mk a d l r p h
    | mk _ _ _ _ _ _ => rightmost_node r

/-- `rotate_right(old_root)`; undefined when `old_root` or its left child is null. -/
def rotate_right : Node α → Option (Node α)
  | mk a d (mk la ld ll lr _ lh) r p h =>
    -- new_root = old_root->left; detached_node = new_root->right
    let old_root := update_height (mk a d (lr.setParent (some a)) r (some la) h)
    some (update_height (mk la ld ll old_root p lh))
  | _ => none

/-- `rotate_left(old_root)`; undefined when `old_root` or its right child is null. -/
def rotate_left : Node α → Option (Node α)
  | mk a d l (mk ra rd rl rr _ rh) p h =>
    -- new_root = old_root->right; detached_node = new_root->left
    let old_root := update_height (mk a d l (rl.setParent (some a)) (some ra) h)
    some (update_height (mk ra rd old_root rr p rh))
  | _ => none

/-- `balance(node)`. -/
def balance (node : Node α) : Option (Node α) :=
  let balance_factor := get_balance_factor node
  if balance_factor > 1 then
    match node with
    | null => none
    | mk a d l r p h =>
      if get_balance_factor l < 0 then
        match rotate_left l with
        | none => none
        | some l1 => rotate_right (mk a d l1 r p h)
      else rotate_right (mk a d l r p h)
  else if balance_factor < -1 then
    match node with
    | null => none
    | mk a d l r p h =>
      if get_balance_factor r > 0 then
        match rotate_right r with
        | none => none
        | some r1 => rotate_left (mk a d l r1 p h)
      else rotate_left (mk a d l r p h)
  else some node

/-- The tail of `insert_node` for a non-null `node` whose child link was just
reassigned: when something was inserted, `update_height`, `balance`, and the
re-parenting of the two children of the returned subtree root. -/
def insert_fixup (node : Node α) (was_inserted : Bool) : Option (Node α × Bool) :=
  if was_inserted then
    match balance (update_height node) with
    | some (mk a d l r p h) =>
      some (mk a d (l.setParent (some a)) (r.setParent (some a)) p h, true)
    | _ => none
  else some (node, false)

section keyed
variable [LinearOrder κ] (key : α → κ)

/-- `find_node`: the descent loop. -/
def find_node : Node α → κ → Node α
  | null, _ => null
  | mk a d l r p h, k =>
    if k < key d then find_node l k
    else if key d < k then find_node r k
    else mk a d l r p h

/-- `insert_node(node, value, allow_duplicates)`; `fresh` is the address that
`new Node(value)` returns. -/
def insert_node (fresh : Nat) (value : α) (allow_duplicates : Bool) :
    Node α → Option (Node α × Bool)
  | null => some (mk fresh value null null none 1, true)
  | mk a d l r p h =>
    if key value < key d then
      match insert_node fresh value allow_duplicates l with
      | none => none
      | some (new_left, was_inserted) =>
        insert_fixup (mk a d (new_left.setParent (some a)) r p h) was_inserted
    else if key d < key value ∨ allow_duplicates = true then
      match insert_node fresh value allow_duplicates r with
      | none => none
      | some (new_right, was_inserted) =>
        insert_fixup (mk a d l (new_right.setParent (some a)) p h) was_inserted
    else some (mk a d l r p h, false)

end keyed

/-- `erase_node(root, node, child)`: put `child` into the slot that holds
`node`.  A non-root `node` is reached through `node->parent`. -/
def erase_node (root node child : Node α) : Option (Node α) :=
  if node.addr? = root.addr? then some child
  else
    match node with
    | null => none
    | mk a _ _ _ p _ =>
      match p with
      | none => none
      | some pa =>
        match root.deref pa with
        | none => none
        | some _ =>
          some (root.store pa (fun pn =>
            if pn.left?.addr? = some a then pn.setLeft (child.setParent (some pa))
            else pn.setRight (child.setParent (some pa))))

/-- Case 3 of `erase` once the successor is detached: `successor` takes over
the child links of the node at address `a` (the children are re-parented), then
the slot that held that node — found through its `parent` link, or `root_` when
that link is null — and finally the node's parent link. -/
def erase_relink (root1 : Node α) (a : Nat) (successor : Node α) : Option (Node α) :=
  match successor, root1.deref a with
  | mk sa sd _ _ _ sh, some (mk _ _ l1 r1 p1 _) =>
    let successor1 := mk sa sd (l1.setParent (some sa)) (r1.setParent (some sa)) p1 sh
    match p1 with
    | none => some successor1
    | some pa =>
      match root1.deref pa with
      | none => none
      | some _ =>
        some (root1.store pa (fun pn =>
          if pn.left?.addr? = some a then pn.setLeft successor1
          else pn.setRight successor1))
  | _, _ => none

/-- The unlinking part of `erase(pos)` for `node_to_remove = pos.node_`: the
new `root_` before `delete node_to_remove`. -/
def erase_unlink (root : Node α) : Node α → Option (Node α)
  | null => none
  | mk a d nl nr np nh =>
    match nl, nr with
    | mk _ _ _ _ _ _, mk _ _ _ _ _ _ =>
      -- Case 3: Node has two children
      let successor := leftmost_node nr
      let successor_child := successor.right?
      match erase_node root successor successor_child with
      | none => none
      | some root1 => erase_relink root1 a successor
    | mk _ _ _ _ _ _, null =>
      -- Case 1 or 2 with child = node_to_remove->left
      erase_node root (mk a d nl nr np nh) nl
    | null, _ =>
      -- Case 1 or 2 with child = node_to_remove->right
      erase_node root (mk a d nl nr np nh) nr

namespace BinaryTree

/-- The constructor `BinaryTree()`: the sentinel is the first allocation. -/
def empty [Inhabited α] : BinaryTree α :=
  { root_ := Node.null, min_node_ := none, max_node_ := none,
    end_node_ := Node.mk 0 default Node.null Node.null none 1, size_ := 0, fresh := 1 }

/-- `end()`: an iterator is represented by its `node_` pointer. -/
def «end» (t : BinaryTree α) : Ptr := t.end_node_.addr?

/-- `begin()`. -/
def «begin» (t : BinaryTree α) : Ptr :=
  match t.root_ with
  | Node.null => t.end
  | Node.mk _ _ _ _ _ _ => t.min_node_

/-- `size()`. -/
def size (t : BinaryTree α) : Nat := t.size_

/-- `update_min_max_nodes`. -/
def update_min_max_nodes (t : BinaryTree α) : BinaryTree α :=
  { t with min_node_ := (leftmost_node t.root_).addr?,
           max_node_ := (rightmost_node t.root_).addr? }

/-- `iterator::operator*`: throws on a null `node_`; the sentinel is a node
like any other and yields its `T{}` payload. -/
def star (t : BinaryTree α) (it : Ptr) : Res (BinaryTree α) α :=
  match it with
  | none => .throws t (.runtime_error "Dereferencing end iterator")
  | some a =>
    if t.end_node_.addr? = some a then
      match t.end_node_ with
      | Node.mk _ d _ _ _ _ => .ok t d
      | Node.null => .undefined
    else
      match t.root_.deref a with
      | some (Node.mk _ d _ _ _ _) => .ok t d
      | _ => .undefined

/-- The tail of `erase` once the node is unlinked: `delete node_to_remove`,
height update and `balance` of the root only, min/max recomputation, `--size_`. -/
def erase_finish (t : BinaryTree α) (root1 : Node α) : Res (BinaryTree α) Unit :=
  match root1 with
  | Node.null =>
    .ok (update_min_max_nodes { t with root_ := Node.null, size_ := t.size_ - 1 }) ()
  | Node.mk a d l r p h =>
    match balance (update_height (Node.mk a d l r p h)) with
    | none => .undefined
    | some root2 =>
      .ok (update_min_max_nodes { t with root_ := root2, size_ := t.size_ - 1 }) ()

/-- `erase(pos)`: the guard, then `erase_unlink` (the two branches of the
`if`), then `erase_finish`. -/
def erase (t : BinaryTree α) (pos : Ptr) : Res (BinaryTree α) Unit :=
  if pos = t.end then .throws t (.runtime_error "Cannot erase end iterator")
  else
    match pos with
    | none => .undefined
    | some a =>
      match t.root_.deref a with
      | none => .undefined
      | some node_to_remove =>
        match erase_unlink t.root_ node_to_remove with
        | none => .undefined
        | some root1 => erase_finish t root1

section keyed
variable [LinearOrder κ] (key : α → κ)

/-- `insert(value, allow_duplicates)`. -/
def insert (t : BinaryTree α) (value : α) (allow_duplicates : Bool) :
    Res (BinaryTree α) (Ptr × Bool) :=
  match insert_node key t.fresh value allow_duplicates t.root_ with
  | none => .undefined
  | some (new_root, inserted) =>
    let t1 := { t with root_ := new_root }
    let t2 := if inserted then
        { update_min_max_nodes t1 with size_ := t1.size_ + 1, fresh := t1.fresh + 1 }
      else t1
    .ok t2 ((find_node key t2.root_ (key value)).addr?, inserted)

/-- `find(key)`. -/
def find (t : BinaryTree α) (k : κ) : Ptr :=
  match find_node key t.root_ k with
  | Node.null => t.end
  | Node.mk a _ _ _ _ _ => some a

/-- `contains(key)`: `find(key) != end()`. -/
def contains (t : BinaryTree α) (k : κ) : Bool :=
  decide (find key t k ≠ t.end)

end keyed

/-- The climbing loop of `operator++`, started with `parent = node_->parent`:
`while (parent && node_ == parent->right) { node_ = parent; parent = parent->parent; }`
followed by `node_ = parent`. -/
def climb_from_right (root : Node α) : Nat → Nat → Ptr → Res Unit Ptr
  | 0, _, _ => .out_of_fuel
  | _ + 1, _, none => .ok () none
  | fuel + 1, node_, some pa =>
    match root.deref pa with
    | none => .undefined
    | some pn =>
      if pn.right?.addr? = some node_ then climb_from_right root fuel pa pn.parent?
      else .ok () (some pa)

/-- Pre-increment `iterator::operator++` on the iterator `it` of tree `t`. -/
def incr (t : BinaryTree α) (it : Ptr) : Res (BinaryTree α) Ptr :=
  if it = t.end_node_.addr? then
    .throws t (.runtime_error "Incrementing past end iterator")
  else if it = t.max_node_ then .ok t t.end_node_.addr?
  else
    match it with
    | none => .undefined
    | some a =>
      match t.root_.deref a with
      | none => .undefined
      | some n =>
        match n.right? with
        | Node.mk ra rd rl rr rp rh => .ok t (leftmost_node (Node.mk ra rd rl rr rp rh)).addr?
        | Node.null =>
          match climb_from_right t.root_ (t.root_.addrs.length + 1) a n.parent? with
          | .ok _ p => .ok t p
          | .throws _ e => .throws t e
          | .undefined => .undefined
          | .out_of_fuel => .out_of_fuel

/-- The climbing loop of `operator--`, started with `parent = node_->parent`:
`while (parent && node_ == parent->left) { node_ = parent; parent = parent->parent; }`
followed by `node_ = parent`. -/
def climb_from_left (root : Node α) : Nat → Nat → Ptr → Res Unit Ptr
  | 0, _, _ => .out_of_fuel
  | _ + 1, _, none => .ok () none
  | fuel + 1, node_, some pa =>
    match root.deref pa with
    | none => .undefined
    | some pn =>
      if pn.left?.addr? = some node_ then climb_from_left root fuel pa pn.parent?
      else .ok () (some pa)

/-- Pre-decrement `iterator::operator--` on the iterator `it` of tree `t`. -/
def decr (t : BinaryTree α) (it : Ptr) : Res (BinaryTree α) Ptr :=
  if it = t.min_node_ then
    .throws t (.runtime_error "Decrementing past begin iterator")
  else if it = t.end_node_.addr? then .ok t t.max_node_
  else
    match it with
    | none => .undefined
    | some a =>
      match t.root_.deref a with
      | none => .undefined
      | some n =>
        match n.left? with
        | Node.mk la ld ll lr lp lh => .ok t (rightmost_node (Node.mk la ld ll lr lp lh)).addr?
        | Node.null =>
          match climb_from_left t.root_ (t.root_.addrs.length + 1) a n.parent? with
          | .ok _ p => .ok t p
          | .throws _ e => .throws t e
          | .undefined => .undefined
          | .out_of_fuel => .out_of_fuel

/-- The client loop `for (it = from; it != end(); ++it) visit(it, *it);`: the
iterators visited, each with the value it dereferences to. -/
def traverse (t : BinaryTree α) : Nat → Ptr → Res (BinaryTree α) (List (Ptr × α))
  | 0, _ => .out_of_fuel
  | fuel + 1, it =>
    if it = t.end then .ok t []
    else
      match t.star it with
      | .ok _ value =>
        match t.incr it with
        | .ok _ next_it =>
          match traverse t fuel next_it with
          | .ok _ rest => .ok t ((it, value) :: rest)
          | .throws _ e => .throws t e
          | .undefined => .undefined
          | .out_of_fuel => .out_of_fuel
        | .throws _ e => .throws t e
        | .undefined => .undefined
        | .out_of_fuel => .out_of_fuel
      | .throws _ e => .throws t e
      | .undefined => .undefined
      | .out_of_fuel => .out_of_fuel

/-- `copy_tree(other_node, parent)`: a fresh node of height 1 for every node,
allocated before its subtrees; returns the copy and the next unused address. -/
def copy_tree : Node α → Nat → Ptr → Node α × Nat
  | Node.null, fresh, _ => (Node.null, fresh)
  | Node.mk _ d l r _ _, fresh, parent =>
    let left1 := copy_tree l (fresh + 1) (some fresh)
    let right1 := copy_tree r left1.2 (some fresh)
    (Node.mk fresh d left1.1 right1.1 parent 1, right1.2)

/-- The copy constructor `BinaryTree(const BinaryTree& other)`; `none` when
`balance` leaves the defined behaviour. -/
def copy [Inhabited α] (other : BinaryTree α) : Option (BinaryTree α) :=
  let copied := copy_tree other.root_ 1 none
  match balance copied.1 with
  | none => none
  | some root1 =>
    some (update_min_max_nodes
      { root_ := root1, min_node_ := none, max_node_ := none,
        end_node_ := Node.mk 0 default Node.null Node.null none 1,
        size_ := other.size_, fresh := copied.2 })

section keyed
variable [LinearOrder κ] (key : α → κ)

/-- The `for` loop of `merge` over the snapshot `const_other`, from the
iterator `const_it` on; the state is the pair (`*this`, `other`). -/
def merge_loop (const_other : BinaryTree α) (allow_duplicates : Bool) :
    Nat → Ptr → BinaryTree α → BinaryTree α → Res (BinaryTree α × BinaryTree α) Unit
  | 0, _, _, _ => .out_of_fuel
  | fuel + 1, const_it, self, other =>
    if const_it = const_other.end then .ok (self, other) ()
    else
      match const_other.star const_it with
      | .ok _ value =>
        match self.insert key value allow_duplicates with
        | .ok self1 (_, true) =>
          match other.erase (other.find key (key value)) with
          | .ok other1 _ =>
            match const_other.incr const_it with
            | .ok _ next_it => merge_loop const_other allow_duplicates fuel next_it self1 other1
            | .throws _ e => .throws (self1, other1) e
            | .undefined => .undefined
            | .out_of_fuel => .out_of_fuel
          | .throws other1 e => .throws (self1, other1) e
          | .undefined => .undefined
          | .out_of_fuel => .out_of_fuel
        | .ok self1 (_, false) =>
          match const_other.incr const_it with
          | .ok _ next_it => merge_loop const_other allow_duplicates fuel next_it self1 other
          | .throws _ e => .throws (self1, other) e
          | .undefined => .undefined
          | .out_of_fuel => .out_of_fuel
        | .throws self1 e => .throws (self1, other) e
        | .undefined => .undefined
        | .out_of_fuel => .out_of_fuel
      | .throws _ e => .throws (self, other) e
      | .undefined => .undefined
      | .out_of_fuel => .out_of_fuel

/-- `merge(other, allow_duplicates)` on the pair (`*this`, `other`). -/
def merge [Inhabited α] (self other : BinaryTree α) (allow_duplicates : Bool) :
    Res (BinaryTree α × BinaryTree α) Unit :=
  match copy other with
  | none => .undefined
  | some const_other =>
    merge_loop key const_other allow_duplicates (const_other.size_ + 1) const_other.begin
      self other

end keyed

/-- One step of a client: an `insert`, or `erase(find(k))`. -/
inductive Op (α κ : Type) where
  | insert (value : α) (allow_duplicates : Bool)
  | erase_key (k : κ)

/-- One public call with what it was given and, for `insert`, the flag it returned. -/
inductive Event (α : Type) where
  | ins (value : α) (allow_duplicates : Bool) (inserted : Bool)
  | era (pos : Ptr)

section keyed
variable [LinearOrder κ] (key : α → κ)

/-- Run a list of client steps, stopping at the first that does not return. -/
def run : BinaryTree α → List (Op α κ) → Res (BinaryTree α) Unit
  | t, [] => .ok t ()
  | t, Op.insert value allow_duplicates :: ops =>
    match t.insert key value allow_duplicates with
    | .ok t1 _ => run t1 ops
    | .throws t1 e => .throws t1 e
    | .undefined => .undefined
    | .out_of_fuel => .out_of_fuel
  | t, Op.erase_key k :: ops =>
    match t.erase (t.find key k) with
    | .ok t1 _ => run t1 ops
    | .throws t1 e => .throws t1 e
    | .undefined => .undefined
    | .out_of_fuel => .out_of_fuel

/-- `Reach key history t`: `t` is what the empty tree becomes under the calls
of `history` (latest first), each of which returned normally. -/
inductive Reach [Inhabited α] : List (Event α) → BinaryTree α → Prop where
  | empty : Reach [] BinaryTree.empty
  | insert {h : List (Event α)} {t t1 : BinaryTree α} {v : α} {d b : Bool} {i : Ptr} :
      Reach h t → t.insert key v d = .ok t1 (i, b) → Reach (Event.ins v d b :: h) t1
  | erase {h : List (Event α)} {t t1 : BinaryTree α} {p : Ptr} :
      Reach h t → t.erase p = .ok t1 () → Reach (Event.era p :: h) t1

/-- Reachable from the empty tree by insert and erase calls. -/
def Reachable [Inhabited α] (t : BinaryTree α) : Prop := ∃ h, Reach key h t

end keyed

end BinaryTree

/-! ## `s21::multiset<Key>` lookup (a `BinaryTree<Key>` whose key is the value) -/

namespace multiset

section ordered
variable [LinearOrder α]

/-- The loop of `lower_bound(key)` from the iterator `it` on:
`for (; it != end(); ++it) if (!(*it < key)) { result = it; break; }`, with
`result = end()` when the loop runs out. -/
def lower_bound_loop (t : BinaryTree α) (k : α) : Nat → Ptr → Res (BinaryTree α) Ptr
  | 0, _ => .out_of_fuel
  | fuel + 1, it =>
    if it = t.end then .ok t t.end
    else
      match t.star it with
      | .ok _ value =>
        if ¬ value < k then .ok t it
        else
          match t.incr it with
          | .ok _ next_it => lower_bound_loop t k fuel next_it
          | .throws _ e => .throws t e
          | .undefined => .undefined
          | .out_of_fuel => .out_of_fuel
      | .throws _ e => .throws t e
      | .undefined => .undefined
      | .out_of_fuel => .out_of_fuel

/-- `lower_bound(key)`. -/
def lower_bound (t : BinaryTree α) (k : α) : Res (BinaryTree α) Ptr :=
  lower_bound_loop t k (t.size_ + 1) t.begin

end ordered

end multiset

/-! ## `s21::map<Key, T>` element access (a `BinaryTree<std::pair<const Key, T>>`) -/

namespace map

/-- `at(key)`: `find`, the `out_of_range` guard, then `it->second` (`operator->`
has the null check of `operator*`). -/
def «at» {μ : Type} [LinearOrder κ] (m : BinaryTree (κ × μ)) (k : κ) :
    Res (BinaryTree (κ × μ)) μ :=
  let it := m.find Prod.fst k
  if it = m.end then .throws m (.out_of_range "Key not found")
  else
    match m.star it with
    | .ok _ value => .ok m value.2
    | .throws _ e => .throws m e
    | .undefined => .undefined
    | .out_of_fuel => .out_of_fuel

end map

/-! ## Structural predicates -/

/-- Every cached height is at least 1. -/
def HeightsPos : Node α → Prop
  | .null => True
  | .mk _ _ l r _ h => 1 ≤ h ∧ HeightsPos l ∧ HeightsPos r

/-- The node (if any) has parent link `p`, and below it every parent link
holds the address of the node whose child link owns it. -/
def ParentOK : Node α → Ptr → Prop
  | .null, _ => True
  | .mk a _ l r q _, p => q = p ∧ ParentOK l (some a) ∧ ParentOK r (some a)

/-- Below the subtree root every parent link is right; the root's own parent
link is left unconstrained. -/
def ChildrenOK : Node α → Prop
  | .null => True
  | .mk a _ l r _ _ => ParentOK l (some a) ∧ ParentOK r (some a)

/-- True height of a subtree (number of nodes on the longest downward path). -/
def true_height : Node α → Int
  | .null => 0
  | .mk _ _ l r _ _ => 1 + max (true_height l) (true_height r)

/-- Checker: every node has `|height(left) − height(right)| ≤ 1` (true heights). -/
def avl_balanced : Node α → Bool
  | .null => true
  | .mk _ _ l r _ _ =>
    decide (true_height l - true_height r ≤ 1) && decide (true_height r - true_height l ≤ 1)
      && avl_balanced l && avl_balanced r

/-- Checker: every cached height is 1 + max of the children's cached heights. -/
def heights_cached_ok : Node α → Bool
  | .null => true
  | .mk _ _ l r _ h =>
    decide (h = 1 + max (get_height l) (get_height r)) && heights_cached_ok l && heights_cached_ok r

section keyed
variable [LinearOrder κ] (key : α → κ)

/-- In-order keys are non-decreasing. -/
def KeysSorted (t : Node α) : Prop :=
  t.entries.Pairwise (fun e f => key e.2 ≤ key f.2)

end keyed

/-! ## Contexts (a device of the proofs)

A node inside a tree is the tree's context around it plus the node's own
subtree; frames are listed from the root downwards. -/

/-- One step from a node down to one of its children: everything of the node
except the child the path continues in. -/
structure Frame (α : Type) where
  isLeft : Bool
  addr : Nat
  data : α
  sibling : Node α
  parent : Ptr
  height : Int

/-- The node of a frame with `n` put in as the child on the path. -/
def Frame.fill (fr : Frame α) (n : Node α) : Node α :=
  if fr.isLeft then .mk fr.addr fr.data n fr.sibling fr.parent fr.height
  else .mk fr.addr fr.data fr.sibling n fr.parent fr.height

/-- The tree with `n` at the end of the path `C`. -/
def plug : List (Frame α) → Node α → Node α
  | [], n => n
  | fr :: C, n => fr.fill (plug C n)

/-- Entries of a frame that come before the hole. -/
def Frame.pre (fr : Frame α) : List (Nat × α) :=
  if fr.isLeft then [] else fr.sibling.entries ++ [(fr.addr, fr.data)]

/-- Entries of a frame that come after the hole. -/
def Frame.post (fr : Frame α) : List (Nat × α) :=
  if fr.isLeft then (fr.addr, fr.data) :: fr.sibling.entries else []

/-- In-order entries before the hole of a context. -/
def ctxPre : List (Frame α) → List (Nat × α)
  | [] => []
  | fr :: C => fr.pre ++ ctxPre C

/-- In-order entries after the hole of a context. -/
def ctxPost : List (Frame α) → List (Nat × α)
  | [] => []
  | fr :: C => ctxPost C ++ fr.post

/-- The address a node in the hole must have as its parent link: the last
frame's address (`q` for the empty context). -/
def holeParent : List (Frame α) → Ptr → Ptr
  | [], q => q
  | fr :: C, _ => holeParent C (some fr.addr)

section keyed
variable [LinearOrder κ] (key : α → κ)

/-- In-order keys are strictly increasing. -/
def KeysStrict (t : Node α) : Prop :=
  t.entries.Pairwise (fun e f => key e.2 < key f.2)

/-- The representation invariant that the operations keep (it says nothing
about balance or about the cached heights being the true ones). -/
structure WF (t : BinaryTree α) : Prop where
  nodup : t.root_.addrs.Nodup
  children : ChildrenOK t.root_
  heights : HeightsPos t.root_
  sorted : KeysSorted key t.root_
  root_parent : ∀ p, t.root_.parent? = some p → p ∉ t.root_.addrs ∧ p < t.fresh
  lt_fresh : ∀ x ∈ t.root_.addrs, x < t.fresh
  size_eq : t.size_ = t.root_.entries.length
  end_ok : ∃ e, t.end_node_.addr? = some e ∧ e ∉ t.root_.addrs ∧ e < t.fresh
  min_ok : t.min_node_ = (leftmost_node t.root_).addr?
  max_ok : t.max_node_ = (rightmost_node t.root_).addr?

end keyed

/-- The call was an `insert` that returned `inserted = true`. -/
def BinaryTree.Event.isInserted : BinaryTree.Event α → Bool
  | .ins _ _ b => b
  | .era _ => false

/-- The call was an `erase` (it is in a history only if it returned). -/
def BinaryTree.Event.isErase : BinaryTree.Event α → Bool
  | .ins _ _ _ => false
  | .era _ => true

/-! ## Concrete trees used as examples (sets of `Nat`, `key = id`) -/

/-- The set after `insert(2); insert(1); insert(3); erase(find(1))`. -/
def demo_tree : BinaryTree Nat :=
  { root_ := .mk 1 2 .null (.mk 3 3 .null .null (some 1) 1) none 2,
    min_node_ := some 1, max_node_ := some 3,
    end_node_ := .mk 0 0 .null .null none 1, size_ := 2, fresh := 4 }

/-- The calls that produced `demo_tree`, latest first. -/
def demo_history : List (BinaryTree.Event Nat) :=
  [.era (some 2), .ins 3 false true, .ins 1 false true, .ins 2 false true]

/-- Seven inserts that need no rotation, then the erase of the leaf 4. -/
def unbalanced_ops : List (BinaryTree.Op Nat Nat) :=
  [.insert 3 false, .insert 2 false, .insert 5 false, .insert 1 false, .insert 4 false,
   .insert 6 false, .insert 7 false, .erase_key 4]

/-- The tree `unbalanced_ops` ends in: the node holding 5 (address 3) has no
left child and a right subtree of height 2. -/
def unbalanced_tree : BinaryTree Nat :=
  { root_ := .mk 1 3
      (.mk 2 2 (.mk 4 1 .null .null (some 2) 1) .null (some 1) 2)
      (.mk 3 5 .null (.mk 6 6 .null (.mk 7 7 .null .null (some 6) 1) (some 3) 2) (some 1) 3)
      none 4,
    min_node_ := some 4, max_node_ := some 7,
    end_node_ := .mk 0 0 .null .null none 1, size_ := 6, fresh := 8 }

/-- Four inserts, then the erase of the leaf 4. -/
def stale_ops : List (BinaryTree.Op Nat Nat) :=
  [.insert 2 false, .insert 1 false, .insert 3 false, .insert 4 false, .erase_key 4]

/-- The tree `stale_ops` ends in: the leaf holding 3 still has cached height 2
and the root cached height 3. -/
def stale_tree : BinaryTree Nat :=
  { root_ := .mk 1 2 (.mk 2 1 .null .null (some 1) 1) (.mk 3 3 .null .null (some 1) 2) none 3,
    min_node_ := some 2, max_node_ := some 3,
    end_node_ := .mk 0 0 .null .null none 1, size_ := 3, fresh := 5 }

/-- `insert(2); insert(1); erase(find(2)); insert(0); insert(3)`. -/
def dangling_ops : List (BinaryTree.Op Nat Nat) :=
  [.insert 2 false, .insert 1 false, .erase_key 2, .insert 0 false, .insert 3 false]

/-- The set {0, 1, 3} that `dangling_ops` ends in: its root (value 1, address
2) has two children and a parent link that still holds address 1, the node of
the erased former root. -/
def dangling_tree : BinaryTree Nat :=
  { root_ := .mk 2 1 (.mk 3 0 .null .null (some 2) 1) (.mk 4 3 .null .null (some 2) 1)
      (some 1) 2,
    min_node_ := some 3, max_node_ := some 4,
    end_node_ := .mk 0 0 .null .null none 1, size_ := 3, fresh := 5 }

/-- The set {0}. -/
def singleton_tree : BinaryTree Nat :=
  { root_ := .mk 1 0 .null .null none 1, min_node_ := some 1, max_node_ := some 1,
    end_node_ := .mk 0 0 .null .null none 1, size_ := 1, fresh := 2 }

/-- The iterator to the first entry of a run of in-order entries, `e` when the
run is empty. -/
def headPtr (L : List (Nat × α)) (e : Ptr) : Ptr :=
  match L with
  | [] => e
  | x :: _ => some x.1

/-- `n` times `++it`. -/
def BinaryTree.advance (t : BinaryTree α) : Nat → Ptr → Res (BinaryTree α) Ptr
  | 0, it => .ok t it
  | n + 1, it =>
    match t.incr it with
    | .ok _ next_it => BinaryTree.advance t n next_it
    | .throws _ e => .throws t e
    | .undefined => .undefined
    | .out_of_fuel => .out_of_fuel

/-- The inserts of `unbalanced_ops` without the erase: the set {1, …, 7}. -/
def merge_source_ops : List (BinaryTree.Op Nat Nat) :=
  [.insert 3 false, .insert 2 false, .insert 5 false, .insert 1 false, .insert 4 false,
   .insert 6 false, .insert 7 false]

/-- The balanced tree `merge_source_ops` builds. -/
def merge_source : BinaryTree Nat :=
  { root_ := .mk 1 3
      (.mk 2 2 (.mk 4 1 .null .null (some 2) 1) .null (some 1) 2)
      (.mk 3 5 (.mk 5 4 .null .null (some 3) 1)
        (.mk 6 6 .null (.mk 7 7 .null .null (some 6) 1) (some 3) 2) (some 1) 3)
      none 4,
    min_node_ := some 4, max_node_ := some 7,
    end_node_ := .mk 0 0 .null .null none 1, size_ := 7, fresh := 8 }

/-- Six inserts building the set {1, 2, 3, 5, 6, 7}. -/
def merge_dest_ops : List (BinaryTree.Op Nat Nat) :=
  [.insert 1 false, .insert 2 false, .insert 3 false, .insert 5 false, .insert 6 false,
   .insert 7 false]

/-- The balanced tree `merge_dest_ops` builds. -/
def merge_dest : BinaryTree Nat :=
  { root_ := .mk 4 5
      (.mk 2 2 (.mk 1 1 .null .null (some 2) 1) (.mk 3 3 .null .null (some 2) 1) (some 4) 2)
      (.mk 5 6 .null (.mk 6 7 .null .null (some 5) 1) (some 4) 2)
      none 3,
    min_node_ := some 1, max_node_ := some 6,
    end_node_ := .mk 0 0 .null .null none 1, size_ := 6, fresh := 7 }

/-- The destination after `merge_dest.merge(merge_source)`: the set {1, …, 7}. -/
def merged_dest : BinaryTree Nat :=
  { root_ := .mk 4 5
      (.mk 2 2 (.mk 1 1 .null .null (some 2) 1)
        (.mk 3 3 .null (.mk 7 4 .null .null (some 3) 1) (some 2) 2) (some 4) 3)
      (.mk 5 6 .null (.mk 6 7 .null .null (some 5) 1) (some 4) 2)
      none 4,
    min_node_ := some 1, max_node_ := some 6,
    end_node_ := .mk 0 0 .null .null none 1, size_ := 7, fresh := 8 }

/-- The source after that merge: {1, 2, 3, 5, 6, 7} in the shape of
`unbalanced_tree`. -/
def merged_source : BinaryTree Nat :=
  { root_ := .mk 1 3
      (.mk 2 2 (.mk 4 1 .null .null (some 2) 1) .null (some 1) 2)
      (.mk 3 5 .null (.mk 6 6 .null (.mk 7 7 .null .null (some 6) 1) (some 3) 2) (some 1) 3)
      none 4,
    min_node_ := some 4, max_node_ := some 7,
    end_node_ := .mk 0 0 .null .null none 1, size_ := 6, fresh := 8 }

/-- `multiset<int>`: `insert(5); insert(3); erase(find(5)); insert(3); insert(3)`. -/
def triple_ops : List (BinaryTree.Op Nat Nat) :=
  [.insert 5 true, .insert 3 true, .erase_key 5, .insert 3 true, .insert 3 true]

/-- The multiset {3, 3, 3} that `triple_ops` ends in: the root has two
children and its parent link holds address 1, the node of the erased 5. -/
def triple_tree : BinaryTree Nat :=
  { root_ := .mk 3 3 (.mk 2 3 .null .null (some 3) 1) (.mk 4 3 .null .null (some 3) 1)
      (some 1) 2,
    min_node_ := some 2, max_node_ := some 4,
    end_node_ := .mk 0 0 .null .null none 1, size_ := 3, fresh := 5 }

/-- `multiset<int>{2, 2, 2, 2, 2, 2, 1, 1, 0}`: nine inserts, no erase. -/
def nine_ops : List (BinaryTree.Op Nat Nat) :=
  [.insert 2 true, .insert 2 true, .insert 2 true, .insert 2 true, .insert 2 true,
   .insert 2 true, .insert 1 true, .insert 1 true, .insert 0 true]

/-- The tree `nine_ops` builds. -/
def nine_tree : BinaryTree Nat :=
  { root_ := .mk 4 2
      (.mk 8 1
        (.mk 7 1 (.mk 9 0 .null .null (some 7) 1) .null (some 8) 2)
        (.mk 2 2 (.mk 1 2 .null .null (some 2) 1) (.mk 3 2 .null .null (some 2) 1) (some 8) 2)
        (some 4) 3)
      (.mk 5 2 .null (.mk 6 2 .null .null (some 5) 1) (some 4) 2)
      none 4,
    min_node_ := some 9, max_node_ := some 6,
    end_node_ := .mk 0 0 .null .null none 1, size_ := 9, fresh := 10 }

/-- `multiset<int>`: insert 1, 2, 2, 3, 3, 3. -/
def multi_ops : List (BinaryTree.Op Nat Nat) :=
  [.insert 1 true, .insert 2 true, .insert 2 true, .insert 3 true, .insert 3 true,
   .insert 3 true]

/-- The tree `multi_ops` builds. -/
def multi_tree : BinaryTree Nat :=
  { root_ := .mk 4 3
      (.mk 2 2 (.mk 1 1 .null .null (some 2) 1) (.mk 3 2 .null .null (some 2) 1) (some 4) 2)
      (.mk 5 3 .null (.mk 6 3 .null .null (some 5) 1) (some 4) 2)
      none 3,
    min_node_ := some 1, max_node_ := some 6,
    end_node_ := .mk 0 0 .null .null none 1, size_ := 6, fresh := 7 }

/-- The `map<int, int>` after `insert(1, 10); insert(2, 20)`. -/
def map_demo : BinaryTree (Nat × Nat) :=
  { root_ := .mk 1 (1, 10) .null (.mk 2 (2, 20) .null .null (some 1) 1) none 2,
    min_node_ := some 1, max_node_ := some 2,
    end_node_ := .mk 0 (0, 0) .null .null none 1, size_ := 2, fresh := 3 }

/-- The calls that produced `map_demo`, latest first. -/
def map_demo_history : List (BinaryTree.Event (Nat × Nat)) :=
  [.ins (2, 20) false true, .ins (1, 10) false true]

/-! ## Further public operations of the tree, `map` and `set` -/

/-- Assignment to the payload, `n->data = d`, on a non-null node. -/
def Node.setData (n : Node α) (d : α) : Node α :=
  match n with
  | .null => .null
  | .mk a _ l r p h => .mk a d l r p h

namespace BinaryTree

/-- `clear_tree(node)`: the addresses of the nodes it deletes, in the order of
the `delete`s (left subtree, right subtree, then the node). -/
def clear_tree : Node α → List Nat
  | Node.null => []
  | Node.mk a _ l r _ _ => clear_tree l ++ clear_tree r ++ [a]

/-- `clear()`: `clear_tree(root_)` deletes the real nodes (addresses are never
reused, so nothing of them is kept), then root, min, max and size are reset; the
sentinel is not touched. -/
def clear (t : BinaryTree α) : BinaryTree α :=
  { t with root_ := Node.null, min_node_ := none, max_node_ := none, size_ := 0 }

/-- `empty()`: `begin() == end()`. -/
def empty? (t : BinaryTree α) : Bool := decide (t.begin = t.end)

/-- `iterator::operator->`: throws on a null `node_`, else the address of the
node whose payload the returned pointer designates (nothing is read yet). -/
def arrow (t : BinaryTree α) (it : Ptr) : Res (BinaryTree α) Nat :=
  match it with
  | none => .throws t (.runtime_error "Dereferencing end iterator")
  | some a => .ok t a

/-- Reading the payload through a pointer to the node at address `a` (the
sentinel or a node of the tree); `none` when the pointer dangles. -/
def load (t : BinaryTree α) (a : Nat) : Option α :=
  if t.end_node_.addr? = some a then
    match t.end_node_ with
    | Node.mk _ d _ _ _ _ => some d
    | Node.null => none
  else
    match t.root_.deref a with
    | some (Node.mk _ d _ _ _ _) => some d
    | _ => none

/-- Writing the payload through a reference obtained from an iterator
(`*it = d`, `it->second = x`) to the node at address `a`. -/
def write (t : BinaryTree α) (a : Nat) (d : α) : Res (BinaryTree α) Unit :=
  if t.end_node_.addr? = some a then .ok { t with end_node_ := t.end_node_.setData d } ()
  else
    match t.root_.deref a with
    | some _ => .ok { t with root_ := t.root_.store a (fun n => n.setData d) } ()
    | none => .undefined

section keyed
variable [LinearOrder κ] (key : α → κ)

/-- `Built key dup t`: `t` is what the default-constructed tree becomes under
public operations that returned normally — `insert` (every one with
`allow_duplicates = dup`, as `set`/`map` (`false`) and `multiset` (`true`) do),
`erase`, `clear`, copy construction, `merge` (either side of it), and writes
through an iterator to a real node that keep the node's key (the only writes
`map` allows: its key is `const`). -/
inductive Built [Inhabited α] (dup : Bool) : BinaryTree α → Prop where
  | empty : Built dup BinaryTree.empty
  | insert {t t1 : BinaryTree α} {v : α} {r : Ptr × Bool} :
      Built dup t → t.insert key v dup = .ok t1 r → Built dup t1
  | erase {t t1 : BinaryTree α} {p : Ptr} :
      Built dup t → t.erase p = .ok t1 () → Built dup t1
  | clear {t : BinaryTree α} : Built dup t → Built dup t.clear
  | copy {t c : BinaryTree α} : Built dup t → BinaryTree.copy t = some c → Built dup c
  | write {t t1 : BinaryTree α} {a : Nat} {x d : α} :
      Built dup t → (a, x) ∈ t.root_.entries → key d = key x → t.write a d = .ok t1 () →
      Built dup t1
  | merge_into {t other t1 o1 : BinaryTree α} :
      Built dup t → Built dup other → t.merge key other dup = .ok (t1, o1) () → Built dup t1
  | merge_from {t other t1 o1 : BinaryTree α} :
      Built dup t → Built dup other → t.merge key other dup = .ok (t1, o1) () → Built dup o1

end keyed

end BinaryTree

/-- The result of an outcome passed through `f`; the state is kept. -/
def Res.map {σ ρ τ : Type} (f : ρ → τ) : Res σ ρ → Res σ τ
  | .ok s r => .ok s (f r)
  | .throws s e => .throws s e
  | .undefined => .undefined
  | .out_of_fuel => .out_of_fuel

/-! ### `s21::vector<T>` as far as `insert_many` uses it -/

/-- The data members of `s21::vector<T>`: `arr` holds the `m_size` constructed
elements `arr[0 .. m_size)`, `m_capacity` the allocated length. -/
structure vector (T : Type) where
  arr : List T
  m_capacity : Nat
  deriving DecidableEq, Repr

namespace vector

variable {T : Type}

/-- `advanceCapacity(n)`: `n * grow_factor / 10.0` with `grow_factor = 20`,
truncated (exact for sizes below 2^53 / 20). -/
def advanceCapacity (n : Nat) : Nat := n * 20 / 10

/-- The default constructor `vector()`: `allocate(0)` allocates nothing. -/
def empty : vector T := { arr := [], m_capacity := 0 }

/-- `size()`. -/
def size (v : vector T) : Nat := v.arr.length

/-- `push_back(value)`, that is `insert_many(cend(), value)`: `ipos = size()`
and `count = 1`; the storage is reallocated to `advanceCapacity(size() + 1)`
when full (the shifting loop has nothing to move at the end), then the new
element is constructed at `arr + size()`. -/
def push_back (v : vector T) (value : T) : vector T :=
  { arr := v.arr ++ [value],
    m_capacity :=
      if v.size + 1 > v.m_capacity then advanceCapacity (v.size + 1) else v.m_capacity }

end vector

namespace BinaryTree

section keyed
variable [LinearOrder κ] (key : α → κ)

/-- The fold `(results.push_back(insert(args)), ...)` of `insert_many`, left
to right, on the tree `t` with the vector `results` filled so far. -/
def insert_many_fold :
    BinaryTree α → vector (Ptr × Bool) → List α → Res (BinaryTree α) (vector (Ptr × Bool))
  | t, results, [] => .ok t results
  | t, results, arg :: args =>
    match t.insert key arg false with
    | .ok t1 r => insert_many_fold t1 (results.push_back r) args
    | .throws t1 e => .throws t1 e
    | .undefined => .undefined
    | .out_of_fuel => .out_of_fuel

/-- `set::insert_many(args...)` and `map::insert_many(args...)` (the same
body; `key` is the identity for `set` and the first component for `map`), the
parameter pack given as a list. -/
def insert_many (t : BinaryTree α) (args : List α) :
    Res (BinaryTree α) (vector (Ptr × Bool)) :=
  let results : vector (Ptr × Bool) := vector.empty
  if args.length = 0 then .ok t results
  else insert_many_fold key t results args

/-- What the specification says `insert_many(a1, …, an)` is: the calls
`insert(a1)`, …, `insert(an)` in that order, with the list of what they
returned. -/
def insert_each : BinaryTree α → List α → Res (BinaryTree α) (List (Ptr × Bool))
  | t, [] => .ok t []
  | t, arg :: args =>
    match t.insert key arg false with
    | .ok t1 r => Res.map (fun rs => r :: rs) (insert_each t1 args)
    | .throws t1 e => .throws t1 e
    | .undefined => .undefined
    | .out_of_fuel => .out_of_fuel

end keyed

end BinaryTree

namespace map

variable {μ : Type}

/-- `operator[](key)`: `insert({key, T()})`, then `it->second`.  The reference
it returns is represented by the address of the node whose `second` it
designates. -/
def index [LinearOrder κ] [Inhabited μ] (m : BinaryTree (κ × μ)) (k : κ) :
    Res (BinaryTree (κ × μ)) Nat :=
  match m.insert Prod.fst (k, default) false with
  | .ok m1 (it, _) => m1.arrow it
  | .throws m1 e => .throws m1 e
  | .undefined => .undefined
  | .out_of_fuel => .out_of_fuel

/-- Reading through a reference to the `second` of the node at address `a`. -/
def get_second (m : BinaryTree (κ × μ)) (a : Nat) : Option μ :=
  (m.load a).map Prod.snd

/-- Assigning `obj` through a reference to the `second` of the node at address
`a`; the `first` of the pair is not written. -/
def set_second (m : BinaryTree (κ × μ)) (a : Nat) (obj : μ) : Res (BinaryTree (κ × μ)) Unit :=
  match m.load a with
  | none => .undefined
  | some d => m.write a (d.1, obj)

/-- The statement `m[key] = obj`. -/
def index_assign [LinearOrder κ] [Inhabited μ] (m : BinaryTree (κ × μ)) (k : κ) (obj : μ) :
    Res (BinaryTree (κ × μ)) Unit :=
  match index m k with
  | .ok m1 a => set_second m1 a obj
  | .throws m1 e => .throws m1 e
  | .undefined => .undefined
  | .out_of_fuel => .out_of_fuel

/-- `insert_or_assign(key, obj)`. -/
def insert_or_assign [LinearOrder κ] (m : BinaryTree (κ × μ)) (k : κ) (obj : μ) :
    Res (BinaryTree (κ × μ)) (Ptr × Bool) :=
  match m.insert Prod.fst (k, obj) false with
  | .ok m1 (it, inserted) =>
    if inserted = false then
      -- result.first->second = obj
      match m1.arrow it with
      | .ok _ a =>
        match set_second m1 a obj with
        | .ok m2 _ => .ok m2 (it, inserted)
        | .throws m2 e => .throws m2 e
        | .undefined => .undefined
        | .out_of_fuel => .out_of_fuel
      | .throws m2 e => .throws m2 e
      | .undefined => .undefined
      | .out_of_fuel => .out_of_fuel
    else .ok m1 (it, inserted)
  | .throws m1 e => .throws m1 e
  | .undefined => .undefined
  | .out_of_fuel => .out_of_fuel

end map

/-! ## `s21::list<T>`

The nodes of the lists live in one memory (`ListHeap`), a list object is the
address of its `fake_node` member and its `size_`; an iterator is the address
of the node it points to. -/

/-- The node object at an address: the `next` and `prev` members of its
`listNode_base`, and the `data_` member when it is a `listNode<T>` (`none` for
a bare `listNode_base` such as a `fake_node`). -/
structure ListCell (α : Type) where
  next : Nat
  prev : Nat
  data : Option α
  deriving DecidableEq, Repr

/-- The memory the list nodes live in: the node at address `a` is `cells[a]`,
and the next allocation returns the address `cells.length`. -/
structure ListHeap (α : Type) where
  cells : List (ListCell α)
  deriving DecidableEq, Repr

/-- The data members of `list<T>`: the address of `fake_node`, and `size_`. -/
structure list where
  fake_node : Nat
  size_ : Nat
  deriving DecidableEq, Repr

namespace ListHeap

/-- Memory with nothing allocated. -/
def init : ListHeap α := { cells := [] }

/-- The address the next allocation returns. -/
def fresh (h : ListHeap α) : Nat := h.cells.length

/-- The node at address `a`.  The operations only follow pointers stored in
allocated nodes; an address that holds no node reads as a bare self-linked
node. -/
def cell (h : ListHeap α) (a : Nat) : ListCell α := h.cells.getD a ⟨a, a, none⟩

/-- Member `next` of the node at `a`. -/
def next (h : ListHeap α) (a : Nat) : Nat := (h.cell a).next

/-- Member `prev` of the node at `a`. -/
def prev (h : ListHeap α) (a : Nat) : Nat := (h.cell a).prev

/-- Member `data_` of the node at `a`, `none` when there is no `listNode<T>`. -/
def data (h : ListHeap α) (a : Nat) : Option α := (h.cell a).data

/-- Allocation of a node with the given members. -/
def alloc (h : ListHeap α) (c : ListCell α) : ListHeap α := { cells := h.cells ++ [c] }

/-- Assignment `n->next = x`. -/
def setNext (h : ListHeap α) (n x : Nat) : ListHeap α :=
  { cells := h.cells.set n { h.cell n with next := x } }

/-- Assignment `n->prev = x`. -/
def setPrev (h : ListHeap α) (n x : Nat) : ListHeap α :=
  { cells := h.cells.set n { h.cell n with prev := x } }

/-- Assignment `*it = v` to the `data_` of the node at `n`. -/
def setData (h : ListHeap α) (n : Nat) (v : α) : ListHeap α :=
  { cells := h.cells.set n { h.cell n with data := some v } }

/-- `listNode_base::unhook()` on the node at `n`. -/
def unhook (h : ListHeap α) (n : Nat) : ListHeap α :=
  let h1 := if h.next n ≠ n ∧ h.prev (h.next n) = n then h.setPrev (h.next n) (h.prev n) else h
  if h1.prev n ≠ n ∧ h1.next (h1.prev n) = n then h1.setNext (h1.prev n) (h1.next n) else h1

/-- `listNode_base::hook(pos)` on the node at `n` (`pos` is never null here). -/
def hook (h : ListHeap α) (n pos : Nat) : ListHeap α :=
  if n = pos then h
  else
    let h1 := h.setNext n pos
    let h2 := h1.setPrev n (h1.prev pos)
    let h3 := h2.setNext (h2.prev pos) n
    h3.setPrev pos n

/-- `listNode_base::rebase(pos)`: `unhook(); hook(pos);`. -/
def rebase (h : ListHeap α) (n pos : Nat) : ListHeap α :=
  (h.unhook n).hook n pos

/-- `listNode_base::swap(other)` on the nodes at `a` (`this`) and `b`:
`std::swap(*this, other)` exchanges the two pointer pairs, then the four
neighbour links are rewritten one after the other. -/
def swap (h : ListHeap α) (a b : Nat) : ListHeap α :=
  let h1 := (((h.setNext a (h.next b)).setPrev a (h.prev b)).setNext b (h.next a)).setPrev b
    (h.prev a)
  -- next->prev = this;
  let h2 := h1.setPrev (h1.next a) a
  -- prev->next = this;
  let h3 := h2.setNext (h2.prev a) a
  -- other.next->prev = &other;
  let h4 := h3.setPrev (h3.next b) b
  -- other.prev->next = &other;
  h4.setNext (h4.prev b) b

/-- `std::swap(*i, *j)` on the payloads of the nodes at `i` and `j`; `none`
when one of them is not a `listNode<T>`. -/
def swap_data (h : ListHeap α) (i j : Nat) : Option (ListHeap α) :=
  match h.data i, h.data j with
  | some vi, some vj => some ((h.setData i vj).setData j vi)
  | _, _ => none

end ListHeap

namespace list

/-- The constructor `list()`: a `fake_node` linked to itself, `size_ = 0`. -/
def empty (h : ListHeap α) : ListHeap α × list :=
  (h.alloc ⟨h.fresh, h.fresh, none⟩, { fake_node := h.fresh, size_ := 0 })

/-- `begin()`: `++iterator(&fake_node)`. -/
def «begin» (h : ListHeap α) (l : list) : Nat := h.next l.fake_node

/-- `end()`. -/
def «end» (l : list) : Nat := l.fake_node

/-- `insert(pos, value)`: a new node holding `value` (constructed linked to
itself), hooked in before `pos`. -/
def insert (h : ListHeap α) (l : list) (pos : Nat) (value : α) : ListHeap α × list × Nat :=
  let new_node := h.fresh
  ((h.alloc ⟨new_node, new_node, some value⟩).hook new_node pos,
    { l with size_ := l.size_ + 1 }, new_node)

/-- `push_back(value)`: `insert(end(), value)`. -/
def push_back (h : ListHeap α) (l : list) (value : α) : ListHeap α × list :=
  let r := insert h l l.end value
  (r.1, r.2.1)

/-- The initializer-list constructor: `list()` and a `push_back` per item. -/
def of_items (h : ListHeap α) (items : List α) : ListHeap α × list :=
  items.foldl (fun s x => push_back s.1 s.2 x) (empty h)

/-- The client loop `for (it = begin(); it != end(); ++it) out.push_back(*it);`
from the iterator `it` on. -/
def collect (h : ListHeap α) (l : list) : Nat → Nat → Res (ListHeap α) (List α)
  | 0, _ => .out_of_fuel
  | fuel + 1, it =>
    if it = l.end then .ok h []
    else
      match h.data it with
      | none => .undefined
      | some v => Res.map (fun vs => v :: vs) (collect h l fuel (h.next it))

/-- The elements of the list as a client reads them, `begin()` to `end()`
(`size_` nodes at most are visited before `end()` when the ring is intact). -/
def elements (h : ListHeap α) (l : list) : Res (ListHeap α) (List α) :=
  collect h l (l.size_ + 1) (l.begin h)

/-- `front()`. -/
def front (h : ListHeap α) (l : list) : Res (ListHeap α) α :=
  if l.size_ = 0 then .throws h (.out_of_range "list: list is empty")
  else
    match h.data (l.begin h) with
    | none => .undefined
    | some v => .ok h v

/-- `swap(other)`: the fake nodes are swapped, then the sizes. -/
def swap (h : ListHeap α) (self other : list) : ListHeap α × list × list :=
  (h.swap self.fake_node other.fake_node,
   { self with size_ := other.size_ }, { other with size_ := self.size_ })

section ordered
variable [LinearOrder α]

/-- The `for` loop of `partition` with the iterators `i` and `j`. -/
def partition_loop (pivot : α) (high : Nat) : Nat → ListHeap α → Nat → Nat → Res (ListHeap α) Nat
  | 0, _, _, _ => .out_of_fuel
  | fuel + 1, h, i, j =>
    if j = high then .ok h i
    else
      match h.data j with
      | none => .undefined
      | some vj =>
        if vj ≤ pivot then
          match h.swap_data i j with
          | none => .undefined
          | some h1 => partition_loop pivot high fuel h1 (h1.next i) (h1.next j)
        else partition_loop pivot high fuel h i (h.next j)

/-- `partition(low, high)`; `fuel` bounds the loop. -/
def partition (fuel : Nat) (h : ListHeap α) (low high : Nat) : Res (ListHeap α) Nat :=
  match h.data high with
  | none => .undefined
  | some pivot =>
    match partition_loop pivot high fuel h low low with
    | .ok h1 i =>
      match h1.swap_data i high with
      | none => .undefined
      | some h2 => .ok h2 i
    | .throws h1 e => .throws h1 e
    | .undefined => .undefined
    | .out_of_fuel => .out_of_fuel

/-- `quick_sort_recursive(low, high)`; `n` bounds the loop of `partition`, the
first argument the depth of the recursion.  The test `low != ++high` moves
`high` on and the call `partition(low, --high)` moves it back; `--pivot` and
`++pivot` do the same to `pivot` around the first recursive call. -/
def quick_sort_recursive (n : Nat) : Nat → ListHeap α → Nat → Nat → Res (ListHeap α) Unit
  | 0, _, _, _ => .out_of_fuel
  | fuel + 1, h, low, high =>
    if low ≠ high ∧ low ≠ h.next high then
      let high1 := h.prev (h.next high)
      match partition n h low high1 with
      | .ok h1 pivot =>
        let pivot1 := h1.prev pivot
        match quick_sort_recursive n fuel h1 low pivot1 with
        | .ok h2 _ => quick_sort_recursive n fuel h2 (h2.next pivot1) high1
        | .throws h2 e => .throws h2 e
        | .undefined => .undefined
        | .out_of_fuel => .out_of_fuel
      | .throws h1 e => .throws h1 e
      | .undefined => .undefined
      | .out_of_fuel => .out_of_fuel
    else .ok h ()

/-- `sort()`: nothing for fewer than two elements, else
`quick_sort_recursive(begin(), --end())`. -/
def sort (h : ListHeap α) (l : list) : Res (ListHeap α) Unit :=
  if l.size_ < 2 then .ok h ()
  else quick_sort_recursive (l.size_ + 1) (2 * l.size_ + 2) h (l.begin h) (h.prev l.end)

/-- The `while` loop of `merge` at the iterator `it`; the state is the memory
with `*this` and `other`. -/
def merge_while : Nat → ListHeap α → list → list → Nat → Res (ListHeap α × list × list) Unit
  | 0, _, _, _, _ => .out_of_fuel
  | fuel + 1, h, self, other, it =>
    if other.size_ = 0 then .ok (h, self, other) ()
    else
      let move : Res (ListHeap α × list × list) Unit :=
        merge_while fuel (h.rebase (other.begin h) it)
          { self with size_ := self.size_ + 1 } { other with size_ := other.size_ - 1 } it
      if it = self.end then move
      else
        match h.data (other.begin h), h.data it with
        | some x, some y => if x < y then move else .ok (h, self, other) ()
        | _, _ => .undefined

/-- The `for` loop of `merge` from the iterator `it` on. -/
def merge_for : Nat → ListHeap α → list → list → Nat → Res (ListHeap α × list × list) Unit
  | 0, _, _, _, _ => .out_of_fuel
  | fuel + 1, h, self, other, it =>
    if other.size_ = 0 then .ok (h, self, other) ()
    else
      match merge_while (other.size_ + 1) h self other it with
      | .ok s _ => merge_for fuel s.1 s.2.1 s.2.2 (s.1.next it)
      | .throws s e => .throws s e
      | .undefined => .undefined
      | .out_of_fuel => .out_of_fuel

/-- `merge(other)`. -/
def merge (h : ListHeap α) (self other : list) : Res (ListHeap α × list × list) Unit :=
  if self.fake_node = other.fake_node then .ok (h, self, other) ()
  else if other.size_ = 0 then .ok (h, self, other) ()
  else
    let s := if self.size_ = 0 then swap h self other else (h, self, other)
    merge_for (s.2.1.size_ + s.2.2.size_ + 2) s.1 s.2.1 s.2.2 (s.2.1.begin s.1)

end ordered

end list

namespace list

/-- Consecutive nodes of `L` are linked both ways: each one's `next` is the
following node, whose `prev` is the one before. -/
def Linked (h : ListHeap α) (L : List Nat) : Prop :=
  L.Chain' (fun a b => h.next a = b ∧ h.prev b = a)

/-- The nodes at the addresses `L` are `listNode<T>`s holding the values `V`,
in this order. -/
def Holds (h : ListHeap α) (L : List Nat) (V : List α) : Prop :=
  L.map h.data = V.map some

/-- The representation invariant of a list: its nodes `L`, holding the values
`V`, form a ring with `fake_node` — distinct, linked both ways, `size_` of
them. -/
def IsList (h : ListHeap α) (l : list) (L : List Nat) (V : List α) : Prop :=
  Linked h (l.fake_node :: L ++ [l.fake_node]) ∧ (l.fake_node :: L).Nodup ∧
    Holds h L V ∧ l.size_ = L.length

end list

/-! ### Concrete lists used as examples -/

/-- `list<int> l{2, 1, 4, 3, 5};` in fresh memory: the fake node at address 0,
the nodes at 1 … 5. -/
def sort_demo : ListHeap Nat × list := list.of_items ListHeap.init [2, 1, 4, 3, 5]

/-- `list<int> a; list<int> b{1};`: the fake nodes at addresses 0 and 1, the
node holding 1 at address 2. -/
def merge_demo : ListHeap Nat × list × list :=
  let a := list.empty (ListHeap.init : ListHeap Nat)
  let b := list.of_items a.1 [1]
  (b.1, a.2, b.2)

/-- `list<int> a{1, 2, 3, 8, 9}; list<int> b{4, 5, 6, 7, 10};`, the lists of
the repository's merge test. -/
def merge_test : ListHeap Nat × list × list :=
  let a := list.of_items (ListHeap.init : ListHeap Nat) [1, 2, 3, 8, 9]
  let b := list.of_items a.1 [4, 5, 6, 7, 10]
  (b.1, a.2, b.2)

/-! ## Balance checkers and further examples -/

/-- Checker: at every node the cached heights of the two children differ by
at most 1, the test `balance` itself makes. -/
def cached_balanced : Node α → Bool
  | .null => true
  | .mk _ _ l r _ _ =>
    decide (get_height l - get_height r ≤ 1) && decide (get_height r - get_height l ≤ 1)
      && cached_balanced l && cached_balanced r

/-- The rotations `balance(node)` applies find the child they turn around:
`rotate_right` is applied to a node with a left child and `rotate_left` to a
node with a right child, the inner rotation of a double rotation included. -/
def rotations_have_child (node : Node α) : Prop :=
  (get_balance_factor node > 1 →
    node.left? ≠ .null ∧ (get_balance_factor node.left? < 0 → node.left?.right? ≠ .null)) ∧
  (get_balance_factor node < -1 →
    node.right? ≠ .null ∧ (get_balance_factor node.right? > 0 → node.right?.left? ≠ .null))

/-- Scenario 1 of the specification: insert 10, 20, 30, 40, 50, 25. -/
def scenario_ops : List (BinaryTree.Op Nat Nat) :=
  [.insert 10 false, .insert 20 false, .insert 30 false, .insert 40 false, .insert 50 false,
   .insert 25 false]

/-- The tree after the first five inserts of `scenario_ops`. -/
def scenario_five : BinaryTree Nat :=
  { root_ := .mk 2 20 (.mk 1 10 .null .null (some 2) 1)
      (.mk 4 40 (.mk 3 30 .null .null (some 4) 1) (.mk 5 50 .null .null (some 4) 1) (some 2) 2)
      none 3,
    min_node_ := some 1, max_node_ := some 5,
    end_node_ := .mk 0 0 .null .null none 1, size_ := 5, fresh := 6 }

/-- The node holding 20 as `insert_node` sees it when the insertion of 25 into
its right subtree has returned and `update_height` is done, before `balance`. -/
def scenario_pivot : Node Nat :=
  .mk 2 20 (.mk 1 10 .null .null (some 2) 1)
    (.mk 4 40 (.mk 3 30 (.mk 6 25 .null .null (some 3) 1) .null (some 4) 2)
      (.mk 5 50 .null .null (some 4) 1) (some 2) 3)
    none 4

/-- The right subtree of `scenario_pivot` after `rotate_right` at the node
holding 40. -/
def scenario_inner : Node Nat :=
  .mk 3 30 (.mk 6 25 .null .null (some 3) 1)
    (.mk 4 40 .null (.mk 5 50 .null .null (some 4) 1) (some 3) 2) (some 2) 3

/-- The tree `scenario_ops` builds. -/
def scenario_tree : BinaryTree Nat :=
  { root_ := .mk 3 30
      (.mk 2 20 (.mk 1 10 .null .null (some 2) 1) (.mk 6 25 .null .null (some 2) 1) (some 3) 2)
      (.mk 4 40 .null (.mk 5 50 .null .null (some 4) 1) (some 3) 2)
      none 3,
    min_node_ := some 1, max_node_ := some 5,
    end_node_ := .mk 0 0 .null .null none 1, size_ := 6, fresh := 7 }

/-- Scenario 2: `scenario_tree` after `erase(find(20))`. -/
def scenario_erased : BinaryTree Nat :=
  { root_ := .mk 3 30
      (.mk 6 25 (.mk 1 10 .null .null (some 6) 1) .null (some 3) 1)
      (.mk 4 40 .null (.mk 5 50 .null .null (some 4) 1) (some 3) 2)
      none 3,
    min_node_ := some 1, max_node_ := some 5,
    end_node_ := .mk 0 0 .null .null none 1, size_ := 5, fresh := 7 }

/-- `multiset<int> ms = {1, 2, 3, 3, 4};`, the multiset of the repository's
`find` test. -/
def dup_find_ops : List (BinaryTree.Op Nat Nat) :=
  [.insert 1 true, .insert 2 true, .insert 3 true, .insert 3 true, .insert 4 true]

/-- The tree `dup_find_ops` builds: the 3 inserted first is at address 3, the
left child of the 3 inserted second (address 4). -/
def dup_find_tree : BinaryTree Nat :=
  { root_ := .mk 2 2 (.mk 1 1 .null .null (some 2) 1)
      (.mk 4 3 (.mk 3 3 .null .null (some 4) 1) (.mk 5 4 .null .null (some 4) 1) (some 2) 2)
      none 3,
    min_node_ := some 1, max_node_ := some 5,
    end_node_ := .mk 0 0 .null .null none 1, size_ := 5, fresh := 6 }

/-- `insert(2); insert(1); erase(find(2))`: the erase of a root with one child. -/
def promoted_ops : List (BinaryTree.Op Nat Nat) :=
  [.insert 2 false, .insert 1 false, .erase_key 2]

/-- The set {2, 1} before the erase of `promoted_ops`. -/
def promoted_before : BinaryTree Nat :=
  { root_ := .mk 1 2 (.mk 2 1 .null .null (some 1) 1) .null none 2,
    min_node_ := some 2, max_node_ := some 1,
    end_node_ := .mk 0 0 .null .null none 1, size_ := 2, fresh := 3 }

/-- The set {1} that `promoted_ops` ends in: the promoted child (address 2) is
the root and its parent link still holds address 1, the node that was deleted. -/
def promoted_tree : BinaryTree Nat :=
  { root_ := .mk 2 1 .null .null (some 1) 1,
    min_node_ := some 2, max_node_ := some 2,
    end_node_ := .mk 0 0 .null .null none 1, size_ := 1, fresh := 3 }

/-- The inserts 0, 4, 6, 2, 8 (no rotation happens). -/
def copy_source_ops : List (BinaryTree.Op Nat Nat) :=
  [.insert 0 false, .insert 4 false, .insert 6 false, .insert 2 false, .insert 8 false]

/-- The tree `copy_source_ops` builds; every cached height is the true one. -/
def copy_source : BinaryTree Nat :=
  { root_ := .mk 2 4
      (.mk 1 0 .null (.mk 4 2 .null .null (some 1) 1) (some 2) 2)
      (.mk 3 6 .null (.mk 5 8 .null .null (some 3) 1) (some 2) 2)
      none 3,
    min_node_ := some 1, max_node_ := some 5,
    end_node_ := .mk 0 0 .null .null none 1, size_ := 5, fresh := 6 }

/-- The copy-constructed tree of `copy_source`: same shape and values, every
cached height 1. -/
def copy_made : BinaryTree Nat :=
  { root_ := .mk 1 4
      (.mk 2 0 .null (.mk 3 2 .null .null (some 2) 1) (some 1) 1)
      (.mk 4 6 .null (.mk 5 8 .null .null (some 4) 1) (some 1) 1)
      none 1,
    min_node_ := some 2, max_node_ := some 5,
    end_node_ := .mk 0 0 .null .null none 1, size_ := 5, fresh := 6 }

/-- The tree `copy_made` after `insert(9); insert(7)`: the node holding 4 has a left
subtree of height 2 and no right child. -/
def copy_grown : BinaryTree Nat :=
  { root_ := .mk 4 6
      (.mk 1 4 (.mk 2 0 .null (.mk 3 2 .null .null (some 2) 1) (some 1) 1) .null (some 4) 2)
      (.mk 5 8 (.mk 7 7 .null .null (some 5) 1) (.mk 6 9 .null .null (some 5) 1) (some 4) 2)
      none 3,
    min_node_ := some 2, max_node_ := some 6,
    end_node_ := .mk 0 0 .null .null none 1, size_ := 7, fresh := 8 }

/-- `list<int> a{1, …, 9}; list<int> b{10, …, 18};`, the lists of the
repository's swap test: the fake nodes at addresses 0 and 10. -/
def swap_test : ListHeap Nat × list × list :=
  let a := list.of_items (ListHeap.init : ListHeap Nat) [1, 2, 3, 4, 5, 6, 7, 8, 9]
  let b := list.of_items a.1 [10, 11, 12, 13, 14, 15, 16, 17, 18]
  (b.1, a.2, b.2)

/-- The AVL shape with exact bookkeeping: every node's subtrees differ in
height by at most 1 and every cached height is the true height. -/
def IsAVL (n : Node α) : Prop :=
  avl_balanced n = true ∧ heights_cached_ok n = true

/-- The six `insert` calls of `scenario_ops` as a history, latest first. -/
def scenario_history : List (BinaryTree.Event Nat) :=
  [.ins 25 false true, .ins 50 false true, .ins 40 false true, .ins 30 false true,
   .ins 20 false true, .ins 10 false true]

/-- `list<int> a; list<int> b;`: two empty lists, the fake nodes at addresses
0 and 1. -/
def empty_pair : ListHeap Nat × list × list :=
  let a := list.empty (ListHeap.init : ListHeap Nat)
  let b := list.empty a.1
  (b.1, a.2, b.2)

/-! ## The tree in one memory shared by all containers

A second embedding of `s21_binary_tree.h`, pointer by pointer: the nodes of
all trees live in one memory (`TreeHeap`), a `Node*` is an address, and every
`->` of the source is a read or a write of that memory.  Here a tree that kept
a pointer into another tree's nodes would write to them, so that a copy shares
nothing with its source is a statement to prove. -/

/-- The struct `Node` as it lies in memory. -/
structure TreeCell (α : Type) where
  data : α
  left : Ptr
  right : Ptr
  parent : Ptr
  height : Int
  deriving DecidableEq, Repr

/-- The memory the nodes of all trees live in: the node at address `a` is
`cells[a]`, `none` once it is deleted; the next `new Node` returns the address
`cells.length`. -/
structure TreeHeap (α : Type) where
  cells : List (Option (TreeCell α))
  deriving DecidableEq, Repr

/-- The data members of a `BinaryTree` object. -/
structure TreeObj where
  root_ : Ptr
  min_node_ : Ptr
  max_node_ : Ptr
  end_node_ : Ptr
  size_ : Nat
  deriving DecidableEq, Repr

/-- The node at address `a`, `none` when there is no live node there. -/
def TreeHeap.cell (h : TreeHeap α) (a : Nat) : Option (TreeCell α) := h.cells.getD a none

/-- A computation on the shared memory: it returns a value, throws, leaves the
defined behaviour, or hits a step bound. -/
def Mem (α β : Type) : Type := TreeHeap α → Res (TreeHeap α) β

namespace Mem

variable {β γ : Type}

/-- A computation run on the memory `h`. -/
def run (m : Mem α β) (h : TreeHeap α) : Res (TreeHeap α) β := m h

/-- Return a value, the memory as it is. -/
protected def pure (x : β) : Mem α β := fun h => .ok h x

/-- Sequencing: the second computation runs on the memory the first one left. -/
protected def bind (m : Mem α β) (f : β → Mem α γ) : Mem α γ := fun h =>
  match m h with
  | .ok h1 x => f x h1
  | .throws h1 e => .throws h1 e
  | .undefined => .undefined
  | .out_of_fuel => .out_of_fuel

instance : Monad (Mem α) where
  pure := Mem.pure
  bind := Mem.bind

/-- The step bound of a loop is used up. -/
def out_of_fuel : Mem α β := fun _ => .out_of_fuel

/-- `throw e`. -/
def throw (e : Exn) : Mem α β := fun h => .throws h e

/-- Reading the node `*p`: undefined for a null pointer and for an address
without a live node. -/
def load (p : Ptr) : Mem α (TreeCell α) := fun h =>
  match p with
  | none => .undefined
  | some a =>
    match h.cell a with
    | some c => .ok h c
    | none => .undefined

/-- Writing one member of the node `*p`: the node becomes `f` of it. -/
def modify (p : Ptr) (f : TreeCell α → TreeCell α) : Mem α Unit := fun h =>
  match p with
  | none => .undefined
  | some a =>
    match h.cell a with
    | some c => .ok { cells := h.cells.set a (some (f c)) } ()
    | none => .undefined

/-- `new Node(value)`: the constructor sets the links to null and `height` to 1. -/
def new_node (value : α) : Mem α Ptr := fun h =>
  .ok { cells := h.cells ++ [some ⟨value, none, none, none, 1⟩] } (some h.cells.length)

/-- `delete p`: nothing for a null pointer, undefined for a node already
deleted. -/
def delete (p : Ptr) : Mem α Unit := fun h =>
  match p with
  | none => .ok h ()
  | some a =>
    match h.cell a with
    | some _ => .ok { cells := h.cells.set a none } ()
    | none => .undefined

/-- `get_height(node)`. -/
def get_height (node : Ptr) : Mem α Int :=
  match node with
  | none => pure 0
  | some _ => do
    let c ← load node
    pure c.height

/-- `get_balance_factor(node)`. -/
def get_balance_factor (node : Ptr) : Mem α Int :=
  match node with
  | none => pure 0
  | some _ => do
    let c ← load node
    let hl ← get_height c.left
    let hr ← get_height c.right
    pure (hl - hr)

/-- `update_height(node)`. -/
def update_height (node : Ptr) : Mem α Unit := do
  let c ← load node
  let hl ← get_height c.left
  let hr ← get_height c.right
  modify node (fun n => { n with height := 1 + max hl hr })

/-- The guarded assignment `if (n) n->parent = p;`. -/
def set_parent_if (n p : Ptr) : Mem α Unit :=
  match n with
  | none => pure ()
  | some _ => modify n (fun c => { c with parent := p })

/-- `leftmost_node(node)`: `while (node && node->left) node = node->left;`. -/
def leftmost_node : Nat → Ptr → Mem α Ptr
  | 0, _ => out_of_fuel
  | fuel + 1, node =>
    match node with
    | none => pure none
    | some _ => do
      let c ← load node
      match c.left with
      | none => pure node
      | some _ => leftmost_node fuel c.left

/-- `rightmost_node(node)`. -/
def rightmost_node : Nat → Ptr → Mem α Ptr
  | 0, _ => out_of_fuel
  | fuel + 1, node =>
    match node with
    | none => pure none
    | some _ => do
      let c ← load node
      match c.right with
      | none => pure node
      | some _ => rightmost_node fuel c.right

/-- `rotate_right(old_root)`. -/
def rotate_right (old_root : Ptr) : Mem α Ptr := do
  let o ← load old_root
  let new_root := o.left
  let n ← load new_root
  let detached_node := n.right
  modify new_root (fun c => { c with right := old_root })
  modify old_root (fun c => { c with left := detached_node })
  set_parent_if detached_node old_root
  let o1 ← load old_root
  modify new_root (fun c => { c with parent := o1.parent })
  modify old_root (fun c => { c with parent := new_root })
  update_height old_root
  update_height new_root
  pure new_root

/-- `rotate_left(old_root)`. -/
def rotate_left (old_root : Ptr) : Mem α Ptr := do
  let o ← load old_root
  let new_root := o.right
  let n ← load new_root
  let detached_node := n.left
  modify new_root (fun c => { c with left := old_root })
  modify old_root (fun c => { c with right := detached_node })
  set_parent_if detached_node old_root
  let o1 ← load old_root
  modify new_root (fun c => { c with parent := o1.parent })
  modify old_root (fun c => { c with parent := new_root })
  update_height old_root
  update_height new_root
  pure new_root

/-- `balance(node)`. -/
def balance (node : Ptr) : Mem α Ptr := do
  let balance_factor ← get_balance_factor node
  if balance_factor > 1 then do
    let c ← load node
    let left_factor ← get_balance_factor c.left
    if left_factor < 0 then do
      let c1 ← load node
      let l1 ← rotate_left c1.left
      modify node (fun n => { n with left := l1 })
      rotate_right node
    else rotate_right node
  else if balance_factor < -1 then do
    let c ← load node
    let right_factor ← get_balance_factor c.right
    if right_factor > 0 then do
      let c1 ← load node
      let r1 ← rotate_right c1.right
      modify node (fun n => { n with right := r1 })
      rotate_left node
    else rotate_left node
  else pure node

section keyed
variable [LinearOrder κ] (key : α → κ)

/-- `find_node(node, key)`: the descent loop. -/
def find_node : Nat → Ptr → κ → Mem α Ptr
  | 0, _, _ => out_of_fuel
  | fuel + 1, node, k =>
    match node with
    | none => pure none
    | some _ => do
      let c ← load node
      if k < key c.data then find_node fuel c.left k
      else if key c.data < k then find_node fuel c.right k
      else pure node

/-- The tail of `insert_node` for a non-null `node`: with something inserted,
`update_height`, `balance`, and the re-parenting of the two children of the
node `balance` returned. -/
def insert_fixup (node : Ptr) (was_inserted : Bool) : Mem α (Ptr × Bool) :=
  if was_inserted then do
    update_height node
    let first ← balance node
    let f ← load first
    set_parent_if f.left first
    let f1 ← load first
    set_parent_if f1.right first
    pure (first, true)
  else pure (node, false)

/-- `insert_node(node, value, allow_duplicates)`; the first argument bounds the
depth of the recursion. -/
def insert_node : Nat → Ptr → α → Bool → Mem α (Ptr × Bool)
  | 0, _, _, _ => out_of_fuel
  | fuel + 1, node, value, allow_duplicates =>
    match node with
    | none => do
      let created ← new_node value
      pure (created, true)
    | some _ => do
      let c ← load node
      if key value < key c.data then do
        let r ← insert_node fuel c.left value allow_duplicates
        modify node (fun n => { n with left := r.1 })
        set_parent_if r.1 node
        insert_fixup node r.2
      else if key c.data < key value ∨ allow_duplicates = true then do
        let r ← insert_node fuel c.right value allow_duplicates
        modify node (fun n => { n with right := r.1 })
        set_parent_if r.1 node
        insert_fixup node r.2
      else pure (node, false)

end keyed

/-- `update_min_max_nodes()` on the tree object `t`. -/
def update_min_max_nodes (fuel : Nat) (t : TreeObj) : Mem α TreeObj := do
  let lo ← leftmost_node fuel t.root_
  let hi ← rightmost_node fuel t.root_
  pure { t with min_node_ := lo, max_node_ := hi }

/-- `erase_node(root, node, child)`. -/
def erase_node (root node child : Ptr) : Mem α Ptr :=
  if node = root then pure child
  else do
    let n ← load node
    let p ← load n.parent
    (if node = p.left then modify n.parent (fun c => { c with left := child })
      else modify n.parent (fun c => { c with right := child }))
    let n1 ← load node
    set_parent_if child n1.parent
    pure root

/-- Case 3 of `erase`: the node has two children. -/
def erase_two_children (fuel : Nat) (root_ node_to_remove : Ptr) : Mem α Ptr := do
  let n ← load node_to_remove
  let successor ← leftmost_node fuel n.right
  let s ← load successor
  let successor_child := s.right
  let root1 ← erase_node root_ successor successor_child
  let n1 ← load node_to_remove
  modify successor (fun c => { c with left := n1.left })
  let n2 ← load node_to_remove
  modify successor (fun c => { c with right := n2.right })
  let s1 ← load successor
  set_parent_if s1.left successor
  let s2 ← load successor
  set_parent_if s2.right successor
  let n3 ← load node_to_remove
  let root2 ← (match n3.parent with
    | some _ => do
      let p ← load n3.parent
      (if p.left = node_to_remove then modify n3.parent (fun c => { c with left := successor })
        else modify n3.parent (fun c => { c with right := successor }))
      pure root1
    | none => pure successor)
  let n4 ← load node_to_remove
  modify successor (fun c => { c with parent := n4.parent })
  pure root2

/-- `erase(pos)` on the tree object `t`. -/
def erase (fuel : Nat) (t : TreeObj) (pos : Ptr) : Mem α TreeObj :=
  if pos = t.end_node_ then throw (.runtime_error "Cannot erase end iterator")
  else do
    let n ← load pos
    let child := if n.left ≠ none then n.left else n.right
    let root1 ← (if n.left = none ∨ n.right = none then erase_node t.root_ pos child
      else erase_two_children fuel t.root_ pos)
    delete pos
    let root2 ← (match root1 with
      | none => pure none
      | some _ => do
        update_height root1
        balance root1)
    let t1 ← update_min_max_nodes fuel { t with root_ := root2 }
    pure { t1 with size_ := t1.size_ - 1 }

/-- `clear_tree(node)`. -/
def clear_tree : Nat → Ptr → Mem α Unit
  | 0, _ => out_of_fuel
  | fuel + 1, node =>
    match node with
    | none => pure ()
    | some _ => do
      let c ← load node
      clear_tree fuel c.left
      let c1 ← load node
      clear_tree fuel c1.right
      delete node

/-- `clear()`. -/
def clear (fuel : Nat) (t : TreeObj) : Mem α TreeObj := do
  clear_tree fuel t.root_
  pure { t with root_ := none, min_node_ := none, max_node_ := none, size_ := 0 }

/-- `copy_tree(other_node, parent)`; the member `root_` that it assigns for a
null `parent` is passed in and returned with the new node. -/
def copy_tree : Nat → Ptr → Ptr → Ptr → Mem α (Ptr × Ptr)
  | 0, _, _, _ => out_of_fuel
  | fuel + 1, other_node, parent, root_ =>
    match other_node with
    | none => pure (none, root_)
    | some _ => do
      let o ← load other_node
      let created ← new_node o.data
      modify created (fun c => { c with parent := parent })
      let root1 := if parent = none then created else root_
      let o1 ← load other_node
      let l ← copy_tree fuel o1.left created root1
      modify created (fun c => { c with left := l.1 })
      let o2 ← load other_node
      let r ← copy_tree fuel o2.right created l.2
      modify created (fun c => { c with right := r.1 })
      pure (created, r.2)

/-- The copy constructor `BinaryTree(const BinaryTree& other)`: the sentinel
is allocated first, `copy_tree` sets `root_`, then `balance`,
`update_min_max_nodes`, and the size. -/
def copy [Inhabited α] (fuel : Nat) (other : TreeObj) : Mem α TreeObj := do
  let sentinel ← new_node default
  let copied ← copy_tree fuel other.root_ none none
  let root1 ← balance copied.2
  let t ← update_min_max_nodes fuel
    { root_ := root1, min_node_ := none, max_node_ := none, end_node_ := sentinel, size_ := 0 }
  pure { t with size_ := other.size_ }

/-- The assignment `*it = d` (for a map `it->second = x`): `operator*` throws
on a null `node_`. -/
def write (pos : Ptr) (d : α) : Mem α Unit :=
  match pos with
  | none => throw (.runtime_error "Dereferencing end iterator")
  | some _ => modify pos (fun c => { c with data := d })

/-- The assignment `it->second = obj` of a map, for any payload: a part of the
payload is written, the payload becomes `f` of what it was (for a map `f`
replaces the second component); `operator->` throws on a null `node_`. -/
def assign (pos : Ptr) (f : α → α) : Mem α Unit :=
  match pos with
  | none => throw (.runtime_error "Dereferencing end iterator")
  | some _ => modify pos (fun c => { c with data := f c.data })

section keyed
variable [LinearOrder κ] (key : α → κ)

/-- `insert(value, allow_duplicates)` on the tree object `t`. -/
def insert (fuel : Nat) (t : TreeObj) (value : α) (allow_duplicates : Bool) :
    Mem α (TreeObj × Ptr × Bool) := do
  let r ← insert_node key fuel t.root_ value allow_duplicates
  let t1 : TreeObj := { t with root_ := r.1 }
  let t2 ← (if r.2 then do
      let t3 ← update_min_max_nodes fuel t1
      pure { t3 with size_ := t3.size_ + 1 }
    else pure t1)
  let inserted_node ← find_node key fuel t2.root_ (key value)
  pure (t2, inserted_node, r.2)

/-- `find(key)`. -/
def find (fuel : Nat) (t : TreeObj) (k : κ) : Mem α Ptr := do
  let node ← find_node key fuel t.root_ k
  match node with
  | none => pure t.end_node_
  | some _ => pure node

/-- The statement `m.at(key) = obj` of `s21_map.h`: `find`, `std::out_of_range`
for `end()`, else the assignment through `it->second`. -/
def at_assign (fuel : Nat) (t : TreeObj) (k : κ) (f : α → α) : Mem α Unit := do
  let it ← find key fuel t k
  if it = t.end_node_ then throw (.out_of_range "Key not found")
  else assign it f

/-- The statement `m[key] = obj` of `s21_map.h`: `insert({key, T()})`, then the
assignment through `it->second`; `value` is the pair inserted. -/
def index_assign (fuel : Nat) (t : TreeObj) (value : α) (f : α → α) : Mem α TreeObj := do
  let r ← insert key fuel t value false
  assign r.2.1 f
  pure r.1

/-- `insert_or_assign(key, obj)` of `s21_map.h`: `insert` of the pair `value`,
and where nothing was inserted the assignment through `result.first->second`. -/
def insert_or_assign (fuel : Nat) (t : TreeObj) (value : α) (f : α → α) :
    Mem α (TreeObj × Ptr × Bool) := do
  let result ← insert key fuel t value false
  if result.2.2 = false then do
    assign result.2.1 f
    pure result
  else pure result

end keyed

end Mem

/-- A modification of a container by its client: `insert`, `erase(pos)`,
`erase(find(k))`, `*pos = d`, and of a map `at(k) = …`, `m[k] = …` and
`insert_or_assign`, and `clear()`. -/
inductive Mod (α κ : Type) where
  | insert (value : α) (allow_duplicates : Bool)
  | erase (pos : Ptr)
  | erase_key (k : κ)
  | write (pos : Ptr) (d : α)
  | at_assign (k : κ) (f : α → α)
  | index_assign (value : α) (f : α → α)
  | insert_or_assign (value : α) (f : α → α)
  | clear

namespace Mem

section keyed
variable [LinearOrder κ] (key : α → κ)

/-- One modification of the tree object `t`; `erase_key k` is `erase(find(k))`. -/
def apply (fuel : Nat) (t : TreeObj) : Mod α κ → Mem α TreeObj
  | .insert value allow_duplicates => do
    let r ← insert key fuel t value allow_duplicates
    pure r.1
  | .erase pos => erase fuel t pos
  | .erase_key k => do
    let pos ← find key fuel t k
    erase fuel t pos
  | .write pos d => do
    write pos d
    pure t
  | .at_assign k f => do
    at_assign key fuel t k f
    pure t
  | .index_assign value f => index_assign key fuel t value f
  | .insert_or_assign value f => do
    let r ← insert_or_assign key fuel t value f
    pure r.1
  | .clear => clear fuel t

/-- A sequence of modifications of one tree object, stopping at the first that
does not return. -/
def run_mods (fuel : Nat) : TreeObj → List (Mod α κ) → Mem α TreeObj
  | t, [] => pure t
  | t, md :: mods => do
    let t1 ← apply key fuel t md
    run_mods fuel t1 mods

end keyed

end Mem

/-- The memory an outcome leaves, when the operation returned or threw. -/
def Res.state? {σ ρ : Type} : Res σ ρ → Option σ
  | .ok s _ => some s
  | .throws s _ => some s
  | .undefined => none
  | .out_of_fuel => none

/-- The tree `n` of the first embedding lies in the memory `h`: every node of
it is the live node at its address, with these members. -/
def Stored (h : TreeHeap α) : Node α → Prop
  | .null => True
  | .mk a d l r p ht =>
    h.cell a = some ⟨d, l.addr?, r.addr?, p, ht⟩ ∧ Stored h l ∧ Stored h r

/-- The data members of the tree `t` of the first embedding. -/
def BinaryTree.obj (t : BinaryTree α) : TreeObj :=
  { root_ := t.root_.addr?, min_node_ := t.min_node_, max_node_ := t.max_node_,
    end_node_ := t.end, size_ := t.size_ }

/-! ### Separation (a device of the proofs)

The addresses below a bound `L` are protected; a pointer is outside when it
is null or at least `L`. -/

/-- The pointer does not point below `L`. -/
def PtrOut (L : Nat) (p : Ptr) : Prop := ∀ a, p = some a → L ≤ a

/-- No link of the node points below `L`. -/
def CellOut (L : Nat) (c : TreeCell α) : Prop :=
  PtrOut L c.left ∧ PtrOut L c.right ∧ PtrOut L c.parent

/-- No member of the tree object points below `L`. -/
def ObjOut (L : Nat) (t : TreeObj) : Prop :=
  PtrOut L t.root_ ∧ PtrOut L t.min_node_ ∧ PtrOut L t.max_node_ ∧ PtrOut L t.end_node_

/-- The memory reaches up to `L` at least, and no node from `L` on has a link
that points below `L`. -/
def Sep (L : Nat) (h : TreeHeap α) : Prop :=
  L ≤ h.cells.length ∧ ∀ a c, L ≤ a → h.cell a = some c → CellOut L c

/-- The memory below `L` is the same in `h1` as in `h`. -/
def Kept (L : Nat) (h h1 : TreeHeap α) : Prop :=
  ∀ a, a < L → h1.cell a = h.cell a

/-- Run on a memory separated at `L`, the computation leaves one, keeps the
memory below `L` (also when it throws), and returns a value satisfying `Q`. -/
def Safe {β : Type} (L : Nat) (m : Mem α β) (Q : β → Prop) : Prop :=
  ∀ h, Sep L h →
    match m.run h with
    | .ok h1 r => Sep L h1 ∧ Kept L h h1 ∧ Q r
    | .throws h1 _ => Sep L h1 ∧ Kept L h h1
    | .undefined => True
    | .out_of_fuel => True

/-- The positions a modification is given do not point below `L`. -/
def Mod.Local (L : Nat) : Mod α κ → Prop
  | .insert _ _ => True
  | .erase pos => PtrOut L pos
  | .erase_key _ => True
  | .write pos _ => PtrOut L pos
  | .at_assign _ _ => True
  | .index_assign _ _ => True
  | .insert_or_assign _ _ => True
  | .clear => True

/-- The constructor `BinaryTree()` in the shared memory. -/
def Mem.construct [Inhabited α] : Mem α TreeObj := do
  let sentinel ← Mem.new_node default
  pure { root_ := none, min_node_ := none, max_node_ := none, end_node_ := sentinel, size_ := 0 }

/-- The set after `insert(1); insert(2); insert(3)` (`s21::set<int> s1 = {1, 2, 3}`). -/
def copy_demo : BinaryTree Nat :=
  { root_ := .mk 2 2 (.mk 1 1 .null .null (some 2) 1) (.mk 3 3 .null .null (some 2) 1) none 2,
    min_node_ := some 1, max_node_ := some 3,
    end_node_ := .mk 0 0 .null .null none 1, size_ := 3, fresh := 4 }

/-- The memory in which `copy_demo` lies, alone: its sentinel at address 0 and
its nodes at 1, 2, 3. -/
def copy_demo_heap : TreeHeap Nat :=
  { cells := [some ⟨0, none, none, none, 1⟩, some ⟨1, none, none, some 2, 1⟩,
      some ⟨2, some 1, some 3, none, 2⟩, some ⟨3, none, none, some 2, 1⟩] }

/-- The memory after `s21::set<int> s2 = s1;` on `copy_demo_heap`: the copy's
sentinel at address 4 and its nodes at 5, 6, 7, every one with `height` 1. -/
def copy_demo_copied : TreeHeap Nat :=
  { cells := [some ⟨0, none, none, none, 1⟩, some ⟨1, none, none, some 2, 1⟩,
      some ⟨2, some 1, some 3, none, 2⟩, some ⟨3, none, none, some 2, 1⟩,
      some ⟨0, none, none, none, 1⟩, some ⟨2, some 6, some 7, none, 1⟩,
      some ⟨1, none, none, some 5, 1⟩, some ⟨3, none, none, some 5, 1⟩] }

/-- The memory after `s2.insert(4); s2.erase(s2.find(1));` on the copy: the
copy's node that held 1 is deleted and its tree is rotated; the addresses 0 to
3 are as in `copy_demo_heap`. -/
def copy_demo_modified : TreeHeap Nat :=
  { cells := [some ⟨0, none, none, none, 1⟩, some ⟨1, none, none, some 2, 1⟩,
      some ⟨2, some 1, some 3, none, 2⟩, some ⟨3, none, none, some 2, 1⟩,
      some ⟨0, none, none, none, 1⟩, some ⟨2, none, none, some 7, 1⟩, none,
      some ⟨3, some 5, some 8, none, 2⟩, some ⟨4, none, none, some 7, 1⟩] }

/-- The memory after `insert(1); insert(2)` on a new set in empty memory. -/
def copy_demo_two : TreeHeap Nat :=
  { cells := [some ⟨0, none, none, none, 1⟩, some ⟨1, none, some 2, none, 2⟩,
      some ⟨2, none, none, some 1, 1⟩] }

/-- The memory in which `map_demo` (`{{1, 10}, {2, 20}}`) lies, alone. -/
def copy_map_heap : TreeHeap (Nat × Nat) :=
  { cells := [some ⟨(0, 0), none, none, none, 1⟩, some ⟨(1, 10), none, some 2, none, 2⟩,
      some ⟨(2, 20), none, none, some 1, 1⟩] }

/-- The memory after `s21::map<int, int> m2 = m1;` on `copy_map_heap`. -/
def copy_map_copied : TreeHeap (Nat × Nat) :=
  { cells := [some ⟨(0, 0), none, none, none, 1⟩, some ⟨(1, 10), none, some 2, none, 2⟩,
      some ⟨(2, 20), none, none, some 1, 1⟩, some ⟨(0, 0), none, none, none, 1⟩,
      some ⟨(1, 10), none, some 5, none, 1⟩, some ⟨(2, 20), none, none, some 4, 1⟩] }

/-- The memory after `m2.at(1) = 11;` on the copy. -/
def copy_map_assigned : TreeHeap (Nat × Nat) :=
  { cells := [some ⟨(0, 0), none, none, none, 1⟩, some ⟨(1, 10), none, some 2, none, 2⟩,
      some ⟨(2, 20), none, none, some 1, 1⟩, some ⟨(0, 0), none, none, none, 1⟩,
      some ⟨(1, 11), none, some 5, none, 1⟩, some ⟨(2, 20), none, none, some 4, 1⟩] }

/-! # Theorems -/

/-! ## Basic facts -/

@[simp] theorem get_height_null : get_height (.null : Node α) = 0 := rfl

@[simp] theorem get_height_mk (a : Nat) (d : α) (l r : Node α) (p : Ptr) (h : Int) :
    get_height (.mk a d l r p h) = h := rfl

@[simp] theorem get_balance_factor_mk (a : Nat) (d : α) (l r : Node α) (p : Ptr) (h : Int) :
    get_balance_factor (.mk a d l r p h) = get_height l - get_height r := rfl

theorem addrs_eq_map (t : Node α) : t.addrs = t.entries.map Prod.fst := by
  induction t with
  | null => rfl
  | mk a d l r p h ihl ihr => simp [Node.addrs, Node.entries, ihl, ihr]

theorem toList_eq_map (t : Node α) : t.toList = t.entries.map Prod.snd := by
  induction t with
  | null => rfl
  | mk a d l r p h ihl ihr => simp [Node.toList, Node.entries, ihl, ihr]

@[simp] theorem entries_setParent (n : Node α) (p : Ptr) :
    (n.setParent p).entries = n.entries := by
  cases n <;> rfl

@[simp] theorem entries_update_height (n : Node α) :
    (update_height n).entries = n.entries := by
  cases n <;> rfl

@[simp] theorem addr_setParent (n : Node α) (p : Ptr) :
    (n.setParent p).addr? = n.addr? := by
  cases n <;> rfl

@[simp] theorem get_height_setParent (n : Node α) (p : Ptr) :
    get_height (n.setParent p) = get_height n := by
  cases n <;> rfl

@[simp] theorem get_balance_factor_setParent (n : Node α) (p : Ptr) :
    get_balance_factor (n.setParent p) = get_balance_factor n := by
  cases n <;> rfl

theorem HeightsPos.ofSetParent {n : Node α} (h : HeightsPos n) (p : Ptr) :
    HeightsPos (n.setParent p) := by
  cases n with
  | null => trivial
  | mk a d l r q hh => exact h

theorem ParentOK.children {n : Node α} {p : Ptr} (h : ParentOK n p) : ChildrenOK n := by
  cases n with
  | null => trivial
  | mk a d l r q hh => exact h.2

theorem ChildrenOK.parentOK_setParent {n : Node α} (h : ChildrenOK n) (p : Ptr) :
    ParentOK (n.setParent p) p := by
  cases n with
  | null => trivial
  | mk a d l r q hh => exact ⟨rfl, h⟩

theorem ParentOK.setParent_eq {n : Node α} {p : Ptr} (h : ParentOK n p) :
    n.setParent p = n := by
  cases n with
  | null => rfl
  | mk a d l r q hh => obtain ⟨rfl, _⟩ := h; rfl

theorem get_height_nonneg {n : Node α} (h : HeightsPos n) : 0 ≤ get_height n := by
  cases n with
  | null => simp [get_height]
  | mk a d l r q hh => have := h.1; simp only [get_height]; omega

theorem HeightsPos.update_height {n : Node α} (h : HeightsPos n) :
    HeightsPos (update_height n) := by
  cases n with
  | null => trivial
  | mk a d l r q hh =>
    refine ⟨?_, h.2.1, h.2.2⟩
    have h1 := get_height_nonneg h.2.1
    have h2 := get_height_nonneg h.2.2
    have := le_max_left (get_height l) (get_height r)
    omega

/-! ## Rotations and `balance` -/

theorem rotate_right_entries {n n1 : Node α} (h : rotate_right n = some n1) :
    n1.entries = n.entries := by
  cases n with
  | null => simp [rotate_right] at h
  | mk a d l r p hh =>
    cases l with
    | null => simp [rotate_right] at h
    | mk la ld ll lr lp lh =>
      simp only [rotate_right, Option.some.injEq] at h
      subst h
      simp [update_height, Node.entries]

theorem rotate_left_entries {n n1 : Node α} (h : rotate_left n = some n1) :
    n1.entries = n.entries := by
  cases n with
  | null => simp [rotate_left] at h
  | mk a d l r p hh =>
    cases r with
    | null => simp [rotate_left] at h
    | mk ra rd rl rr rp rh =>
      simp only [rotate_left, Option.some.injEq] at h
      subst h
      simp [update_height, Node.entries]

theorem rotate_right_parent {n n1 : Node α} (h : rotate_right n = some n1) :
    n1.parent? = n.parent? ∧ n1 ≠ .null := by
  cases n with
  | null => simp [rotate_right] at h
  | mk a d l r p hh =>
    cases l with
    | null => simp [rotate_right] at h
    | mk la ld ll lr lp lh =>
      simp only [rotate_right, Option.some.injEq] at h
      subst h
      simp [update_height, Node.parent?]

theorem rotate_left_parent {n n1 : Node α} (h : rotate_left n = some n1) :
    n1.parent? = n.parent? ∧ n1 ≠ .null := by
  cases n with
  | null => simp [rotate_left] at h
  | mk a d l r p hh =>
    cases r with
    | null => simp [rotate_left] at h
    | mk ra rd rl rr rp rh =>
      simp only [rotate_left, Option.some.injEq] at h
      subst h
      simp [update_height, Node.parent?]

theorem rotate_right_children {n n1 : Node α} (h : rotate_right n = some n1)
    (hc : ChildrenOK n) : ChildrenOK n1 := by
  cases n with
  | null => simp [rotate_right] at h
  | mk a d l r p hh =>
    cases l with
    | null => simp [rotate_right] at h
    | mk la ld ll lr lp lh =>
      simp only [rotate_right, Option.some.injEq] at h
      subst h
      obtain ⟨⟨_, hll, hlr⟩, hr⟩ := hc
      exact ⟨hll, rfl, hlr.children.parentOK_setParent _, hr⟩

theorem rotate_left_children {n n1 : Node α} (h : rotate_left n = some n1)
    (hc : ChildrenOK n) : ChildrenOK n1 := by
  cases n with
  | null => simp [rotate_left] at h
  | mk a d l r p hh =>
    cases r with
    | null => simp [rotate_left] at h
    | mk ra rd rl rr rp rh =>
      simp only [rotate_left, Option.some.injEq] at h
      subst h
      obtain ⟨hl, ⟨_, hrl, hrr⟩⟩ := hc
      exact ⟨⟨rfl, hl, hrl.children.parentOK_setParent _⟩, hrr⟩

theorem rotate_right_heights {n n1 : Node α} (h : rotate_right n = some n1)
    (hp : HeightsPos n) : HeightsPos n1 := by
  cases n with
  | null => simp [rotate_right] at h
  | mk a d l r p hh =>
    cases l with
    | null => simp [rotate_right] at h
    | mk la ld ll lr lp lh =>
      simp only [rotate_right, Option.some.injEq] at h
      subst h
      obtain ⟨h1, ⟨h2, hll, hlr⟩, hr⟩ := hp
      have hold : HeightsPos (.mk a d (lr.setParent (some a)) r (some la) hh) :=
        ⟨h1, hlr.ofSetParent _, hr⟩
      have hnew : HeightsPos (.mk la ld ll
          (update_height (.mk a d (lr.setParent (some a)) r (some la) hh)) p lh) :=
        ⟨h2, hll, hold.update_height⟩
      exact hnew.update_height

theorem rotate_left_heights {n n1 : Node α} (h : rotate_left n = some n1)
    (hp : HeightsPos n) : HeightsPos n1 := by
  cases n with
  | null => simp [rotate_left] at h
  | mk a d l r p hh =>
    cases r with
    | null => simp [rotate_left] at h
    | mk ra rd rl rr rp rh =>
      simp only [rotate_left, Option.some.injEq] at h
      subst h
      obtain ⟨h1, hl, ⟨h2, hrl, hrr⟩⟩ := hp
      have hold : HeightsPos (.mk a d l (rl.setParent (some a)) (some ra) hh) :=
        ⟨h1, hl, hrl.ofSetParent _⟩
      have hnew : HeightsPos (.mk ra rd
          (update_height (.mk a d l (rl.setParent (some a)) (some ra) hh)) rr p rh) :=
        ⟨h2, hold.update_height, hrr⟩
      exact hnew.update_height

theorem ParentOK.of_children {n : Node α} {p : Ptr} (hc : ChildrenOK n)
    (hp : n.parent? = p) : ParentOK n p := by
  cases n with
  | null => trivial
  | mk a d l r q hh => exact ⟨hp, hc⟩

theorem ParentOK.parent_eq {n : Node α} {p : Ptr} (h : ParentOK n p) (hn : n ≠ .null) :
    n.parent? = p := by
  cases n with
  | null => exact absurd rfl hn
  | mk a d l r q hh => exact h.1

/-- The shapes `balance` can produce. -/
theorem balance_cases {n n1 : Node α} (h : balance n = some n1) :
    n1 = n ∨ rotate_right n = some n1 ∨ rotate_left n = some n1 ∨
    (∃ a d l r p hh l1, n = .mk a d l r p hh ∧ rotate_left l = some l1 ∧
        rotate_right (.mk a d l1 r p hh) = some n1) ∨
    (∃ a d l r p hh r1, n = .mk a d l r p hh ∧ rotate_right r = some r1 ∧
        rotate_left (.mk a d l r1 p hh) = some n1) := by
  unfold balance at h
  simp only at h
  split_ifs at h with h1 h2
  · cases n with
    | null => simp at h
    | mk a d l r p hh =>
      simp only at h
      split_ifs at h with h3
      · cases hl : rotate_left l with
        | none => simp [hl] at h
        | some l1 =>
          simp only [hl] at h
          exact Or.inr (Or.inr (Or.inr (Or.inl ⟨a, d, l, r, p, hh, l1, rfl, hl, h⟩)))
      · exact Or.inr (Or.inl h)
  · cases n with
    | null => simp at h
    | mk a d l r p hh =>
      simp only at h
      split_ifs at h with h3
      · cases hr : rotate_right r with
        | none => simp [hr] at h
        | some r1 =>
          simp only [hr] at h
          exact Or.inr (Or.inr (Or.inr (Or.inr ⟨a, d, l, r, p, hh, r1, rfl, hr, h⟩)))
      · exact Or.inr (Or.inr (Or.inl h))
  · simp only [Option.some.injEq] at h
    exact Or.inl h.symm

theorem balance_entries {n n1 : Node α} (h : balance n = some n1) :
    n1.entries = n.entries := by
  rcases balance_cases h with rfl | h | h | ⟨a, d, l, r, p, hh, l1, rfl, hl, h⟩ |
      ⟨a, d, l, r, p, hh, r1, rfl, hr, h⟩
  · rfl
  · exact rotate_right_entries h
  · exact rotate_left_entries h
  · rw [rotate_right_entries h]; simp [Node.entries, rotate_left_entries hl]
  · rw [rotate_left_entries h]; simp [Node.entries, rotate_right_entries hr]

theorem balance_parent {n n1 : Node α} (h : balance n = some n1) :
    n1.parent? = n.parent? := by
  rcases balance_cases h with rfl | h | h | ⟨a, d, l, r, p, hh, l1, rfl, hl, h⟩ |
      ⟨a, d, l, r, p, hh, r1, rfl, hr, h⟩
  · rfl
  · exact (rotate_right_parent h).1
  · exact (rotate_left_parent h).1
  · exact (rotate_right_parent h).1
  · exact (rotate_left_parent h).1

theorem balance_ne_null {n n1 : Node α} (h : balance n = some n1) (hn : n ≠ .null) :
    n1 ≠ .null := by
  rcases balance_cases h with rfl | h | h | ⟨a, d, l, r, p, hh, l1, rfl, hl, h⟩ |
      ⟨a, d, l, r, p, hh, r1, rfl, hr, h⟩
  · exact hn
  · exact (rotate_right_parent h).2
  · exact (rotate_left_parent h).2
  · exact (rotate_right_parent h).2
  · exact (rotate_left_parent h).2

theorem balance_children {n n1 : Node α} (h : balance n = some n1) (hc : ChildrenOK n) :
    ChildrenOK n1 := by
  rcases balance_cases h with rfl | h | h | ⟨a, d, l, r, p, hh, l1, rfl, hl, h⟩ |
      ⟨a, d, l, r, p, hh, r1, rfl, hr, h⟩
  · exact hc
  · exact rotate_right_children h hc
  · exact rotate_left_children h hc
  · refine rotate_right_children h ⟨?_, hc.2⟩
    have hne : l ≠ .null := by rintro rfl; simp [rotate_left] at hl
    exact ParentOK.of_children (rotate_left_children hl hc.1.children)
      ((rotate_left_parent hl).1.trans (hc.1.parent_eq hne))
  · refine rotate_left_children h ⟨hc.1, ?_⟩
    have hne : r ≠ .null := by rintro rfl; simp [rotate_right] at hr
    exact ParentOK.of_children (rotate_right_children hr hc.2.children)
      ((rotate_right_parent hr).1.trans (hc.2.parent_eq hne))

theorem balance_heights {n n1 : Node α} (h : balance n = some n1) (hp : HeightsPos n) :
    HeightsPos n1 := by
  rcases balance_cases h with rfl | h | h | ⟨a, d, l, r, p, hh, l1, rfl, hl, h⟩ |
      ⟨a, d, l, r, p, hh, r1, rfl, hr, h⟩
  · exact hp
  · exact rotate_right_heights h hp
  · exact rotate_left_heights h hp
  · exact rotate_right_heights h ⟨hp.1, rotate_left_heights hl hp.2.1, hp.2.2⟩
  · exact rotate_left_heights h ⟨hp.1, hp.2.1, rotate_right_heights hr hp.2.2⟩

theorem eq_null_of_get_height_le {n : Node α} (hp : HeightsPos n) (h : get_height n ≤ 0) :
    n = .null := by
  cases n with
  | null => rfl
  | mk a d l r q hh => have := hp.1; simp only [get_height] at h; omega

theorem rotate_right_isSome (a : Nat) (d : α) {l : Node α} (r : Node α) (p : Ptr) (hh : Int)
    (hl : l ≠ .null) : ∃ n1, rotate_right (.mk a d l r p hh) = some n1 := by
  cases l with
  | null => exact absurd rfl hl
  | mk la ld ll lr lp lh => exact ⟨_, rfl⟩

theorem rotate_left_isSome (a : Nat) (d : α) (l : Node α) {r : Node α} (p : Ptr) (hh : Int)
    (hr : r ≠ .null) : ∃ n1, rotate_left (.mk a d l r p hh) = some n1 := by
  cases r with
  | null => exact absurd rfl hr
  | mk ra rd rl rr rp rh => exact ⟨_, rfl⟩

/-- With cached heights at least 1, `balance` never rotates around a missing
child: it always returns. -/
theorem balance_total {n : Node α} (hp : HeightsPos n) : ∃ n1, balance n = some n1 := by
  unfold balance
  simp only
  split_ifs with h1 h2
  · cases n with
    | null => simp [get_balance_factor] at h1
    | mk a d l r p hh =>
      simp only [get_balance_factor_mk] at h1
      have hr0 := get_height_nonneg hp.2.2
      have hl : l ≠ .null := by
        rintro rfl; simp only [get_height_null] at h1; omega
      simp only
      split_ifs with h3
      · cases l with
        | null => exact absurd rfl hl
        | mk la ld ll lr lp lh =>
          simp only [get_balance_factor_mk] at h3
          have hll0 := get_height_nonneg hp.2.1.2.1
          have hlr : lr ≠ .null := by
            rintro rfl; simp only [get_height_null] at h3; omega
          obtain ⟨l1, hl1⟩ := rotate_left_isSome la ld ll lp lh hlr
          rw [hl1]
          exact rotate_right_isSome a d r p hh (rotate_left_parent hl1).2
      · exact rotate_right_isSome a d r p hh hl
  · cases n with
    | null => simp [get_balance_factor] at h2
    | mk a d l r p hh =>
      simp only [get_balance_factor_mk] at h2
      have hl0 := get_height_nonneg hp.2.1
      have hr : r ≠ .null := by
        rintro rfl; simp only [get_height_null] at h2; omega
      simp only
      split_ifs with h3
      · cases r with
        | null => exact absurd rfl hr
        | mk ra rd rl rr rp rh =>
          simp only [get_balance_factor_mk] at h3
          have hrr0 := get_height_nonneg hp.2.2.2.2
          have hrl : rl ≠ .null := by
            rintro rfl; simp only [get_height_null] at h3; omega
          obtain ⟨r1, hr1⟩ := rotate_right_isSome ra rd rr rp rh hrl
          rw [hr1]
          exact rotate_left_isSome a d l p hh (rotate_right_parent hr1).2
      · exact rotate_left_isSome a d l p hh hr
  · exact ⟨n, rfl⟩

/-! ## Ordering -/

section keyed
variable [LinearOrder κ] {key : α → κ}

theorem KeysSorted.left {a : Nat} {d : α} {l r : Node α} {p : Ptr} {h : Int}
    (hs : KeysSorted key (.mk a d l r p h)) : KeysSorted key l := by
  unfold KeysSorted at hs ⊢
  simp only [Node.entries, List.pairwise_append] at hs
  exact hs.1

theorem KeysSorted.right {a : Nat} {d : α} {l r : Node α} {p : Ptr} {h : Int}
    (hs : KeysSorted key (.mk a d l r p h)) : KeysSorted key r := by
  unfold KeysSorted at hs ⊢
  simp only [Node.entries, List.pairwise_append, List.pairwise_cons] at hs
  exact hs.2.1.2

theorem KeysSorted.left_le {a : Nat} {d : α} {l r : Node α} {p : Ptr} {h : Int}
    (hs : KeysSorted key (.mk a d l r p h)) : ∀ e ∈ l.entries, key e.2 ≤ key d := by
  unfold KeysSorted at hs
  simp only [Node.entries, List.pairwise_append, List.pairwise_cons] at hs
  intro e he
  exact hs.2.2 e he (a, d) (List.mem_cons_self _ _)

theorem KeysSorted.le_right {a : Nat} {d : α} {l r : Node α} {p : Ptr} {h : Int}
    (hs : KeysSorted key (.mk a d l r p h)) : ∀ e ∈ r.entries, key d ≤ key e.2 := by
  unfold KeysSorted at hs
  simp only [Node.entries, List.pairwise_append, List.pairwise_cons] at hs
  exact hs.2.1.1

theorem KeysSorted.of_entries_eq {t t1 : Node α} (h : t1.entries = t.entries)
    (hs : KeysSorted key t) : KeysSorted key t1 := by
  unfold KeysSorted at hs ⊢
  rw [h]; exact hs

/-- Placing a new entry between a prefix of keys `≤` and a suffix of keys `>`
keeps the in-order keys sorted. -/
theorem pairwise_insert_mid {pre post : List (Nat × α)} {x : Nat × α}
    (hs : (pre ++ post).Pairwise (fun e f => key e.2 ≤ key f.2))
    (hpre : ∀ e ∈ pre, key e.2 ≤ key x.2) (hpost : ∀ e ∈ post, key x.2 < key e.2) :
    (pre ++ x :: post).Pairwise (fun e f => key e.2 ≤ key f.2) := by
  rw [List.pairwise_append] at hs ⊢
  refine ⟨hs.1, ?_, ?_⟩
  · rw [List.pairwise_cons]
    exact ⟨fun e he => le_of_lt (hpost e he), hs.2.1⟩
  · intro e he f hf
    rcases List.mem_cons.1 hf with rfl | hf
    · exact hpre e he
    · exact hs.2.2 e he f hf

/-! ## `find_node` -/

theorem find_node_null_iff {t : Node α} (hs : KeysSorted key t) (k : κ) :
    find_node key t k = .null ↔ ∀ e ∈ t.entries, key e.2 ≠ k := by
  induction t with
  | null => simp [find_node, Node.entries]
  | mk a d l r p h ihl ihr =>
    have hl := hs.left_le
    have hr := hs.le_right
    simp only [find_node]
    split_ifs with h1 h2
    · rw [ihl hs.left]
      constructor
      · intro hx e he
        simp only [Node.entries, List.mem_append, List.mem_cons] at he
        rcases he with he | rfl | he
        · exact hx e he
        · exact ne_of_gt h1
        · exact ne_of_gt (lt_of_lt_of_le h1 (hr e he))
      · intro hx e he
        exact hx e (by simp [Node.entries, he])
    · rw [ihr hs.right]
      constructor
      · intro hx e he
        simp only [Node.entries, List.mem_append, List.mem_cons] at he
        rcases he with he | rfl | he
        · exact ne_of_lt (lt_of_le_of_lt (hl e he) h2)
        · exact ne_of_lt h2
        · exact hx e he
      · intro hx e he
        exact hx e (by simp [Node.entries, he])
    · constructor
      · intro hx; exact absurd hx (by simp)
      · intro hx
        exact absurd (le_antisymm (not_lt.1 h1) (not_lt.1 h2)) (hx (a, d) (by simp [Node.entries]))

theorem find_node_found {t : Node α} {k : κ} {a : Nat} {d : α} {l r : Node α} {p : Ptr}
    {h : Int} (hf : find_node key t k = .mk a d l r p h) :
    key d = k ∧ (a, d) ∈ t.entries := by
  induction t with
  | null => simp [find_node] at hf
  | mk a0 d0 l0 r0 p0 h0 ihl ihr =>
    simp only [find_node] at hf
    split_ifs at hf with h1 h2
    · obtain ⟨hk, hm⟩ := ihl hf
      exact ⟨hk, by simp [Node.entries, hm]⟩
    · obtain ⟨hk, hm⟩ := ihr hf
      exact ⟨hk, by simp [Node.entries, hm]⟩
    · injection hf with e1 e2
      subst e1 e2
      exact ⟨le_antisymm (not_lt.1 h1) (not_lt.1 h2), by simp [Node.entries]⟩

end keyed

/-! ## Reading and writing through addresses -/

theorem deref_none {t : Node α} {a : Nat} (h : a ∉ t.addrs) : t.deref a = none := by
  induction t with
  | null => rfl
  | mk b d l r p hh ihl ihr =>
    simp only [Node.addrs, List.mem_append, List.mem_cons, not_or] at h
    simp only [Node.deref, if_neg (Ne.symm h.2.1), ihl h.1, ihr h.2.2]

theorem deref_some {t n : Node α} {a : Nat} (h : t.deref a = some n) :
    n.addr? = some a ∧ a ∈ t.addrs := by
  induction t with
  | null => simp [Node.deref] at h
  | mk b d l r p hh ihl ihr =>
    simp only [Node.deref] at h
    split_ifs at h with h1
    · simp only [Option.some.injEq] at h
      subst h h1
      simp [Node.addr?, Node.addrs]
    · cases hl : l.deref a with
      | some n1 =>
        simp only [hl, Option.some.injEq] at h
        subst h
        obtain ⟨h2, h3⟩ := ihl hl
        exact ⟨h2, by simp [Node.addrs, h3]⟩
      | none =>
        simp only [hl] at h
        obtain ⟨h2, h3⟩ := ihr h
        exact ⟨h2, by simp [Node.addrs, h3]⟩

theorem deref_isSome {t : Node α} {a : Nat} (h : a ∈ t.addrs) : ∃ n, t.deref a = some n := by
  induction t with
  | null => simp [Node.addrs] at h
  | mk b d l r p hh ihl ihr =>
    simp only [Node.deref]
    split_ifs with h1
    · exact ⟨_, rfl⟩
    · simp only [Node.addrs, List.mem_append, List.mem_cons] at h
      rcases h with h | h | h
      · obtain ⟨n, hn⟩ := ihl h
        exact ⟨n, by simp [hn]⟩
      · exact absurd h.symm h1
      · cases hl : l.deref a with
        | some n1 => exact ⟨n1, rfl⟩
        | none => exact ihr h

/-! ## `insert_node` -/

theorem insert_fixup_spec {n : Node α} (hn : n ≠ .null) (hh : HeightsPos n)
    (hc : ChildrenOK n) (b : Bool) :
    ∃ n1, insert_fixup n b = some (n1, b) ∧ n1.entries = n.entries ∧
      n1.parent? = n.parent? ∧ ChildrenOK n1 ∧ HeightsPos n1 ∧ n1 ≠ .null ∧
      (b = false → n1 = n) := by
  cases b with
  | false => exact ⟨n, by simp [insert_fixup], rfl, rfl, hc, hh, hn, fun _ => rfl⟩
  | true =>
    obtain ⟨n1, hb⟩ := balance_total hh.update_height
    have hune : update_height n ≠ .null := by
      cases n with
      | null => exact absurd rfl hn
      | mk a d l r p h => simp [update_height]
    have huc : ChildrenOK (update_height n) := by
      cases n with
      | null => exact absurd rfl hn
      | mk a d l r p h => exact hc
    have hup : (update_height n).parent? = n.parent? := by
      cases n <;> rfl
    have hc1 := balance_children hb huc
    have hne1 := balance_ne_null hb hune
    have hent := (balance_entries hb).trans (entries_update_height n)
    have hpar := (balance_parent hb).trans hup
    have hh1 := balance_heights hb hh.update_height
    cases n1 with
    | null => exact absurd rfl hne1
    | mk a2 d2 l2 r2 p2 h2 =>
      refine ⟨.mk a2 d2 l2 r2 p2 h2, ?_, hent, hpar, hc1, hh1, hne1, fun h => by cases h⟩
      simp only [insert_fixup, if_true, hb, hc1.1.setParent_eq, hc1.2.setParent_eq]

section keyed
variable [LinearOrder κ] {key : α → κ}

theorem insert_node_spec (fresh : Nat) (v : α) (dup : Bool) {t : Node α}
    (hh : HeightsPos t) (hc : ChildrenOK t) (hs : KeysSorted key t) :
    ∃ t1 b, insert_node key fresh v dup t = some (t1, b) ∧
      HeightsPos t1 ∧ ChildrenOK t1 ∧ t1 ≠ .null ∧
      (t ≠ .null → t1.parent? = t.parent?) ∧ (t = .null → t1.parent? = none) ∧
      (b = false → t1 = t ∧ dup = false ∧ ∃ e ∈ t.entries, key e.2 = key v) ∧
      (b = true → (dup = true ∨ ∀ e ∈ t.entries, key e.2 ≠ key v) ∧
        ∃ pre post, t.entries = pre ++ post ∧ t1.entries = pre ++ (fresh, v) :: post ∧
          (∀ e ∈ pre, key e.2 ≤ key v) ∧ (∀ e ∈ post, key v < key e.2)) := by
  induction t with
  | null =>
    refine ⟨.mk fresh v .null .null none 1, true, rfl, ?_, ?_, ?_, ?_, ?_, ?_, ?_⟩
    · exact ⟨le_refl _, trivial, trivial⟩
    · exact ⟨trivial, trivial⟩
    · simp
    · intro h; exact absurd rfl h
    · intro _; rfl
    · intro h; cases h
    · intro _
      exact ⟨Or.inr (by simp [Node.entries]), [], [], rfl, rfl, by simp, by simp⟩
  | mk a d l r p h ihl ihr =>
    obtain ⟨hpl, hpr⟩ := hc
    obtain ⟨h1, hhl, hhr⟩ := hh
    have hle := hs.left_le
    have hre := hs.le_right
    have hnn : (Node.mk a d l r p h) ≠ .null := by simp
    generalize hT : Node.mk a d l r p h = T at hnn hs ⊢
    have hTe : T.entries = l.entries ++ (a, d) :: r.entries := by rw [← hT]; rfl
    have hTp : T.parent? = p := by rw [← hT]; rfl
    rw [← hT] at hs
    have hins : insert_node key fresh v dup T =
        insert_node key fresh v dup (.mk a d l r p h) := by rw [hT]
    rw [hins]
    simp only [insert_node]
    split_ifs with c1 c2
    · obtain ⟨l1, b, hl1, hhl1, hcl1, -, -, -, hfalse, htrue⟩ := ihl hhl hpl.children hs.left
      simp only [hl1]
      obtain ⟨n1, hfix, hent, hpar1, hc1, hh1, hne1, hf1⟩ :=
        insert_fixup_spec (n := .mk a d (l1.setParent (some a)) r p h) (by simp)
          ⟨h1, hhl1.ofSetParent _, hhr⟩ ⟨hcl1.parentOK_setParent _, hpr⟩ b
      refine ⟨n1, b, hfix, hh1, hc1, hne1, fun _ => hpar1.trans hTp.symm,
        fun h => absurd h hnn, ?_, ?_⟩
      · intro hb
        obtain ⟨rfl, hd, e, he, hke⟩ := hfalse hb
        refine ⟨?_, hd, e, by simp [hTe, he], hke⟩
        rw [hf1 hb, hpl.setParent_eq, hT]
      · intro hb
        obtain ⟨habs, pre, post, e1, e2, hpre, hpost⟩ := htrue hb
        refine ⟨?_, pre, post ++ (a, d) :: r.entries, ?_, ?_, hpre, ?_⟩
        · rcases habs with habs | habs
          · exact Or.inl habs
          · right
            intro e he
            simp only [hTe, List.mem_append, List.mem_cons] at he
            rcases he with he | rfl | he
            · exact habs e he
            · exact ne_of_gt c1
            · exact ne_of_gt (lt_of_lt_of_le c1 (hre e he))
        · simp [hTe, e1]
        · rw [hent]; simp [Node.entries, e2]
        · intro e he
          simp only [List.mem_append, List.mem_cons] at he
          rcases he with he | rfl | he
          · exact hpost e he
          · exact c1
          · exact lt_of_lt_of_le c1 (hre e he)
    · obtain ⟨r1, b, hr1, hhr1, hcr1, -, -, -, hfalse, htrue⟩ := ihr hhr hpr.children hs.right
      simp only [hr1]
      obtain ⟨n1, hfix, hent, hpar1, hc1, hh1, hne1, hf1⟩ :=
        insert_fixup_spec (n := .mk a d l (r1.setParent (some a)) p h) (by simp)
          ⟨h1, hhl, hhr1.ofSetParent _⟩ ⟨hpl, hcr1.parentOK_setParent _⟩ b
      refine ⟨n1, b, hfix, hh1, hc1, hne1, fun _ => hpar1.trans hTp.symm,
        fun h => absurd h hnn, ?_, ?_⟩
      · intro hb
        obtain ⟨rfl, hd, e, he, hke⟩ := hfalse hb
        refine ⟨?_, hd, e, by simp [hTe, he], hke⟩
        rw [hf1 hb, hpr.setParent_eq, hT]
      · intro hb
        obtain ⟨habs, pre, post, e1, e2, hpre, hpost⟩ := htrue hb
        refine ⟨?_, l.entries ++ (a, d) :: pre, post, ?_, ?_, ?_, hpost⟩
        · rcases habs with habs | habs
          · exact Or.inl habs
          · rcases c2 with c2 | c2
            · right
              intro e he
              simp only [hTe, List.mem_append, List.mem_cons] at he
              rcases he with he | rfl | he
              · exact ne_of_lt (lt_of_le_of_lt (hle e he) c2)
              · exact ne_of_lt c2
              · exact habs e he
            · exact Or.inl c2
        · simp [hTe, e1]
        · rw [hent]; simp [Node.entries, e2]
        · intro e he
          simp only [List.mem_append, List.mem_cons] at he
          rcases he with he | rfl | he
          · exact le_trans (hle e he) (not_lt.1 c1)
          · exact not_lt.1 c1
          · exact hpre e he
    · simp only [not_or] at c2
      refine ⟨.mk a d l r p h, false, rfl, ⟨h1, hhl, hhr⟩, ⟨hpl, hpr⟩, by simp,
        fun _ => hTp.symm, fun h => absurd h hnn, ?_, fun h => by cases h⟩
      intro _
      exact ⟨hT, by simpa using c2.2, (a, d), by simp [hTe],
        le_antisymm (not_lt.1 c1) (not_lt.1 c2.1)⟩

end keyed

/-! ## Contexts -/

theorem plug_append (C D : List (Frame α)) (n : Node α) :
    plug (C ++ D) n = plug C (plug D n) := by
  induction C with
  | nil => rfl
  | cons fr C ih => simp [plug, ih]

theorem entries_fill (fr : Frame α) (n : Node α) :
    (fr.fill n).entries = fr.pre ++ n.entries ++ fr.post := by
  unfold Frame.fill Frame.pre Frame.post
  split_ifs <;> simp [Node.entries]

theorem entries_plug (C : List (Frame α)) (n : Node α) :
    (plug C n).entries = ctxPre C ++ n.entries ++ ctxPost C := by
  induction C with
  | nil => simp [plug, ctxPre, ctxPost]
  | cons fr C ih => simp [plug, ctxPre, ctxPost, entries_fill, ih]

theorem addrs_fill_nodup {fr : Frame α} {n : Node α} (h : (fr.fill n).addrs.Nodup) :
    n.addrs.Nodup ∧ fr.addr ∉ n.addrs ∧ ∀ x ∈ n.addrs, x ∉ fr.sibling.addrs := by
  unfold Frame.fill at h
  split_ifs at h
  · simp only [Node.addrs, List.nodup_append, List.nodup_cons, List.disjoint_cons_right] at h
    refine ⟨h.1, h.2.2.1, fun x hx hs => ?_⟩
    exact h.2.2.2 hx hs
  · simp only [Node.addrs, List.nodup_append, List.nodup_cons, List.disjoint_cons_right] at h
    refine ⟨h.2.1.2, h.2.1.1, fun x hx hs => ?_⟩
    exact h.2.2.2 hs hx

theorem mem_addrs_fill {fr : Frame α} {n : Node α} {x : Nat} (h : x ∈ n.addrs) :
    x ∈ (fr.fill n).addrs := by
  unfold Frame.fill
  split_ifs <;> simp [Node.addrs, h]

theorem addr_of_mem {n : Node α} {a : Nat} (h : n.addr? = some a) : a ∈ n.addrs := by
  cases n with
  | null => simp [Node.addr?] at h
  | mk b d l r p hh =>
    simp only [Node.addr?, Option.some.injEq] at h
    subst h
    simp [Node.addrs]

theorem store_of_not_mem {t : Node α} {a : Nat} (h : a ∉ t.addrs) (f : Node α → Node α) :
    t.store a f = t := by
  induction t with
  | null => rfl
  | mk b d l r p hh ihl ihr =>
    simp only [Node.addrs, List.mem_append, List.mem_cons, not_or] at h
    simp only [Node.store, if_neg (Ne.symm h.2.1), ihl h.1, ihr h.2.2]

theorem deref_self {n : Node α} {a : Nat} (h : n.addr? = some a) : n.deref a = some n := by
  cases n with
  | null => simp [Node.addr?] at h
  | mk b d l r p hh =>
    simp only [Node.addr?, Option.some.injEq] at h
    simp [Node.deref, h]

theorem store_self {n : Node α} {a : Nat} (h : n.addr? = some a) (f : Node α → Node α) :
    n.store a f = f n := by
  cases n with
  | null => simp [Node.addr?] at h
  | mk b d l r p hh =>
    simp only [Node.addr?, Option.some.injEq] at h
    simp [Node.store, h]

theorem deref_fill {fr : Frame α} {X : Node α} {a : Nat} (hn : (fr.fill X).addrs.Nodup)
    (ha : a ∈ X.addrs) : (fr.fill X).deref a = X.deref a := by
  obtain ⟨-, h2, h3⟩ := addrs_fill_nodup hn
  have hne : fr.addr ≠ a := fun e => h2 (e ▸ ha)
  unfold Frame.fill
  split_ifs
  · obtain ⟨m, hm⟩ := deref_isSome ha
    simp [Node.deref, hne, hm]
  · simp [Node.deref, hne, deref_none (h3 a ha)]

theorem store_fill {fr : Frame α} {X : Node α} {a : Nat} (hn : (fr.fill X).addrs.Nodup)
    (ha : a ∈ X.addrs) (f : Node α → Node α) :
    (fr.fill X).store a f = fr.fill (X.store a f) := by
  obtain ⟨-, h2, h3⟩ := addrs_fill_nodup hn
  have hne : fr.addr ≠ a := fun e => h2 (e ▸ ha)
  unfold Frame.fill
  split_ifs
  · simp [Node.store, hne, store_of_not_mem (h3 a ha)]
  · simp [Node.store, hne, store_of_not_mem (h3 a ha)]

theorem mem_addrs_plug {C : List (Frame α)} {n : Node α} {x : Nat} (h : x ∈ n.addrs) :
    x ∈ (plug C n).addrs := by
  induction C with
  | nil => exact h
  | cons fr C ih => exact mem_addrs_fill ih

/-- In a tree without repeated addresses, reading through the address of the
node in the hole yields that node. -/
theorem deref_plug {C : List (Frame α)} {n : Node α} {a : Nat}
    (hn : (plug C n).addrs.Nodup) (ha : n.addr? = some a) :
    (plug C n).deref a = some n := by
  induction C with
  | nil => exact deref_self ha
  | cons fr C ih =>
    simp only [plug] at hn ⊢
    rw [deref_fill hn (mem_addrs_plug (addr_of_mem ha))]
    exact ih (addrs_fill_nodup hn).1

/-- Writing through the address of the node in the hole rewrites that node. -/
theorem store_plug {C : List (Frame α)} {n : Node α} {a : Nat}
    (hn : (plug C n).addrs.Nodup) (ha : n.addr? = some a) (f : Node α → Node α) :
    (plug C n).store a f = plug C (f n) := by
  induction C with
  | nil => exact store_self ha f
  | cons fr C ih =>
    simp only [plug] at hn ⊢
    rw [store_fill hn (mem_addrs_plug (addr_of_mem ha)), ih (addrs_fill_nodup hn).1]

/-- Every node that can be read through an address sits in some context. -/
theorem deref_eq_plug {t n : Node α} {a : Nat} (h : t.deref a = some n) :
    ∃ C, t = plug C n := by
  induction t with
  | null => simp [Node.deref] at h
  | mk b d l r p hh ihl ihr =>
    simp only [Node.deref] at h
    split_ifs at h with h1
    · simp only [Option.some.injEq] at h
      exact ⟨[], h⟩
    · cases hl : l.deref a with
      | some n1 =>
        simp only [hl, Option.some.injEq] at h
        subst h
        obtain ⟨C, hC⟩ := ihl hl
        exact ⟨⟨true, b, d, r, p, hh⟩ :: C, by simp [plug, Frame.fill, ← hC]⟩
      | none =>
        simp only [hl] at h
        obtain ⟨C, hC⟩ := ihr h
        exact ⟨⟨false, b, d, l, p, hh⟩ :: C, by simp [plug, Frame.fill, ← hC]⟩

theorem parentOK_fill (fr : Frame α) (n : Node α) (q : Ptr) :
    ParentOK (fr.fill n) q ↔ ParentOK (fr.fill .null) q ∧ ParentOK n (some fr.addr) := by
  unfold Frame.fill
  split_ifs <;> simp [ParentOK] <;> tauto

theorem parentOK_plug (C : List (Frame α)) (n : Node α) (q : Ptr) :
    ParentOK (plug C n) q ↔ ParentOK (plug C .null) q ∧ ParentOK n (holeParent C q) := by
  induction C generalizing q with
  | nil => simp [plug, holeParent, ParentOK]
  | cons fr C ih =>
    simp only [plug, holeParent]
    rw [parentOK_fill, parentOK_fill fr (plug C .null), ih]
    tauto

theorem childrenOK_fill (fr : Frame α) (n : Node α) :
    ChildrenOK (fr.fill n) ↔ ChildrenOK (fr.fill .null) ∧ ParentOK n (some fr.addr) := by
  unfold Frame.fill
  split_ifs
  · simp only [ChildrenOK, ParentOK, true_and]
    exact and_comm
  · simp [ChildrenOK, ParentOK]

theorem childrenOK_plug_cons (fr : Frame α) (C : List (Frame α)) (n : Node α) (q : Ptr) :
    ChildrenOK (plug (fr :: C) n) ↔
      ChildrenOK (plug (fr :: C) .null) ∧ ParentOK n (holeParent (fr :: C) q) := by
  simp only [plug, holeParent]
  rw [childrenOK_fill, childrenOK_fill fr (plug C .null), parentOK_plug]
  tauto

theorem heightsPos_fill (fr : Frame α) (n : Node α) :
    HeightsPos (fr.fill n) ↔ HeightsPos (fr.fill .null) ∧ HeightsPos n := by
  unfold Frame.fill
  split_ifs <;> simp [HeightsPos] <;> tauto

theorem heightsPos_plug (C : List (Frame α)) (n : Node α) :
    HeightsPos (plug C n) ↔ HeightsPos (plug C .null) ∧ HeightsPos n := by
  induction C with
  | nil => simp [plug, HeightsPos]
  | cons fr C ih =>
    simp only [plug]
    rw [heightsPos_fill, heightsPos_fill fr (plug C .null), ih]
    tauto

theorem holeParent_concat (C : List (Frame α)) (fr : Frame α) (q : Ptr) :
    holeParent (C ++ [fr]) q = some fr.addr := by
  induction C generalizing q with
  | nil => rfl
  | cons g C ih => simp [holeParent, ih]

theorem plug_cons_addr (fr : Frame α) (C : List (Frame α)) (n : Node α) :
    (plug (fr :: C) n).addr? = some fr.addr ∧ (plug (fr :: C) n).parent? = fr.parent := by
  simp only [plug, Frame.fill]
  split_ifs <;> simp [Node.addr?, Node.parent?]

/-! ## Unlinking a node -/

theorem plug_addr_ne {C : List (Frame α)} {n : Node α} {a : Nat} (hC : C ≠ [])
    (hn : (plug C n).addrs.Nodup) (ha : n.addr? = some a) : (plug C n).addr? ≠ some a := by
  cases C with
  | nil => exact absurd rfl hC
  | cons g C =>
    rw [(plug_cons_addr g C n).1]
    simp only [plug] at hn
    have h2 := (addrs_fill_nodup hn).2.1
    intro e
    simp only [Option.some.injEq] at e
    exact h2 (e ▸ mem_addrs_plug (addr_of_mem ha))

theorem slot_fill {fr : Frame α} {X : Node α} (Y : Node α) {a : Nat}
    (hn : (fr.fill X).addrs.Nodup) (hX : X.addr? = some a) :
    (if (fr.fill X).left?.addr? = some a then (fr.fill X).setLeft Y
      else (fr.fill X).setRight Y) = fr.fill Y := by
  have hs : fr.sibling.addr? ≠ some a := fun e =>
    (addrs_fill_nodup hn).2.2 a (addr_of_mem hX) (addr_of_mem e)
  obtain ⟨isL, fa, fd, sib, fp, fh⟩ := fr
  cases isL
  · have hs1 : sib.addr? ≠ some a := hs
    simp [Frame.fill, Node.left?, Node.setRight, hs1]
  · simp [Frame.fill, Node.left?, Node.setLeft, hX]

theorem parentOK_hole {D : List (Frame α)} {fl : Frame α} {n : Node α}
    (hc : ChildrenOK (plug (D ++ [fl]) n)) : ParentOK n (some fl.addr) := by
  obtain ⟨g, D1, hD⟩ : ∃ g D1, D ++ [fl] = g :: D1 := by
    cases D with
    | nil => exact ⟨fl, [], rfl⟩
    | cons g D => exact ⟨g, D ++ [fl], rfl⟩
  rw [hD] at hc
  have := ((childrenOK_plug_cons g D1 n none).1 hc).2
  rwa [← hD, holeParent_concat] at this

theorem childrenOK_replace {D : List (Frame α)} {fl : Frame α} {n m : Node α}
    (hc : ChildrenOK (plug (D ++ [fl]) n)) (hm : ParentOK m (some fl.addr)) :
    ChildrenOK (plug (D ++ [fl]) m) := by
  obtain ⟨g, D1, hD⟩ : ∃ g D1, D ++ [fl] = g :: D1 := by
    cases D with
    | nil => exact ⟨fl, [], rfl⟩
    | cons g D => exact ⟨g, D ++ [fl], rfl⟩
  have e : holeParent (g :: D1) none = some fl.addr := by rw [← hD, holeParent_concat]
  rw [hD] at hc ⊢
  rw [childrenOK_plug_cons g D1 m none, e]
  exact ⟨((childrenOK_plug_cons g D1 n none).1 hc).1, hm⟩

/-- `erase_node` on a node that is not the root: the child takes the node's
place in the same context, re-parented to the node's parent. -/
theorem erase_node_plug {D : List (Frame α)} {fl : Frame α} {n : Node α} (c : Node α)
    {a : Nat} (hn : (plug (D ++ [fl]) n).addrs.Nodup) (hc : ChildrenOK (plug (D ++ [fl]) n))
    (ha : n.addr? = some a) :
    erase_node (plug (D ++ [fl]) n) n c =
      some (plug (D ++ [fl]) (c.setParent (some fl.addr))) := by
  have hne := plug_addr_ne (by simp) hn ha
  have hpo := parentOK_hole hc
  have e1 : plug (D ++ [fl]) n = plug D (fl.fill n) := by rw [plug_append]; rfl
  have hfa : (fl.fill n).addr? = some fl.addr := by
    unfold Frame.fill; split_ifs <;> rfl
  have hn2 : (plug D (fl.fill n)).addrs.Nodup := e1 ▸ hn
  have hn3 : (fl.fill n).addrs.Nodup := by
    clear hc hne e1 hn
    induction D with
    | nil => exact hn2
    | cons g D ih => exact ih (addrs_fill_nodup hn2).1
  cases n with
  | null => simp [Node.addr?] at ha
  | mk b d l r p h =>
    simp only [Node.addr?, Option.some.injEq] at ha
    subst ha
    obtain ⟨rfl, -⟩ := hpo
    unfold erase_node
    rw [if_neg (fun e => hne e.symm)]
    simp only
    rw [e1, deref_plug hn2 hfa, store_plug hn2 hfa]
    simp only
    rw [slot_fill _ hn3 rfl, plug_append]
    rfl

theorem filter_absent {L : List (Nat × α)} {a : Nat} (h : a ∉ L.map Prod.fst) :
    L.filter (fun e => decide (e.1 ≠ a)) = L := by
  rw [List.filter_eq_self]
  intro e he
  simp only [decide_eq_true_eq]
  rintro rfl
  exact h (List.mem_map_of_mem _ he)

theorem filter_mid {pre mid post : List (Nat × α)} {a : Nat}
    (hnd : ((pre ++ mid ++ post).map Prod.fst).Nodup) (ha : a ∈ mid.map Prod.fst) :
    (pre ++ mid ++ post).filter (fun e => decide (e.1 ≠ a)) =
      pre ++ mid.filter (fun e => decide (e.1 ≠ a)) ++ post := by
  simp only [List.map_append, List.nodup_append] at hnd
  obtain ⟨⟨-, -, h1⟩, -, h2⟩ := hnd
  have hpre : a ∉ pre.map Prod.fst := fun h => h1 h ha
  have hpost : a ∉ post.map Prod.fst := fun h =>
    h2 (List.mem_append_right _ ha) h
  simp only [List.filter_append, filter_absent hpre, filter_absent hpost]

theorem filter_node {a : Nat} {d : α} {l r : Node α} {p : Ptr} {h : Int}
    (hn : (Node.mk a d l r p h).addrs.Nodup) :
    (Node.mk a d l r p h).entries.filter (fun e => decide (e.1 ≠ a)) =
      l.entries ++ r.entries := by
  simp only [Node.addrs, List.nodup_append, List.nodup_cons, List.disjoint_cons_right] at hn
  have hl : a ∉ l.entries.map Prod.fst := by rw [← addrs_eq_map]; exact hn.2.2.1
  have hr : a ∉ r.entries.map Prod.fst := by rw [← addrs_eq_map]; exact hn.2.1.1
  show (l.entries ++ (a, d) :: r.entries).filter (fun e => decide (e.1 ≠ a)) = _
  rw [List.filter_append, List.filter_cons_of_neg (by simp), filter_absent hl, filter_absent hr]

/-- Replacing the subtree in the hole by one whose entries are the old ones
without the entry of address `a`. -/
theorem entries_plug_filter {C : List (Frame α)} {n m : Node α} {a : Nat}
    (hn : (plug C n).addrs.Nodup) (ha : a ∈ n.addrs)
    (hm : m.entries = n.entries.filter (fun e => decide (e.1 ≠ a))) :
    (plug C m).entries = (plug C n).entries.filter (fun e => decide (e.1 ≠ a)) := by
  rw [addrs_eq_map, entries_plug] at hn
  rw [entries_plug, entries_plug, filter_mid hn (by rwa [← addrs_eq_map]), hm]

theorem nodup_of_entries_filter {t t1 : Node α} {a : Nat} (hn : t.addrs.Nodup)
    (h : t1.entries = t.entries.filter (fun e => decide (e.1 ≠ a))) :
    t1.addrs.Nodup ∧ a ∉ t1.addrs ∧ ∀ x ∈ t1.addrs, x ∈ t.addrs := by
  rw [addrs_eq_map] at hn
  simp only [addrs_eq_map, h]
  refine ⟨hn.sublist ((List.filter_sublist _).map _), ?_, ?_⟩
  · simp
  · intro x hx
    simp only [List.mem_map, List.mem_filter] at hx ⊢
    obtain ⟨e, ⟨he, -⟩, rfl⟩ := hx
    exact ⟨e, he, rfl⟩

theorem leftmost_plug {n : Node α} (hn : n ≠ .null) :
    ∃ Cs sa sd sr sp sh, n = plug Cs (.mk sa sd .null sr sp sh) ∧
      leftmost_node n = .mk sa sd .null sr sp sh ∧ ctxPre Cs = [] := by
  induction n with
  | null => exact absurd rfl hn
  | mk a d l r p h ihl _ =>
    cases l with
    | null => exact ⟨[], a, d, r, p, h, rfl, rfl, rfl⟩
    | mk la ld ll lr lp lh =>
      obtain ⟨Cs, sa, sd, sr, sp, sh, e1, e2, e3⟩ := ihl (by simp)
      refine ⟨⟨true, a, d, r, p, h⟩ :: Cs, sa, sd, sr, sp, sh, ?_, ?_, ?_⟩
      · simp only [plug, Frame.fill, if_true, ← e1]
      · rw [← e2]; rfl
      · simp [ctxPre, Frame.pre, e3]

theorem nodup_hole {C : List (Frame α)} {n : Node α} (hn : (plug C n).addrs.Nodup) :
    n.addrs.Nodup := by
  induction C with
  | nil => exact hn
  | cons g C ih => exact ih (addrs_fill_nodup hn).1

theorem childrenOK_hole {C : List (Frame α)} {n : Node α} (hc : ChildrenOK (plug C n)) :
    ChildrenOK n := by
  cases C with
  | nil => exact hc
  | cons g C => exact ((childrenOK_plug_cons g C n none).1 hc).2.children

theorem eq_nil_or_snoc {β : Type} (C : List β) : C = [] ∨ ∃ D fl, C = D ++ [fl] := by
  rcases List.eq_nil_or_concat C with h | ⟨D, fl, h⟩
  · exact Or.inl h
  · exact Or.inr ⟨D, fl, by rw [h, List.concat_eq_append]⟩

theorem plug_concat (D : List (Frame α)) (fl : Frame α) (n : Node α) :
    plug (D ++ [fl]) n = plug D (fl.fill n) := by
  rw [plug_append]; rfl

/-- What is left to check once the unlinked root is known to be the old
context around a replacement subtree `M`. -/
theorem unlink_in_context {C : List (Frame α)} {N M : Node α} {a : Nat}
    (hn : (plug C N).addrs.Nodup) (hc : ChildrenOK (plug C N)) (hh : HeightsPos (plug C N))
    (ha : N.addr? = some a)
    (hMe : M.entries = N.entries.filter (fun e => decide (e.1 ≠ a)))
    (hMc : ChildrenOK M) (hMh : HeightsPos M)
    (hM0 : C = [] → ∀ p, M.parent? = some p → p = a ∨ N.parent? = some p)
    (hM1 : ∀ D fl, C = D ++ [fl] → ParentOK M (some fl.addr)) :
    (plug C M).entries = (plug C N).entries.filter (fun e => decide (e.1 ≠ a)) ∧
      ChildrenOK (plug C M) ∧ HeightsPos (plug C M) ∧
      ∀ p, (plug C M).parent? = some p → p = a ∨ (plug C N).parent? = some p := by
  refine ⟨entries_plug_filter hn (addr_of_mem ha) hMe, ?_,
    (heightsPos_plug C M).2 ⟨((heightsPos_plug C N).1 hh).1, hMh⟩, ?_⟩
  · rcases eq_nil_or_snoc C with rfl | ⟨D, fl, rfl⟩
    · exact hMc
    · exact childrenOK_replace hc (hM1 D fl rfl)
  · cases C with
    | nil => exact hM0 rfl
    | cons g C =>
      intro p hp
      rw [(plug_cons_addr g C M).2] at hp
      exact Or.inr ((plug_cons_addr g C N).2.trans hp)

/-- Cases 1 and 2 of `erase`: a node with at most one child, `c` being the
child that takes its place. -/
theorem erase_node_spec {C : List (Frame α)} {N c : Node α} {a : Nat}
    (hn : (plug C N).addrs.Nodup) (hc : ChildrenOK (plug C N)) (hh : HeightsPos (plug C N))
    (ha : N.addr? = some a)
    (hce : c.entries = N.entries.filter (fun e => decide (e.1 ≠ a)))
    (hcp : ParentOK c (some a)) (hch : HeightsPos c) :
    ∃ root1, erase_node (plug C N) N c = some root1 ∧
      root1.entries = (plug C N).entries.filter (fun e => decide (e.1 ≠ a)) ∧
      ChildrenOK root1 ∧ HeightsPos root1 ∧
      ∀ p, root1.parent? = some p → p = a ∨ (plug C N).parent? = some p := by
  rcases eq_nil_or_snoc C with rfl | ⟨D, fl, rfl⟩
  · refine ⟨c, by simp [erase_node, plug], ?_⟩
    refine unlink_in_context (C := []) hn hc hh ha hce hcp.children hch ?_ ?_
    · intro _ p hp
      left
      cases c with
      | null => simp [Node.parent?] at hp
      | mk ca cd cl cr cp chh =>
        have := hcp.1
        simp only [Node.parent?] at hp
        rw [hp] at this
        exact Option.some.inj this
    · intro D fl h; simp at h
  · refine ⟨_, erase_node_plug c hn hc ha, ?_⟩
    refine unlink_in_context hn hc hh ha (by simpa using hce) (hcp.children.parentOK_setParent _).children
      (hch.ofSetParent _) (fun h => by simp at h) ?_
    intro D1 fl1 h
    obtain ⟨-, h2⟩ := List.append_inj' h rfl
    obtain rfl : fl = fl1 := by simpa using h2
    exact hcp.children.parentOK_setParent _

/-- Detaching the in-order successor (the leftmost node of the right subtree
`nr`) with `erase_node`: `nr` loses its first entry and stays a well-linked
child of the node it hangs from. -/
theorem detach_successor {K : List (Frame α)} {fK : Frame α} {nr : Node α}
    (hr : nr ≠ .null) (hn : (plug (K ++ [fK]) nr).addrs.Nodup)
    (hc : ChildrenOK (plug (K ++ [fK]) nr)) (hh : HeightsPos (plug (K ++ [fK]) nr)) :
    ∃ nr1 sa sd sr sp sh, leftmost_node nr = .mk sa sd .null sr sp sh ∧
      erase_node (plug (K ++ [fK]) nr) (.mk sa sd .null sr sp sh) sr =
        some (plug (K ++ [fK]) nr1) ∧
      nr.entries = (sa, sd) :: nr1.entries ∧ ParentOK nr1 (some fK.addr) ∧
      HeightsPos nr1 ∧ 1 ≤ sh := by
  obtain ⟨Cs, sa, sd, sr, sp, sh, e1, e2, e3⟩ := leftmost_plug hr
  have hpn := parentOK_hole hc
  have hhn := ((heightsPos_plug _ _).1 hh).2
  rw [e1] at hpn hhn
  have hS := (parentOK_plug Cs _ _).1 hpn
  have hSh := (heightsPos_plug Cs _).1 hhn
  refine ⟨plug Cs (sr.setParent (holeParent Cs (some fK.addr))), sa, sd, sr, sp, sh, e2,
    ?_, ?_, ?_, ?_, hSh.2.1⟩
  · rcases eq_nil_or_snoc Cs with rfl | ⟨Es, fl, rfl⟩
    · simp only [plug] at e1
      subst e1
      exact erase_node_plug sr hn hc rfl
    · subst e1
      rw [holeParent_concat]
      have e : plug (K ++ [fK]) (plug (Es ++ [fl]) (.mk sa sd .null sr sp sh)) =
          plug ((K ++ [fK] ++ Es) ++ [fl]) (.mk sa sd .null sr sp sh) := by
        simp only [plug_append]
      have e' : plug (K ++ [fK]) (plug (Es ++ [fl]) (sr.setParent (some fl.addr))) =
          plug ((K ++ [fK] ++ Es) ++ [fl]) (sr.setParent (some fl.addr)) := by
        simp only [plug_append]
      rw [e] at hn hc ⊢
      rw [e']
      exact erase_node_plug sr hn hc rfl
  · rw [e1, entries_plug, entries_plug, e3]
    simp [Node.entries]
  · rw [parentOK_plug]
    exact ⟨hS.1, hS.2.2.2.children.parentOK_setParent _⟩
  · rw [heightsPos_plug]
    exact ⟨hSh.1, hSh.2.2.2.ofSetParent _⟩

theorem erase_unlink_two (R : Node α) (a : Nat) (nd : α) {nl nr : Node α} (np : Ptr)
    (nh : Int) (hl : nl ≠ .null) (hr : nr ≠ .null) :
    erase_unlink R (.mk a nd nl nr np nh) =
      (erase_node R (leftmost_node nr) (leftmost_node nr).right?).bind
        (fun root1 => erase_relink root1 a (leftmost_node nr)) := by
  cases nl with
  | null => exact absurd rfl hl
  | mk la ld ll lr lp lh =>
    cases nr with
    | null => exact absurd rfl hr
    | mk ra rd rl rr rp rh =>
      simp only [erase_unlink]
      cases erase_node R (leftmost_node (.mk ra rd rl rr rp rh))
        (leftmost_node (.mk ra rd rl rr rp rh)).right? <;> rfl

/-- Case 3 of `erase`: a node with two children.  The only way out of the
defined behaviour is a root whose parent link is not null. -/
theorem erase_two_children_spec {C : List (Frame α)} {a : Nat} {nd : α} {nl nr : Node α}
    {np : Ptr} {nh : Int} (hl : nl ≠ .null) (hr : nr ≠ .null)
    (hn : (plug C (.mk a nd nl nr np nh)).addrs.Nodup)
    (hc : ChildrenOK (plug C (.mk a nd nl nr np nh)))
    (hh : HeightsPos (plug C (.mk a nd nl nr np nh)))
    (hroot : ∀ p, (plug C (.mk a nd nl nr np nh)).parent? = some p →
      p ∉ (plug C (.mk a nd nl nr np nh)).addrs) :
    (erase_unlink (plug C (.mk a nd nl nr np nh)) (.mk a nd nl nr np nh) = none ∧
        C = [] ∧ np ≠ none) ∨
    (∃ root1, erase_unlink (plug C (.mk a nd nl nr np nh)) (.mk a nd nl nr np nh) = some root1 ∧
      root1.entries =
        (plug C (.mk a nd nl nr np nh)).entries.filter (fun e => decide (e.1 ≠ a)) ∧
      ChildrenOK root1 ∧ HeightsPos root1 ∧
      (∀ p, root1.parent? = some p →
        p = a ∨ (plug C (.mk a nd nl nr np nh)).parent? = some p) ∧
      (C = [] → np = none)) := by
  have hNn := nodup_hole hn
  have hNc := childrenOK_hole hc
  have hNh := ((heightsPos_plug _ _).1 hh).2
  -- the node is the frame `frA` around its right subtree
  have eN : Node.mk a nd nl nr np nh = (Frame.mk false a nd nl np nh).fill nr := rfl
  have eR : plug C (.mk a nd nl nr np nh) = plug (C ++ [Frame.mk false a nd nl np nh]) nr := by
    rw [plug_concat, ← eN]
  have hn' := hn; have hc' := hc; have hh' := hh
  rw [eR] at hn' hc' hh'
  obtain ⟨nr1, sa, sd, sr, sp, sh, eS, hen, hent, hpar, hhr1, hsh⟩ :=
    detach_successor hr hn' hc' hh'
  rw [erase_unlink_two _ _ _ _ _ hl hr, eS]
  simp only [Node.right?]
  rw [eR, hen]
  simp only [Option.bind]
  -- the root once the successor is detached
  have eR1 : plug (C ++ [Frame.mk false a nd nl np nh]) nr1 = plug C (.mk a nd nl nr1 np nh) := by
    rw [plug_concat]; rfl
  rw [eR1, ← eR]
  have hsub : (plug C (Node.mk a nd nl nr1 np nh)).entries.Sublist
      (plug C (Node.mk a nd nl nr np nh)).entries := by
    rw [entries_plug, entries_plug]
    refine ((List.Sublist.refl _).append ?_).append (List.Sublist.refl _)
    simp only [Node.entries, hent]
    exact (List.Sublist.refl _).append
      (List.Sublist.cons₂ _ (List.sublist_cons_self _ _))
  have hn1 : (plug C (Node.mk a nd nl nr1 np nh)).addrs.Nodup := by
    rw [addrs_eq_map] at hn ⊢
    exact hn.sublist (hsub.map _)
  have hd1 := deref_plug (C := C) (n := .mk a nd nl nr1 np nh) hn1 rfl
  -- the successor relinked into the node's place
  have hMe : (Node.mk sa sd (nl.setParent (some sa)) (nr1.setParent (some sa)) np sh).entries =
      (Node.mk a nd nl nr np nh).entries.filter (fun e => decide (e.1 ≠ a)) := by
    rw [filter_node hNn]
    simp [Node.entries, hent]
  have hMc : ChildrenOK
      (Node.mk sa sd (nl.setParent (some sa)) (nr1.setParent (some sa)) np sh) :=
    ⟨hNc.1.children.parentOK_setParent _, hpar.children.parentOK_setParent _⟩
  have hMh : HeightsPos
      (Node.mk sa sd (nl.setParent (some sa)) (nr1.setParent (some sa)) np sh) :=
    ⟨hsh, hNh.2.1.ofSetParent _, hhr1.ofSetParent _⟩
  have hM0 : C = [] → ∀ p,
      (Node.mk sa sd (nl.setParent (some sa)) (nr1.setParent (some sa)) np sh).parent? = some p →
        p = a ∨ (Node.mk a nd nl nr np nh).parent? = some p := fun _ p hp => Or.inr hp
  have hM1 : ∀ D fl, C = D ++ [fl] → ParentOK
      (Node.mk sa sd (nl.setParent (some sa)) (nr1.setParent (some sa)) np sh)
      (some fl.addr) := by
    intro D fl hC
    subst hC
    exact ⟨(parentOK_hole hc).1, hMc⟩
  cases np with
  | none =>
    right
    have hrel : erase_relink (plug C (.mk a nd nl nr1 none nh)) a (.mk sa sd .null sr sp sh) =
        some (.mk sa sd (nl.setParent (some sa)) (nr1.setParent (some sa)) none sh) := by
      unfold erase_relink
      simp only [hd1]
    have hC : C = [] := by
      rcases eq_nil_or_snoc C with h | ⟨D, fl, rfl⟩
      · exact h
      · exact absurd (parentOK_hole hc).1 (by simp)
    subst hC
    rw [hrel]
    obtain ⟨h1, h2, h3, h4⟩ := unlink_in_context (C := []) hn hc hh rfl hMe hMc hMh hM0 hM1
    exact ⟨_, rfl, h1, h2, h3, h4, fun _ => rfl⟩
  | some pa =>
    rcases eq_nil_or_snoc C with rfl | ⟨D, fl, rfl⟩
    · left
      have hnot : pa ∉ (plug [] (Node.mk a nd nl nr1 (some pa) nh)).addrs := by
        intro hm
        rw [addrs_eq_map] at hm
        have := (hsub.map Prod.fst).subset hm
        rw [← addrs_eq_map] at this
        exact hroot pa rfl this
      have hrel : erase_relink (plug [] (.mk a nd nl nr1 (some pa) nh)) a
          (.mk sa sd .null sr sp sh) = none := by
        unfold erase_relink
        simp only [hd1, deref_none hnot]
      rw [hrel]
      exact ⟨rfl, rfl, by simp⟩
    · right
      have hpa : pa = fl.addr := Option.some.inj (parentOK_hole hc).1
      subst hpa
      have e2 : plug (D ++ [fl]) (Node.mk a nd nl nr1 (some fl.addr) nh) =
          plug D (fl.fill (.mk a nd nl nr1 (some fl.addr) nh)) := plug_concat _ _ _
      have hfa : (fl.fill (Node.mk a nd nl nr1 (some fl.addr) nh)).addr? = some fl.addr := by
        unfold Frame.fill; split_ifs <;> rfl
      have hn2 := hn1
      rw [e2] at hn2
      have hrel : erase_relink (plug (D ++ [fl]) (.mk a nd nl nr1 (some fl.addr) nh)) a
          (.mk sa sd .null sr sp sh) =
          some (plug (D ++ [fl])
            (.mk sa sd (nl.setParent (some sa)) (nr1.setParent (some sa)) (some fl.addr) sh)) := by
        unfold erase_relink
        simp only [hd1]
        rw [e2, deref_plug hn2 hfa, store_plug hn2 hfa]
        simp only
        rw [slot_fill _ (nodup_hole hn2) rfl, ← plug_concat]
      rw [hrel]
      obtain ⟨h1, h2, h3, h4⟩ := unlink_in_context hn hc hh rfl hMe hMc hMh hM0 hM1
      exact ⟨_, rfl, h1, h2, h3, h4, fun h => by simp at h⟩

/-- The unlinking part of `erase` on a node of the tree: it removes exactly the
entry of that node, unless the node is a two-children root whose parent link is
not null, where the code reads through a dangling pointer. -/
theorem erase_unlink_spec {R ntr : Node α} {a : Nat} (hn : R.addrs.Nodup)
    (hc : ChildrenOK R) (hh : HeightsPos R)
    (hroot : ∀ p, R.parent? = some p → p ∉ R.addrs) (hd : R.deref a = some ntr) :
    (erase_unlink R ntr = none ∧ R.addr? = some a ∧ ntr.left? ≠ .null ∧
        ntr.right? ≠ .null ∧ R.parent? ≠ none) ∨
    (∃ root1, erase_unlink R ntr = some root1 ∧
      root1.entries = R.entries.filter (fun e => decide (e.1 ≠ a)) ∧
      ChildrenOK root1 ∧ HeightsPos root1 ∧
      (∀ p, root1.parent? = some p → p = a ∨ R.parent? = some p) ∧
      (R.addr? = some a → ntr.left? ≠ .null → ntr.right? ≠ .null → R.parent? = none)) := by
  obtain ⟨C, rfl⟩ := deref_eq_plug hd
  obtain ⟨haddr, -⟩ := deref_some hd
  cases ntr with
  | null => simp [Node.addr?] at haddr
  | mk b nd nl nr np nh =>
    simp only [Node.addr?, Option.some.injEq] at haddr
    subst haddr
    have hNn := nodup_hole hn
    have hNc := childrenOK_hole hc
    have hNh := ((heightsPos_plug _ _).1 hh).2
    by_cases hl : nl = .null
    · subst hl
      right
      have e : erase_unlink (plug C (.mk b nd .null nr np nh)) (.mk b nd .null nr np nh) =
          erase_node (plug C (.mk b nd .null nr np nh)) (.mk b nd .null nr np nh) nr := by
        simp only [erase_unlink]
      obtain ⟨root1, h0, h1, h2, h3, h4⟩ := erase_node_spec (c := nr) hn hc hh rfl
        (by rw [filter_node hNn]; simp [Node.entries]) hNc.2 hNh.2.2
      exact ⟨root1, e.trans h0, h1, h2, h3, h4, fun _ h => absurd rfl h⟩
    · by_cases hr : nr = .null
      · subst hr
        right
        have e : erase_unlink (plug C (.mk b nd nl .null np nh)) (.mk b nd nl .null np nh) =
            erase_node (plug C (.mk b nd nl .null np nh)) (.mk b nd nl .null np nh) nl := by
          cases nl with
          | null => exact absurd rfl hl
          | mk la ld ll lr lp lh => simp only [erase_unlink]
        obtain ⟨root1, h0, h1, h2, h3, h4⟩ := erase_node_spec (c := nl) hn hc hh rfl
          (by rw [filter_node hNn]; simp [Node.entries]) hNc.1 hNh.2.1
        exact ⟨root1, e.trans h0, h1, h2, h3, h4, fun _ _ h => absurd rfl h⟩
      · rcases erase_two_children_spec hl hr hn hc hh hroot with ⟨h0, rfl, h2⟩ |
          ⟨root1, h0, h1, h2, h3, h4, h5⟩
        · exact Or.inl ⟨h0, rfl, hl, hr, h2⟩
        · refine Or.inr ⟨root1, h0, h1, h2, h3, h4, fun hra _ _ => ?_⟩
          rcases eq_nil_or_snoc C with rfl | ⟨D, fl, rfl⟩
          · exact h5 rfl
          · exact absurd hra (plug_addr_ne (by simp) hn rfl)

/-! ## The public operations keep the invariant -/

theorem length_filter_ne {L : List (Nat × α)} {a : Nat} (hn : (L.map Prod.fst).Nodup)
    (ha : a ∈ L.map Prod.fst) :
    (L.filter (fun e => decide (e.1 ≠ a))).length + 1 = L.length := by
  induction L with
  | nil => simp at ha
  | cons x L ih =>
    simp only [List.map_cons, List.nodup_cons, List.mem_cons] at hn ha
    by_cases hx : x.1 = a
    · subst hx
      rw [List.filter_cons_of_neg (by simp), filter_absent hn.1]
      rfl
    · rw [List.filter_cons_of_pos (by simpa using hx)]
      have := ih hn.2 (ha.resolve_left (fun h => hx h.symm))
      simp only [List.length_cons]
      omega

theorem erase_finish_spec (t : BinaryTree α) {root1 : Node α} (hc : ChildrenOK root1)
    (hh : HeightsPos root1) :
    ∃ root2, BinaryTree.erase_finish t root1 =
        .ok (BinaryTree.update_min_max_nodes { t with root_ := root2, size_ := t.size_ - 1 }) () ∧
      root2.entries = root1.entries ∧ ChildrenOK root2 ∧ HeightsPos root2 ∧
      root2.parent? = root1.parent? := by
  cases root1 with
  | null => exact ⟨.null, rfl, rfl, hc, hh, rfl⟩
  | mk a d l r p h =>
    obtain ⟨root2, hb⟩ := balance_total (HeightsPos.update_height hh)
    refine ⟨root2, ?_, (balance_entries hb).trans (entries_update_height _),
      balance_children hb hc, balance_heights hb (HeightsPos.update_height hh),
      (balance_parent hb).trans rfl⟩
    simp only [BinaryTree.erase_finish, hb]

section keyed
variable [LinearOrder κ] {key : α → κ}

theorem mem_addrs_iff {t : Node α} {a : Nat} : a ∈ t.addrs ↔ ∃ e ∈ t.entries, e.1 = a := by
  rw [addrs_eq_map, List.mem_map]

/-- `erase(pos)` for a position of the tree: either the defined behaviour,
which removes exactly the entry at `pos`, or — only for a two-children root whose
parent link is not null — undefined behaviour. -/
theorem erase_spec {t : BinaryTree α} (hw : WF key t) {a : Nat} (ha : a ∈ t.root_.addrs) :
    (t.erase (some a) = .undefined ∧ t.root_.addr? = some a ∧ t.root_.left? ≠ .null ∧
        t.root_.right? ≠ .null ∧ t.root_.parent? ≠ none) ∨
    (∃ t1, t.erase (some a) = .ok t1 () ∧ WF key t1 ∧
      t1.root_.entries = t.root_.entries.filter (fun e => decide (e.1 ≠ a)) ∧
      t1.size_ + 1 = t.size_ ∧ t1.fresh = t.fresh ∧ t1.end_node_ = t.end_node_ ∧
      (t.root_.addr? = some a → t.root_.left? ≠ .null → t.root_.right? ≠ .null →
        t.root_.parent? = none)) := by
  obtain ⟨e, he1, he2, he3⟩ := hw.end_ok
  have hpos : (some a : Ptr) ≠ t.end := by
    intro h
    rw [BinaryTree.end, he1] at h
    exact he2 (Option.some.inj h ▸ ha)
  obtain ⟨ntr, hd⟩ := deref_isSome ha
  have hself : t.root_.addr? = some a → ntr = t.root_ := by
    intro h
    rw [deref_self h] at hd
    exact (Option.some.inj hd).symm
  unfold BinaryTree.erase
  rw [if_neg hpos]
  simp only [hd]
  rcases erase_unlink_spec hw.nodup hw.children hw.heights
    (fun p hp => (hw.root_parent p hp).1) hd with ⟨h0, h1, h2, h3, h4⟩ |
    ⟨root1, h0, h1, h2, h3, h4, h5⟩
  · left
    rw [h0]
    have := hself h1
    subst this
    exact ⟨rfl, h1, h2, h3, h4⟩
  · right
    rw [h0]
    obtain ⟨root2, hf, g1, g2, g3, g4⟩ := erase_finish_spec t h2 h3
    have hent : root2.entries = t.root_.entries.filter (fun e => decide (e.1 ≠ a)) :=
      g1.trans h1
    obtain ⟨n1, n2, n3⟩ := nodup_of_entries_filter hw.nodup hent
    have hlen := length_filter_ne (by rw [← addrs_eq_map]; exact hw.nodup)
      (by rw [← addrs_eq_map]; exact ha)
    refine ⟨_, hf, ?_, hent, ?_, rfl, rfl, ?_⟩
    · refine ⟨n1, g2, g3, ?_, ?_, fun x hx => hw.lt_fresh x (n3 x hx), ?_,
        ⟨e, he1, fun h => he2 (n3 e h), he3⟩, rfl, rfl⟩
      · have hs := hw.sorted
        unfold KeysSorted at hs ⊢
        show root2.entries.Pairwise _
        rw [hent]
        exact hs.sublist (List.filter_sublist _)
      · intro p hp
        have hp' : root2.parent? = some p := hp
        rw [g4] at hp'
        rcases h4 p hp' with rfl | h
        · exact ⟨n2, hw.lt_fresh _ ha⟩
        · exact ⟨fun hm => (hw.root_parent p h).1 (n3 p hm), (hw.root_parent p h).2⟩
      · show t.size_ - 1 = root2.entries.length
        rw [hent, hw.size_eq]
        omega
    · show t.size_ - 1 + 1 = t.size_
      rw [hw.size_eq]
      omega
    · intro hra hl hr
      have := hself hra
      subst this
      exact h5 hra hl hr

/-- A successful `erase(pos)` was given a position of the tree. -/
theorem erase_ok_pos {t t1 : BinaryTree α} {pos : Ptr} (h : t.erase pos = .ok t1 ()) :
    ∃ a, pos = some a ∧ a ∈ t.root_.addrs := by
  unfold BinaryTree.erase at h
  split_ifs at h
  cases pos with
  | none => simp at h
  | some a =>
    refine ⟨a, rfl, ?_⟩
    by_contra hm
    simp [deref_none hm] at h

end keyed

section keyed
variable [LinearOrder κ] {key : α → κ}

/-- `insert(value, allow_duplicates)` always returns; it either leaves the
tree as it is (flag `false`) or adds one entry, held by the fresh node, at its
sorted place (flag `true`). -/
theorem insert_spec {t : BinaryTree α} (hw : WF key t) (v : α) (dup : Bool) :
    ∃ t1 b, t.insert key v dup = .ok t1 ((find_node key t1.root_ (key v)).addr?, b) ∧
      WF key t1 ∧ t1.end_node_ = t.end_node_ ∧
      (b = false → t1 = t ∧ dup = false ∧ ∃ e ∈ t.root_.entries, key e.2 = key v) ∧
      (b = true → (dup = true ∨ ∀ e ∈ t.root_.entries, key e.2 ≠ key v) ∧
        t1.size_ = t.size_ + 1 ∧ t1.fresh = t.fresh + 1 ∧
        ∃ pre post, t.root_.entries = pre ++ post ∧
          t1.root_.entries = pre ++ (t.fresh, v) :: post ∧
          (∀ e ∈ pre, key e.2 ≤ key v) ∧ (∀ e ∈ post, key v < key e.2)) := by
  obtain ⟨r1, b, hins, hh1, hc1, hne1, hpar, hpar0, hfalse, htrue⟩ :=
    @insert_node_spec α κ _ key t.fresh v dup t.root_ hw.heights hw.children hw.sorted
  cases b with
  | false =>
    obtain ⟨rfl, hd, he⟩ := hfalse rfl
    refine ⟨t, false, ?_, hw, rfl, fun _ => ⟨rfl, hd, he⟩, fun h => by cases h⟩
    simp only [BinaryTree.insert, hins, Bool.false_eq_true, if_false]
  | true =>
    obtain ⟨habs, pre, post, e1, e2, hpre, hpost⟩ := htrue rfl
    have hfresh : t.fresh ∉ t.root_.addrs := fun h => lt_irrefl _ (hw.lt_fresh _ h)
    have haddrs : r1.addrs = pre.map Prod.fst ++ t.fresh :: post.map Prod.fst := by
      rw [addrs_eq_map, e2]; simp
    have haddrs0 : t.root_.addrs = pre.map Prod.fst ++ post.map Prod.fst := by
      rw [addrs_eq_map, e1]; simp
    have hmem : ∀ x, x ∈ r1.addrs ↔ x = t.fresh ∨ x ∈ t.root_.addrs := by
      intro x
      rw [haddrs, haddrs0]
      simp only [List.mem_append, List.mem_cons]
      constructor
      · rintro (h | h | h)
        · exact Or.inr (Or.inl h)
        · exact Or.inl h
        · exact Or.inr (Or.inr h)
      · rintro (h | h | h)
        · exact Or.inr (Or.inl h)
        · exact Or.inl h
        · exact Or.inr (Or.inr h)
    refine ⟨BinaryTree.update_min_max_nodes
        { root_ := r1, min_node_ := t.min_node_, max_node_ := t.max_node_,
          end_node_ := t.end_node_, size_ := t.size_ + 1, fresh := t.fresh + 1 },
      true, ?_, ?_, rfl, fun h => (by cases h),
      fun _ => ⟨habs, rfl, rfl, pre, post, e1, e2, hpre, hpost⟩⟩
    · simp only [BinaryTree.insert, hins, eq_self_iff_true, if_true]
      rfl
    · refine ⟨?_, hc1, hh1, ?_, ?_, ?_, ?_, ?_, rfl, rfl⟩
      · show r1.addrs.Nodup
        have h0 := hw.nodup
        rw [haddrs0] at hfresh h0
        rw [haddrs]
        simp only [List.mem_append, not_or] at hfresh
        rw [List.nodup_append] at h0 ⊢
        refine ⟨h0.1, List.nodup_cons.2 ⟨hfresh.2, h0.2.1⟩, ?_⟩
        intro x hx1 hx2
        rcases List.mem_cons.1 hx2 with rfl | hx2
        · exact hfresh.1 hx1
        · exact h0.2.2 hx1 hx2
      · show KeysSorted key r1
        have hs := hw.sorted
        unfold KeysSorted at hs ⊢
        rw [e1] at hs
        rw [e2]
        exact pairwise_insert_mid hs hpre hpost
      · intro p hp
        have hp' : r1.parent? = some p := hp
        by_cases hnull : t.root_ = .null
        · rw [hpar0 hnull] at hp'; cases hp'
        · rw [hpar hnull] at hp'
          obtain ⟨h1, h2⟩ := hw.root_parent p hp'
          refine ⟨fun hm => ?_, Nat.lt_succ_of_lt h2⟩
          rcases (hmem p).1 hm with rfl | hm
          · exact lt_irrefl _ h2
          · exact h1 hm
      · intro x hx
        rcases (hmem x).1 hx with rfl | hx
        · exact Nat.lt_succ_self _
        · exact Nat.lt_succ_of_lt (hw.lt_fresh x hx)
      · show t.size_ + 1 = r1.entries.length
        rw [e2, hw.size_eq, e1]
        simp only [List.length_append, List.length_cons]
        omega
      · obtain ⟨e, he1, he2, he3⟩ := hw.end_ok
        refine ⟨e, he1, fun hm => ?_, Nat.lt_succ_of_lt he3⟩
        rcases (hmem e).1 hm with rfl | hm
        · exact lt_irrefl _ he3
        · exact he2 hm

theorem wf_empty [Inhabited α] : WF key (BinaryTree.empty : BinaryTree α) := by
  refine ⟨List.nodup_nil, trivial, trivial, List.Pairwise.nil, ?_, ?_, rfl,
    ⟨0, rfl, by simp [BinaryTree.empty, Node.addrs], by simp [BinaryTree.empty]⟩, rfl, rfl⟩
  · intro p hp; simp [BinaryTree.empty, Node.parent?] at hp
  · intro x hx; simp [BinaryTree.empty, Node.addrs] at hx

/-- Every tree reachable from the empty one satisfies the invariant. -/
theorem BinaryTree.Reach.wf [Inhabited α] {h : List (BinaryTree.Event α)} {t : BinaryTree α}
    (hr : BinaryTree.Reach key h t) : WF key t := by
  induction hr with
  | empty => exact wf_empty
  | @insert h t t1 v d b it _ hins ih =>
    obtain ⟨t2, b2, h2, hw2, -⟩ := insert_spec ih v d
    rw [h2] at hins
    injection hins with e1 e2
    exact e1 ▸ hw2
  | @erase h t t1 pos _ her ih =>
    obtain ⟨a, rfl, ha⟩ := erase_ok_pos her
    rcases erase_spec ih ha with ⟨h0, -⟩ | ⟨t2, h0, hw2, -⟩
    · rw [h0] at her; cases her
    · rw [h0] at her
      injection her with e1 e2
      exact e1 ▸ hw2

end keyed

/-! ## Properties of the specification, checked on the code -/

open BinaryTree

section keyed
variable [LinearOrder κ] {key : α → κ}

theorem pairwise_insert_mid_strict {pre post : List (Nat × α)} {x : Nat × α}
    (hs : (pre ++ post).Pairwise (fun e f => key e.2 < key f.2))
    (hpre : ∀ e ∈ pre, key e.2 ≤ key x.2) (hpost : ∀ e ∈ post, key x.2 < key e.2)
    (habs : ∀ e ∈ pre ++ post, key e.2 ≠ key x.2) :
    (pre ++ x :: post).Pairwise (fun e f => key e.2 < key f.2) := by
  rw [List.pairwise_append] at hs ⊢
  refine ⟨hs.1, ?_, ?_⟩
  · rw [List.pairwise_cons]
    exact ⟨hpost, hs.2.1⟩
  · intro e he f hf
    rcases List.mem_cons.1 hf with rfl | hf
    · exact lt_of_le_of_ne (hpre e he) (habs e (List.mem_append_left _ he))
    · exact hs.2.2 e he f hf

theorem keysSorted_toList {t : Node α} (h : KeysSorted key t) :
    (t.toList.map key).Pairwise (· ≤ ·) := by
  unfold KeysSorted at h
  rw [toList_eq_map, List.map_map, List.pairwise_map]
  exact h

theorem keysStrict_toList {t : Node α} (h : KeysStrict key t) :
    (t.toList.map key).Pairwise (· < ·) := by
  unfold KeysStrict at h
  rw [toList_eq_map, List.map_map, List.pairwise_map]
  exact h

/-- Without duplicate-allowing inserts the in-order keys are strictly increasing. -/
theorem BinaryTree.Reach.strict [Inhabited α] {h : List (Event α)} {t : BinaryTree α}
    (hr : Reach key h t) (hd : ∀ v d b, Event.ins v d b ∈ h → d = false) :
    KeysStrict key t.root_ := by
  induction hr with
  | empty => exact List.Pairwise.nil
  | @insert h t t1 v d b it hr0 hins ih =>
    have ih' := ih (fun v d b hm => hd v d b (List.mem_cons_of_mem _ hm))
    have hdf : d = false := hd v d b (List.mem_cons_self _ _)
    obtain ⟨t2, b2, h2, -, -, hfalse, htrue⟩ := insert_spec hr0.wf v d
    rw [h2] at hins
    injection hins with e1 e2
    subst e1
    cases b2 with
    | false => rw [(hfalse rfl).1]; exact ih'
    | true =>
      obtain ⟨habs, -, -, pre, post, p1, p2, hpre, hpost⟩ := htrue rfl
      have habs' : ∀ e ∈ t.root_.entries, key e.2 ≠ key v := by
        rcases habs with habs | habs
        · rw [hdf] at habs; cases habs
        · exact habs
      unfold KeysStrict at ih' ⊢
      rw [p1] at ih' habs'
      rw [p2]
      exact pairwise_insert_mid_strict ih' hpre hpost habs'
  | @erase h t t1 pos hr0 her ih =>
    have ih' := ih (fun v d b hm => hd v d b (List.mem_cons_of_mem _ hm))
    obtain ⟨a, rfl, ha⟩ := erase_ok_pos her
    rcases erase_spec hr0.wf ha with ⟨h0, -⟩ | ⟨t2, h0, -, hent, -⟩
    · rw [h0] at her; cases her
    · rw [h0] at her
      injection her with e1 e2
      subst e1
      unfold KeysStrict at ih' ⊢
      rw [hent]
      exact ih'.sublist (List.filter_sublist _)

/-- C1. For every tree reached from the empty tree by insert and erase calls, the
in-order traversal yields the keys in non-decreasing order, and in strictly
increasing order when every insert was made with `allow_duplicates = false`. -/
theorem C1_inorder_keys_sorted [Inhabited α] {h : List (Event α)} {t : BinaryTree α}
    (hr : Reach key h t) :
    (t.root_.toList.map key).Pairwise (· ≤ ·) ∧
      ((∀ v d b, Event.ins v d b ∈ h → d = false) →
        (t.root_.toList.map key).Pairwise (· < ·)) :=
  ⟨keysSorted_toList hr.wf.sorted, fun hd => keysStrict_toList (hr.strict hd)⟩

end keyed

section keyed
variable [LinearOrder κ] {key : α → κ}

theorem entry_unique {L : List (Nat × α)} {a : Nat} {v w : α} (hn : (L.map Prod.fst).Nodup)
    (hv : (a, v) ∈ L) (hw : (a, w) ∈ L) : v = w := by
  induction L with
  | nil => simp at hv
  | cons x L ih =>
    simp only [List.map_cons, List.nodup_cons] at hn
    rcases List.mem_cons.1 hv with rfl | hv <;> rcases List.mem_cons.1 hw with h | hw
    · exact (Prod.mk.inj h).2.symm
    · exact absurd (List.mem_map_of_mem Prod.fst hw) hn.1
    · rw [← h] at hn; exact absurd (List.mem_map_of_mem Prod.fst hv) hn.1
    · exact ih hn.2 hv hw

/-- Dereferencing an iterator to a node of the tree yields the value that
node holds. -/
theorem star_of_entry {t : BinaryTree α} (hw : WF key t) {a : Nat} {v : α}
    (hm : (a, v) ∈ t.root_.entries) : t.star (some a) = .ok t v := by
  have ha : a ∈ t.root_.addrs := mem_addrs_iff.2 ⟨(a, v), hm, rfl⟩
  obtain ⟨e, he1, he2, -⟩ := hw.end_ok
  have hne : t.end_node_.addr? ≠ some a := by
    rw [he1]; intro h; exact he2 (Option.some.inj h ▸ ha)
  obtain ⟨n, hd⟩ := deref_isSome ha
  obtain ⟨C, hC⟩ := deref_eq_plug hd
  obtain ⟨hna, -⟩ := deref_some hd
  cases n with
  | null => simp [Node.addr?] at hna
  | mk b d l r p h =>
    simp only [Node.addr?, Option.some.injEq] at hna
    subst hna
    have hmem : (b, d) ∈ t.root_.entries := by
      rw [hC, entries_plug]; simp [Node.entries]
    have hnd := hw.nodup
    rw [addrs_eq_map] at hnd
    have := entry_unique hnd hm hmem
    subst this
    simp only [BinaryTree.star, if_neg hne, hd]

theorem size_eq_length {t : BinaryTree α} (hw : WF key t) :
    t.size = t.root_.toList.length := by
  rw [toList_eq_map, List.length_map]; exact hw.size_eq

/-- C4. `size()` is the number of nodes of the tree: after `k` inserts that
returned `inserted = true` and `j` erases that returned, `size() = k - j`; an
insert that returns `inserted = false` leaves `size()` as it was. -/
theorem C4_size_law [Inhabited α] {h : List (Event α)} {t : BinaryTree α}
    (hr : Reach key h t) :
    t.size = h.countP Event.isInserted - h.countP Event.isErase ∧
      h.countP Event.isErase ≤ h.countP Event.isInserted ∧
      t.size = t.root_.toList.length ∧
      ∀ v d t1 i, t.insert key v d = .ok t1 (i, false) → t1.size = t.size := by
  have hs : t.size + h.countP Event.isErase = h.countP Event.isInserted := by
    induction hr with
    | empty => rfl
    | @insert h t t1 v d b i hr0 hins ih =>
      obtain ⟨t2, b2, h2, -, -, hfalse, htrue⟩ := insert_spec hr0.wf v d
      rw [h2] at hins
      injection hins with e1 e2
      subst e1
      obtain rfl : b2 = b := (Prod.mk.inj e2).2
      cases b2 with
      | false =>
        rw [(hfalse rfl).1]
        simpa [List.countP_cons, Event.isInserted, Event.isErase] using ih
      | true =>
        have hsz : t2.size = t.size + 1 := (htrue rfl).2.1
        simp only [List.countP_cons, Event.isInserted, Event.isErase, hsz] at ih ⊢
        simp only [Bool.false_eq_true, if_false, if_true] at ih ⊢
        omega
    | @erase h t t1 pos hr0 her ih =>
      obtain ⟨a, rfl, ha⟩ := erase_ok_pos her
      rcases erase_spec hr0.wf ha with ⟨h0, -⟩ | ⟨t2, h0, -, -, hsz, -⟩
      · rw [h0] at her; cases her
      · rw [h0] at her
        injection her with e1 e2
        subst e1
        have hsz' : t2.size + 1 = t.size := hsz
        simp only [List.countP_cons, Event.isInserted, Event.isErase] at ih ⊢
        simp only [Bool.false_eq_true, if_false, if_true] at ih ⊢
        omega
  refine ⟨by omega, by omega, size_eq_length hr.wf, ?_⟩
  · intro v d t1 i hins
    obtain ⟨t2, b2, h2, -, -, hfalse, -⟩ := insert_spec hr.wf v d
    rw [h2] at hins
    injection hins with e1 e2
    subst e1
    obtain rfl : b2 = false := (Prod.mk.inj e2).2
    rw [(hfalse rfl).1]

end keyed

section keyed
variable [LinearOrder κ] {key : α → κ}

theorem mem_toList_iff {t : Node α} {v : α} : v ∈ t.toList ↔ ∃ a, (a, v) ∈ t.entries := by
  rw [toList_eq_map, List.mem_map]
  constructor
  · rintro ⟨⟨a, w⟩, he, rfl⟩; exact ⟨a, he⟩
  · rintro ⟨a, he⟩; exact ⟨(a, v), he, rfl⟩

/-- The descent of `find_node` ends on a node holding the key whenever the
sorted tree holds the key. -/
theorem find_node_hit {t : Node α} (hs : KeysSorted key t) {k : κ}
    (hex : ∃ e ∈ t.entries, key e.2 = k) :
    ∃ a v l r p h, find_node key t k = .mk a v l r p h ∧ (a, v) ∈ t.entries ∧ key v = k := by
  cases hf : find_node key t k with
  | null =>
    obtain ⟨e, he, hk⟩ := hex
    exact absurd hk ((find_node_null_iff hs k).1 hf e he)
  | mk a v l r p h =>
    obtain ⟨h1, h2⟩ := find_node_found hf
    exact ⟨a, v, l, r, p, h, rfl, h2, h1⟩

theorem end_ne_of_mem {t : BinaryTree α} (hw : WF key t) {a : Nat} (ha : a ∈ t.root_.addrs) :
    (some a : Ptr) ≠ t.end := by
  obtain ⟨e, he1, he2, -⟩ := hw.end_ok
  intro h
  rw [BinaryTree.end, he1] at h
  exact he2 (Option.some.inj h ▸ ha)

/-- C5. For every reachable tree and key `k`: when the tree holds an element
with key `k`, `find(k)` is an iterator to a node of the tree whose value has key
`k` (dereferencing it yields that value) and `contains(k)` is true; otherwise
`find(k)` is `end()` and `contains(k)` is false. -/
theorem C5_find_contains [Inhabited α] {t : BinaryTree α} (hr : Reachable key t) (k : κ) :
    ((∃ v ∈ t.root_.toList, key v = k) →
      ∃ a v, t.find key k = some a ∧ (a, v) ∈ t.root_.entries ∧ key v = k ∧
        t.star (t.find key k) = .ok t v ∧ t.contains key k = true) ∧
    ((∀ v ∈ t.root_.toList, key v ≠ k) →
      t.find key k = t.end ∧ t.contains key k = false) := by
  obtain ⟨h, hr⟩ := hr
  have hw := hr.wf
  constructor
  · rintro ⟨v, hv, hk⟩
    obtain ⟨a0, hv⟩ := mem_toList_iff.1 hv
    obtain ⟨a, w, l, r, p, hh, hf, hm, hkw⟩ := find_node_hit hw.sorted ⟨(a0, v), hv, hk⟩
    have hfind : t.find key k = some a := by simp only [BinaryTree.find, hf]
    refine ⟨a, w, hfind, hm, hkw, ?_, ?_⟩
    · rw [hfind]; exact star_of_entry hw hm
    · simp only [BinaryTree.contains, hfind, decide_eq_true_eq]
      exact end_ne_of_mem hw (mem_addrs_iff.2 ⟨(a, w), hm, rfl⟩)
  · intro habs
    have hnull : find_node key t.root_ k = .null := by
      rw [find_node_null_iff hw.sorted]
      intro e he
      exact habs e.2 (mem_toList_iff.2 ⟨e.1, he⟩)
    have hfind : t.find key k = t.end := by simp only [BinaryTree.find, hnull]
    exact ⟨hfind, by simp [BinaryTree.contains, hfind]⟩

/-- C6. On a reachable tree that already holds an element with the key of
`value`, `insert(value, false)` returns `inserted = false` with an iterator to a
node of the tree holding that key, and the tree it leaves is the tree it was
given: same nodes, same values (a map's mapped value is not overwritten), same
size. -/
theorem C6_insert_existing_key [Inhabited α] {t : BinaryTree α} (hr : Reachable key t)
    (value : α) (hex : ∃ x ∈ t.root_.toList, key x = key value) :
    ∃ a x, t.insert key value false = .ok t (some a, false) ∧
      (a, x) ∈ t.root_.entries ∧ key x = key value ∧ t.star (some a) = .ok t x := by
  obtain ⟨h, hr⟩ := hr
  have hw := hr.wf
  obtain ⟨x0, hx0, hk0⟩ := hex
  obtain ⟨a0, hx0⟩ := mem_toList_iff.1 hx0
  obtain ⟨t1, b, hins, -, -, hfalse, htrue⟩ := insert_spec hw value false
  cases b with
  | true =>
    rcases (htrue rfl).1 with h1 | h1
    · cases h1
    · exact absurd hk0 (h1 (a0, x0) hx0)
  | false =>
    obtain ⟨rfl, -⟩ := hfalse rfl
    obtain ⟨a, x, l, r, p, hh, hf, hm, hkx⟩ :=
      find_node_hit hw.sorted ⟨(a0, x0), hx0, hk0⟩
    rw [hf] at hins
    exact ⟨a, x, hins, hm, hkx, star_of_entry hw hm⟩

/-- C7. On a reachable tree that holds no element with the key of `value`,
`insert(value, allow_duplicates)` returns `(it, true)` with `*it = value`; the
in-order sequence becomes the old one with the new node's entry put in at the
sorted place (smaller keys before, larger keys after), every other node keeps
its place and value, and `size()` grows by exactly 1. -/
theorem C7_insert_absent_key [Inhabited α] {t : BinaryTree α} (hr : Reachable key t)
    (value : α) (dup : Bool) (habs : ∀ x ∈ t.root_.toList, key x ≠ key value) :
    ∃ t1 a, t.insert key value dup = .ok t1 (some a, true) ∧
      t1.star (some a) = .ok t1 value ∧ t1.size = t.size + 1 ∧
      ∃ pre post, t.root_.entries = pre ++ post ∧
        t1.root_.entries = pre ++ (a, value) :: post ∧
        t.root_.toList = pre.map Prod.snd ++ post.map Prod.snd ∧
        t1.root_.toList = pre.map Prod.snd ++ value :: post.map Prod.snd ∧
        (∀ e ∈ pre, key e.2 < key value) ∧ (∀ e ∈ post, key value < key e.2) := by
  obtain ⟨h, hr⟩ := hr
  have hw := hr.wf
  have habs' : ∀ e ∈ t.root_.entries, key e.2 ≠ key value := fun e he =>
    habs e.2 (mem_toList_iff.2 ⟨e.1, he⟩)
  obtain ⟨t1, b, hins, hw1, -, hfalse, htrue⟩ := insert_spec hw value dup
  cases b with
  | false =>
    obtain ⟨-, -, e, he, hk⟩ := hfalse rfl
    exact absurd hk (habs' e he)
  | true =>
    obtain ⟨-, hsz, -, pre, post, e1, e2, hpre, hpost⟩ := htrue rfl
    have hpre' : ∀ e ∈ pre, key e.2 < key value := fun e he =>
      lt_of_le_of_ne (hpre e he) (habs' e (by rw [e1]; exact List.mem_append_left _ he))
    have hnew : (t.fresh, value) ∈ t1.root_.entries := by rw [e2]; simp
    obtain ⟨a, x, l, r, p, hh, hf, hm, hkx⟩ :=
      find_node_hit hw1.sorted ⟨(t.fresh, value), hnew, rfl⟩
    have hax : (a, x) = (t.fresh, value) := by
      rw [e2] at hm
      rcases List.mem_append.1 hm with hm | hm
      · exact absurd hkx (ne_of_lt (hpre' _ hm))
      · rcases List.mem_cons.1 hm with hm | hm
        · exact hm
        · exact absurd hkx (ne_of_gt (hpost _ hm))
    obtain ⟨rfl, rfl⟩ := Prod.mk.inj hax
    rw [hf] at hins
    refine ⟨t1, t.fresh, hins, star_of_entry hw1 hnew, hsz, pre, post, e1, e2, ?_, ?_,
      hpre', hpost⟩
    · rw [toList_eq_map, e1, List.map_append]
    · rw [toList_eq_map, e2, List.map_append, List.map_cons]

end keyed

/-- C9. For every tree, `erase(end())` throws the `runtime_error` and the tree
is exactly as before (same nodes, size, min and max). -/
theorem C9_erase_end_throws (t : BinaryTree α) :
    t.erase t.end = .throws t (.runtime_error "Cannot erase end iterator") := by
  simp [BinaryTree.erase]

section keyed
variable [LinearOrder κ] {key : α → κ}

/-- What `run` ends in is reachable. -/
theorem run_reachable [Inhabited α] {ops : List (Op α κ)} {t t1 : BinaryTree α}
    (hr : Reachable key t) (h : run key t ops = .ok t1 ()) : Reachable key t1 := by
  induction ops generalizing t with
  | nil =>
    simp only [run] at h
    injection h with e1 e2
    exact e1 ▸ hr
  | cons op ops ih =>
    obtain ⟨hist, hr⟩ := hr
    cases op with
    | insert v d =>
      simp only [run] at h
      cases hins : t.insert key v d with
      | ok t2 r =>
        rw [hins] at h
        exact ih ⟨_, Reach.insert (i := r.1) (b := r.2) hr hins⟩ h
      | throws s e => rw [hins] at h; cases h
      | undefined => rw [hins] at h; cases h
      | out_of_fuel => rw [hins] at h; cases h
    | erase_key k =>
      simp only [run] at h
      cases her : t.erase (t.find key k) with
      | ok t2 r =>
        rw [her] at h
        exact ih ⟨_, Reach.erase hr her⟩ h
      | throws s e => rw [her] at h; cases h
      | undefined => rw [her] at h; cases h
      | out_of_fuel => rw [her] at h; cases h

end keyed

theorem demo_reach : Reach id demo_history demo_tree :=
  Reach.erase
    (Reach.insert (i := some 3)
      (Reach.insert (i := some 2)
        (Reach.insert (i := some 1) Reach.empty rfl) rfl) rfl) rfl

theorem C1_witness :
    (demo_tree.root_.toList.map id).Pairwise (· ≤ ·) ∧
      ((∀ v d b, Event.ins v d b ∈ demo_history → d = false) →
        (demo_tree.root_.toList.map id).Pairwise (· < ·)) :=
  C1_inorder_keys_sorted demo_reach

theorem C4_witness :
    demo_tree.size = demo_history.countP Event.isInserted - demo_history.countP Event.isErase ∧
      demo_history.countP Event.isErase ≤ demo_history.countP Event.isInserted ∧
      demo_tree.size = demo_tree.root_.toList.length ∧
      ∀ v d t1 i, demo_tree.insert id v d = .ok t1 (i, false) → t1.size = demo_tree.size :=
  C4_size_law demo_reach

theorem C5_witness :
    ((∃ v ∈ demo_tree.root_.toList, id v = 3) →
      ∃ a v, demo_tree.find id 3 = some a ∧ (a, v) ∈ demo_tree.root_.entries ∧ id v = 3 ∧
        demo_tree.star (demo_tree.find id 3) = .ok demo_tree v ∧
        demo_tree.contains id 3 = true) ∧
    ((∀ v ∈ demo_tree.root_.toList, id v ≠ 3) →
      demo_tree.find id 3 = demo_tree.end ∧ demo_tree.contains id 3 = false) :=
  C5_find_contains ⟨demo_history, demo_reach⟩ 3

theorem C6_witness :
    (∃ x ∈ demo_tree.root_.toList, id x = id 3) ∧
    ∃ a x, demo_tree.insert id 3 false = .ok demo_tree (some a, false) ∧
      (a, x) ∈ demo_tree.root_.entries ∧ id x = id 3 ∧
      demo_tree.star (some a) = .ok demo_tree x :=
  ⟨⟨3, by decide, rfl⟩,
    C6_insert_existing_key ⟨demo_history, demo_reach⟩ 3 ⟨3, by decide, rfl⟩⟩

theorem C7_witness :
    (∀ x ∈ demo_tree.root_.toList, id x ≠ id 1) ∧
    ∃ t1 a, demo_tree.insert id 1 false = .ok t1 (some a, true) ∧
      t1.star (some a) = .ok t1 1 ∧ t1.size = demo_tree.size + 1 ∧
      ∃ pre post, demo_tree.root_.entries = pre ++ post ∧
        t1.root_.entries = pre ++ (a, 1) :: post ∧
        demo_tree.root_.toList = pre.map Prod.snd ++ post.map Prod.snd ∧
        t1.root_.toList = pre.map Prod.snd ++ 1 :: post.map Prod.snd ∧
        (∀ e ∈ pre, id e.2 < id 1) ∧ (∀ e ∈ post, id 1 < id e.2) :=
  ⟨by decide, C7_insert_absent_key ⟨demo_history, demo_reach⟩ 1 false (by decide)⟩

/-- C2 fails on the code. After seven inserts and `erase(find(4))` the tree is
reachable and its node holding 5 (the root's right child) has an empty left
subtree and a right subtree of height 2, balance factor −2: `erase` updates and
rebalances the root only, not the ancestors of the removed node. -/
theorem C2_erase_leaves_unbalanced_node :
    run id BinaryTree.empty unbalanced_ops = .ok unbalanced_tree () ∧
      Reachable id unbalanced_tree ∧
      avl_balanced unbalanced_tree.root_ = false ∧
      get_balance_factor unbalanced_tree.root_.right? = -2 ∧
      true_height unbalanced_tree.root_.right?.left? = 0 ∧
      true_height unbalanced_tree.root_.right?.right? = 2 :=
  ⟨rfl, run_reachable ⟨[], Reach.empty⟩
    (show run id BinaryTree.empty unbalanced_ops = .ok unbalanced_tree () from rfl),
    by decide, by decide, by decide, by decide⟩

/-- C3 fails on the code. After `insert` of 2, 1, 3, 4 and `erase(find(4))` the
leaf holding 3 keeps the cached height 2 and the root the cached height 3:
`erase` calls `update_height` on the root only. -/
theorem C3_erase_leaves_stale_heights :
    run id BinaryTree.empty stale_ops = .ok stale_tree () ∧
      Reachable id stale_tree ∧
      heights_cached_ok stale_tree.root_ = false ∧
      get_height stale_tree.root_ = 3 ∧ true_height stale_tree.root_ = 2 :=
  ⟨rfl, run_reachable ⟨[], Reach.empty⟩
    (show run id BinaryTree.empty stale_ops = .ok stale_tree () from rfl), by decide, rfl, by decide⟩

/-- C8 fails on the code. `dangling_tree` is reachable; its root holds 1, has
two children, and its parent link still points to the erased former root
(`erase_node` does not reset the parent link of the child it promotes to root).
Erasing that root reads through this dangling link: undefined behaviour. -/
theorem C8_erase_root_after_root_erase_undefined :
    run id BinaryTree.empty dangling_ops = .ok dangling_tree () ∧
      Reachable id dangling_tree ∧
      dangling_tree.find id 1 = some 2 ∧
      dangling_tree.star (some 2) = .ok dangling_tree 1 ∧
      dangling_tree.root_.parent? = some 1 ∧ dangling_tree.root_.deref 1 = none ∧
      dangling_tree.erase (dangling_tree.find id 1) = .undefined :=
  ⟨rfl, run_reachable ⟨[], Reach.empty⟩
    (show run id BinaryTree.empty dangling_ops = .ok dangling_tree () from rfl), rfl, rfl, rfl, rfl, rfl⟩

/-- C10 fails on the code. Merging the reachable set {0, 1, 3} (`dangling_tree`)
into the set {0} must erase 1, the two-children root of the source, whose parent
link dangles: `merge` runs into the undefined behaviour of `erase`. -/
theorem C10_merge_hits_dangling_root :
    run id BinaryTree.empty [Op.insert 0 false] = .ok singleton_tree () ∧
      run id BinaryTree.empty dangling_ops = .ok dangling_tree () ∧
      singleton_tree.root_.toList = [0] ∧ dangling_tree.root_.toList = [0, 1, 3] ∧
      merge id singleton_tree dangling_tree false = .undefined :=
  ⟨rfl, rfl, rfl, rfl, rfl⟩


/-! ## Iterators -/

theorem ctxPost_concat (D : List (Frame α)) (fl : Frame α) :
    ctxPost (D ++ [fl]) = fl.post ++ ctxPost D := by
  induction D with
  | nil => simp [ctxPost]
  | cons g D ih => simp [ctxPost, ih]

theorem ctxPre_concat (D : List (Frame α)) (fl : Frame α) :
    ctxPre (D ++ [fl]) = ctxPre D ++ fl.pre := by
  induction D with
  | nil => simp [ctxPre]
  | cons g D ih => simp [ctxPre, ih]

theorem length_ctx_le (C : List (Frame α)) :
    C.length ≤ (ctxPre C).length + (ctxPost C).length := by
  induction C with
  | nil => simp
  | cons g C ih =>
    have hg : 1 ≤ g.pre.length + g.post.length := by
      unfold Frame.pre Frame.post
      split_ifs <;> simp
    simp only [ctxPre, ctxPost, List.length_append, List.length_cons]
    omega

theorem length_ctx_lt_addrs (C : List (Frame α)) {n : Node α} (hn : n ≠ .null) :
    C.length < (plug C n).addrs.length := by
  rw [addrs_eq_map, List.length_map, entries_plug]
  have h1 := length_ctx_le C
  have h2 : 1 ≤ n.entries.length := by
    cases n with
    | null => exact absurd rfl hn
    | mk a d l r p h => simp only [Node.entries, List.length_append, List.length_cons]; omega
  simp only [List.length_append]
  omega

theorem fill_addr (fl : Frame α) (m : Node α) : (fl.fill m).addr? = some fl.addr := by
  unfold Frame.fill; split_ifs <;> rfl

theorem fill_parent (fl : Frame α) (m : Node α) : (fl.fill m).parent? = fl.parent := by
  unfold Frame.fill; split_ifs <;> rfl

/-- The climbing loop of `operator++` from a node whose subtree is followed,
in order, by the entry of address `x`: it stops on `x` (the nearest ancestor
reached from its left child) and never reads through the root's parent link. -/
theorem climb_from_right_spec {root : Node α} (hn : root.addrs.Nodup) (hc : ChildrenOK root)
    (C : List (Frame α)) :
    ∀ (m : Node α) (b fuel : Nat), root = plug C m → m.addr? = some b → C.length < fuel →
      ∀ x d rest, ctxPost C = (x, d) :: rest →
        BinaryTree.climb_from_right root fuel b m.parent? = .ok () (some x) := by
  induction C using List.reverseRecOn with
  | nil =>
    intro m b fuel _ _ _ x d rest h
    simp [ctxPost] at h
  | append_singleton D fl ih =>
    intro m b fuel hr hb hf x d rest hpost
    obtain ⟨f, rfl⟩ : ∃ f, fuel = f + 1 := ⟨fuel - 1, by omega⟩
    subst hr
    have hpar : m.parent? = some fl.addr := by
      have := parentOK_hole hc
      cases m with
      | null => simp [Node.addr?] at hb
      | mk b0 d0 l0 r0 p0 h0 => exact this.1
    have hn2 : (plug D (fl.fill m)).addrs.Nodup := by rw [← plug_concat]; exact hn
    have hd : (plug (D ++ [fl]) m).deref fl.addr = some (fl.fill m) := by
      rw [plug_concat]; exact deref_plug hn2 (fill_addr fl m)
    rw [hpar]
    simp only [BinaryTree.climb_from_right, hd]
    rw [ctxPost_concat] at hpost
    obtain ⟨isL, fa, fd, sib, fp, fh⟩ := fl
    cases isL with
    | true =>
      have hsib : sib.addr? ≠ some b := fun e =>
        (addrs_fill_nodup (nodup_hole hn2)).2.2 b (addr_of_mem hb) (addr_of_mem e)
      have hx : x = fa := by
        simp only [Frame.post, if_true, List.cons_append, List.cons.injEq, Prod.mk.injEq] at hpost
        exact hpost.1.1.symm
      subst hx
      simp [Frame.fill, Node.right?, hsib]
    | false =>
      have hpost' : ctxPost D = (x, d) :: rest := by
        simpa [Frame.post] using hpost
      have hstep := ih (Frame.fill ⟨false, fa, fd, sib, fp, fh⟩ m) fa f
        (plug_concat D _ m) (fill_addr _ m) (by simp at hf; omega) x d rest hpost'
      simp only [Frame.fill, Bool.false_eq_true, if_false, Node.right?, hb, if_true,
        Node.parent?] at hstep ⊢
      exact hstep

/-- The climbing loop of `operator--`, mirror image of `climb_from_right_spec`. -/
theorem climb_from_left_spec {root : Node α} (hn : root.addrs.Nodup) (hc : ChildrenOK root)
    (C : List (Frame α)) :
    ∀ (m : Node α) (b fuel : Nat), root = plug C m → m.addr? = some b → C.length < fuel →
      ∀ x d rest, ctxPre C = rest ++ [(x, d)] →
        BinaryTree.climb_from_left root fuel b m.parent? = .ok () (some x) := by
  induction C using List.reverseRecOn with
  | nil =>
    intro m b fuel _ _ _ x d rest h
    simp [ctxPre] at h
  | append_singleton D fl ih =>
    intro m b fuel hr hb hf x d rest hpre
    obtain ⟨f, rfl⟩ : ∃ f, fuel = f + 1 := ⟨fuel - 1, by omega⟩
    subst hr
    have hpar : m.parent? = some fl.addr := by
      have := parentOK_hole hc
      cases m with
      | null => simp [Node.addr?] at hb
      | mk b0 d0 l0 r0 p0 h0 => exact this.1
    have hn2 : (plug D (fl.fill m)).addrs.Nodup := by rw [← plug_concat]; exact hn
    have hd : (plug (D ++ [fl]) m).deref fl.addr = some (fl.fill m) := by
      rw [plug_concat]; exact deref_plug hn2 (fill_addr fl m)
    rw [hpar]
    simp only [BinaryTree.climb_from_left, hd]
    rw [ctxPre_concat] at hpre
    obtain ⟨isL, fa, fd, sib, fp, fh⟩ := fl
    cases isL with
    | false =>
      have hsib : sib.addr? ≠ some b := fun e =>
        (addrs_fill_nodup (nodup_hole hn2)).2.2 b (addr_of_mem hb) (addr_of_mem e)
      have hx : x = fa := by
        simp only [Frame.pre, Bool.false_eq_true, if_false, ← List.append_assoc] at hpre
        have := List.append_inj' hpre rfl
        have h2 : x = fa ∧ d = fd := by simpa using this.2.symm
        exact h2.1
      subst hx
      simp [Frame.fill, Node.left?, hsib]
    | true =>
      have hpre' : ctxPre D = rest ++ [(x, d)] := by
        simpa [Frame.pre] using hpre
      have hstep := ih (Frame.fill ⟨true, fa, fd, sib, fp, fh⟩ m) fa f
        (plug_concat D _ m) (fill_addr _ m) (by simp at hf; omega) x d rest hpre'
      simp only [Frame.fill, if_true, Node.left?, hb, Node.parent?] at hstep ⊢
      exact hstep

theorem leftmost_entries {t : Node α} (hn : t ≠ .null) :
    ∃ a d rest, t.entries = (a, d) :: rest ∧ (leftmost_node t).addr? = some a := by
  obtain ⟨Cs, sa, sd, sr, sp, sh, e1, e2, e3⟩ := leftmost_plug hn
  refine ⟨sa, sd, sr.entries ++ ctxPost Cs, ?_, by rw [e2]; rfl⟩
  rw [e1, entries_plug, e3]
  simp [Node.entries]

theorem rightmost_entries {t : Node α} (hn : t ≠ .null) :
    ∃ a d rest, t.entries = rest ++ [(a, d)] ∧ (rightmost_node t).addr? = some a := by
  induction t with
  | null => exact absurd rfl hn
  | mk a d l r p h _ ihr =>
    cases r with
    | null => exact ⟨a, d, l.entries, by simp [Node.entries], rfl⟩
    | mk ra rd rl rr rp rh =>
      obtain ⟨b, w, rest, e1, e2⟩ := ihr (by simp)
      refine ⟨b, w, l.entries ++ (a, d) :: rest, ?_, ?_⟩
      · show l.entries ++ (a, d) :: (Node.mk ra rd rl rr rp rh).entries = _
        rw [e1]; simp
      · rw [← e2]; rfl

/-- In a list without repeated addresses an entry has one position. -/
theorem split_unique {xs ys xs1 ys1 : List (Nat × α)} {a : Nat} {v v1 : α}
    (hn : ((xs ++ (a, v) :: ys).map Prod.fst).Nodup)
    (h : xs ++ (a, v) :: ys = xs1 ++ (a, v1) :: ys1) : xs = xs1 ∧ v = v1 ∧ ys = ys1 := by
  induction xs generalizing xs1 with
  | nil =>
    cases xs1 with
    | nil =>
      simp only [List.nil_append, List.cons.injEq, Prod.mk.injEq, true_and] at h
      exact ⟨rfl, h.1, h.2⟩
    | cons y xs1 =>
      simp only [List.nil_append, List.cons_append, List.cons.injEq] at h
      obtain ⟨rfl, rfl⟩ := h
      simp at hn
  | cons x xs ih =>
    cases xs1 with
    | nil =>
      simp only [List.nil_append, List.cons_append, List.cons.injEq] at h
      obtain ⟨rfl, rfl⟩ := h
      simp at hn
    | cons y xs1 =>
      simp only [List.cons_append, List.cons.injEq] at h
      simp only [List.cons_append, List.map_cons, List.nodup_cons] at hn
      obtain ⟨h1, h2, h3⟩ := ih hn.2 h.2
      exact ⟨by rw [h.1, h1], h2, h3⟩

section keyed
variable [LinearOrder κ] {key : α → κ}

theorem wf_entries_nodup {t : BinaryTree α} (hw : WF key t) :
    (t.root_.entries.map Prod.fst).Nodup := by
  rw [← addrs_eq_map]; exact hw.nodup

/-- The entries around a node of the tree, read off its context. -/
theorem entries_around {t : BinaryTree α} (hw : WF key t) {xs S : List (Nat × α)} {a : Nat}
    {v : α} (he : t.root_.entries = xs ++ (a, v) :: S) :
    ∃ C l r p h, t.root_ = plug C (.mk a v l r p h) ∧
      t.root_.deref a = some (.mk a v l r p h) ∧
      xs = ctxPre C ++ l.entries ∧ S = r.entries ++ ctxPost C := by
  have ha : a ∈ t.root_.addrs := mem_addrs_iff.2 ⟨(a, v), by rw [he]; simp, rfl⟩
  obtain ⟨n, hd⟩ := deref_isSome ha
  obtain ⟨C, hC⟩ := deref_eq_plug hd
  obtain ⟨hna, -⟩ := deref_some hd
  cases n with
  | null => simp [Node.addr?] at hna
  | mk b d l r p h =>
    simp only [Node.addr?, Option.some.injEq] at hna
    subst hna
    have he2 : t.root_.entries = (ctxPre C ++ l.entries) ++ (b, d) :: (r.entries ++ ctxPost C) := by
      rw [hC, entries_plug]; simp [Node.entries]
    have hnd := wf_entries_nodup hw
    rw [he] at hnd
    obtain ⟨h1, h2, h3⟩ := split_unique hnd (he.symm.trans he2)
    subst h2
    exact ⟨C, l, r, p, h, hC, hd, h1, h3⟩

theorem max_node_of_entries {t : BinaryTree α} (hw : WF key t) {xs : List (Nat × α)} {a : Nat}
    {v : α} (he : t.root_.entries = xs ++ [(a, v)]) : t.max_node_ = some a := by
  have hne : t.root_ ≠ .null := by
    intro h; rw [h] at he; simp [Node.entries] at he
  obtain ⟨b, w, rest, e1, e2⟩ := rightmost_entries hne
  rw [hw.max_ok, e2]
  have := List.append_inj' (e1.symm.trans he) rfl
  have h2 : b = a ∧ w = v := by simpa using this.2
  rw [h2.1]

theorem min_node_of_entries {t : BinaryTree α} (hw : WF key t) {ys : List (Nat × α)} {a : Nat}
    {v : α} (he : t.root_.entries = (a, v) :: ys) : t.min_node_ = some a := by
  have hne : t.root_ ≠ .null := by
    intro h; rw [h] at he; simp [Node.entries] at he
  obtain ⟨b, w, rest, e1, e2⟩ := leftmost_entries hne
  rw [hw.min_ok, e2]
  have h2 := e1.symm.trans he
  simp only [List.cons.injEq, Prod.mk.injEq] at h2
  rw [h2.1.1]

/-- `begin()` is the iterator to the first in-order entry, `end()` on an
empty tree. -/
theorem begin_eq {t : BinaryTree α} (hw : WF key t) :
    t.begin = headPtr t.root_.entries t.end := by
  cases hroot : t.root_ with
  | null => simp [BinaryTree.begin, hroot, Node.entries, headPtr]
  | mk a d l r p h =>
    obtain ⟨b, w, rest, e1, -⟩ := leftmost_entries (t := t.root_) (by rw [hroot]; simp)
    have := min_node_of_entries hw e1
    rw [hroot] at e1
    simp only [BinaryTree.begin, hroot, e1, headPtr, this]

/-- `operator++` on an iterator to a node of the tree: the iterator to the next
in-order entry, `end()` after the last one. -/
theorem incr_spec {t : BinaryTree α} (hw : WF key t) {xs S : List (Nat × α)} {a : Nat} {v : α}
    (he : t.root_.entries = xs ++ (a, v) :: S) :
    t.incr (some a) = .ok t (headPtr S t.end) := by
  have ha : a ∈ t.root_.addrs := mem_addrs_iff.2 ⟨(a, v), by rw [he]; simp, rfl⟩
  have hend : (some a : Ptr) ≠ t.end_node_.addr? := end_ne_of_mem hw ha
  obtain ⟨C, l, r, p, h, hC, hd, h1, h3⟩ := entries_around hw he
  unfold BinaryTree.incr
  rw [if_neg hend]
  cases S with
  | nil =>
    rw [if_pos (max_node_of_entries hw he).symm]
    rfl
  | cons y S1 =>
    have hmax : (some a : Ptr) ≠ t.max_node_ := by
      intro hm
      have hne : t.root_ ≠ .null := by
        intro h0; rw [h0] at he; simp [Node.entries] at he
      obtain ⟨b, w, rest, e1, e2⟩ := rightmost_entries hne
      rw [hw.max_ok, e2] at hm
      obtain rfl : a = b := Option.some.inj hm
      have hnd := wf_entries_nodup hw
      rw [he] at hnd
      have := (split_unique hnd (he.symm.trans e1)).2.2
      simp at this
    rw [if_neg hmax]
    simp only [hd]
    cases r with
    | mk ra rd rl rr rp rh =>
      obtain ⟨b, w, rest, e1, e2⟩ :=
        leftmost_entries (t := Node.mk ra rd rl rr rp rh) (by simp)
      rw [e1] at h3
      simp only [List.cons_append, List.cons.injEq] at h3
      simp only [Node.right?, e2, headPtr, h3.1]
    | null =>
      simp only [Node.entries, List.nil_append] at h3
      have hcl := climb_from_right_spec hw.nodup hw.children C (.mk a v l .null p h) a
        (t.root_.addrs.length + 1) hC rfl
        (by rw [hC]; exact Nat.lt_succ_of_lt (length_ctx_lt_addrs C (by simp)))
        y.1 y.2 S1 h3.symm
      simp only [Node.parent?] at hcl
      simp only [Node.right?, Node.parent?, hcl, headPtr]

/-- `operator--` on an iterator to a node that is not the first: the iterator
to the previous in-order entry. -/
theorem decr_spec {t : BinaryTree α} (hw : WF key t) {xs S : List (Nat × α)} {a b : Nat}
    {v w : α} (he : t.root_.entries = xs ++ (b, w) :: (a, v) :: S) :
    t.decr (some a) = .ok t (some b) := by
  have he' : t.root_.entries = (xs ++ [(b, w)]) ++ (a, v) :: S := by rw [he]; simp
  have ha : a ∈ t.root_.addrs := mem_addrs_iff.2 ⟨(a, v), by rw [he]; simp, rfl⟩
  have hend : (some a : Ptr) ≠ t.end_node_.addr? := end_ne_of_mem hw ha
  obtain ⟨C, l, r, p, h, hC, hd, h1, h3⟩ := entries_around hw he'
  have hmin : (some a : Ptr) ≠ t.min_node_ := by
    intro hm
    have hne : t.root_ ≠ .null := by
      intro h0; rw [h0] at he; simp [Node.entries] at he
    obtain ⟨c, u, rest, e1, e2⟩ := leftmost_entries hne
    rw [hw.min_ok, e2] at hm
    obtain rfl : a = c := Option.some.inj hm
    have hnd := wf_entries_nodup hw
    rw [he'] at hnd
    have e1' : t.root_.entries = [] ++ (a, u) :: rest := e1
    have := (split_unique hnd (he'.symm.trans e1')).1
    simp at this
  unfold BinaryTree.decr
  rw [if_neg hmin, if_neg hend]
  simp only [hd]
  cases l with
  | mk la ld ll lr lp lh =>
    obtain ⟨c, u, rest, e1, e2⟩ :=
      rightmost_entries (t := Node.mk la ld ll lr lp lh) (by simp)
    rw [e1, ← List.append_assoc] at h1
    have := List.append_inj' h1 rfl
    have h2 : b = c ∧ w = u := by simpa using this.2
    simp only [Node.left?, e2, h2.1]
  | null =>
    simp only [Node.entries, List.append_nil] at h1
    have hcl := climb_from_left_spec hw.nodup hw.children C (.mk a v .null r p h) a
      (t.root_.addrs.length + 1) hC rfl
      (by rw [hC]; exact Nat.lt_succ_of_lt (length_ctx_lt_addrs C (by simp)))
      b w xs h1.symm
    simp only [Node.parent?] at hcl
    simp only [Node.left?, Node.parent?, hcl]

/-- `operator--` on `end()` of a non-empty tree: the iterator to the last entry. -/
theorem decr_end_spec {t : BinaryTree α} (hw : WF key t) {xs : List (Nat × α)} {b : Nat}
    {w : α} (he : t.root_.entries = xs ++ [(b, w)]) : t.decr t.end = .ok t (some b) := by
  have hne : t.root_ ≠ .null := by
    intro h0; rw [h0] at he; simp [Node.entries] at he
  obtain ⟨c, u, rest, e1, e2⟩ := leftmost_entries hne
  have hc : c ∈ t.root_.addrs := mem_addrs_iff.2 ⟨(c, u), by rw [e1]; simp, rfl⟩
  have hmin : t.end ≠ t.min_node_ := by
    rw [hw.min_ok, e2]; exact fun h => end_ne_of_mem hw hc h.symm
  unfold BinaryTree.decr
  rw [if_neg hmin, if_pos (show t.end = t.end_node_.addr? from rfl),
    max_node_of_entries hw he]

/-- `operator--` on `begin()` of a non-empty tree throws. -/
theorem decr_begin_throws (t : BinaryTree α) (hne : t.root_ ≠ .null) :
    t.decr t.begin = .throws t (.runtime_error "Decrementing past begin iterator") := by
  cases hroot : t.root_ with
  | null => exact absurd hroot hne
  | mk a d l r p h => simp [BinaryTree.decr, BinaryTree.begin, hroot]

/-- The traversal loop from the iterator to the first of the remaining
entries `ys` visits exactly `ys`, in order, and stops at `end()`. -/
theorem traverse_spec {t : BinaryTree α} (hw : WF key t) (ys : List (Nat × α)) :
    ∀ (xs : List (Nat × α)) (fuel : Nat), t.root_.entries = xs ++ ys → ys.length < fuel →
      t.traverse fuel (headPtr ys t.end) = .ok t (ys.map (fun e => (some e.1, e.2))) := by
  induction ys with
  | nil =>
    intro xs fuel _ hf
    obtain ⟨f, rfl⟩ : ∃ f, fuel = f + 1 := ⟨fuel - 1, by simp at hf; omega⟩
    simp [BinaryTree.traverse, headPtr]
  | cons y ys ih =>
    intro xs fuel he hf
    obtain ⟨f, rfl⟩ : ∃ f, fuel = f + 1 := ⟨fuel - 1, by omega⟩
    obtain ⟨a, v⟩ := y
    have hm : (a, v) ∈ t.root_.entries := by rw [he]; simp
    have ha : a ∈ t.root_.addrs := mem_addrs_iff.2 ⟨(a, v), hm, rfl⟩
    have hih := ih (xs ++ [(a, v)]) f (by rw [he]; simp) (by simp at hf; omega)
    have hhead : headPtr ((a, v) :: ys) t.end = some a := rfl
    rw [hhead]
    simp only [BinaryTree.traverse, if_neg (end_ne_of_mem hw ha),
      star_of_entry hw hm, incr_spec hw he, hih, List.map_cons]

end keyed

section keyed
variable [LinearOrder κ] {key : α → κ}

theorem advance_spec {t : BinaryTree α} (hw : WF key t) (ys : List (Nat × α)) :
    ∀ xs : List (Nat × α), t.root_.entries = xs ++ ys →
      t.advance ys.length (headPtr ys t.end) = .ok t t.end := by
  induction ys with
  | nil => intro xs _; rfl
  | cons y ys ih =>
    intro xs he
    obtain ⟨a, v⟩ := y
    have hih := ih (xs ++ [(a, v)]) (by rw [he]; simp)
    have hhead : headPtr ((a, v) :: ys) t.end = some a := rfl
    rw [hhead]
    simp only [List.length_cons, BinaryTree.advance, incr_spec hw he, hih]

/-- C13. On every reachable tree the loop `for (it = begin(); it != end(); ++it)`
runs to completion (any step bound above `size()` is enough) and visits exactly
the nodes of the tree, each once, in in-order, dereferencing to their values in
non-decreasing key order; `size()` increments take `begin()` to `end()`. -/
theorem C13_increment_visits_in_order [Inhabited α] {t : BinaryTree α}
    (hr : Reachable key t) (fuel : Nat) (hf : t.size < fuel) :
    t.traverse fuel t.begin = .ok t (t.root_.entries.map (fun e => (some e.1, e.2))) ∧
      (t.root_.entries.map (fun e => (some e.1, e.2))).length = t.size ∧
      ((t.root_.entries.map (fun e => ((some e.1 : Ptr), e.2))).map Prod.fst).Nodup ∧
      (t.root_.entries.map (fun e => ((some e.1 : Ptr), e.2))).map Prod.snd = t.root_.toList ∧
      (t.root_.toList.map key).Pairwise (· ≤ ·) ∧
      t.advance t.size t.begin = .ok t t.end := by
  obtain ⟨h, hr⟩ := hr
  have hw := hr.wf
  have hsz : t.size = t.root_.entries.length := hw.size_eq
  refine ⟨?_, ?_, ?_, ?_, keysSorted_toList hw.sorted, ?_⟩
  · rw [begin_eq hw]
    exact traverse_spec hw _ [] fuel rfl (by rw [← hsz]; exact hf)
  · rw [List.length_map, hsz]
  · rw [List.map_map]
    have hnd := wf_entries_nodup hw
    have : (Prod.fst ∘ fun e : Nat × α => ((some e.1 : Ptr), e.2)) = some ∘ Prod.fst := rfl
    rw [this, ← List.map_map]
    exact hnd.map (Option.some_injective _)
  · rw [List.map_map, toList_eq_map]
    rfl
  · rw [begin_eq hw, hsz]
    exact advance_spec hw _ [] rfl

/-- C14. On every reachable tree decrement undoes increment and increment undoes
decrement: for an iterator to a node of the tree, `--(++it)` is `it`; for an
iterator to a node of the tree or `end()`, other than `begin()`, `++(--it)` is
`it` (the decrement of `end()` being the iterator to the last node). -/
theorem C14_decrement_inverts_increment [Inhabited α] {t : BinaryTree α}
    (hr : Reachable key t) :
    (∀ a ∈ t.root_.addrs, ∃ x, t.incr (some a) = .ok t x ∧ t.decr x = .ok t (some a)) ∧
    (∀ it : Ptr, (it = t.end ∨ ∃ a ∈ t.root_.addrs, it = some a) → it ≠ t.begin →
      ∃ x, t.decr it = .ok t x ∧ t.incr x = .ok t it) := by
  obtain ⟨h, hr⟩ := hr
  have hw := hr.wf
  constructor
  · intro a ha
    obtain ⟨e, he, rfl⟩ := mem_addrs_iff.1 ha
    obtain ⟨xs, S, hsplit⟩ := List.append_of_mem he
    obtain ⟨a, v⟩ := e
    refine ⟨headPtr S t.end, incr_spec hw hsplit, ?_⟩
    cases S with
    | nil => exact decr_end_spec hw hsplit
    | cons y S1 =>
      obtain ⟨b, w⟩ := y
      exact decr_spec hw hsplit
  · intro it hit hnb
    rw [begin_eq hw] at hnb
    rcases hit with rfl | ⟨a, ha, rfl⟩
    · rcases eq_nil_or_snoc t.root_.entries with h0 | ⟨xs, y, hsplit⟩
      · rw [h0] at hnb; exact absurd rfl hnb
      · obtain ⟨b, w⟩ := y
        exact ⟨some b, decr_end_spec hw hsplit, incr_spec hw hsplit⟩
    · obtain ⟨e, he, rfl⟩ := mem_addrs_iff.1 ha
      obtain ⟨xs, S, hsplit⟩ := List.append_of_mem he
      obtain ⟨a, v⟩ := e
      rcases eq_nil_or_snoc xs with rfl | ⟨xs1, y, rfl⟩
      · rw [hsplit] at hnb; exact absurd rfl hnb
      · obtain ⟨b, w⟩ := y
        have hsplit' : t.root_.entries = xs1 ++ (b, w) :: (a, v) :: S := by
          rw [hsplit]; simp
        exact ⟨some b, decr_spec hw hsplit', incr_spec hw hsplit'⟩

end keyed

/-- C15. For every tree, incrementing the iterator returned by `end()` throws
the `runtime_error`, the tree being untouched. -/
theorem C15_increment_end_throws (t : BinaryTree α) :
    t.incr t.end = .throws t (.runtime_error "Incrementing past end iterator") := by
  simp [BinaryTree.incr, BinaryTree.end]

/-- C16 fails on the code. On the empty tree `begin()` is `end()`, the cached
minimum is null, so `operator--` does not take its throwing branch: it moves the
iterator to the cached maximum, which is null, and returns normally. -/
theorem C16_decrement_begin_of_empty_returns :
    (BinaryTree.empty : BinaryTree Nat).begin = (BinaryTree.empty : BinaryTree Nat).end ∧
      (BinaryTree.empty : BinaryTree Nat).min_node_ = none ∧
      (BinaryTree.empty : BinaryTree Nat).decr (BinaryTree.empty : BinaryTree Nat).begin =
        .ok BinaryTree.empty none :=
  ⟨rfl, rfl, rfl⟩

/-- C17 fails on the code. `operator*` throws only on a null `node_`; `end()`
holds the sentinel node, so dereferencing it returns the sentinel's `T{}`
payload (0 for `int`) instead of throwing. -/
theorem C17_dereference_end_returns_default :
    (BinaryTree.empty : BinaryTree Nat).star (BinaryTree.empty : BinaryTree Nat).end =
        .ok BinaryTree.empty 0 ∧
      demo_tree.end = some 0 ∧ demo_tree.star demo_tree.end = .ok demo_tree 0 ∧
      demo_tree.star none =
        .throws demo_tree (.runtime_error "Dereferencing end iterator") :=
  ⟨rfl, rfl, rfl, rfl⟩

/-- C11 fails on the code. Both trees are built by inserts only and are
balanced; the merge moves 4 from the source to the destination, and the source's
`erase` leaves the node holding 5 with balance factor −2 (sizes stay consistent:
6 + 7 = 7 + 6). -/
theorem C11_merge_leaves_source_unbalanced :
    run id BinaryTree.empty merge_dest_ops = .ok merge_dest () ∧
      run id BinaryTree.empty merge_source_ops = .ok merge_source () ∧
      avl_balanced merge_dest.root_ = true ∧ avl_balanced merge_source.root_ = true ∧
      merge id merge_dest merge_source false = .ok (merged_dest, merged_source) () ∧
      avl_balanced merged_dest.root_ = true ∧
      avl_balanced merged_source.root_ = false ∧
      get_balance_factor merged_source.root_.right? = -2 ∧
      merged_dest.size + merged_source.size = merge_dest.size + merge_source.size :=
  ⟨rfl, rfl, by decide, by decide, rfl, by decide, by decide, by decide, rfl⟩

/-- C12 fails on the code. `triple_tree` is the multiset {3, 3, 3} whose
two-children root has a dangling parent link; `nine_tree` is built by nine
inserts alone. Merging either into an empty multiset runs into the undefined
behaviour of `erase` on a two-children root with a non-null parent link (in the
second case the link is left dangling by an earlier erase of the same merge). -/
theorem C12_multiset_merge_undefined :
    run id BinaryTree.empty triple_ops = .ok triple_tree () ∧
      merge id BinaryTree.empty triple_tree true = .undefined ∧
      run id BinaryTree.empty nine_ops = .ok nine_tree () ∧
      merge id BinaryTree.empty nine_tree true = .undefined :=
  ⟨rfl, rfl, rfl, rfl⟩

theorem C13_witness :
    demo_tree.size < 3 ∧
    demo_tree.traverse 3 demo_tree.begin =
        .ok demo_tree (demo_tree.root_.entries.map (fun e => (some e.1, e.2))) ∧
      (demo_tree.root_.entries.map (fun e => (some e.1, e.2))).length = demo_tree.size ∧
      ((demo_tree.root_.entries.map (fun e => ((some e.1 : Ptr), e.2))).map Prod.fst).Nodup ∧
      (demo_tree.root_.entries.map (fun e => ((some e.1 : Ptr), e.2))).map Prod.snd =
        demo_tree.root_.toList ∧
      (demo_tree.root_.toList.map id).Pairwise (· ≤ ·) ∧
      demo_tree.advance demo_tree.size demo_tree.begin = .ok demo_tree demo_tree.end :=
  ⟨by decide, C13_increment_visits_in_order ⟨demo_history, demo_reach⟩ 3 (by decide)⟩

theorem C14_witness :
    (∀ a ∈ demo_tree.root_.addrs,
      ∃ x, demo_tree.incr (some a) = .ok demo_tree x ∧ demo_tree.decr x = .ok demo_tree (some a)) ∧
    (∀ it : Ptr, (it = demo_tree.end ∨ ∃ a ∈ demo_tree.root_.addrs, it = some a) →
      it ≠ demo_tree.begin →
      ∃ x, demo_tree.decr it = .ok demo_tree x ∧ demo_tree.incr x = .ok demo_tree it) :=
  C14_decrement_inverts_increment ⟨demo_history, demo_reach⟩

/-! ## `multiset` lookup and `map::at` -/

section ordered
variable [LinearOrder α]

end ordered


section keyed
variable [LinearOrder κ] {key : α → κ}

/-- With strictly increasing keys an entry is determined by its key. -/
theorem entry_of_key_unique {L : List (Nat × α)}
    (hs : L.Pairwise (fun e f => key e.2 < key f.2)) {e f : Nat × α} (he : e ∈ L)
    (hf : f ∈ L) (hk : key e.2 = key f.2) : e = f := by
  induction L with
  | nil => simp at he
  | cons x L ih =>
    rw [List.pairwise_cons] at hs
    rcases List.mem_cons.1 he with rfl | he1 <;> rcases List.mem_cons.1 hf with rfl | hf1
    · rfl
    · exact absurd hk (ne_of_lt (hs.1 f hf1))
    · exact absurd hk (ne_of_gt (hs.1 e he1))
    · exact ih hs.2 he1 hf1

end keyed

/-- C20. For every reachable map `m` and key `k`: when `m` holds an entry with
key `k`, `at(k)` returns the mapped value of such an entry — the only one when
no insert allowed duplicates, as the map's own inserts do; when it holds none,
`at(k)` throws `out_of_range`; in both cases the map is as before. So `at(k)`
fails exactly when `k` is absent. -/
theorem C20_map_at {μ : Type} [LinearOrder κ] [Inhabited (κ × μ)]
    {h : List (Event (κ × μ))} {m : BinaryTree (κ × μ)} (hr : Reach Prod.fst h m) (k : κ) :
    ((∃ v, (k, v) ∈ m.root_.toList) →
      ∃ v, map.at m k = .ok m v ∧ (k, v) ∈ m.root_.toList ∧
        ((∀ x d b, Event.ins x d b ∈ h → d = false) →
          ∀ w, (k, w) ∈ m.root_.toList → w = v)) ∧
    ((∀ v, (k, v) ∉ m.root_.toList) →
      map.at m k = .throws m (.out_of_range "Key not found")) := by
  have hw := hr.wf
  constructor
  · rintro ⟨v0, hv0⟩
    obtain ⟨a0, hv0⟩ := mem_toList_iff.1 hv0
    obtain ⟨a, x, l, r, p, hh, hf, hm, hkx⟩ :=
      find_node_hit hw.sorted (k := k) ⟨(a0, (k, v0)), hv0, rfl⟩
    obtain ⟨k1, v⟩ := x
    obtain rfl : k1 = k := hkx
    have hfind : m.find Prod.fst k1 = some a := by simp only [BinaryTree.find, hf]
    have hne : (some a : Ptr) ≠ m.end :=
      end_ne_of_mem hw (mem_addrs_iff.2 ⟨(a, (k1, v)), hm, rfl⟩)
    refine ⟨v, ?_, mem_toList_iff.2 ⟨a, hm⟩, ?_⟩
    · simp only [map.at, hfind, if_neg hne, star_of_entry hw hm]
    · intro hd w hwm
      obtain ⟨b, hwm⟩ := mem_toList_iff.1 hwm
      have hs : KeysStrict Prod.fst m.root_ := hr.strict hd
      have := entry_of_key_unique hs hwm hm rfl
      exact (Prod.mk.inj (Prod.mk.inj this).2).2
  · intro habs
    have hnull : find_node Prod.fst m.root_ k = .null := by
      rw [find_node_null_iff hw.sorted]
      intro e he hk
      obtain ⟨a, k1, v⟩ := e
      obtain rfl : k1 = k := hk
      exact habs v (mem_toList_iff.2 ⟨a, he⟩)
    have hfind : m.find Prod.fst k = m.end := by simp only [BinaryTree.find, hnull]
    simp only [map.at, hfind, if_true]

theorem multi_reachable : Reachable id multi_tree :=
  run_reachable ⟨[], Reach.empty⟩
    (show run id BinaryTree.empty multi_ops = .ok multi_tree () from rfl)

theorem map_demo_reach : Reach Prod.fst map_demo_history map_demo :=
  Reach.insert (i := some 2) (Reach.insert (i := some 1) Reach.empty rfl) rfl

theorem C20_witness :
    ((∃ v, (2, v) ∈ map_demo.root_.toList) →
      ∃ v, map.at map_demo 2 = .ok map_demo v ∧ (2, v) ∈ map_demo.root_.toList ∧
        ((∀ x d b, Event.ins x d b ∈ map_demo_history → d = false) →
          ∀ w, (2, w) ∈ map_demo.root_.toList → w = v)) ∧
    ((∀ v, (2, v) ∉ map_demo.root_.toList) →
      map.at map_demo 2 = .throws map_demo (.out_of_range "Key not found")) :=
  C20_map_at map_demo_reach 2

/-! ## `clear`, copy construction and writes through iterators -/

theorem copy_tree_spec (n : Node α) : ∀ (fresh : Nat) (p : Ptr),
    (copy_tree n fresh p).1.toList = n.toList ∧
    (copy_tree n fresh p).2 = fresh + n.addrs.length ∧
    (∀ x ∈ (copy_tree n fresh p).1.addrs, fresh ≤ x ∧ x < (copy_tree n fresh p).2) ∧
    (copy_tree n fresh p).1.addrs.Nodup ∧
    ParentOK (copy_tree n fresh p).1 p ∧ HeightsPos (copy_tree n fresh p).1 := by
  induction n with
  | null =>
    intro fresh p
    simp [copy_tree, Node.toList, Node.addrs, ParentOK, HeightsPos]
  | mk a d l r q h ihl ihr =>
    intro fresh p
    obtain ⟨l1, l2, l3, l4, l5, l6⟩ := ihl (fresh + 1) (some fresh)
    obtain ⟨r1, r2, r3, r4, r5, r6⟩ := ihr (copy_tree l (fresh + 1) (some fresh)).2 (some fresh)
    simp only [copy_tree]
    refine ⟨?_, ?_, ?_, ?_, ⟨rfl, l5, r5⟩, ⟨le_refl _, l6, r6⟩⟩
    · simp only [Node.toList, l1, r1]
    · rw [r2, l2]; simp only [Node.addrs, List.length_append, List.length_cons]; omega
    · intro x hx
      simp only [Node.addrs, List.mem_append, List.mem_cons] at hx
      have hle : (copy_tree l (fresh + 1) (some fresh)).2 ≤
          (copy_tree r (copy_tree l (fresh + 1) (some fresh)).2 (some fresh)).2 := by
        rw [r2]; omega
      have hle2 : fresh + 1 ≤ (copy_tree l (fresh + 1) (some fresh)).2 := by
        rw [l2]; omega
      rcases hx with hx | rfl | hx
      · have := l3 x hx; omega
      · omega
      · have := r3 x hx; omega
    · have hle2 : fresh + 1 ≤ (copy_tree l (fresh + 1) (some fresh)).2 := by
        rw [l2]; omega
      simp only [Node.addrs]
      rw [List.nodup_append]
      refine ⟨l4, ?_, ?_⟩
      · rw [List.nodup_cons]
        exact ⟨fun hx => by have := r3 _ hx; omega, r4⟩
      · intro x hx hy
        have h1 := l3 x hx
        rcases List.mem_cons.1 hy with rfl | hy
        · omega
        · have := r3 x hy; omega

/-- A relation on keys holds pairwise along the entries as soon as it does
along a list with the same keys in the same order. -/
theorem pairwise_key_congr {β γ ι : Type} {f : β → ι} {g : γ → ι} {L : List β} {L1 : List γ}
    (h : L1.map g = L.map f) (R : ι → ι → Prop)
    (hp : L.Pairwise (fun e e1 => R (f e) (f e1))) :
    L1.Pairwise (fun e e1 => R (g e) (g e1)) := by
  have h1 : (L.map f).Pairwise R := List.pairwise_map.2 hp
  rw [← h] at h1
  exact List.pairwise_map.1 h1

section keyed
variable [LinearOrder κ] {key : α → κ}

theorem wf_clear {t : BinaryTree α} (hw : WF key t) : WF key t.clear := by
  obtain ⟨e, he1, -, he3⟩ := hw.end_ok
  refine ⟨List.nodup_nil, trivial, trivial, List.Pairwise.nil, ?_, ?_, rfl,
    ⟨e, he1, by simp [BinaryTree.clear, Node.addrs], he3⟩, rfl, rfl⟩
  · intro p hp; simp [BinaryTree.clear, Node.parent?] at hp
  · intro x hx; simp [BinaryTree.clear, Node.addrs] at hx

/-- The copy constructor always returns: it builds a tree of new nodes holding
the same values in the same in-order sequence, with the size of the source. -/
theorem copy_spec [Inhabited α] {t : BinaryTree α} (hw : WF key t) :
    ∃ c, BinaryTree.copy t = some c ∧ WF key c ∧ c.root_.toList = t.root_.toList ∧
      c.size_ = t.size_ ∧ c.fresh = t.size_ + 1 ∧
      c.end_node_ = Node.mk 0 default Node.null Node.null none 1 := by
  obtain ⟨c1, c2, c3, c4, c5, c6⟩ := copy_tree_spec t.root_ 1 none
  obtain ⟨root1, hb⟩ := balance_total c6
  have hent := balance_entries hb
  have haddr : root1.addrs = (copy_tree t.root_ 1 none).1.addrs := by
    rw [addrs_eq_map, addrs_eq_map, hent]
  have hlist : root1.toList = t.root_.toList := by
    rw [toList_eq_map, hent, ← toList_eq_map, c1]
  have hlen : t.root_.addrs.length = t.size_ := by
    rw [hw.size_eq, addrs_eq_map, List.length_map]
  refine ⟨BinaryTree.update_min_max_nodes
      { root_ := root1, min_node_ := none, max_node_ := none,
        end_node_ := Node.mk 0 default Node.null Node.null none 1,
        size_ := t.size_, fresh := (copy_tree t.root_ 1 none).2 },
    by simp only [BinaryTree.copy, hb], ?_, hlist, rfl, ?_, rfl⟩
  · refine ⟨?_, balance_children hb c5.children, balance_heights hb c6, ?_, ?_, ?_, ?_,
      ⟨0, rfl, ?_, ?_⟩, rfl, rfl⟩
    · show root1.addrs.Nodup
      rw [haddr]; exact c4
    · show KeysSorted key root1
      have hs : KeysSorted key t.root_ := hw.sorted
      unfold KeysSorted at hs ⊢
      refine pairwise_key_congr (f := fun e : Nat × α => key e.2) ?_ (· ≤ ·) hs
      have := congrArg (List.map key) hlist
      simpa [toList_eq_map, List.map_map, Function.comp] using this
    · intro p hp
      exfalso
      have h1 : root1.parent? = (copy_tree t.root_ 1 none).1.parent? := balance_parent hb
      have h2 : (copy_tree t.root_ 1 none).1.parent? = none := by
        cases hcp : (copy_tree t.root_ 1 none).1 with
        | null => rfl
        | mk a d l r q h => rw [hcp] at c5; exact c5.1
      have hp' : root1.parent? = some p := hp
      rw [h1, h2] at hp'
      cases hp'
    · intro x hx
      have hx' : x ∈ root1.addrs := hx
      rw [haddr] at hx'
      exact (c3 x hx').2
    · show t.size_ = root1.entries.length
      rw [← List.length_map root1.entries Prod.snd, ← toList_eq_map, hlist, toList_eq_map,
        List.length_map, hw.size_eq]
    · intro hx
      have hx' : 0 ∈ root1.addrs := hx
      rw [haddr] at hx'
      have := (c3 0 hx').1
      omega
    · show 0 < (copy_tree t.root_ 1 none).2
      rw [c2]; omega
  · show (copy_tree t.root_ 1 none).2 = t.size_ + 1
    rw [c2, hlen]; omega

/-- A write through an iterator to a node of the tree that keeps the node's
key replaces the payload of that node and nothing else. -/
theorem write_spec {t : BinaryTree α} (hw : WF key t) {a : Nat} {x d : α}
    (hm : (a, x) ∈ t.root_.entries) (hk : key d = key x) :
    ∃ t1, t.write a d = .ok t1 () ∧ WF key t1 ∧
      (∃ pre post, t.root_.entries = pre ++ (a, x) :: post ∧
        t1.root_.entries = pre ++ (a, d) :: post) ∧
      t1.size_ = t.size_ ∧ t1.fresh = t.fresh ∧ t1.end_node_ = t.end_node_ := by
  obtain ⟨pre, post, he⟩ := List.append_of_mem hm
  have ha : a ∈ t.root_.addrs := mem_addrs_iff.2 ⟨(a, x), hm, rfl⟩
  have hend : t.end_node_.addr? ≠ some a := fun h => end_ne_of_mem hw ha h.symm
  obtain ⟨C, l, r, p, h, hC, hd, h1, h3⟩ := entries_around hw he
  have hn : (plug C (Node.mk a x l r p h)).addrs.Nodup := hC ▸ hw.nodup
  have hst : t.root_.store a (fun n => n.setData d) = plug C (Node.mk a d l r p h) := by
    rw [hC, store_plug hn rfl]; rfl
  have hent1 : (plug C (Node.mk a d l r p h)).entries = pre ++ (a, d) :: post := by
    rw [entries_plug, h1, h3]; simp [Node.entries]
  have haddr : (plug C (Node.mk a d l r p h)).addrs = t.root_.addrs := by
    rw [addrs_eq_map, addrs_eq_map, hent1, he]; simp
  have hkeys : (plug C (Node.mk a d l r p h)).entries.map (fun e => key e.2) =
      t.root_.entries.map (fun e => key e.2) := by
    rw [hent1, he]; simp [hk]
  have hpar : (plug C (Node.mk a d l r p h)).parent? = t.root_.parent? := by
    rw [hC]
    cases C with
    | nil => rfl
    | cons fr C1 => rw [(plug_cons_addr fr C1 _).2, (plug_cons_addr fr C1 _).2]
  refine ⟨{ t with root_ := plug C (Node.mk a d l r p h) }, ?_, ?_, ⟨pre, post, he, hent1⟩,
    rfl, rfl, rfl⟩
  · simp only [BinaryTree.write, if_neg hend, hd, hst]
  · have hc0 : ChildrenOK (plug C (Node.mk a x l r p h)) := hC ▸ hw.children
    have hh0 : HeightsPos (plug C (Node.mk a x l r p h)) := hC ▸ hw.heights
    refine ⟨?_, ?_, ?_, ?_, ?_, ?_, ?_, ?_, ?_, ?_⟩
    · show (plug C (Node.mk a d l r p h)).addrs.Nodup
      rw [haddr]; exact hw.nodup
    · show ChildrenOK (plug C (Node.mk a d l r p h))
      cases C with
      | nil => exact hc0
      | cons fr C1 =>
        have := (childrenOK_plug_cons fr C1 (Node.mk a x l r p h) none).1 hc0
        exact (childrenOK_plug_cons fr C1 (Node.mk a d l r p h) none).2 ⟨this.1, this.2⟩
    · show HeightsPos (plug C (Node.mk a d l r p h))
      have := (heightsPos_plug C (Node.mk a x l r p h)).1 hh0
      exact (heightsPos_plug C (Node.mk a d l r p h)).2 ⟨this.1, this.2⟩
    · show KeysSorted key (plug C (Node.mk a d l r p h))
      exact pairwise_key_congr hkeys (· ≤ ·) hw.sorted
    · intro q hq
      have hq' : (plug C (Node.mk a d l r p h)).parent? = some q := hq
      rw [hpar] at hq'
      obtain ⟨h5, h6⟩ := hw.root_parent q hq'
      exact ⟨fun hx => h5 (haddr ▸ hx), h6⟩
    · intro y hy
      exact hw.lt_fresh y (haddr ▸ hy)
    · show t.size_ = (plug C (Node.mk a d l r p h)).entries.length
      rw [hw.size_eq, hent1, he]; simp
    · obtain ⟨e, he1, he2, he3⟩ := hw.end_ok
      exact ⟨e, he1, fun hx => he2 (haddr ▸ hx), he3⟩
    · show t.min_node_ = (leftmost_node (plug C (Node.mk a d l r p h))).addr?
      have hne : t.root_ ≠ .null := by
        intro h0; rw [h0] at hm; simp [Node.entries] at hm
      have hne1 : plug C (Node.mk a d l r p h) ≠ .null := by
        intro h0; rw [h0] at hent1; simp [Node.entries] at hent1
      obtain ⟨b, w, rest, e1, e2⟩ := leftmost_entries hne
      obtain ⟨b1, w1, rest1, e3, e4⟩ := leftmost_entries hne1
      rw [hw.min_ok, e2, e4]
      have := haddr
      rw [addrs_eq_map, addrs_eq_map, e1, e3] at this
      simp only [List.map_cons, List.cons.injEq] at this
      rw [this.1]
    · show t.max_node_ = (rightmost_node (plug C (Node.mk a d l r p h))).addr?
      have hne : t.root_ ≠ .null := by
        intro h0; rw [h0] at hm; simp [Node.entries] at hm
      have hne1 : plug C (Node.mk a d l r p h) ≠ .null := by
        intro h0; rw [h0] at hent1; simp [Node.entries] at hent1
      obtain ⟨b, w, rest, e1, e2⟩ := rightmost_entries hne
      obtain ⟨b1, w1, rest1, e3, e4⟩ := rightmost_entries hne1
      rw [hw.max_ok, e2, e4]
      have := haddr
      rw [addrs_eq_map, addrs_eq_map, e1, e3] at this
      simp only [List.map_append, List.map_cons, List.map_nil] at this
      have h2 := (List.append_inj' this rfl).2
      simp only [List.cons.injEq, and_true] at h2
      rw [h2]

/-- `insert` keeps the invariant, and strictly increasing keys when it is
given `allow_duplicates = false`. -/
theorem insert_keeps {dup : Bool} {t t1 : BinaryTree α} {v : α} {r : Ptr × Bool}
    (hi : WF key t ∧ (dup = false → KeysStrict key t.root_))
    (hins : t.insert key v dup = .ok t1 r) :
    WF key t1 ∧ (dup = false → KeysStrict key t1.root_) := by
  obtain ⟨hw, hs⟩ := hi
  obtain ⟨t2, b2, h2, hw2, -, hfalse, htrue⟩ := insert_spec hw v dup
  rw [h2] at hins
  injection hins with e1 e2
  subst e1
  refine ⟨hw2, fun hd => ?_⟩
  cases b2 with
  | false => rw [(hfalse rfl).1]; exact hs hd
  | true =>
    obtain ⟨habs, -, -, pre, post, p1, p2, hpre, hpost⟩ := htrue rfl
    have habs' : ∀ e ∈ t.root_.entries, key e.2 ≠ key v := by
      rcases habs with habs | habs
      · rw [hd] at habs; cases habs
      · exact habs
    have ih := hs hd
    unfold KeysStrict at ih ⊢
    rw [p1] at ih habs'
    rw [p2]
    exact pairwise_insert_mid_strict ih hpre hpost habs'

/-- An `erase` that returns keeps the invariant and strictly increasing keys. -/
theorem erase_keeps {dup : Bool} {t t1 : BinaryTree α} {p : Ptr}
    (hi : WF key t ∧ (dup = false → KeysStrict key t.root_))
    (her : t.erase p = .ok t1 ()) :
    WF key t1 ∧ (dup = false → KeysStrict key t1.root_) := by
  obtain ⟨hw, hs⟩ := hi
  obtain ⟨a, rfl, ha⟩ := erase_ok_pos her
  rcases erase_spec hw ha with ⟨h0, -⟩ | ⟨t2, h0, hw2, hent, -⟩
  · rw [h0] at her; cases her
  · rw [h0] at her
    injection her with e1 e2
    subst e1
    refine ⟨hw2, fun hd => ?_⟩
    have ih := hs hd
    unfold KeysStrict at ih ⊢
    rw [hent]
    exact ih.sublist (List.filter_sublist _)

/-- What every `insert` keeps of the destination and every `erase` keeps of
the source, the loop of `merge` keeps of both. -/
theorem merge_loop_inv {const_other : BinaryTree α} {d : Bool} {P Q : BinaryTree α → Prop}
    (hins : ∀ s s1 v r, P s → s.insert key v d = .ok s1 r → P s1)
    (hera : ∀ o o1 p, Q o → o.erase p = .ok o1 () → Q o1) :
    ∀ (fuel : Nat) (it : Ptr) (self other s1 o1 : BinaryTree α), P self → Q other →
      merge_loop key const_other d fuel it self other = .ok (s1, o1) () → P s1 ∧ Q o1 := by
  intro fuel
  induction fuel with
  | zero => intro it self other s1 o1 _ _ h; simp [merge_loop] at h
  | succ fuel ih =>
    intro it self other s1 o1 hP hQ h
    unfold merge_loop at h
    split_ifs at h with hend
    · injection h with e1 e2
      injection e1 with e3 e4
      exact ⟨e3 ▸ hP, e4 ▸ hQ⟩
    · cases hs : const_other.star it with
      | ok c value =>
        rw [hs] at h
        simp only at h
        cases hi : self.insert key value d with
        | ok self1 r =>
          obtain ⟨i, b⟩ := r
          rw [hi] at h
          have hP1 := hins _ _ _ _ hP hi
          cases b with
          | true =>
            simp only at h
            cases he : other.erase (other.find key (key value)) with
            | ok other1 u =>
              rw [he] at h
              simp only at h
              have hQ1 := hera _ _ _ hQ he
              cases hn : const_other.incr it with
              | ok c1 next_it =>
                rw [hn] at h
                exact ih _ _ _ _ _ hP1 hQ1 h
              | throws c1 e => rw [hn] at h; cases h
              | undefined => rw [hn] at h; cases h
              | out_of_fuel => rw [hn] at h; cases h
            | throws c1 e => rw [he] at h; cases h
            | undefined => rw [he] at h; cases h
            | out_of_fuel => rw [he] at h; cases h
          | false =>
            simp only at h
            cases hn : const_other.incr it with
            | ok c1 next_it =>
              rw [hn] at h
              exact ih _ _ _ _ _ hP1 hQ h
            | throws c1 e => rw [hn] at h; cases h
            | undefined => rw [hn] at h; cases h
            | out_of_fuel => rw [hn] at h; cases h
        | throws c1 e => rw [hi] at h; cases h
        | undefined => rw [hi] at h; cases h
        | out_of_fuel => rw [hi] at h; cases h
      | throws c e => rw [hs] at h; cases h
      | undefined => rw [hs] at h; cases h
      | out_of_fuel => rw [hs] at h; cases h

/-- The same for `merge` itself. -/
theorem merge_inv [Inhabited α] {d : Bool} {P Q : BinaryTree α → Prop}
    (hins : ∀ s s1 v r, P s → s.insert key v d = .ok s1 r → P s1)
    (hera : ∀ o o1 p, Q o → o.erase p = .ok o1 () → Q o1)
    {self other s1 o1 : BinaryTree α} (hP : P self) (hQ : Q other)
    (h : self.merge key other d = .ok (s1, o1) ()) : P s1 ∧ Q o1 := by
  unfold BinaryTree.merge at h
  cases hc : BinaryTree.copy other with
  | none => rw [hc] at h; cases h
  | some const_other =>
    rw [hc] at h
    exact merge_loop_inv hins hera _ _ _ _ _ _ hP hQ h

/-- Every tree built by public operations satisfies the invariant, and has
strictly increasing keys when no insert allowed duplicates. -/
theorem BinaryTree.Built.inv [Inhabited α] {dup : Bool} {t : BinaryTree α}
    (hb : Built key dup t) : WF key t ∧ (dup = false → KeysStrict key t.root_) := by
  induction hb with
  | empty => exact ⟨wf_empty, fun _ => List.Pairwise.nil⟩
  | insert _ hins ih => exact insert_keeps ih hins
  | erase _ her ih => exact erase_keeps ih her
  | clear _ ih => exact ⟨wf_clear ih.1, fun _ => List.Pairwise.nil⟩
  | @copy t c _ hc ih =>
    obtain ⟨c1, h1, hw1, hl, -⟩ := copy_spec ih.1
    rw [h1] at hc
    obtain rfl := Option.some.inj hc
    refine ⟨hw1, fun hd => ?_⟩
    have hs := ih.2 hd
    unfold KeysStrict at hs ⊢
    refine pairwise_key_congr (f := fun e : Nat × α => key e.2) ?_ (· < ·) hs
    have := congrArg (List.map key) hl
    simpa [toList_eq_map, List.map_map, Function.comp] using this
  | @write t t1 a x d _ hm hk hwr ih =>
    obtain ⟨t2, h1, hw1, ⟨pre, post, e1, e2⟩, -⟩ := write_spec ih.1 hm hk
    rw [h1] at hwr
    injection hwr with e3 e4
    subst e3
    refine ⟨hw1, fun hd => ?_⟩
    have hs := ih.2 hd
    unfold KeysStrict at hs ⊢
    refine pairwise_key_congr (f := fun e : Nat × α => key e.2) ?_ (· < ·) hs
    rw [e1, e2]; simp [hk]
  | merge_into _ _ hm ih1 ih2 =>
    exact (merge_inv (fun _ _ _ _ => insert_keeps) (fun _ _ _ => erase_keeps) ih1 ih2 hm).1
  | merge_from _ _ hm ih1 ih2 =>
    exact (merge_inv (fun _ _ _ _ => insert_keeps) (fun _ _ _ => erase_keeps) ih1 ih2 hm).2

theorem BinaryTree.Built.wellFormed [Inhabited α] {dup : Bool} {t : BinaryTree α}
    (hb : Built key dup t) : WF key t := hb.inv.1

theorem BinaryTree.Built.keysStrict [Inhabited α] {t : BinaryTree α}
    (hb : Built key false t) : KeysStrict key t.root_ := hb.inv.2 rfl

end keyed

/-! ## `clear`, copies, the min/max cache, iterator stability, the sentinel -/

/-- C24. For every tree, `clear()` leaves `size() = 0`, `empty()` true,
`begin() = end()`, and `find`/`contains` of every key answering `end()`/false,
with the sentinel it had; a following `insert(v)` returns `(it, true)` and
leaves the one-element tree holding `v` in the newly allocated node. -/
theorem C24_clear_leaves_empty [LinearOrder κ] (key : α → κ) (t : BinaryTree α) :
    t.clear.size = 0 ∧ t.clear.empty? = true ∧ t.clear.begin = t.clear.end ∧
    (∀ k, t.clear.find key k = t.clear.end ∧ t.clear.contains key k = false) ∧
    t.clear.end_node_ = t.end_node_ ∧
    ∀ v d, ∃ t1, t.clear.insert key v d = .ok t1 (some t.fresh, true) ∧
      t1.root_.entries = [(t.fresh, v)] ∧ t1.root_.toList = [v] ∧ t1.size = 1 ∧
      t1.begin = some t.fresh := by
  refine ⟨rfl, ?_, rfl, fun k => ⟨rfl, ?_⟩, rfl, fun v d => ?_⟩
  · simp [BinaryTree.empty?, BinaryTree.begin, BinaryTree.clear]
  · simp [BinaryTree.contains, BinaryTree.find, BinaryTree.clear, find_node]
  · refine ⟨BinaryTree.mk (Node.mk t.fresh v Node.null Node.null none 1) (some t.fresh)
      (some t.fresh) t.end_node_ 1 (t.fresh + 1), ?_, rfl, rfl, rfl, rfl⟩
    simp [BinaryTree.insert, BinaryTree.clear, insert_node, find_node,
      BinaryTree.update_min_max_nodes, leftmost_node, rightmost_node, Node.addr?]

section keyed
variable [LinearOrder κ] {key : α → κ}

theorem insert_end_node {t t1 : BinaryTree α} {v : α} {d : Bool} {r : Ptr × Bool}
    (h : t.insert key v d = .ok t1 r) : t1.end_node_ = t.end_node_ := by
  unfold BinaryTree.insert at h
  cases hi : insert_node key t.fresh v d t.root_ with
  | none => rw [hi] at h; cases h
  | some pr =>
    obtain ⟨nr, b⟩ := pr
    rw [hi] at h
    simp only at h
    injection h with e1 e2
    subst e1
    cases b <;> rfl

end keyed

theorem erase_end_node {t t1 : BinaryTree α} {p : Ptr} (h : t.erase p = .ok t1 ()) :
    t1.end_node_ = t.end_node_ := by
  unfold BinaryTree.erase at h
  split_ifs at h
  cases p with
  | none => cases h
  | some a =>
    simp only at h
    cases hd : t.root_.deref a with
    | none => rw [hd] at h; cases h
    | some n =>
      rw [hd] at h
      simp only at h
      cases hu : erase_unlink t.root_ n with
      | none => rw [hu] at h; cases h
      | some root1 =>
        rw [hu] at h
        simp only at h
        cases root1 with
        | null =>
          simp only [BinaryTree.erase_finish] at h
          injection h with e1 e2
          subst e1; rfl
        | mk b x l r q hh =>
          simp only [BinaryTree.erase_finish] at h
          cases hb : balance (update_height (Node.mk b x l r q hh)) with
          | none => rw [hb] at h; cases h
          | some root2 =>
            rw [hb] at h
            simp only at h
            injection h with e1 e2
            subst e1; rfl

section keyed
variable [LinearOrder κ] {key : α → κ}

/-- C26. In every tree built by public operations (so after each of them) the
cached minimum is the leftmost node and the cached maximum the rightmost node,
both null exactly when the tree is empty; on a non-empty tree `begin()` is an
iterator to an element with the smallest key and `--end()` one to an element
with the largest key. -/
theorem C26_min_max_cache [Inhabited α] {dup : Bool} {t : BinaryTree α}
    (hb : Built key dup t) :
    t.min_node_ = (leftmost_node t.root_).addr? ∧
    t.max_node_ = (rightmost_node t.root_).addr? ∧
    (t.min_node_ = none ↔ t.root_ = .null) ∧ (t.max_node_ = none ↔ t.root_ = .null) ∧
    (t.root_ ≠ .null →
      ∃ a v b w, t.begin = some a ∧ t.star (some a) = .ok t v ∧
        (a, v) ∈ t.root_.entries ∧ (∀ e ∈ t.root_.entries, key v ≤ key e.2) ∧
        t.decr t.end = .ok t (some b) ∧ t.star (some b) = .ok t w ∧
        (b, w) ∈ t.root_.entries ∧ (∀ e ∈ t.root_.entries, key e.2 ≤ key w)) := by
  have hw := hb.wellFormed
  have hnull : t.root_ = .null → t.min_node_ = none ∧ t.max_node_ = none := by
    intro h0
    rw [hw.min_ok, hw.max_ok, h0]
    exact ⟨rfl, rfl⟩
  refine ⟨hw.min_ok, hw.max_ok, ⟨fun h => ?_, fun h => (hnull h).1⟩,
    ⟨fun h => ?_, fun h => (hnull h).2⟩, fun hne => ?_⟩
  · by_contra hne
    obtain ⟨a, d, rest, -, e2⟩ := leftmost_entries hne
    rw [hw.min_ok, e2] at h
    cases h
  · by_contra hne
    obtain ⟨a, d, rest, -, e2⟩ := rightmost_entries hne
    rw [hw.max_ok, e2] at h
    cases h
  · obtain ⟨a, v, rest, e1, -⟩ := leftmost_entries hne
    obtain ⟨b, w, rest1, e3, -⟩ := rightmost_entries hne
    have hs : t.root_.entries.Pairwise (fun e f => key e.2 ≤ key f.2) := hw.sorted
    have hma : (a, v) ∈ t.root_.entries := by rw [e1]; simp
    have hmb : (b, w) ∈ t.root_.entries := by rw [e3]; simp
    refine ⟨a, v, b, w, ?_, star_of_entry hw hma, hma, ?_, decr_end_spec hw e3,
      star_of_entry hw hmb, hmb, ?_⟩
    · rw [begin_eq hw, e1]; rfl
    · intro e he
      rw [e1] at hs he
      rcases List.mem_cons.1 he with rfl | he
      · exact le_refl _
      · exact (List.pairwise_cons.1 hs).1 e he
    · intro e he
      rw [e3] at hs he
      rcases List.mem_append.1 he with he | he
      · exact (List.pairwise_append.1 hs).2.2 e he (b, w) (by simp)
      · obtain rfl : e = (b, w) := by simpa using he
        exact le_refl _

/-- Iterators to untouched nodes, where the code stays within defined
behaviour.  For every tree built by public operations and every iterator to a
node of it holding `x`: every `insert` returns and leaves that node in the
tree with the iterator dereferencing to `x`; so does every `erase` of another
position that returns — whichever node it removes, the two-children case with
the relinked successor included — and `erase` of another position of the tree
does return unless that position is a two-children root whose parent link is
not null. -/
theorem iterators_survive [Inhabited α] {dup : Bool} {t : BinaryTree α}
    (hb : Built key dup t) {a : Nat} {x : α} (hm : (a, x) ∈ t.root_.entries) :
    (∀ v d, ∃ t1 r, t.insert key v d = .ok t1 r ∧
      (a, x) ∈ t1.root_.entries ∧ t1.star (some a) = .ok t1 x) ∧
    (∀ p t1, p ≠ some a → t.erase p = .ok t1 () →
      (a, x) ∈ t1.root_.entries ∧ t1.star (some a) = .ok t1 x) ∧
    (∀ b, b ∈ t.root_.addrs → b ≠ a →
      (t.root_.addr? = some b → t.root_.left? ≠ .null → t.root_.right? ≠ .null →
        t.root_.parent? = none) →
      ∃ t1, t.erase (some b) = .ok t1 () ∧
        (a, x) ∈ t1.root_.entries ∧ t1.star (some a) = .ok t1 x) := by
  have hw := hb.wellFormed
  have key_fact : ∀ b, b ∈ t.root_.addrs → b ≠ a → ∀ t1, t.erase (some b) = .ok t1 () →
      (a, x) ∈ t1.root_.entries ∧ t1.star (some a) = .ok t1 x := by
    intro b hbm hne t1 her
    rcases erase_spec hw hbm with ⟨h0, -⟩ | ⟨t2, h0, hw2, hent, -⟩
    · rw [h0] at her; cases her
    · rw [h0] at her
      injection her with e1 e2
      subst e1
      have hm2 : (a, x) ∈ t2.root_.entries := by
        rw [hent, List.mem_filter]
        exact ⟨hm, by simpa using fun h => hne h.symm⟩
      exact ⟨hm2, star_of_entry hw2 hm2⟩
  refine ⟨fun v d => ?_, fun p t1 hp her => ?_, fun b hbm hne hroot => ?_⟩
  · obtain ⟨t1, b, hins, hw1, -, hfalse, htrue⟩ := insert_spec hw v d
    have hm1 : (a, x) ∈ t1.root_.entries := by
      cases b with
      | false => rw [(hfalse rfl).1]; exact hm
      | true =>
        obtain ⟨-, -, -, pre, post, e1, e2, -⟩ := htrue rfl
        rw [e1] at hm
        rw [e2]
        rcases List.mem_append.1 hm with h | h
        · exact List.mem_append_left _ h
        · exact List.mem_append_right _ (List.mem_cons_of_mem _ h)
    exact ⟨t1, _, hins, hm1, star_of_entry hw1 hm1⟩
  · obtain ⟨b, rfl, hbm⟩ := erase_ok_pos her
    exact key_fact b hbm (fun h => hp (by rw [h])) t1 her
  · rcases erase_spec hw hbm with ⟨-, h1, h2, h3, h4⟩ | ⟨t2, h0, -⟩
    · exact absurd (hroot h1 h2 h3) h4
    · exact ⟨t2, h0, key_fact b hbm hne t2 h0⟩

/-- An `erase` that throws leaves the tree as it was. -/
theorem erase_throws_state {t t1 : BinaryTree α} {p : Ptr} {e : Exn}
    (h : t.erase p = .throws t1 e) : t1 = t := by
  unfold BinaryTree.erase at h
  split_ifs at h
  · injection h with e1 e2
    exact e1.symm
  · cases p with
    | none => cases h
    | some a =>
      simp only at h
      cases hd : t.root_.deref a with
      | none => rw [hd] at h; cases h
      | some n =>
        rw [hd] at h
        simp only at h
        cases hu : erase_unlink t.root_ n with
        | none => rw [hu] at h; cases h
        | some root1 =>
          rw [hu] at h
          simp only at h
          cases root1 with
          | null => simp only [BinaryTree.erase_finish] at h; cases h
          | mk b x l r q hh =>
            simp only [BinaryTree.erase_finish] at h
            cases hb : balance (update_height (Node.mk b x l r q hh)) with
            | none => rw [hb] at h; cases h
            | some root2 => rw [hb] at h; cases h

/-- C28. For every tree built by public operations: `insert` (which always
returns), `erase` (whether it returns or throws), `clear` and `merge` (for both
trees it works on) leave the sentinel node as it was, so `end()` taken after any
of them equals `end()` taken before; no iterator to a node of the tree equals
`end()`, and an iterator that dereferences without being `end()` is one to a
node of the tree. -/
theorem C28_sentinel_stable [Inhabited α] {dup : Bool} {t : BinaryTree α}
    (hb : Built key dup t) :
    (∀ v d, ∃ t1 r, t.insert key v d = .ok t1 r ∧ t1.end_node_ = t.end_node_ ∧
      t1.end = t.end) ∧
    (∀ p t1, (t.erase p = .ok t1 () ∨ ∃ e, t.erase p = .throws t1 e) →
      t1.end_node_ = t.end_node_ ∧ t1.end = t.end) ∧
    (t.clear.end_node_ = t.end_node_ ∧ t.clear.end = t.end) ∧
    (∀ (other : BinaryTree α) d t1 o1, t.merge key other d = .ok (t1, o1) () →
      (t1.end_node_ = t.end_node_ ∧ t1.end = t.end) ∧
      (o1.end_node_ = other.end_node_ ∧ o1.end = other.end)) ∧
    (∀ (other : BinaryTree α) d t1 o1, other.merge key t d = .ok (o1, t1) () →
      t1.end_node_ = t.end_node_ ∧ t1.end = t.end) ∧
    (∀ a, a ∈ t.root_.addrs → (some a : Ptr) ≠ t.end) ∧
    (∀ a v, t.star (some a) = .ok t v → (a, v) ∈ t.root_.entries ∨ some a = t.end) := by
  have hend : ∀ {s s1 : BinaryTree α}, s1.end_node_ = s.end_node_ →
      s1.end_node_ = s.end_node_ ∧ s1.end = s.end :=
    fun h => ⟨h, by rw [BinaryTree.end, BinaryTree.end, h]⟩
  have hmerge : ∀ (self other s1 o1 : BinaryTree α) (d : Bool),
      self.merge key other d = .ok (s1, o1) () →
      s1.end_node_ = self.end_node_ ∧ o1.end_node_ = other.end_node_ := by
    intro self other s1 o1 d h
    exact merge_inv (P := fun s => s.end_node_ = self.end_node_)
      (Q := fun o => o.end_node_ = other.end_node_)
      (fun s s1 v r hs hi => (insert_end_node hi).trans hs)
      (fun o o1 p ho he => (erase_end_node he).trans ho) rfl rfl h
  refine ⟨fun v d => ?_, fun p t1 h => ?_,
    hend rfl, fun other d t1 o1 h => ⟨hend (hmerge _ _ _ _ _ h).1, hend (hmerge _ _ _ _ _ h).2⟩,
    fun other d t1 o1 h => hend (hmerge _ _ _ _ _ h).2,
    fun a ha => end_ne_of_mem hb.wellFormed ha, fun a v hs => ?_⟩
  · obtain ⟨t1, b, hins, -, he, -⟩ := insert_spec hb.wellFormed v d
    exact ⟨t1, _, hins, hend he⟩
  · rcases h with h | ⟨e, h⟩
    · exact hend (erase_end_node h)
    · rw [erase_throws_state h]; exact ⟨rfl, rfl⟩
  by_cases he : t.end_node_.addr? = some a
  · right; exact he.symm
  · left
    simp only [BinaryTree.star, if_neg he] at hs
    cases hd : t.root_.deref a with
    | none => rw [hd] at hs; cases hs
    | some n =>
      rw [hd] at hs
      obtain ⟨hna, -⟩ := deref_some hd
      obtain ⟨C, hC⟩ := deref_eq_plug hd
      cases n with
      | null => cases hs
      | mk b y l r q h =>
        simp only [Node.addr?, Option.some.injEq] at hna
        subst hna
        simp only at hs
        injection hs with e1 e2
        subst e2
        rw [hC, entries_plug]
        simp [Node.entries]

end keyed

/-! ## `map::operator[]`, `insert_or_assign`, `insert_many` -/

section keyed
variable [LinearOrder κ] {key : α → κ}

/-- Reading through a pointer to a node of the tree yields the value that
node holds. -/
theorem load_of_entry {t : BinaryTree α} (hw : WF key t) {a : Nat} {v : α}
    (hm : (a, v) ∈ t.root_.entries) : t.load a = some v := by
  have ha : a ∈ t.root_.addrs := mem_addrs_iff.2 ⟨(a, v), hm, rfl⟩
  obtain ⟨e, he1, he2, -⟩ := hw.end_ok
  have hne : t.end_node_.addr? ≠ some a := by
    rw [he1]; intro h; exact he2 (Option.some.inj h ▸ ha)
  obtain ⟨n, hd⟩ := deref_isSome ha
  obtain ⟨C, hC⟩ := deref_eq_plug hd
  obtain ⟨hna, -⟩ := deref_some hd
  cases n with
  | null => simp [Node.addr?] at hna
  | mk b d l r p h =>
    simp only [Node.addr?, Option.some.injEq] at hna
    subst hna
    have hmem : (b, d) ∈ t.root_.entries := by
      rw [hC, entries_plug]; simp [Node.entries]
    have hnd := hw.nodup
    rw [addrs_eq_map] at hnd
    have := entry_unique hnd hm hmem
    subst this
    simp only [BinaryTree.load, if_neg hne, hd]

/-- `insert` returns an iterator to a node of the resulting tree that holds
the key of `value`. -/
theorem insert_found {t : BinaryTree α} (hw : WF key t) (v : α) (dup : Bool) :
    ∃ t1 a x b, t.insert key v dup = .ok t1 (some a, b) ∧ WF key t1 ∧
      (a, x) ∈ t1.root_.entries ∧ key x = key v ∧
      (b = false → t1 = t ∧ ∃ e ∈ t.root_.entries, key e.2 = key v) ∧
      (b = true → (dup = true ∨ ∀ e ∈ t.root_.entries, key e.2 ≠ key v) ∧
        t1.size_ = t.size_ + 1 ∧
        ∃ pre post, t.root_.entries = pre ++ post ∧
          t1.root_.entries = pre ++ (t.fresh, v) :: post) := by
  obtain ⟨t1, b, hins, hw1, -, hfalse, htrue⟩ := insert_spec hw v dup
  have hex : ∃ e ∈ t1.root_.entries, key e.2 = key v := by
    cases b with
    | false =>
      obtain ⟨rfl, -, he⟩ := hfalse rfl
      exact he
    | true =>
      obtain ⟨-, -, -, pre, post, -, e2, -⟩ := htrue rfl
      exact ⟨(t.fresh, v), by rw [e2]; simp, rfl⟩
  obtain ⟨a, x, l, r, p, h, hf, hm, hkx⟩ := find_node_hit hw1.sorted hex
  rw [hf] at hins
  refine ⟨t1, a, x, b, hins, hw1, hm, hkx, fun hb => ?_, fun hb => ?_⟩
  · obtain ⟨h1, -, h3⟩ := hfalse hb
    exact ⟨h1, h3⟩
  · obtain ⟨h1, h2, -, pre, post, e1, e2, -⟩ := htrue hb
    exact ⟨h1, h2, pre, post, e1, e2⟩

end keyed

/-- Entries with another key are not affected by replacing or adding an entry
with key `k`. -/
theorem other_keys_mid {μ : Type} {pre post : List (Nat × κ × μ)} {k : κ} (x y : Nat × κ × μ)
    (hx : x.2.1 = k) (hy : y.2.1 = k) (e : Nat × κ × μ) (he : e.2.1 ≠ k) :
    (e ∈ pre ++ x :: post ↔ e ∈ pre ++ y :: post) ∧ (e ∈ pre ++ x :: post ↔ e ∈ pre ++ post) := by
  have h1 : e ≠ x := fun h => he (h ▸ hx)
  have h2 : e ≠ y := fun h => he (h ▸ hy)
  simp [h1, h2]

section mapped
variable {μ : Type} [LinearOrder κ]

/-- On a map without repeated keys `at(k)` returns the mapped value of the one
entry with key `k`. -/
theorem at_of_entry {m : BinaryTree (κ × μ)} (hw : WF Prod.fst m)
    (hs : KeysStrict Prod.fst m.root_) {a : Nat} {k : κ} {v : μ}
    (hm : (a, (k, v)) ∈ m.root_.entries) : map.at m k = .ok m v := by
  obtain ⟨a1, x, l, r, p, hh, hf, hm1, hkx⟩ :=
    find_node_hit hw.sorted (k := k) ⟨(a, (k, v)), hm, rfl⟩
  have := entry_of_key_unique hs hm1 hm hkx
  obtain ⟨rfl, rfl⟩ := Prod.mk.inj this
  have hfind : m.find Prod.fst k = some a1 := by simp only [BinaryTree.find, hf]
  have hne : (some a1 : Ptr) ≠ m.end :=
    end_ne_of_mem hw (mem_addrs_iff.2 ⟨(a1, (k, v)), hm, rfl⟩)
  simp only [map.at, hfind, if_neg hne, star_of_entry hw hm]

/-- Assigning through a reference to the mapped value of a node of the map
replaces that mapped value and nothing else. -/
theorem set_second_spec {m : BinaryTree (κ × μ)} (hw : WF Prod.fst m) {a : Nat} {k : κ}
    {w : μ} (hm : (a, (k, w)) ∈ m.root_.entries) (v : μ) :
    ∃ m1, map.set_second m a v = .ok m1 () ∧ m.write a (k, v) = .ok m1 () ∧
      m1.size_ = m.size_ ∧
      ∃ pre post, m.root_.entries = pre ++ (a, (k, w)) :: post ∧
        m1.root_.entries = pre ++ (a, (k, v)) :: post := by
  obtain ⟨m1, h1, -, hsplit, hsz, -⟩ :=
    write_spec (d := (k, v)) hw hm (show Prod.fst (k, v) = Prod.fst (k, w) from rfl)
  refine ⟨m1, ?_, h1, hsz, hsplit⟩
  simp only [map.set_second, load_of_entry hw hm, h1]

/-- C21. For every map built by public operations and every key `k`: when `k`
is absent, `m[k]` inserts the entry `(k, T())` at its sorted place, `size()`
grows by 1 and the reference returned designates the mapped value of the new
node; when `k` is present with mapped value `v`, the map is left as it is and
the reference designates that `v`.  `m[k] = v` returns, a following `at(k)`
yields `v`, and the entries with other keys are the same nodes with the same
values as before. -/
theorem C21_map_index [Inhabited κ] [Inhabited μ] {m : BinaryTree (κ × μ)}
    (hb : Built Prod.fst false m) (k : κ) :
    ((∀ v, (k, v) ∉ m.root_.toList) →
      ∃ m1 a, map.index m k = .ok m1 a ∧ map.get_second m1 a = some default ∧
        m1.size = m.size + 1 ∧
        ∃ pre post, m.root_.entries = pre ++ post ∧
          m1.root_.entries = pre ++ (a, (k, default)) :: post) ∧
    (∀ v, (k, v) ∈ m.root_.toList →
      ∃ a, map.index m k = .ok m a ∧ (a, (k, v)) ∈ m.root_.entries ∧
        map.get_second m a = some v) ∧
    (∀ v, ∃ m2, map.index_assign m k v = .ok m2 () ∧ map.at m2 k = .ok m2 v ∧
      ∀ e : Nat × κ × μ, e.2.1 ≠ k → (e ∈ m2.root_.entries ↔ e ∈ m.root_.entries)) := by
  have hw := hb.wellFormed
  obtain ⟨m1, a, x, b, hins, hw1, hm1, hkx, hfalse, htrue⟩ :=
    insert_found hw ((k, default) : κ × μ) false
  have hb1 : Built Prod.fst false m1 := Built.insert hb hins
  have hidx : map.index m k = .ok m1 a := by
    simp only [map.index, hins, BinaryTree.arrow]
  obtain ⟨k1, w⟩ := x
  obtain rfl : k1 = k := hkx
  refine ⟨fun habs => ?_, fun v hv => ?_, fun v => ?_⟩
  · cases b with
    | false =>
      obtain ⟨-, e, he, hke⟩ := hfalse rfl
      obtain ⟨ea, ek, ev⟩ := e
      obtain rfl : ek = k1 := hke
      exact absurd (mem_toList_iff.2 ⟨ea, he⟩) (habs ev)
    | true =>
      obtain ⟨-, hsz, pre, post, e1, e2⟩ := htrue rfl
      have hnew : (m.fresh, ((k1, default) : κ × μ)) ∈ m1.root_.entries := by rw [e2]; simp
      have := entry_of_key_unique hb1.keysStrict hm1 hnew rfl
      obtain ⟨rfl, hx⟩ := Prod.mk.inj this
      obtain rfl : w = default := (Prod.mk.inj hx).2
      refine ⟨m1, m.fresh, hidx, ?_, hsz, pre, post, e1, e2⟩
      simp only [map.get_second, load_of_entry hw1 hm1, Option.map_some']
  · obtain ⟨a0, hv⟩ := mem_toList_iff.1 hv
    cases b with
    | true =>
      rcases (htrue rfl).1 with h | h
      · cases h
      · exact absurd rfl (h _ hv)
    | false =>
      obtain ⟨rfl, -⟩ := hfalse rfl
      have := entry_of_key_unique hb.keysStrict hm1 hv rfl
      obtain ⟨rfl, hx⟩ := Prod.mk.inj this
      obtain rfl : w = v := (Prod.mk.inj hx).2
      refine ⟨a, hidx, hm1, ?_⟩
      simp only [map.get_second, load_of_entry hw hm1, Option.map_some']
  · obtain ⟨m2, hset, hwr, -, pre, post, e1, e2⟩ := set_second_spec hw1 hm1 v
    have hb2 : Built Prod.fst false m2 := Built.write (d := (k1, v)) hb1 hm1 rfl hwr
    have hm2 : (a, (k1, v)) ∈ m2.root_.entries := by rw [e2]; simp
    refine ⟨m2, by simp only [map.index_assign, hidx, hset], at_of_entry hb2.wellFormed hb2.keysStrict hm2,
      fun e he => ?_⟩
    rw [e2, (other_keys_mid (a, (k1, v)) (a, (k1, w)) rfl rfl e he).1, ← e1]
    cases b with
    | false => rw [(hfalse rfl).1]
    | true =>
      obtain ⟨-, -, p1, q1, e3, e4⟩ := htrue rfl
      rw [e4, e3]
      exact (other_keys_mid (m.fresh, (k1, default)) (m.fresh, (k1, default)) rfl rfl e he).2

/-- C22. For every map built by public operations, key `k` and value `v`,
`insert_or_assign(k, v)` returns, and afterwards `at(k)` yields `v`.  The flag
returned is `true` exactly when `k` was absent; then `size()` has grown by 1 and
the new entry sits at its sorted place.  When `k` was present `size()` is as
before and the node of `k` has `v` as its mapped value.  In both cases the
entries with other keys are the same nodes with the same values as before. -/
theorem C22_insert_or_assign [Inhabited κ] [Inhabited μ] {m : BinaryTree (κ × μ)}
    (hb : Built Prod.fst false m) (k : κ) (v : μ) :
    ∃ m1 a b, map.insert_or_assign m k v = .ok m1 (some a, b) ∧
      map.at m1 k = .ok m1 v ∧ (a, (k, v)) ∈ m1.root_.entries ∧
      (b = true ↔ ∀ w, (k, w) ∉ m.root_.toList) ∧
      (b = true → m1.size = m.size + 1 ∧
        ∃ pre post, m.root_.entries = pre ++ post ∧
          m1.root_.entries = pre ++ (a, (k, v)) :: post) ∧
      (b = false → m1.size = m.size ∧
        ∃ pre post w, m.root_.entries = pre ++ (a, (k, w)) :: post ∧
          m1.root_.entries = pre ++ (a, (k, v)) :: post) ∧
      ∀ e : Nat × κ × μ, e.2.1 ≠ k → (e ∈ m1.root_.entries ↔ e ∈ m.root_.entries) := by
  have hw := hb.wellFormed
  obtain ⟨m1, a, x, b, hins, hw1, hm1, hkx, hfalse, htrue⟩ :=
    insert_found hw ((k, v) : κ × μ) false
  have hb1 : Built Prod.fst false m1 := Built.insert hb hins
  obtain ⟨k1, w⟩ := x
  obtain rfl : k1 = k := hkx
  cases b with
  | true =>
    obtain ⟨habs, hsz, pre, post, e1, e2⟩ := htrue rfl
    have habs' : ∀ e ∈ m.root_.entries, Prod.fst e.2 ≠ k1 := by
      rcases habs with h | h
      · cases h
      · exact h
    have hnew : (m.fresh, ((k1, v) : κ × μ)) ∈ m1.root_.entries := by rw [e2]; simp
    have := entry_of_key_unique hb1.keysStrict hm1 hnew rfl
    obtain ⟨rfl, hx⟩ := Prod.mk.inj this
    obtain rfl : w = v := (Prod.mk.inj hx).2
    refine ⟨m1, m.fresh, true, ?_, at_of_entry hw1 hb1.keysStrict hm1, hm1, ?_, fun _ => ?_,
      fun h => (by cases h), fun e he => ?_⟩
    · simp only [map.insert_or_assign, hins, Bool.true_eq_false, if_false]
    · refine ⟨fun _ w1 hw1m => ?_, fun _ => rfl⟩
      obtain ⟨a0, h0⟩ := mem_toList_iff.1 hw1m
      exact habs' _ h0 rfl
    · exact ⟨hsz, pre, post, e1, e2⟩
    · rw [e2, e1]
      exact (other_keys_mid (m.fresh, (k1, w)) (m.fresh, (k1, w)) rfl rfl e he).2
  | false =>
    obtain ⟨rfl, e0, he0, hk0⟩ := hfalse rfl
    obtain ⟨m2, hset, hwr, hsz, pre, post, e1, e2⟩ := set_second_spec hw hm1 v
    have hb2 : Built Prod.fst false m2 := Built.write (d := (k1, v)) hb hm1 rfl hwr
    have hm2 : (a, (k1, v)) ∈ m2.root_.entries := by rw [e2]; simp
    refine ⟨m2, a, false, ?_, at_of_entry hb2.wellFormed hb2.keysStrict hm2, hm2, ?_,
      fun h => (by cases h), fun _ => ⟨hsz, pre, post, w, e1, e2⟩, fun e he => ?_⟩
    · simp only [map.insert_or_assign, hins, if_true, BinaryTree.arrow, hset]
    · refine ⟨fun h => (by cases h), fun h => ?_⟩
      exact absurd (mem_toList_iff.2 ⟨a, hm1⟩) (h w)
    · rw [e2, e1]
      exact (other_keys_mid (a, (k1, v)) (a, (k1, w)) rfl rfl e he).1

end mapped

theorem Res.map_map {σ ρ τ υ : Type} (f : ρ → τ) (g : τ → υ) (x : Res σ ρ) :
    Res.map g (Res.map f x) = Res.map (fun r => g (f r)) x := by
  cases x <;> rfl

section keyed
variable [LinearOrder κ] {key : α → κ}

/-- The fold of `insert_many` appends to `results` what the single `insert`
calls return. -/
theorem insert_many_fold_eq (args : List α) :
    ∀ (t : BinaryTree α) (results : vector (Ptr × Bool)),
      Res.map vector.arr (insert_many_fold key t results args) =
        Res.map (fun rs => results.arr ++ rs) (insert_each key t args) := by
  induction args with
  | nil => intro t results; simp [insert_many_fold, insert_each, Res.map]
  | cons x args ih =>
    intro t results
    simp only [insert_many_fold, insert_each]
    cases hi : t.insert key x false with
    | ok t1 r =>
      simp only [ih, Res.map_map, vector.push_back, List.append_assoc, List.singleton_append]
    | throws t1 e => rfl
    | undefined => rfl
    | out_of_fuel => rfl

theorem insert_many_eq (t : BinaryTree α) (args : List α) :
    Res.map vector.arr (insert_many key t args) = insert_each key t args := by
  cases args with
  | nil => rfl
  | cons x args =>
    have h : ¬ (x :: args).length = 0 := by simp
    simp only [insert_many, if_neg h, insert_many_fold_eq, vector.empty, List.nil_append]
    cases insert_each key t (x :: args) <;> rfl

/-- The single `insert` calls one after the other all return; the `j`-th
result is what `insert` returns on the tree left by the calls before it, and
its flag is `false` when the key was in the tree at the start or is the key of
an earlier argument. -/
theorem insert_each_spec [Inhabited α] (args : List α) :
    ∀ {t : BinaryTree α}, Built key false t →
      ∃ t1 rs, insert_each key t args = .ok t1 rs ∧ Built key false t1 ∧
        rs.length = args.length ∧
        (∀ (j : Nat) (x : α), args[j]? = some x →
          ∃ tj pre tj1 r, insert_each key t (args.take j) = .ok tj pre ∧
            tj.insert key x false = .ok tj1 r ∧ rs[j]? = some r) ∧
        (∀ (j : Nat) (x : α) (r : Ptr × Bool), args[j]? = some x → rs[j]? = some r →
          ((∃ e ∈ t.root_.entries, key e.2 = key x) ∨
            ∃ i y, i < j ∧ args[i]? = some y ∧ key y = key x) → r.2 = false) := by
  induction args with
  | nil =>
    intro t hb
    exact ⟨t, [], rfl, hb, rfl, fun j x h => by simp at h, fun j x r h => by simp at h⟩
  | cons x0 args ih =>
    intro t hb
    obtain ⟨t1, a, y, b, hins, hw1, hm1, hky, hfalse, htrue⟩ := insert_found hb.wellFormed x0 false
    have hb1 : Built key false t1 := Built.insert hb hins
    obtain ⟨t2, rs, heach, hb2, hlen, hith, hdup⟩ := ih hb1
    have hsub : ∀ e ∈ t.root_.entries, e ∈ t1.root_.entries := by
      intro e he
      cases b with
      | false => rw [(hfalse rfl).1]; exact he
      | true =>
        obtain ⟨-, -, pre, post, e1, e2⟩ := htrue rfl
        rw [e1] at he
        rw [e2]
        rcases List.mem_append.1 he with h | h
        · exact List.mem_append_left _ h
        · exact List.mem_append_right _ (List.mem_cons_of_mem _ h)
    refine ⟨t2, (some a, b) :: rs, ?_, hb2, by simp [hlen], fun j x hx => ?_,
      fun j x r hx hr hpre => ?_⟩
    · simp only [insert_each, hins, heach, Res.map]
    · cases j with
      | zero =>
        obtain rfl : x0 = x := by simpa using hx
        exact ⟨t, [], t1, (some a, b), rfl, hins, by simp⟩
      | succ j =>
        have hx' : args[j]? = some x := by simpa using hx
        obtain ⟨tj, pre, tj1, r, h1, h2, h3⟩ := hith j x hx'
        refine ⟨tj, (some a, b) :: pre, tj1, r, ?_, h2, by simpa using h3⟩
        simp only [List.take_succ_cons, insert_each, hins, h1, Res.map]
    · cases j with
      | zero =>
        obtain rfl : x0 = x := by simpa using hx
        obtain rfl : (some a, b) = r := by simpa using hr
        cases b with
        | false => rfl
        | true =>
          exfalso
          rcases hpre with ⟨e, he, hke⟩ | ⟨i, y1, hi, -⟩
          · rcases (htrue rfl).1 with h | h
            · cases h
            · exact h e he hke
          · exact Nat.not_lt_zero i hi
      | succ j =>
        have hx' : args[j]? = some x := by simpa using hx
        have hr' : rs[j]? = some r := by simpa using hr
        refine hdup j x r hx' hr' ?_
        rcases hpre with ⟨e, he, hke⟩ | ⟨i, y1, hi, hy1, hky1⟩
        · exact Or.inl ⟨e, hsub e he, hke⟩
        · cases i with
          | zero =>
            obtain rfl : x0 = y1 := by simpa using hy1
            exact Or.inl ⟨(a, y), hm1, hky.trans hky1⟩
          | succ i =>
            exact Or.inr ⟨i, y1, Nat.lt_of_succ_lt_succ hi, by simpa using hy1, hky1⟩

/-- C23. On every `set` or `map` built by public operations,
`insert_many(a1, …, an)` does what the calls `insert(a1)`, …, `insert(an)` in
that order do: same outcome, same final tree, and a vector of the `n` results
whose `j`-th entry is what `insert(aj)` returns on the tree left by the calls
before it — with `inserted = false` for a key that was already there or is
repeated from an earlier argument.  With no arguments it returns an empty
vector and the tree as it was. -/
theorem C23_insert_many [Inhabited α] {t : BinaryTree α} (hb : Built key false t)
    (args : List α) :
    Res.map vector.arr (insert_many key t args) = insert_each key t args ∧
    (∃ t1 results, insert_many key t args = .ok t1 results ∧ Built key false t1 ∧
      results.size = args.length ∧
      (∀ (j : Nat) (x : α), args[j]? = some x →
        ∃ tj pre tj1 r, insert_each key t (args.take j) = .ok tj pre ∧
          tj.insert key x false = .ok tj1 r ∧ results.arr[j]? = some r) ∧
      (∀ (j : Nat) (x : α) (r : Ptr × Bool), args[j]? = some x → results.arr[j]? = some r →
        ((∃ e ∈ t.root_.entries, key e.2 = key x) ∨
          ∃ i y, i < j ∧ args[i]? = some y ∧ key y = key x) → r.2 = false)) ∧
    insert_many key t [] = .ok t vector.empty := by
  refine ⟨insert_many_eq t args, ?_, rfl⟩
  obtain ⟨t1, rs, heach, hb1, hlen, hith, hdup⟩ := @insert_each_spec α κ _ key _ args t hb
  have heq := @insert_many_eq α κ _ key t args
  rw [heach] at heq
  cases hm : insert_many key t args with
  | ok t2 results =>
    rw [hm] at heq
    simp only [Res.map] at heq
    injection heq with e1 e2
    subst e1
    subst e2
    exact ⟨t2, results, rfl, hb1, hlen, hith, hdup⟩
  | throws t2 e => rw [hm] at heq; cases heq
  | undefined => rw [hm] at heq; cases heq
  | out_of_fuel => rw [hm] at heq; cases heq

end keyed

/-! ## The statements above on concrete trees -/

theorem stale_built : Built id false stale_tree :=
  Built.erase (p := some 4) (Built.insert (v := 4) (Built.insert (v := 3)
    (Built.insert (v := 1) (Built.insert (v := 2) Built.empty rfl) rfl) rfl) rfl) rfl

theorem C26_witness :
    stale_tree.root_ ≠ .null ∧
    ∃ a v b w, stale_tree.begin = some a ∧ stale_tree.star (some a) = .ok stale_tree v ∧
      (a, v) ∈ stale_tree.root_.entries ∧ (∀ e ∈ stale_tree.root_.entries, id v ≤ id e.2) ∧
      stale_tree.decr stale_tree.end = .ok stale_tree (some b) ∧
      stale_tree.star (some b) = .ok stale_tree w ∧
      (b, w) ∈ stale_tree.root_.entries ∧ (∀ e ∈ stale_tree.root_.entries, id e.2 ≤ id w) :=
  ⟨by decide, (C26_min_max_cache stale_built).2.2.2.2 (by decide)⟩

/-- C27 fails on the code. On the reachable set {0, 1, 3} (`dangling_tree`)
an iterator to 3 refers to the node at address 4, and `erase(find(1))` is the
erase of another position: the two-children root, whose in-order successor is
that very node.  The root's parent link still holds the address of a deleted
node (`erase_node` did not reset it when it promoted this node to root), so the
relinking takes the branch for a non-root node and reads freed memory:
undefined behaviour, and no state in which the iterator refers to 3.  In every
other case the iterator survives: every insert, and every erase of another
position that is not such a root, keeps the node and its value
(`iterators_survive`), as the erase of a two-children root with a relinked
successor does on `stale_tree`. -/
theorem C27_erase_at_dangling_root_undefined :
    run id BinaryTree.empty dangling_ops = .ok dangling_tree () ∧
    Reachable id dangling_tree ∧
    (4, 3) ∈ dangling_tree.root_.entries ∧
    dangling_tree.star (some 4) = .ok dangling_tree 3 ∧
    dangling_tree.find id 1 = some 2 ∧ (some 2 : Ptr) ≠ some 4 ∧
    dangling_tree.root_.addr? = some 2 ∧
    dangling_tree.root_.left? ≠ .null ∧ dangling_tree.root_.right? ≠ .null ∧
    (leftmost_node dangling_tree.root_.right?).addr? = some 4 ∧
    dangling_tree.root_.parent? = some 1 ∧ dangling_tree.root_.deref 1 = none ∧
    dangling_tree.erase (dangling_tree.find id 1) = .undefined ∧
    ((3, 3) ∈ stale_tree.root_.entries ∧
      ∃ t1, stale_tree.erase (some 1) = .ok t1 () ∧ t1.root_.addr? = some 3 ∧
        (3, 3) ∈ t1.root_.entries ∧ t1.star (some 3) = .ok t1 3) ∧
    ∀ (dup : Bool) (t : BinaryTree Nat), Built id dup t →
      ∀ (a x : Nat), (a, x) ∈ t.root_.entries →
        (∀ v d, ∃ t1 r, t.insert id v d = .ok t1 r ∧
          (a, x) ∈ t1.root_.entries ∧ t1.star (some a) = .ok t1 x) ∧
        (∀ p t1, p ≠ some a → t.erase p = .ok t1 () →
          (a, x) ∈ t1.root_.entries ∧ t1.star (some a) = .ok t1 x) :=
  ⟨rfl, run_reachable ⟨[], Reach.empty⟩
      (show run id BinaryTree.empty dangling_ops = .ok dangling_tree () from rfl),
    by decide, rfl, rfl, by decide, rfl, by decide, by decide, rfl, rfl, rfl, rfl,
    ⟨by decide, _, rfl, rfl,
      (iterators_survive stale_built (show (3, 3) ∈ stale_tree.root_.entries by decide)).2.1
        (some 1) _ (by decide) rfl⟩,
    fun _ _ hb _ _ hm => ⟨(iterators_survive hb hm).1, (iterators_survive hb hm).2.1⟩⟩

theorem C28_witness :
    (∀ a, a ∈ stale_tree.root_.addrs → (some a : Ptr) ≠ stale_tree.end) ∧
    (stale_tree.clear.end_node_ = stale_tree.end_node_ ∧ stale_tree.clear.end = stale_tree.end) ∧
    ∃ t1 r, stale_tree.insert id 0 false = .ok t1 r ∧ t1.end_node_ = stale_tree.end_node_ ∧
      t1.end = stale_tree.end :=
  ⟨(C28_sentinel_stable stale_built).2.2.2.2.2.1, (C28_sentinel_stable stale_built).2.2.1,
    (C28_sentinel_stable stale_built).1 0 false⟩

theorem map_demo_built : Built Prod.fst false map_demo :=
  Built.insert (v := (2, 20)) (Built.insert (v := (1, 10)) Built.empty rfl) rfl

theorem C21_witness :
    (∃ m1 a, map.index map_demo 3 = .ok m1 a ∧ map.get_second m1 a = some default ∧
      m1.size = map_demo.size + 1 ∧
      ∃ pre post, map_demo.root_.entries = pre ++ post ∧
        m1.root_.entries = pre ++ (a, (3, default)) :: post) ∧
    (∃ m2, map.index_assign map_demo 3 7 = .ok m2 () ∧ map.at m2 3 = .ok m2 7 ∧
      ∀ e : Nat × Nat × Nat, e.2.1 ≠ 3 →
        (e ∈ m2.root_.entries ↔ e ∈ map_demo.root_.entries)) :=
  ⟨(C21_map_index map_demo_built 3).1
      (fun v h => by simp [map_demo, Node.toList] at h),
    (C21_map_index map_demo_built 3).2.2 7⟩

theorem C22_witness :
    ∃ m1 a b, map.insert_or_assign map_demo 2 7 = .ok m1 (some a, b) ∧
      map.at m1 2 = .ok m1 7 ∧ (a, (2, 7)) ∈ m1.root_.entries ∧
      (b = true ↔ ∀ w, (2, w) ∉ map_demo.root_.toList) ∧
      (b = true → m1.size = map_demo.size + 1 ∧
        ∃ pre post, map_demo.root_.entries = pre ++ post ∧
          m1.root_.entries = pre ++ (a, (2, 7)) :: post) ∧
      (b = false → m1.size = map_demo.size ∧
        ∃ pre post w, map_demo.root_.entries = pre ++ (a, (2, w)) :: post ∧
          m1.root_.entries = pre ++ (a, (2, 7)) :: post) ∧
      ∀ e : Nat × Nat × Nat, e.2.1 ≠ 2 →
        (e ∈ m1.root_.entries ↔ e ∈ map_demo.root_.entries) :=
  C22_insert_or_assign map_demo_built 2 7

theorem C23_witness :
    ∃ t1 results, insert_many id stale_tree [3, 0, 0] = .ok t1 results ∧
      results.arr = [(some 3, false), (some 5, true), (some 5, false)] ∧
      Res.map vector.arr (insert_many id stale_tree [3, 0, 0]) =
        insert_each id stale_tree [3, 0, 0] :=
  ⟨_, _, rfl, rfl, (C23_insert_many stale_built [3, 0, 0]).1⟩

/-! ## `list::sort` -/

namespace list

theorem linked_congr {h h1 : ListHeap α} (hn : h1.next = h.next) (hp : h1.prev = h.prev)
    {L : List Nat} (hl : Linked h L) : Linked h1 L := by
  unfold Linked at hl ⊢
  rw [hn, hp]
  exact hl

theorem linked_part {h : ListHeap α} {L : List Nat} (hl : Linked h L) (X Y Z : List Nat)
    (e : L = X ++ Y ++ Z) : Linked h Y :=
  List.Chain'.infix hl ⟨X, Z, e.symm⟩

theorem linked_pair {h : ListHeap α} {X Y : List Nat} {a b : Nat}
    (hl : Linked h (X ++ a :: b :: Y)) : h.next a = b ∧ h.prev b = a := by
  have h1 : Linked h [a, b] := linked_part hl X [a, b] Y (by simp)
  simpa [Linked] using h1

/-- The node after `a` is the head of what follows it. -/
theorem linked_next_headD {h : ListHeap α} {X Y : List Nat} {a z : Nat}
    (hl : Linked h (X ++ a :: (Y ++ [z]))) : h.next a = Y.headD z := by
  cases Y with
  | nil => exact (linked_pair (Y := []) hl).1
  | cons y Y => exact (linked_pair (Y := Y ++ [z]) hl).1

/-- The node before `a` is the last of what precedes it. -/
theorem linked_prev_getLastD {h : ListHeap α} {X Y : List Nat} {a b : Nat}
    (hl : Linked h (b :: (X ++ a :: Y))) : h.prev a = X.getLastD b := by
  rcases eq_nil_or_snoc X with rfl | ⟨X1, x, rfl⟩
  · exact (linked_pair (X := []) hl).2
  · have : b :: (X1 ++ [x] ++ a :: Y) = (b :: X1) ++ x :: a :: Y := by simp
    rw [this] at hl
    rw [(linked_pair hl).2]
    simp [List.getLastD_eq_getLast?]

theorem holds_nil {h : ListHeap α} {V : List α} : Holds h [] V ↔ V = [] := by
  unfold Holds
  cases V <;> simp

theorem holds_cons {h : ListHeap α} {a : Nat} {L : List Nat} {V : List α} :
    Holds h (a :: L) V ↔ ∃ v V1, V = v :: V1 ∧ h.data a = some v ∧ Holds h L V1 := by
  unfold Holds
  cases V with
  | nil => simp
  | cons v V =>
    simp only [List.map_cons, List.cons.injEq]
    constructor
    · rintro ⟨h1, h2⟩
      exact ⟨v, V, ⟨rfl, rfl⟩, h1, h2⟩
    · rintro ⟨v1, V1, ⟨rfl, rfl⟩, h1, h2⟩
      exact ⟨h1, h2⟩

theorem holds_append {h : ListHeap α} {L1 L2 : List Nat} {V : List α} :
    Holds h (L1 ++ L2) V ↔ ∃ V1 V2, V = V1 ++ V2 ∧ Holds h L1 V1 ∧ Holds h L2 V2 := by
  induction L1 generalizing V with
  | nil =>
    simp only [List.nil_append, holds_nil]
    exact ⟨fun hh => ⟨[], V, rfl, rfl, hh⟩, fun ⟨V1, V2, e, e1, hh⟩ => by subst e1; subst e; exact hh⟩
  | cons a L1 ih =>
    simp only [List.cons_append, holds_cons, ih]
    constructor
    · rintro ⟨v, V1, rfl, hv, V2, V3, rfl, h2, h3⟩
      exact ⟨v :: V2, V3, rfl, ⟨v, V2, rfl, hv, h2⟩, h3⟩
    · rintro ⟨V1, V2, rfl, ⟨v, V3, rfl, hv, h2⟩, h3⟩
      exact ⟨v, V3 ++ V2, rfl, hv, V3, V2, rfl, h2, h3⟩

theorem holds_single {h : ListHeap α} {a : Nat} {v : α} : Holds h [a] [v] ↔ h.data a = some v := by
  simp [Holds]

theorem holds_length {h : ListHeap α} {L : List Nat} {V : List α} (hh : Holds h L V) :
    V.length = L.length := by
  have := congrArg List.length hh
  simpa using this.symm

/-- Values held at addresses whose payload is the same in both memories. -/
theorem holds_frame {h h1 : ListHeap α} {L : List Nat} {V : List α} (hh : Holds h L V)
    (hf : ∀ a ∈ L, h1.data a = h.data a) : Holds h1 L V := by
  unfold Holds at hh ⊢
  rw [← hh]
  exact List.map_congr_left hf

theorem cell_set (h : ListHeap α) (n : Nat) (c : ListCell α) (a : Nat) :
    ({ cells := h.cells.set n c } : ListHeap α).cell a =
      if a = n ∧ n < h.cells.length then c else h.cell a := by
  simp only [ListHeap.cell, List.getD_eq_getElem?_getD, List.getElem?_set]
  by_cases h1 : n = a
  · subst h1
    by_cases h2 : n < h.cells.length
    · simp [h2]
    · simp [h2, List.getElem?_eq_none (not_lt.1 h2)]
  · have h3 : ¬ (a = n ∧ n < h.cells.length) := fun hx => h1 hx.1.symm
    simp [h1, h3]

theorem lt_of_data {h : ListHeap α} {a : Nat} {v : α} (hd : h.data a = some v) :
    a < h.cells.length := by
  by_contra hlt
  simp [ListHeap.data, ListHeap.cell, List.getD_eq_getElem?_getD,
    List.getElem?_eq_none (not_lt.1 hlt)] at hd

theorem next_setData (h : ListHeap α) (n : Nat) (v : α) : (h.setData n v).next = h.next := by
  funext a
  simp only [ListHeap.next, ListHeap.setData, cell_set]
  split_ifs with h1
  · rw [h1.1]
  · rfl

theorem prev_setData (h : ListHeap α) (n : Nat) (v : α) : (h.setData n v).prev = h.prev := by
  funext a
  simp only [ListHeap.prev, ListHeap.setData, cell_set]
  split_ifs with h1
  · rw [h1.1]
  · rfl

theorem fresh_setData (h : ListHeap α) (n : Nat) (v : α) : (h.setData n v).fresh = h.fresh := by
  simp [ListHeap.fresh, ListHeap.setData]

theorem data_setData (h : ListHeap α) (a b : Nat) (v : α) (ha : a < h.cells.length) :
    (h.setData a v).data b = if b = a then some v else h.data b := by
  simp only [ListHeap.data, ListHeap.setData, cell_set]
  by_cases h1 : b = a
  · simp [h1, ha]
  · simp [h1]

theorem swap_data_spec {h : ListHeap α} {i j : Nat} {vi vj : α} (hi : h.data i = some vi)
    (hj : h.data j = some vj) :
    ∃ h1, h.swap_data i j = some h1 ∧ h1.next = h.next ∧ h1.prev = h.prev ∧
      h1.fresh = h.fresh ∧ h1.data j = some vi ∧ (i ≠ j → h1.data i = some vj) ∧
      ∀ a, a ≠ i → a ≠ j → h1.data a = h.data a := by
  have hli := lt_of_data hi
  have hlj : j < (h.setData i vj).cells.length := by
    simpa [ListHeap.setData] using lt_of_data hj
  refine ⟨(h.setData i vj).setData j vi, by simp only [ListHeap.swap_data, hi, hj], ?_, ?_, ?_,
    ?_, fun hne => ?_, fun a h1 h2 => ?_⟩
  · rw [next_setData, next_setData]
  · rw [prev_setData, prev_setData]
  · rw [fresh_setData, fresh_setData]
  · rw [data_setData _ _ _ _ hlj, if_pos rfl]
  · rw [data_setData _ _ _ _ hlj, if_neg hne, data_setData _ _ _ _ hli, if_pos rfl]
  · rw [data_setData _ _ _ _ hlj, if_neg h2, data_setData _ _ _ _ hli, if_neg h1]

end list

namespace list

theorem nodup_mid {β : Type} {X Y : List β} {c : β} (h : (X ++ c :: Y).Nodup) :
    c ∉ X ∧ c ∉ Y := by
  rw [List.nodup_append] at h
  obtain ⟨-, h2, h3⟩ := h
  rw [List.nodup_cons] at h2
  exact ⟨fun hx => h3 hx (List.mem_cons_self _ _), h2.1⟩

section ordered
variable [LinearOrder α]

/-- The loop of `partition`.  The nodes before `i` (`SA`) hold values `≤ pivot`,
those from `i` up to `j` (`SB`) hold larger ones, `SC` is still to be looked
at; the loop ends with every node but `high` in one of the first two groups. -/
theorem partition_loop_spec (pv : α) (high : Nat) (SC : List Nat) :
    ∀ (h : ListHeap α) (SA SB : List Nat) (A B C : List α) (fuel : Nat),
      Linked h (SA ++ (SB ++ (SC ++ [high]))) → (SA ++ (SB ++ (SC ++ [high]))).Nodup →
      Holds h SA A → Holds h SB B → Holds h SC C →
      (∀ x ∈ A, x ≤ pv) → (∀ x ∈ B, ¬ x ≤ pv) → SC.length < fuel →
      ∃ h1 SA1 SB1 A1 B1,
        partition_loop pv high fuel h ((SB ++ SC).headD high) (SC.headD high) =
          .ok h1 (SB1.headD high) ∧
        SA1 ++ SB1 = SA ++ (SB ++ SC) ∧ Holds h1 SA1 A1 ∧ Holds h1 SB1 B1 ∧
        (∀ x ∈ A1, x ≤ pv) ∧ (∀ x ∈ B1, ¬ x ≤ pv) ∧ (A1 ++ B1).Perm (A ++ (B ++ C)) ∧
        h1.next = h.next ∧ h1.prev = h.prev ∧ h1.fresh = h.fresh ∧
        ∀ a, a ∉ SA ++ (SB ++ SC) → h1.data a = h.data a := by
  induction SC with
  | nil =>
    intro h SA SB A B C fuel hl hn hA hB hC hle hgt hf
    obtain ⟨f, rfl⟩ : ∃ f, fuel = f + 1 := ⟨fuel - 1, by simp at hf; omega⟩
    obtain rfl : C = [] := holds_nil.1 hC
    refine ⟨h, SA, SB, A, B, ?_, by simp, hA, hB, hle, hgt, by simp, rfl, rfl, rfl,
      fun _ _ => rfl⟩
    simp [partition_loop]
  | cons c SC ih =>
    intro h SA SB A B C fuel hl hn hA hB hC hle hgt hf
    obtain ⟨f, rfl⟩ : ∃ f, fuel = f + 1 := ⟨fuel - 1, by simp at hf; omega⟩
    have hf1 : SC.length < f := by simp at hf; omega
    obtain ⟨vc, C1, rfl, hc, hC1⟩ := holds_cons.1 hC
    have hn1 : ((SA ++ SB) ++ c :: (SC ++ [high])).Nodup := by simpa using hn
    obtain ⟨hc1, hc2⟩ := nodup_mid hn1
    have hcA : c ∉ SA := fun hx => hc1 (List.mem_append_left _ hx)
    have hcB : c ∉ SB := fun hx => hc1 (List.mem_append_right _ hx)
    have hcC : c ∉ SC := fun hx => hc2 (List.mem_append_left _ hx)
    have hch : c ≠ high := fun e => hc2 (e ▸ List.mem_append_right _ (List.mem_singleton_self _))
    have hnext : h.next c = SC.headD high :=
      linked_next_headD (X := SA ++ SB) (by simpa using hl)
    unfold partition_loop
    simp only [List.headD_cons, if_neg hch, hc]
    by_cases hv : vc ≤ pv
    · simp only [if_pos hv]
      cases SB with
      | nil =>
        obtain rfl : B = [] := holds_nil.1 hB
        obtain ⟨h1, hs, hx1, hp1, hfr1, hdj, -, hfr⟩ := swap_data_spec hc hc
        simp only [List.nil_append, List.headD_cons, hs]
        rw [hx1, hnext]
        obtain ⟨h2, SA1, SB1, A1, B1, hrun, e1, hA1, hB1, hle1, hgt1, hperm, hx2, hp2, hfr2,
            hfr3⟩ := ih h1 (SA ++ [c]) [] (A ++ [vc]) [] C1 f
          (linked_congr hx1 hp1 (by simpa using hl)) (by simpa using hn)
          (holds_append.2 ⟨A, [vc], rfl,
            holds_frame hA (fun a ha => hfr a (fun e => hcA (e ▸ ha)) (fun e => hcA (e ▸ ha))),
            holds_single.2 hdj⟩)
          (holds_nil.2 rfl)
          (holds_frame hC1 (fun a ha => hfr a (fun e => hcC (e ▸ ha)) (fun e => hcC (e ▸ ha))))
          (by
            intro x hx
            rcases List.mem_append.1 hx with hx | hx
            · exact hle x hx
            · obtain rfl : x = vc := by simpa using hx
              exact hv)
          (by intro x hx; simp at hx) hf1
        refine ⟨h2, SA1, SB1, A1, B1, by simpa using hrun, by simpa using e1, hA1, hB1, hle1,
          hgt1, by simpa using hperm, hx2.trans hx1, hp2.trans hp1, hfr2.trans hfr1,
          fun a ha => ?_⟩
        have ha1 : a ∉ SA ++ [c] ++ ([] ++ SC) := by simpa using ha
        have hac : a ≠ c := fun e => ha (by simp [e])
        rw [hfr3 a (by simpa using ha), hfr a hac hac]
      | cons b SB2 =>
        obtain ⟨vb, B2, rfl, hb, hB2⟩ := holds_cons.1 hB
        have hn2 : (SA ++ b :: (SB2 ++ (c :: SC ++ [high]))).Nodup := by simpa using hn
        obtain ⟨hb1, hb2⟩ := nodup_mid hn2
        have hbB : b ∉ SB2 := fun hx => hb2 (List.mem_append_left _ hx)
        have hbC : b ∉ SC := fun hx => hb2 (by simp [hx])
        have hbc : b ≠ c := fun e => hb2 (by simp [e])
        have hnextb : h.next b = (SB2 ++ c :: SC).headD high :=
          linked_next_headD (X := SA) (by simpa using hl)
        obtain ⟨h1, hs, hx1, hp1, hfr1, hdc, hdb, hfr⟩ := swap_data_spec hb hc
        simp only [List.cons_append, List.headD_cons, hs]
        rw [hx1, hnext, hnextb]
        obtain ⟨h2, SA1, SB1, A1, B1, hrun, e1, hA1, hB1, hle1, hgt1, hperm, hx2, hp2, hfr2,
            hfr3⟩ := ih h1 (SA ++ [b]) (SB2 ++ [c]) (A ++ [vc]) (B2 ++ [vb]) C1 f
          (linked_congr hx1 hp1 (by simpa using hl)) (by simpa using hn)
          (holds_append.2 ⟨A, [vc], rfl,
            holds_frame hA (fun a ha => hfr a (fun e => hb1 (e ▸ ha)) (fun e => hcA (e ▸ ha))),
            holds_single.2 (hdb hbc)⟩)
          (holds_append.2 ⟨B2, [vb], rfl,
            holds_frame hB2 (fun a ha => hfr a (fun e => hbB (e ▸ ha))
              (fun e => hcB (e ▸ List.mem_cons_of_mem _ ha))),
            holds_single.2 hdc⟩)
          (holds_frame hC1 (fun a ha => hfr a (fun e => hbC (e ▸ ha)) (fun e => hcC (e ▸ ha))))
          (by
            intro x hx
            rcases List.mem_append.1 hx with hx | hx
            · exact hle x hx
            · obtain rfl : x = vc := by simpa using hx
              exact hv)
          (by
            intro x hx
            rcases List.mem_append.1 hx with hx | hx
            · exact hgt x (List.mem_cons_of_mem _ hx)
            · obtain rfl : x = vb := by simpa using hx
              exact hgt x (List.mem_cons_self _ _))
          hf1
        refine ⟨h2, SA1, SB1, A1, B1, by simpa using hrun, by simpa using e1, hA1, hB1, hle1,
          hgt1, ?_, hx2.trans hx1, hp2.trans hp1, hfr2.trans hfr1, fun a ha => ?_⟩
        · refine hperm.trans ?_
          simp only [List.append_assoc, List.cons_append, List.nil_append]
          refine List.Perm.append_left A ?_
          have p1 : (vc :: (B2 ++ vb :: C1)).Perm (vb :: (B2 ++ vc :: C1)) := by
            have q1 : (B2 ++ vb :: C1).Perm (vb :: (B2 ++ C1)) := List.perm_middle
            have q2 : (B2 ++ vc :: C1).Perm (vc :: (B2 ++ C1)) := List.perm_middle
            exact ((q1.cons vc).trans (List.Perm.swap _ _ _)).trans (q2.symm.cons vb)
          exact p1
        · have hab : a ≠ b := fun e => ha (by simp [e])
          have hac : a ≠ c := fun e => ha (by simp [e])
          rw [hfr3 a (by simpa using ha), hfr a hab hac]
    · simp only [if_neg hv]
      rw [hnext]
      obtain ⟨h2, SA1, SB1, A1, B1, hrun, e1, hA1, hB1, hle1, hgt1, hperm, hx2, hp2, hfr2,
          hfr3⟩ := ih h SA (SB ++ [c]) A (B ++ [vc]) C1 f
        (by simpa using hl) (by simpa using hn) hA
        (holds_append.2 ⟨B, [vc], rfl, hB, holds_single.2 hc⟩) hC1 hle
        (by
          intro x hx
          rcases List.mem_append.1 hx with hx | hx
          · exact hgt x hx
          · obtain rfl : x = vc := by simpa using hx
            exact hv)
        hf1
      exact ⟨h2, SA1, SB1, A1, B1, by simpa using hrun, by simpa using e1, hA1, hB1, hle1,
        hgt1, by simpa using hperm, hx2, hp2, hfr2, fun a ha => hfr3 a (by simpa using ha)⟩

end ordered

end list

namespace list

section ordered
variable [LinearOrder α]

/-- `partition(low, high)` on a linked run of nodes ending in `high`: it
returns an iterator `p` into the run, the nodes before `p` then hold values
`≤ pivot`, `p` holds the pivot and the nodes after it hold larger values; the
values are rearranged, nothing else changes. -/
theorem partition_spec {h : ListHeap α} {T : List Nat} {high : Nat} {VT : List α} {pv : α}
    {fuel : Nat} (hl : Linked h (T ++ [high])) (hn : (T ++ [high]).Nodup)
    (hT : Holds h T VT) (hp : h.data high = some pv) (hf : T.length < fuel) :
    ∃ h2 S1 p S2 A R, partition fuel h (T.headD high) high = .ok h2 p ∧
      T ++ [high] = S1 ++ p :: S2 ∧ Holds h2 S1 A ∧ h2.data p = some pv ∧ Holds h2 S2 R ∧
      (∀ x ∈ A, x ≤ pv) ∧ (∀ x ∈ R, ¬ x ≤ pv) ∧ (A ++ R).Perm VT ∧
      h2.next = h.next ∧ h2.prev = h.prev ∧ h2.fresh = h.fresh ∧
      ∀ a, a ∉ T ++ [high] → h2.data a = h.data a := by
  obtain ⟨h1, SA1, SB1, A1, B1, hrun, e1, hA1, hB1, hle1, hgt1, hperm, hx1, hp1, hfr1, hfr⟩ :=
    partition_loop_spec pv high T h [] [] [] [] VT fuel (by simpa using hl) (by simpa using hn)
      (holds_nil.2 rfl) (holds_nil.2 rfl) hT (by intro x hx; simp at hx)
      (by intro x hx; simp at hx) hf
  simp only [List.nil_append] at hrun e1 hperm hfr
  have hhT : high ∉ T := (nodup_mid (Y := []) hn).1
  have hp1h : h1.data high = some pv := by rw [hfr high hhT, hp]
  unfold partition
  simp only [hp, hrun]
  cases SB1 with
  | nil =>
    obtain rfl : B1 = [] := holds_nil.1 hB1
    obtain ⟨h2, hs, hx2, hp2, hfr2, hd, -, hfr3⟩ := swap_data_spec hp1h hp1h
    simp only [List.append_nil] at e1
    subst e1
    simp only [List.headD_nil, hs]
    refine ⟨h2, SA1, high, [], A1, [], rfl, rfl, ?_, hd, holds_nil.2 rfl, hle1,
      by intro x hx; simp at hx, by simpa using hperm, hx2.trans hx1, hp2.trans hp1,
      hfr2.trans hfr1, fun a ha => ?_⟩
    · exact holds_frame hA1 (fun a ha => hfr3 a (fun e => hhT (e ▸ ha)) (fun e => hhT (e ▸ ha)))
    · have h1 : a ∉ SA1 := fun hx => ha (List.mem_append_left _ hx)
      have h2 : a ≠ high := fun e => ha (by simp [e])
      rw [hfr3 a h2 h2, hfr a h1]
  | cons b SB2 =>
    obtain ⟨vb, B2, rfl, hb, hB2⟩ := holds_cons.1 hB1
    subst e1
    have hn2 : (SA1 ++ b :: (SB2 ++ [high])).Nodup := by simpa using hn
    obtain ⟨hb1, hb2⟩ := nodup_mid hn2
    have hbh : b ≠ high := fun e => hb2 (by simp [e])
    have hbB : b ∉ SB2 := fun hx => hb2 (List.mem_append_left _ hx)
    have hhA : high ∉ SA1 := fun hx => hhT (List.mem_append_left _ hx)
    have hhB : high ∉ SB2 := fun hx => hhT (by simp [hx])
    obtain ⟨h2, hs, hx2, hp2, hfr2, hdh, hdb, hfr3⟩ := swap_data_spec hb hp1h
    simp only [List.headD_cons, hs]
    refine ⟨h2, SA1, b, SB2 ++ [high], A1, B2 ++ [vb], rfl, by simp, ?_, hdb hbh, ?_, hle1, ?_,
      ?_, hx2.trans hx1, hp2.trans hp1, hfr2.trans hfr1, fun a ha => ?_⟩
    · exact holds_frame hA1 (fun a ha => hfr3 a (fun e => hb1 (e ▸ ha)) (fun e => hhA (e ▸ ha)))
    · exact holds_append.2 ⟨B2, [vb], rfl,
        holds_frame hB2 (fun a ha => hfr3 a (fun e => hbB (e ▸ ha)) (fun e => hhB (e ▸ ha))),
        holds_single.2 hdh⟩
    · intro x hx
      rcases List.mem_append.1 hx with hx | hx
      · exact hgt1 x (List.mem_cons_of_mem _ hx)
      · obtain rfl : x = vb := by simpa using hx
        exact hgt1 x (List.mem_cons_self _ _)
    · refine List.Perm.trans ?_ hperm
      refine List.Perm.append_left A1 ?_
      exact (List.perm_append_singleton vb B2)
    · have h1 : a ∉ SA1 ++ b :: SB2 := fun hx => ha (List.mem_append_left _ hx)
      have h2 : a ≠ high := fun e => ha (by simp [e])
      have h3 : a ≠ b := fun e => h1 (by simp [e])
      rw [hfr3 a h3 h2, hfr a h1]

end ordered

end list

namespace list

/-- A run that ends in `high`, cut after some node `p`: what follows `p`
ends in `high` too (or is empty and `p` is `high`). -/
theorem snoc_decomp {X T S2 : List Nat} {p high : Nat} (e : T ++ [high] = X ++ p :: S2) :
    ∃ T2, p :: S2 = T2 ++ [high] ∧ T2.headD high = p ∧ T = X ++ T2 := by
  rcases eq_nil_or_snoc S2 with rfl | ⟨S3, x, rfl⟩
  · have h1 : T ++ [high] = X ++ [p] := e
    obtain ⟨h2, h3⟩ := List.append_inj' h1 rfl
    obtain rfl : high = p := by simpa using h3
    exact ⟨[], rfl, rfl, by simpa using h2⟩
  · have h1 : T ++ [high] = (X ++ p :: S3) ++ [x] := by simpa using e
    obtain ⟨h2, h3⟩ := List.append_inj' h1 rfl
    obtain rfl : high = x := by simpa using h3
    exact ⟨p :: S3, rfl, rfl, h2⟩

section ordered
variable [LinearOrder α]

/-- `quick_sort_recursive(low, high)` with `high` the node before `low`
returns at once (the test `low != ++high` fails). -/
theorem quick_sort_empty_range {n f : Nat} {h : ListHeap α} {low b : Nat} (hf : 0 < f)
    (hn : h.next b = low) : quick_sort_recursive n f h low b = .ok h () := by
  obtain ⟨f1, rfl⟩ : ∃ f1, f = f1 + 1 := ⟨f - 1, by omega⟩
  unfold quick_sort_recursive
  rw [if_neg]
  rintro ⟨-, h2⟩
  exact h2 hn.symm

/-- `quick_sort_recursive(low, high)` on a linked run of nodes from `low` to
`high` (`b` before it, `e` after it) returns and leaves the values of the run
sorted; `m` bounds the depth of the recursion: twice the length of the run,
plus one unless the first value is at most the last. -/
theorem quick_sort_spec (n m : Nat) :
    ∀ (fuel : Nat) (h : ListHeap α) (b e high : Nat) (T : List Nat) (V : List α),
      Linked h (b :: (T ++ [high]) ++ [e]) → (T ++ [high]).Nodup →
      b ∉ T ++ [high] → e ∉ T ++ [high] → Holds h (T ++ [high]) V → T.length < n →
      (2 * (T.length + 1) + 1 ≤ m ∨
        (2 * (T.length + 1) ≤ m ∧ ∀ x y, V.head? = some x → V.getLast? = some y → x ≤ y)) →
      m < fuel →
      ∃ h1 V1, quick_sort_recursive n fuel h (T.headD high) high = .ok h1 () ∧
        Holds h1 (T ++ [high]) V1 ∧ V1.Perm V ∧ V1.Sorted (· ≤ ·) ∧
        h1.next = h.next ∧ h1.prev = h.prev ∧ h1.fresh = h.fresh ∧
        ∀ a, a ∉ T ++ [high] → h1.data a = h.data a := by
  induction m with
  | zero =>
    intro fuel h b e high T V _ _ _ _ _ _ hm _
    rcases hm with hm | ⟨hm, -⟩ <;> omega
  | succ m ih =>
    intro fuel h b e high T V hl hn hb he hV hTn hm hf
    obtain ⟨f, rfl⟩ : ∃ f, fuel = f + 1 := ⟨fuel - 1, by omega⟩
    have hmf : m < f := by omega
    obtain ⟨VT, Vh, rfl, hVT, hVh⟩ := holds_append.1 hV
    obtain ⟨pv, V0, rfl, hpv, hV0⟩ := holds_cons.1 hVh
    obtain rfl : V0 = [] := holds_nil.1 hV0
    cases T with
    | nil =>
      obtain rfl : VT = [] := holds_nil.1 hVT
      refine ⟨h, [pv], ?_, hV, List.Perm.refl _, List.sorted_singleton _, rfl, rfl, rfl,
        fun _ _ => rfl⟩
      unfold quick_sort_recursive
      simp
    | cons t0 T1 =>
      obtain ⟨vt0, VT1, rfl, hvt0, hVT1⟩ := holds_cons.1 hVT
      have hlow : t0 ≠ high := by
        intro e0
        have := (nodup_mid (X := []) (c := t0) (Y := T1 ++ [high]) (by simpa using hn)).2
        exact this (by simp [e0])
      have hte : t0 ≠ e := fun e0 => he (by simp [e0])
      have hpe : h.next high = e ∧ h.prev e = high :=
        linked_pair (X := b :: (t0 :: T1)) (Y := []) (by simpa using hl)
      have hlS : Linked h (t0 :: T1 ++ [high]) :=
        linked_part hl [b] (t0 :: T1 ++ [high]) [e] (by simp)
      obtain ⟨h1, S1, p, S2, A, R, hpart, eS, hA, hdp, hR, hle, hgt, hperm, hx1, hp1, hfr1,
        hfrd1⟩ := partition_spec hlS hn hVT hpv hTn
      have hlen : T1.length + 1 = S1.length + S2.length := by
        have := congrArg List.length eS
        simp only [List.length_append, List.length_cons, List.length_nil] at this
        omega
      simp only [List.length_cons] at hm hTn
      have hpvR : ∀ y ∈ pv :: R, pv ≤ y := by
        intro y hy
        rcases List.mem_cons.1 hy with rfl | hy
        · exact le_refl _
        · exact le_of_lt (not_le.1 (hgt y hy))
      have hheadlast : ∀ x y, (pv :: R).head? = some x → (pv :: R).getLast? = some y → x ≤ y := by
        intro x y hx hy
        obtain rfl : pv = x := by simpa using hx
        exact hpvR y (List.mem_of_getLast?_eq_some hy)
      have hl1 : Linked h1 (b :: (S1 ++ p :: S2) ++ [e]) := by
        rw [← eS]; exact linked_congr hx1 hp1 hl
      have hn1 : (S1 ++ p :: S2).Nodup := by rw [← eS]; exact hn
      have hb1 : b ∉ S1 ++ p :: S2 := by rw [← eS]; exact hb
      have he1 : e ∉ S1 ++ p :: S2 := by rw [← eS]; exact he
      obtain ⟨hpS1, hpS2⟩ := nodup_mid hn1
      have hprevp : h1.prev p = S1.getLastD b :=
        linked_prev_getLastD (Y := S2 ++ [e]) (by simpa using hl1)
      obtain ⟨T2, eT2, hT2head, eT⟩ := snoc_decomp eS
      have hlenT2 : T2.length = S2.length := by
        have := congrArg List.length eT2
        simp only [List.length_append, List.length_cons, List.length_nil] at this
        omega
      -- the goal, on the run as `partition` left it
      unfold quick_sort_recursive
      simp only [List.headD_cons]
      rw [if_pos ⟨hlow, by rw [hpe.1]; exact hte⟩]
      simp only [hpe.1, hpe.2]
      simp only [List.headD_cons] at hpart
      simp only [hpart, hprevp]
      rcases eq_nil_or_snoc S1 with rfl | ⟨T3, hl3, rfl⟩
      · -- the pivot is the first node: nothing on its left
        obtain rfl : A = [] := holds_nil.1 hA
        have hp0 : t0 = p := by
          have := eS
          simp only [List.nil_append, List.cons_append, List.cons.injEq] at this
          exact this.1
        subst hp0
        have hnb : h1.next b = t0 :=
          (linked_pair (X := []) (Y := S2 ++ [e]) (by simpa using hl1)).1
        rw [List.getLastD_nil, quick_sort_empty_range (n := n) (by omega : 0 < f) hnb]
        simp only [hnb]
        have hm2 : 2 * (T2.length + 1) ≤ m := by
          rcases hm with hm | ⟨hm, hhl⟩
          · simp only [List.length_nil] at hlen; omega
          · exfalso
            have h1 : vt0 ≤ pv := hhl vt0 pv rfl (List.getLast?_concat (vt0 :: VT1))
            have h2 : vt0 ∈ R := by
              have := hperm.symm.subset (List.mem_cons_self vt0 VT1)
              simpa using this
            exact hgt vt0 h2 h1
        obtain ⟨h3, V3, hrun, hV3, hperm3, hs3, hx3, hp3, hfr3, hfrd3⟩ :=
          ih f h1 b e high T2 (pv :: R)
            (by rw [← eT2]; simpa using hl1) (by rw [← eT2]; simpa using hn1)
            (by rw [← eT2]; simpa using hb1) (by rw [← eT2]; simpa using he1)
            (by rw [← eT2]; exact holds_cons.2 ⟨pv, R, rfl, hdp, hR⟩)
            (by simp only [List.length_nil] at hlen; omega)
            (Or.inr ⟨hm2, hheadlast⟩) hmf
        rw [hT2head] at hrun
        rw [← eT2] at hV3 hfrd3
        rw [eS]
        refine ⟨h3, V3, hrun, by simpa using hV3, ?_, hs3, hx3.trans hx1, hp3.trans hp1,
          hfr3.trans hfr1, fun a ha => ?_⟩
        · refine hperm3.trans ?_
          have q1 : R.Perm (vt0 :: VT1) := by simpa using hperm
          exact (q1.cons pv).trans (List.perm_append_singleton pv (vt0 :: VT1)).symm
        · rw [hfrd3 a (by simpa using ha), hfrd1 a (by rw [eS]; exact ha)]
      · -- the nodes before the pivot, then the pivot and the nodes after it
        have hn3 : ((T3 ++ [hl3]) ++ p :: S2).Nodup := hn1
        have hdisj := (List.nodup_append.1 hn3).2.2
        have hlow1 : T3.headD hl3 = t0 := by
          have := eS
          cases T3 with
          | nil =>
            simp only [List.nil_append, List.cons_append, List.cons.injEq] at this
            exact this.1.symm
          | cons x T4 =>
            simp only [List.cons_append, List.cons.injEq] at this
            exact this.1.symm
        simp only [List.length_append, List.length_cons, List.length_nil] at hlen
        have hm1 : 2 * (T3.length + 1) + 1 ≤ m := by
          rcases hm with hm | ⟨hm, -⟩ <;> omega
        obtain ⟨h2, A1, hrun2, hA1, hpermA, hsA, hx2, hp2, hfr2, hfrd2⟩ :=
          ih f h1 b p hl3 T3 A
            (linked_part hl1 [] (b :: (T3 ++ [hl3]) ++ [p]) (S2 ++ [e]) (by simp))
            (List.nodup_append.1 hn3).1 (fun hx => hb1 (List.mem_append_left _ hx)) hpS1 hA
            (by omega) (Or.inl hm1) hmf
        rw [hlow1] at hrun2
        have hl2 : Linked h2 (b :: (T3 ++ [hl3] ++ p :: S2) ++ [e]) := linked_congr hx2 hp2 hl1
        have hnp : h2.next hl3 = p :=
          (linked_pair (X := b :: T3) (Y := S2 ++ [e]) (by simpa using hl2)).1
        rw [List.getLastD_concat]
        simp only [hrun2, hnp]
        have hm2 : 2 * (T2.length + 1) ≤ m := by
          rcases hm with hm | ⟨hm, -⟩ <;> omega
        obtain ⟨h3, V3, hrun3, hV3, hperm3, hs3, hx3, hp3, hfr3, hfrd3⟩ :=
          ih f h2 hl3 e high T2 (pv :: R)
            (by
              rw [← eT2]
              exact linked_part hl2 (b :: T3) (hl3 :: (p :: S2) ++ [e]) [] (by simp))
            (by rw [← eT2]; exact (List.nodup_append.1 hn3).2.1)
            (by rw [← eT2]; exact fun hx => hdisj (by simp) hx)
            (by rw [← eT2]; exact fun hx => he1 (List.mem_append_right _ hx))
            (by
              rw [← eT2]
              exact holds_frame (holds_cons.2 ⟨pv, R, rfl, hdp, hR⟩)
                (fun a ha => hfrd2 a (fun hx => hdisj hx ha)))
            (by omega) (Or.inr ⟨hm2, hheadlast⟩) hmf
        rw [hT2head] at hrun3
        rw [← eT2] at hV3 hfrd3
        rw [eS]
        refine ⟨h3, A1 ++ V3, hrun3, ?_, ?_, ?_, (hx3.trans hx2).trans hx1,
          (hp3.trans hp2).trans hp1, (hfr3.trans hfr2).trans hfr1, fun a ha => ?_⟩
        · exact holds_append.2 ⟨A1, V3, rfl,
            holds_frame hA1 (fun a ha => hfrd3 a (fun hx => hdisj ha hx)), hV3⟩
        · refine (hpermA.append hperm3).trans ?_
          have q1 : (A ++ pv :: R).Perm (pv :: (A ++ R)) := List.perm_middle
          exact (q1.trans (hperm.cons pv)).trans (List.perm_append_singleton pv (vt0 :: VT1)).symm
        · refine List.pairwise_append.2 ⟨hsA, hs3, fun x hx y hy => ?_⟩
          exact le_trans (hle x (hpermA.subset hx)) (hpvR y (hperm3.subset hy))
        · have ha1 : a ∉ T3 ++ [hl3] := fun hx => ha (List.mem_append_left _ hx)
          have ha2 : a ∉ p :: S2 := fun hx => ha (List.mem_append_right _ hx)
          rw [hfrd3 a ha2, hfrd2 a ha1, hfrd1 a (by rw [eS]; exact ha)]

end ordered

end list

namespace list

/-- The client loop over a linked run of nodes that ends at `end()` reads the
values the nodes hold, in order. -/
theorem collect_spec {h : ListHeap α} {l : list} (L : List Nat) :
    ∀ (X : List Nat) (V : List α) (fuel : Nat), Linked h (X ++ (L ++ [l.fake_node])) →
      l.fake_node ∉ L → Holds h L V → L.length < fuel →
      collect h l fuel (L.headD l.fake_node) = .ok h V := by
  induction L with
  | nil =>
    intro X V fuel _ _ hV hf
    obtain ⟨f, rfl⟩ : ∃ f, fuel = f + 1 := ⟨fuel - 1, by simp at hf; omega⟩
    obtain rfl : V = [] := holds_nil.1 hV
    simp [collect, list.end]
  | cons a L ih =>
    intro X V fuel hl hn hV hf
    obtain ⟨f, rfl⟩ : ∃ f, fuel = f + 1 := ⟨fuel - 1, by simp at hf; omega⟩
    obtain ⟨v, V1, rfl, hv, hV1⟩ := holds_cons.1 hV
    have hne : a ≠ l.end := fun e => hn (by rw [e]; exact List.mem_cons_self _ _)
    have hnext : h.next a = L.headD l.fake_node := linked_next_headD (X := X) hl
    have := ih (X ++ [a]) V1 f (by simpa using hl) (fun hx => hn (List.mem_cons_of_mem _ hx))
      hV1 (by simp at hf; omega)
    simp only [collect, List.headD_cons, if_neg hne, hv, hnext, this, Res.map]

theorem elements_spec {h : ListHeap α} {l : list} {L : List Nat} {V : List α}
    (hi : IsList h l L V) : l.elements h = .ok h V := by
  obtain ⟨hl, hn, hV, hs⟩ := hi
  have hb : l.begin h = L.headD l.fake_node :=
    linked_next_headD (X := []) (by simpa using hl)
  rw [elements, hb]
  exact collect_spec L [l.fake_node] V _ (by simpa using hl) (List.nodup_cons.1 hn).1 hV
    (by omega)

section ordered
variable [LinearOrder α]

/-- C29. For every list (a ring of `size()` nodes around its fake node),
`sort()` returns; the nodes and their links are as before and the values they
hold are a permutation of the original ones in non-decreasing order — which is
what a client then reads from `begin()` to `end()`; `size()` is unchanged. -/
theorem C29_sort_sorts {h : ListHeap α} {l : list} {L : List Nat} {V : List α}
    (hi : IsList h l L V) :
    ∃ h1 V1, l.sort h = .ok h1 () ∧ IsList h1 l L V1 ∧ V1.Perm V ∧ V1.Sorted (· ≤ ·) ∧
      l.elements h1 = .ok h1 V1 ∧ V1.length = l.size_ ∧
      h1.next = h.next ∧ h1.prev = h.prev ∧ ∀ a, a ∉ L → h1.data a = h.data a := by
  have hi0 := hi
  obtain ⟨hl, hn, hV, hs⟩ := hi
  have hlen := holds_length hV
  by_cases h2 : l.size_ < 2
  · have hsort : V.Sorted (· ≤ ·) := by
      cases V with
      | nil => exact List.sorted_nil
      | cons v V =>
        cases V with
        | nil => exact List.sorted_singleton v
        | cons w V => simp only [List.length_cons] at hlen; omega
    exact ⟨h, V, by simp only [list.sort, if_pos h2], hi0, List.Perm.refl _, hsort,
      elements_spec hi0, by omega, rfl, rfl, fun _ _ => rfl⟩
  · rcases eq_nil_or_snoc L with rfl | ⟨T, high, rfl⟩
    · simp only [List.length_nil] at hs; omega
    · simp only [List.length_append, List.length_cons, List.length_nil] at hs
      have hb : l.begin h = T.headD high :=
        linked_next_headD (X := []) (a := l.fake_node) (Y := T) (z := high)
          (linked_part hl [] (l.fake_node :: (T ++ [high])) [l.fake_node] (by simp))
      have he : h.prev l.end = high :=
        (linked_pair (X := l.fake_node :: T) (Y := []) (by simpa using hl)).2
      have hf : l.fake_node ∉ T ++ [high] := (List.nodup_cons.1 hn).1
      obtain ⟨h1, V1, hrun, hV1, hperm, hsorted, hx1, hp1, hfr1, hfrd⟩ :=
        quick_sort_spec (l.size_ + 1) (2 * l.size_ + 1) (2 * l.size_ + 2) h l.fake_node
          l.fake_node high T V hl (List.nodup_cons.1 hn).2 hf hf hV (by omega)
          (Or.inl (by omega)) (by omega)
      have hi1 : IsList h1 l (T ++ [high]) V1 :=
        ⟨linked_congr hx1 hp1 hl, hn, hV1, by simp; omega⟩
      refine ⟨h1, V1, ?_, hi1, hperm, hsorted, elements_spec hi1, ?_, hx1, hp1, hfrd⟩
      · simp only [list.sort, if_neg h2, hb, he, hrun]
      · rw [hperm.length_eq, hlen]; simp; omega

end ordered

end list

theorem sort_demo_isList :
    list.IsList sort_demo.1 sort_demo.2 [1, 2, 3, 4, 5] [2, 1, 4, 3, 5] := by
  refine ⟨?_, by decide, rfl, rfl⟩
  simp only [list.Linked, List.cons_append, List.nil_append, List.chain'_cons,
    List.chain'_singleton, and_true]
  decide

theorem C29_witness :
    list.IsList sort_demo.1 sort_demo.2 [1, 2, 3, 4, 5] [2, 1, 4, 3, 5] ∧
    (∃ h1, sort_demo.2.sort sort_demo.1 = .ok h1 () ∧
      sort_demo.2.elements h1 = .ok h1 [1, 2, 3, 4, 5]) ∧
    ∃ h1 V1, sort_demo.2.sort sort_demo.1 = .ok h1 () ∧
      list.IsList h1 sort_demo.2 [1, 2, 3, 4, 5] V1 ∧ V1.Perm [2, 1, 4, 3, 5] ∧
      V1.Sorted (· ≤ ·) ∧ sort_demo.2.elements h1 = .ok h1 V1 ∧
      V1.length = sort_demo.2.size_ ∧ h1.next = sort_demo.1.next ∧
      h1.prev = sort_demo.1.prev ∧ ∀ a, a ∉ [1, 2, 3, 4, 5] → h1.data a = sort_demo.1.data a :=
  ⟨sort_demo_isList, ⟨_, rfl, by decide⟩, list.C29_sort_sorts sort_demo_isList⟩

/-- C30 fails on the code. `list<int> a; list<int> b{1}; a.merge(b);`: `a`
is empty, so `merge` calls `swap(other)`, and `listNode_base::swap` rewrites
the neighbour links of both fake nodes after exchanging them — with `a`'s ring
empty the last two assignments overwrite the links just set.  Afterwards `a`
has `size() = 1` but its ring is `a`'s fake node and `b`'s fake node: `begin()`
is `b`'s fake node, which has no payload (`front()` and a traversal read it),
and the node holding 1 is in no ring.  On two non-empty sorted lists (those of
the repository's test) `merge` does leave the sorted union in `a` and `b`
empty. -/
theorem C30_merge_into_empty_list_corrupts :
    list.IsList merge_demo.1 merge_demo.2.1 [] [] ∧
    list.IsList merge_demo.1 merge_demo.2.2 [2] [1] ∧
    (∃ h1 a1 b1, list.merge merge_demo.1 merge_demo.2.1 merge_demo.2.2 = .ok (h1, a1, b1) () ∧
      a1.size_ = 1 ∧ b1.size_ = 0 ∧ a1.begin h1 = b1.fake_node ∧ h1.data (a1.begin h1) = none ∧
      h1.next (a1.begin h1) = a1.end ∧ a1.front h1 = .undefined ∧
      a1.elements h1 = .undefined) ∧
    (∃ h1 a1 b1, list.merge merge_test.1 merge_test.2.1 merge_test.2.2 = .ok (h1, a1, b1) () ∧
      a1.elements h1 = .ok h1 [1, 2, 3, 4, 5, 6, 7, 8, 9, 10] ∧ a1.size_ = 10 ∧
      b1.elements h1 = .ok h1 [] ∧ b1.size_ = 0) := by
  refine ⟨⟨?_, by decide, rfl, rfl⟩, ⟨?_, by decide, rfl, rfl⟩,
    ⟨_, _, _, rfl, rfl, rfl, rfl, rfl, rfl, rfl, rfl⟩,
    ⟨_, _, _, rfl, by decide, rfl, by decide, rfl⟩⟩
  · simp only [list.Linked, List.cons_append, List.nil_append, List.chain'_cons,
      List.chain'_singleton, and_true]
    decide
  · simp only [list.Linked, List.cons_append, List.nil_append, List.chain'_cons,
      List.chain'_singleton, and_true]
    decide

/-! ## The AVL shape: `balance` and `insert_node` -/

theorem true_height_nonneg (n : Node α) : 0 ≤ true_height n := by
  induction n with
  | null => simp [true_height]
  | mk a d l r p h ihl ihr => simp only [true_height]; omega

@[simp] theorem true_height_setParent (n : Node α) (p : Ptr) :
    true_height (n.setParent p) = true_height n := by
  cases n <;> rfl

@[simp] theorem avl_balanced_setParent (n : Node α) (p : Ptr) :
    avl_balanced (n.setParent p) = avl_balanced n := by
  cases n <;> rfl

@[simp] theorem heights_cached_ok_setParent (n : Node α) (p : Ptr) :
    heights_cached_ok (n.setParent p) = heights_cached_ok n := by
  cases n <;> rfl

theorem isAVL_null : IsAVL (.null : Node α) := ⟨rfl, rfl⟩

theorem isAVL_setParent {n : Node α} (h : IsAVL n) (p : Ptr) : IsAVL (n.setParent p) := by
  unfold IsAVL at h ⊢
  simpa using h

/-- Under correct bookkeeping the cached height is the true height. -/
theorem get_height_eq_true_height {n : Node α} (h : heights_cached_ok n = true) :
    get_height n = true_height n := by
  induction n with
  | null => rfl
  | mk a d l r p hh ihl ihr =>
    simp only [heights_cached_ok, Bool.and_eq_true, decide_eq_true_eq] at h
    obtain ⟨⟨h1, h2⟩, h3⟩ := h
    show hh = 1 + max (true_height l) (true_height r)
    rw [h1, ihl h2, ihr h3]

theorem isAVL_mk {a : Nat} {d : α} {l r : Node α} {p : Ptr} {h : Int} :
    IsAVL (.mk a d l r p h) ↔
      IsAVL l ∧ IsAVL r ∧ true_height l - true_height r ≤ 1 ∧
        true_height r - true_height l ≤ 1 ∧ h = 1 + max (true_height l) (true_height r) := by
  unfold IsAVL
  simp only [avl_balanced, heights_cached_ok, Bool.and_eq_true, decide_eq_true_eq]
  constructor
  · rintro ⟨⟨⟨⟨h1, h2⟩, h3⟩, h4⟩, ⟨h5, h6⟩, h7⟩
    refine ⟨⟨h3, h6⟩, ⟨h4, h7⟩, h1, h2, ?_⟩
    rw [h5, get_height_eq_true_height h6, get_height_eq_true_height h7]
  · rintro ⟨⟨h3, h6⟩, ⟨h4, h7⟩, h1, h2, h5⟩
    refine ⟨⟨⟨⟨h1, h2⟩, h3⟩, h4⟩, ⟨?_, h6⟩, h7⟩
    rw [h5, get_height_eq_true_height h6, get_height_eq_true_height h7]

theorem IsAVL.height {n : Node α} (h : IsAVL n) : get_height n = true_height n :=
  get_height_eq_true_height h.2

/-- `balance` on a node whose left subtree is taller by 2. -/
theorem balance_left_heavy {a : Nat} {d : α} {l r : Node α} {p : Ptr} {h : Int}
    (hl : IsAVL l) (hr : IsAVL r) (hbf : get_balance_factor (.mk a d l r p h) = 2) :
    ∃ n1, balance (.mk a d l r p h) = some n1 ∧ IsAVL n1 ∧
      balance (.mk a d l r p h) =
        (if get_balance_factor l < 0 then
          (rotate_left l).bind (fun l1 => rotate_right (.mk a d l1 r p h))
        else rotate_right (.mk a d l r p h)) ∧
      (true_height n1 = true_height l + 1 ∨
        (true_height n1 = true_height l ∧ get_balance_factor l ≠ 0)) := by
  have hform : balance (.mk a d l r p h) =
      (if get_balance_factor l < 0 then
        (rotate_left l).bind (fun l1 => rotate_right (.mk a d l1 r p h))
      else rotate_right (.mk a d l r p h)) := by
    simp only [balance]
    rw [if_pos (by omega)]
    split_ifs with h1
    · cases rotate_left l <;> rfl
    · rfl
  simp only [get_balance_factor_mk, hl.height, hr.height] at hbf
  have hr0 := true_height_nonneg r
  cases l with
  | null => simp only [true_height] at hbf; omega
  | mk la ld ll lr lp lh =>
    obtain ⟨hll, hlr, b1, b2, hlh⟩ := isAVL_mk.1 hl
    have hll0 := true_height_nonneg ll
    simp only [true_height] at hbf
    by_cases hneg : get_balance_factor (Node.mk la ld ll lr lp lh) < 0
    · have hneg' := hneg
      simp only [get_balance_factor_mk, hll.height, hlr.height] at hneg'
      cases lr with
      | null => simp only [true_height] at hneg'; omega
      | mk ra rd rl rr rp rh =>
        obtain ⟨hrl, hrr, c1, c2, hrh⟩ := isAVL_mk.1 hlr
        simp only [true_height] at hbf hneg' b1 b2 hlh
        have hrl0 := true_height_nonneg rl
        have hrr0 := true_height_nonneg rr
        have hres := hform
        rw [if_pos hneg] at hres
        simp only [rotate_left, rotate_right, update_height, Option.some_bind] at hres
        refine ⟨_, hres, ?_, hform, ?_⟩
        · simp only [get_height_mk, get_height_setParent, hll.height, hrl.height,
            hrr.height, hr.height]
          rw [isAVL_mk, isAVL_mk, isAVL_mk]
          simp only [true_height, true_height_setParent]
          refine ⟨⟨hll, isAVL_setParent hrl _, ?_, ?_, ?_⟩,
            ⟨isAVL_setParent hrr _, hr, ?_, ?_, ?_⟩, ?_, ?_, ?_⟩ <;> first | trivial | omega
        · right
          refine ⟨?_, by omega⟩
          simp only [true_height, true_height_setParent]
          omega
    · have hneg' := hneg
      simp only [get_balance_factor_mk, hll.height, hlr.height] at hneg'
      have hlr0 := true_height_nonneg lr
      have hres := hform
      rw [if_neg hneg] at hres
      simp only [rotate_right, update_height] at hres
      refine ⟨_, hres, ?_, hform, ?_⟩
      · simp only [get_height_mk, get_height_setParent, hll.height, hlr.height, hr.height]
        rw [isAVL_mk, isAVL_mk]
        simp only [true_height, true_height_setParent]
        refine ⟨hll, ⟨isAVL_setParent hlr _, hr, ?_, ?_, ?_⟩, ?_, ?_, ?_⟩ <;>
          first | trivial | omega
      · simp only [true_height, true_height_setParent, get_balance_factor_mk,
          hll.height, hlr.height]
        omega

/-- `balance` on a node whose right subtree is taller by 2. -/
theorem balance_right_heavy {a : Nat} {d : α} {l r : Node α} {p : Ptr} {h : Int}
    (hl : IsAVL l) (hr : IsAVL r) (hbf : get_balance_factor (.mk a d l r p h) = -2) :
    ∃ n1, balance (.mk a d l r p h) = some n1 ∧ IsAVL n1 ∧
      balance (.mk a d l r p h) =
        (if get_balance_factor r > 0 then
          (rotate_right r).bind (fun r1 => rotate_left (.mk a d l r1 p h))
        else rotate_left (.mk a d l r p h)) ∧
      (true_height n1 = true_height r + 1 ∨
        (true_height n1 = true_height r ∧ get_balance_factor r ≠ 0)) := by
  have hform : balance (.mk a d l r p h) =
      (if get_balance_factor r > 0 then
        (rotate_right r).bind (fun r1 => rotate_left (.mk a d l r1 p h))
      else rotate_left (.mk a d l r p h)) := by
    simp only [balance]
    rw [if_neg (by omega), if_pos (by omega)]
    split_ifs with h1
    · cases rotate_right r <;> rfl
    · rfl
  simp only [get_balance_factor_mk, hl.height, hr.height] at hbf
  have hl0 := true_height_nonneg l
  cases r with
  | null => simp only [true_height] at hbf; omega
  | mk ra rd rl rr rp rh =>
    obtain ⟨hrl, hrr, b1, b2, hrh⟩ := isAVL_mk.1 hr
    have hrr0 := true_height_nonneg rr
    simp only [true_height] at hbf
    by_cases hpos : get_balance_factor (Node.mk ra rd rl rr rp rh) > 0
    · have hpos' := hpos
      simp only [get_balance_factor_mk, hrl.height, hrr.height] at hpos'
      cases rl with
      | null => simp only [true_height] at hpos'; omega
      | mk la ld ll lr lp lh =>
        obtain ⟨hll, hlr, c1, c2, hlh⟩ := isAVL_mk.1 hrl
        simp only [true_height] at hbf hpos' b1 b2 hrh
        have hll0 := true_height_nonneg ll
        have hlr0 := true_height_nonneg lr
        have hres := hform
        rw [if_pos hpos] at hres
        simp only [rotate_left, rotate_right, update_height, Option.some_bind] at hres
        refine ⟨_, hres, ?_, hform, ?_⟩
        · simp only [get_height_mk, get_height_setParent, hll.height, hlr.height,
            hrr.height, hl.height]
          rw [isAVL_mk, isAVL_mk, isAVL_mk]
          simp only [true_height, true_height_setParent]
          refine ⟨⟨hl, isAVL_setParent hll _, ?_, ?_, ?_⟩,
            ⟨isAVL_setParent hlr _, hrr, ?_, ?_, ?_⟩, ?_, ?_, ?_⟩ <;> first | trivial | omega
        · right
          refine ⟨?_, by omega⟩
          simp only [true_height, true_height_setParent]
          omega
    · have hpos' := hpos
      simp only [get_balance_factor_mk, hrl.height, hrr.height] at hpos'
      have hrl0 := true_height_nonneg rl
      have hres := hform
      rw [if_neg hpos] at hres
      simp only [rotate_left, update_height] at hres
      refine ⟨_, hres, ?_, hform, ?_⟩
      · simp only [get_height_mk, get_height_setParent, hrl.height, hrr.height, hl.height]
        rw [isAVL_mk, isAVL_mk]
        simp only [true_height, true_height_setParent]
        refine ⟨⟨hl, isAVL_setParent hrl _, ?_, ?_, ?_⟩, hrr, ?_, ?_, ?_⟩ <;>
          first | trivial | omega
      · simp only [true_height, true_height_setParent, get_balance_factor_mk,
          hrl.height, hrr.height]
        omega

theorem balance_within {n : Node α} (h1 : -1 ≤ get_balance_factor n)
    (h2 : get_balance_factor n ≤ 1) : balance n = some n := by
  simp only [balance]
  rw [if_neg (by omega), if_neg (by omega)]

/-- The tail of `insert_node` on a node whose subtrees are AVL and differ in
height by at most 2: the result is AVL, and its height is that of the taller
subtree plus 1, or — only after a rotation — equal to it. -/
theorem insert_fixup_avl {a : Nat} {d : α} {l r : Node α} {p : Ptr} {h : Int}
    (hl : IsAVL l) (hr : IsAVL r) (h1 : true_height l - true_height r ≤ 2)
    (h2 : true_height r - true_height l ≤ 2) {n1 : Node α} {b : Bool}
    (hf : insert_fixup (.mk a d l r p h) true = some (n1, b)) :
    IsAVL n1 ∧
      (true_height n1 = 1 + max (true_height l) (true_height r) ∨
        (true_height n1 = max (true_height l) (true_height r) ∧
          (true_height l - true_height r = 2 ∧ get_balance_factor l ≠ 0 ∨
            true_height r - true_height l = 2 ∧ get_balance_factor r ≠ 0))) := by
  have hl0 := true_height_nonneg l
  have hr0 := true_height_nonneg r
  have hbfu : get_balance_factor (update_height (.mk a d l r p h)) =
      true_height l - true_height r := by
    simp only [update_height, get_balance_factor_mk, hl.height, hr.height]
  have key : ∃ n2, balance (update_height (.mk a d l r p h)) = some n2 ∧ IsAVL n2 ∧
      (true_height n2 = 1 + max (true_height l) (true_height r) ∨
        (true_height n2 = max (true_height l) (true_height r) ∧
          (true_height l - true_height r = 2 ∧ get_balance_factor l ≠ 0 ∨
            true_height r - true_height l = 2 ∧ get_balance_factor r ≠ 0))) := by
    by_cases c1 : true_height l - true_height r = 2
    · obtain ⟨n2, e, hi, -, hh⟩ := balance_left_heavy (p := p)
        (h := 1 + max (get_height l) (get_height r)) (a := a) (d := d) hl hr
        (by rw [← c1, ← hbfu]; rfl)
      refine ⟨n2, e, hi, ?_⟩
      rcases hh with hh | ⟨hh, hne⟩
      · left; omega
      · right; exact ⟨by omega, Or.inl ⟨c1, hne⟩⟩
    · by_cases c2 : true_height r - true_height l = 2
      · obtain ⟨n2, e, hi, -, hh⟩ := balance_right_heavy (p := p)
          (h := 1 + max (get_height l) (get_height r)) (a := a) (d := d) hl hr
          (by
            show get_balance_factor (update_height (.mk a d l r p h)) = -2
            rw [hbfu]; omega)
        refine ⟨n2, e, hi, ?_⟩
        rcases hh with hh | ⟨hh, hne⟩
        · left; omega
        · right; exact ⟨by omega, Or.inr ⟨c2, hne⟩⟩
      · refine ⟨_, balance_within (by rw [hbfu]; omega) (by rw [hbfu]; omega), ?_, ?_⟩
        · simp only [update_height, hl.height, hr.height]
          rw [isAVL_mk]
          exact ⟨hl, hr, by omega, by omega, rfl⟩
        · left; rfl
  obtain ⟨n2, e, hi, hh⟩ := key
  simp only [insert_fixup, if_true, e] at hf
  cases n2 with
  | null => simp at hf
  | mk a2 d2 l2 r2 p2 h2 =>
    simp only [Option.some.injEq, Prod.mk.injEq] at hf
    obtain ⟨rfl, -⟩ := hf
    obtain ⟨i1, i2, i3, i4, i5⟩ := isAVL_mk.1 hi
    refine ⟨?_, ?_⟩
    · rw [isAVL_mk]
      simp only [true_height_setParent]
      exact ⟨isAVL_setParent i1 _, isAVL_setParent i2 _, i3, i4, i5⟩
    · simpa only [true_height, true_height_setParent] using hh

section keyed
variable [LinearOrder κ] {key : α → κ}

/-- `insert_node` keeps the AVL shape with exact bookkeeping; the height
grows by at most 1, and not at all when nothing was inserted. -/
theorem insert_node_avl (fresh : Nat) (v : α) (dup : Bool) {t : Node α} (ht : IsAVL t) :
    ∀ {t1 : Node α} {b : Bool}, insert_node key fresh v dup t = some (t1, b) →
      IsAVL t1 ∧ true_height t ≤ true_height t1 ∧ true_height t1 ≤ true_height t + 1 ∧
        (b = false → true_height t1 = true_height t) := by
  induction t with
  | null =>
    intro t1 b hi
    simp only [insert_node, Option.some.injEq, Prod.mk.injEq] at hi
    obtain ⟨rfl, rfl⟩ := hi
    refine ⟨isAVL_mk.2 ⟨isAVL_null, isAVL_null, ?_, ?_, ?_⟩, ?_, ?_, fun h => by cases h⟩ <;>
      simp [true_height]
  | mk a d l r p h ihl ihr =>
    intro t1 b hi
    obtain ⟨hl, hr, b1, b2, hh⟩ := isAVL_mk.1 ht
    have hl0 := true_height_nonneg l
    have hr0 := true_height_nonneg r
    simp only [insert_node] at hi
    split_ifs at hi with c1 c2
    · cases hrec : insert_node key fresh v dup l with
      | none => simp [hrec] at hi
      | some res =>
        obtain ⟨l1, b'⟩ := res
        simp only [hrec] at hi
        obtain ⟨il1, g1, g2, g3⟩ := ihl hl hrec
        cases b' with
        | false =>
          simp only [insert_fixup, Bool.false_eq_true, if_false, Option.some.injEq,
            Prod.mk.injEq] at hi
          obtain ⟨rfl, rfl⟩ := hi
          have e := g3 rfl
          refine ⟨isAVL_mk.2 ⟨isAVL_setParent il1 _, hr, ?_, ?_, ?_⟩, ?_, ?_, fun _ => ?_⟩ <;>
            simp only [true_height, true_height_setParent, e] <;> omega
        | true =>
          obtain ⟨i1, hcase⟩ := insert_fixup_avl (isAVL_setParent il1 (some a)) hr
            (by simp only [true_height_setParent]; omega)
            (by simp only [true_height_setParent]; omega) hi
          simp only [true_height_setParent] at hcase
          refine ⟨i1, ?_, ?_, fun hb => ?_⟩
          · simp only [true_height]; omega
          · simp only [true_height]; omega
          · simp only [insert_fixup, if_true] at hi
            split at hi
            · simp only [Option.some.injEq, Prod.mk.injEq] at hi
              rw [← hi.2] at hb; cases hb
            · cases hi
    · cases hrec : insert_node key fresh v dup r with
      | none => simp [hrec] at hi
      | some res =>
        obtain ⟨r1, b'⟩ := res
        simp only [hrec] at hi
        obtain ⟨ir1, g1, g2, g3⟩ := ihr hr hrec
        cases b' with
        | false =>
          simp only [insert_fixup, Bool.false_eq_true, if_false, Option.some.injEq,
            Prod.mk.injEq] at hi
          obtain ⟨rfl, rfl⟩ := hi
          have e := g3 rfl
          refine ⟨isAVL_mk.2 ⟨hl, isAVL_setParent ir1 _, ?_, ?_, ?_⟩, ?_, ?_, fun _ => ?_⟩ <;>
            simp only [true_height, true_height_setParent, e] <;> omega
        | true =>
          obtain ⟨i1, hcase⟩ := insert_fixup_avl hl (isAVL_setParent ir1 (some a))
            (by simp only [true_height_setParent]; omega)
            (by simp only [true_height_setParent]; omega) hi
          simp only [true_height_setParent] at hcase
          refine ⟨i1, ?_, ?_, fun hb => ?_⟩
          · simp only [true_height]; omega
          · simp only [true_height]; omega
          · simp only [insert_fixup, if_true] at hi
            split at hi
            · simp only [Option.some.injEq, Prod.mk.injEq] at hi
              rw [← hi.2] at hb; cases hb
            · cases hi
    · simp only [Option.some.injEq, Prod.mk.injEq] at hi
      obtain ⟨rfl, rfl⟩ := hi
      exact ⟨ht, le_refl _, by omega, fun _ => rfl⟩

/-- A node that can be read through an address in an AVL tree is the root of
an AVL subtree. -/
theorem isAVL_deref {t n : Node α} {a : Nat} (ht : IsAVL t) (hd : t.deref a = some n) :
    IsAVL n := by
  induction t with
  | null => simp [Node.deref] at hd
  | mk b d l r p h ihl ihr =>
    obtain ⟨hl, hr, -⟩ := isAVL_mk.1 ht
    simp only [Node.deref] at hd
    split_ifs at hd with h1
    · simp only [Option.some.injEq] at hd
      exact hd ▸ ht
    · cases hld : l.deref a with
      | some n1 =>
        simp only [hld, Option.some.injEq] at hd
        exact ihl hl (hd ▸ hld)
      | none =>
        simp only [hld] at hd
        exact ihr hr hd

/-- Every tree built from the empty tree by `insert` calls only is AVL with
exact bookkeeping. -/
theorem insert_only_avl [Inhabited α] {h : List (Event α)} {t : BinaryTree α}
    (hr : Reach key h t) (hins : ∀ e ∈ h, e.isErase = false) : IsAVL t.root_ := by
  induction hr with
  | empty => exact isAVL_null
  | @insert h t t1 v d b it hr hi ih =>
    have ih' := ih (fun e he => hins e (List.mem_cons_of_mem _ he))
    simp only [BinaryTree.insert] at hi
    cases hn : insert_node key t.fresh v d t.root_ with
    | none => simp [hn] at hi
    | some res =>
      obtain ⟨r1, b1⟩ := res
      simp only [hn] at hi
      injection hi with e1 e2
      have hroot : t1.root_ = r1 := by
        rw [← e1]
        cases b1 <;> rfl
      rw [hroot]
      exact (insert_node_avl t.fresh v d ih' hn).1
  | @erase h t t1 p hr he ih =>
    have := hins (Event.era p) (List.mem_cons_self _ _)
    simp [Event.isErase] at this

end keyed

section keyed
variable [LinearOrder κ] {key : α → κ}

/-- C32. On every tree reachable from the empty tree, `insert(value, true)`
always inserts: it returns `inserted = true`, the size grows by 1, and the new
element is put into the in-order sequence right after the elements whose key
is not greater than `key(value)` and before those with a greater key — so after
every element already stored with an equal key, equal keys in insertion
order. -/
theorem C32_insert_duplicate_goes_last [Inhabited α] {t : BinaryTree α}
    (hr : Reachable key t ∨ ∃ dup, Built key dup t) (value : α) :
    ∃ t1 it, t.insert key value true = .ok t1 (it, true) ∧ t1.size = t.size + 1 ∧
      ∃ pre post, t.root_.entries = pre ++ post ∧
        t1.root_.entries = pre ++ (t.fresh, value) :: post ∧
        t.root_.toList = pre.map Prod.snd ++ post.map Prod.snd ∧
        t1.root_.toList = pre.map Prod.snd ++ value :: post.map Prod.snd ∧
        (∀ e ∈ pre, key e.2 ≤ key value) ∧ (∀ e ∈ post, key value < key e.2) ∧
        (∀ e ∈ t.root_.entries, key e.2 = key value → e ∈ pre) := by
  have hw : WF key t := by
    rcases hr with ⟨h, hr⟩ | ⟨dup, hb⟩
    · exact hr.wf
    · exact hb.wellFormed
  obtain ⟨t1, b, hins, -, -, hfalse, htrue⟩ := insert_spec hw value true
  cases b with
  | false => exact absurd (hfalse rfl).2.1 (by simp)
  | true =>
    obtain ⟨-, hsz, -, pre, post, e1, e2, hpre, hpost⟩ := htrue rfl
    refine ⟨t1, _, hins, hsz, pre, post, e1, e2, ?_, ?_, hpre, hpost, ?_⟩
    · rw [toList_eq_map, e1, List.map_append]
    · rw [toList_eq_map, e2, List.map_append, List.map_cons]
    · intro e he hk
      rw [e1] at he
      rcases List.mem_append.1 he with he | he
      · exact he
      · exact absurd hk (ne_of_gt (hpost e he))

end keyed

/-- C35. `balance(node)` on a node whose two subtrees are AVL-balanced with
correct cached heights: when the balance factor is +2 or −2 it returns a
subtree with the same in-order sequence that is AVL-balanced at every node and
has correct cached heights; with factor +2 it is the double rotation
(`rotate_left` of the left child, then `rotate_right`) exactly when the left
child's factor is negative and the single `rotate_right` otherwise, with factor
−2 the mirror image (double exactly when the right child's factor is
positive); and with a factor within [−1, 1] it returns the node unchanged. -/
theorem C35_balance_restores_avl {a : Nat} {d : α} {l r : Node α} {p : Ptr} {h : Int}
    (hl : avl_balanced l = true) (hcl : heights_cached_ok l = true)
    (hr : avl_balanced r = true) (hcr : heights_cached_ok r = true) :
    ((get_balance_factor (.mk a d l r p h) = 2 ∨ get_balance_factor (.mk a d l r p h) = -2) →
      ∃ n1, balance (.mk a d l r p h) = some n1 ∧
        n1.toList = (Node.mk a d l r p h).toList ∧
        avl_balanced n1 = true ∧ heights_cached_ok n1 = true ∧
        get_height n1 = true_height n1) ∧
    (get_balance_factor (.mk a d l r p h) = 2 →
      balance (.mk a d l r p h) =
        if get_balance_factor l < 0 then
          (rotate_left l).bind (fun l1 => rotate_right (.mk a d l1 r p h))
        else rotate_right (.mk a d l r p h)) ∧
    (get_balance_factor (.mk a d l r p h) = -2 →
      balance (.mk a d l r p h) =
        if get_balance_factor r > 0 then
          (rotate_right r).bind (fun r1 => rotate_left (.mk a d l r1 p h))
        else rotate_left (.mk a d l r p h)) ∧
    (-1 ≤ get_balance_factor (.mk a d l r p h) ∧ get_balance_factor (.mk a d l r p h) ≤ 1 →
      balance (.mk a d l r p h) = some (.mk a d l r p h)) := by
  have il : IsAVL l := ⟨hl, hcl⟩
  have ir : IsAVL r := ⟨hr, hcr⟩
  refine ⟨?_, fun hbf => (balance_left_heavy il ir hbf).choose_spec.2.2.1,
    fun hbf => (balance_right_heavy il ir hbf).choose_spec.2.2.1,
    fun hbf => balance_within hbf.1 hbf.2⟩
  rintro (hbf | hbf)
  · obtain ⟨n1, e, hi, -, -⟩ := balance_left_heavy il ir hbf
    exact ⟨n1, e, by rw [toList_eq_map, toList_eq_map, balance_entries e], hi.1, hi.2, hi.height⟩
  · obtain ⟨n1, e, hi, -, -⟩ := balance_right_heavy il ir hbf
    exact ⟨n1, e, by rw [toList_eq_map, toList_eq_map, balance_entries e], hi.1, hi.2, hi.height⟩

/-- C36. Inserting 10, 20, 30, 40, 50, 25 into an empty tree gives the
in-order traversal [10, 20, 25, 30, 40, 50].  When the insertion of 25 returns
to the node holding 20 (the root after five inserts), that node has balance
factor −2 and its right child, holding 40, has factor +1: `balance` is
`rotate_right` at 40 followed by `rotate_left` at 20, and the final tree has
root 30 with left child 20 (children 10 and 25) and right child 40 (right
child 50). -/
theorem C36_scenario_double_rotation :
    run id BinaryTree.empty scenario_ops = .ok scenario_tree () ∧
    scenario_tree.root_.toList = [10, 20, 25, 30, 40, 50] ∧
    run id BinaryTree.empty (scenario_ops.take 5) = .ok scenario_five () ∧
    scenario_five.insert id 25 false = .ok scenario_tree (some 6, true) ∧
    insert_node id 6 25 false scenario_five.root_.right? = some (scenario_pivot.right?, true) ∧
    update_height (scenario_five.root_.setRight (scenario_pivot.right?.setParent (some 2)))
      = scenario_pivot ∧
    get_balance_factor scenario_pivot = -2 ∧
    get_balance_factor scenario_pivot.right? = 1 ∧
    rotate_right scenario_pivot.right? = some scenario_inner ∧
    rotate_left (scenario_pivot.setRight scenario_inner) = some scenario_tree.root_ ∧
    balance scenario_pivot = some scenario_tree.root_ ∧
    scenario_tree.root_ = .mk 3 30
      (.mk 2 20 (.mk 1 10 .null .null (some 2) 1) (.mk 6 25 .null .null (some 2) 1) (some 3) 2)
      (.mk 4 40 .null (.mk 5 50 .null .null (some 4) 1) (some 3) 2) none 3 :=
  ⟨rfl, rfl, rfl, rfl, rfl, rfl, rfl, rfl, rfl, rfl, rfl, rfl⟩

/-- C37. From the tree of the inserts 10, 20, 30, 40, 50, 25, where the node
holding 20 has two children, `erase(find(20))` returns and leaves the in-order
traversal [10, 25, 30, 40, 50] and size 5, in a tree where every node's
subtrees differ in height by at most 1 (by true heights and by cached
heights). -/
theorem C37_scenario_erase_two_children :
    run id BinaryTree.empty scenario_ops = .ok scenario_tree () ∧
    scenario_tree.find id 20 = some 2 ∧
    (∃ n, scenario_tree.root_.deref 2 = some n ∧ n.left? ≠ .null ∧ n.right? ≠ .null) ∧
    scenario_tree.erase (scenario_tree.find id 20) = .ok scenario_erased () ∧
    scenario_erased.root_.toList = [10, 25, 30, 40, 50] ∧ scenario_erased.size = 5 ∧
    avl_balanced scenario_erased.root_ = true ∧ cached_balanced scenario_erased.root_ = true :=
  ⟨rfl, rfl, ⟨_, rfl, by decide, by decide⟩, rfl, rfl, rfl, by decide, by decide⟩

section keyed
variable [LinearOrder κ] {key : α → κ}

/-- C38. In every tree built from the empty tree by `insert` calls only (any
values, any `allow_duplicates` flags), every node has subtrees whose heights
differ by at most 1 and a cached height equal to the true height of its
subtree. -/
theorem C38_insert_only_trees_are_avl [Inhabited α] {h : List (Event α)} {t : BinaryTree α}
    (hr : Reach key h t) (hins : ∀ e ∈ h, e.isErase = false) :
    avl_balanced t.root_ = true ∧ heights_cached_ok t.root_ = true ∧
    ∀ a n, t.root_.deref a = some n →
      true_height n.left? - true_height n.right? ≤ 1 ∧
      true_height n.right? - true_height n.left? ≤ 1 ∧
      get_height n = true_height n := by
  have hi := insert_only_avl hr hins
  refine ⟨hi.1, hi.2, fun a n hd => ?_⟩
  have hn := isAVL_deref hi hd
  cases n with
  | null => simp [Node.left?, Node.right?, true_height]
  | mk b d l r p hh =>
    obtain ⟨-, -, b1, b2, -⟩ := isAVL_mk.1 hn
    exact ⟨b1, b2, hn.height⟩

end keyed

theorem heightsPos_deref {t n : Node α} {a : Nat} (ht : HeightsPos t)
    (hd : t.deref a = some n) : HeightsPos n := by
  obtain ⟨C, rfl⟩ := deref_eq_plug hd
  exact ((heightsPos_plug C n).1 ht).2

/-- With cached heights at least 1 (stale or not), the rotations of `balance`
find the child they turn around, and `balance` returns. -/
theorem balance_rotations_have_child {n : Node α} (hp : HeightsPos n) :
    rotations_have_child n ∧ ∃ n1, balance n = some n1 := by
  refine ⟨⟨fun h1 => ?_, fun h2 => ?_⟩, balance_total hp⟩
  · cases n with
    | null => simp [get_balance_factor] at h1
    | mk a d l r p hh =>
      simp only [get_balance_factor_mk] at h1
      have hr0 := get_height_nonneg hp.2.2
      cases l with
      | null => simp only [get_height_null] at h1; omega
      | mk la ld ll lr lp lh =>
        refine ⟨by simp [Node.left?], fun h3 => ?_⟩
        simp only [Node.left?, get_balance_factor_mk] at h3
        have hll0 := get_height_nonneg hp.2.1.2.1
        cases lr with
        | null => simp only [get_height_null] at h3; omega
        | mk _ _ _ _ _ _ => simp [Node.left?, Node.right?]
  · cases n with
    | null => simp [get_balance_factor] at h2
    | mk a d l r p hh =>
      simp only [get_balance_factor_mk] at h2
      have hl0 := get_height_nonneg hp.2.1
      cases r with
      | null => simp only [get_height_null] at h2; omega
      | mk ra rd rl rr rp rh =>
        refine ⟨by simp [Node.right?], fun h3 => ?_⟩
        simp only [Node.right?, get_balance_factor_mk] at h3
        have hrr0 := get_height_nonneg hp.2.2.2.2
        cases rl with
        | null => simp only [get_height_null] at h3; omega
        | mk _ _ _ _ _ _ => simp [Node.left?, Node.right?]

section keyed
variable [LinearOrder κ] {key : α → κ}

/-- C40. `balance` never rotates around a missing child, whatever the cached
heights are.  In every tree built by `insert`, `erase`, `merge`, copy
construction (and `clear`, writes through iterators), every node — as it is and
after `update_height` — is one on which the rotations of `balance` find the
child they turn around, and so is every node whose cached heights are at least
1; hence `insert` and the copy constructor always return, and `erase` returns
whenever its unlinking part does. -/
theorem C40_balance_never_rotates_missing_child [Inhabited α] {dup : Bool} {t : BinaryTree α}
    (hb : Built key dup t) :
    (∀ a n, t.root_.deref a = some n →
      HeightsPos n ∧ rotations_have_child n ∧ rotations_have_child (update_height n) ∧
        (∃ n1, balance n = some n1) ∧ ∃ n1, balance (update_height n) = some n1) ∧
    (∀ n : Node α, HeightsPos n → rotations_have_child n ∧ ∃ n1, balance n = some n1) ∧
    (∀ v d, ∃ t1 r, t.insert key v d = .ok t1 r) ∧
    (∃ c, BinaryTree.copy t = some c) ∧
    (∀ a n root1, t.root_.deref a = some n → erase_unlink t.root_ n = some root1 →
      ∃ t1, t.erase (some a) = .ok t1 ()) := by
  have hw := hb.wellFormed
  refine ⟨fun a n hd => ?_, fun n hp => balance_rotations_have_child hp, fun v d => ?_, ?_,
    fun a n root1 hd hu => ?_⟩
  · have hp := heightsPos_deref hw.heights hd
    have h1 := balance_rotations_have_child hp
    have h2 := balance_rotations_have_child hp.update_height
    exact ⟨hp, h1.1, h2.1, h1.2, h2.2⟩
  · obtain ⟨t1, b, h1, -⟩ := insert_spec hw v d
    exact ⟨t1, _, h1⟩
  · obtain ⟨c, h1, -⟩ := copy_spec hw
    exact ⟨c, h1⟩
  · obtain ⟨e, he1, he2, -⟩ := hw.end_ok
    obtain ⟨-, ha⟩ := deref_some hd
    have hpos : (some a : Ptr) ≠ t.end := by
      intro h
      rw [BinaryTree.end, he1] at h
      exact he2 (Option.some.inj h ▸ ha)
    rcases erase_unlink_spec hw.nodup hw.children hw.heights
      (fun p hp => (hw.root_parent p hp).1) hd with ⟨h0, -⟩ | ⟨root2, h0, -, hc, hh, -⟩
    · rw [h0] at hu; cases hu
    · rw [h0] at hu
      obtain rfl := Option.some.inj hu
      obtain ⟨root3, h3, -⟩ := erase_finish_spec t hc hh
      have he : t.erase (some a) = BinaryTree.erase_finish t root2 := by
        simp only [BinaryTree.erase, if_neg hpos, hd, h0]
      exact ⟨_, he.trans h3⟩

end keyed

/-! ## The statements above on concrete trees and lists -/

/-- C31 fails on the code. `list<int> a; list<int> b{1}; a.swap(b);`:
`listNode_base::swap` exchanges the two fake nodes and then rewrites the four
neighbour links one after the other; with `a`'s ring empty the last two
assignments overwrite the links the first two set.  Afterwards the sizes are
exchanged but `a.begin()` is `b`'s fake node (no payload: a traversal of `a`,
or `front()`, reads outside the node) and `b.begin()` is `a`'s fake node;
swapping again leaves `b` with `size() = 1` and an empty ring.  The same
happens with `b.swap(a)` and with two empty lists.  On the two non-empty
lists of the repository's test, `swap` does exchange contents and sizes. -/
theorem C31_swap_with_empty_list_corrupts :
    list.IsList merge_demo.1 merge_demo.2.1 [] [] ∧
    list.IsList merge_demo.1 merge_demo.2.2 [2] [1] ∧
    (∃ h1 a1 b1, list.swap merge_demo.1 merge_demo.2.1 merge_demo.2.2 = (h1, a1, b1) ∧
      a1.size_ = 1 ∧ b1.size_ = 0 ∧ a1.begin h1 = b1.fake_node ∧ b1.begin h1 = a1.fake_node ∧
      h1.data (a1.begin h1) = none ∧ a1.front h1 = .undefined ∧
      a1.elements h1 = .undefined ∧ b1.elements h1 = .undefined ∧
      ∃ h2 a2 b2, list.swap h1 a1 b1 = (h2, a2, b2) ∧ a2.size_ = 0 ∧ b2.size_ = 1 ∧
        b2.begin h2 = b2.end ∧ b2.elements h2 = .ok h2 []) ∧
    (∃ h1 b1 a1, list.swap merge_demo.1 merge_demo.2.2 merge_demo.2.1 = (h1, b1, a1) ∧
      a1.size_ = 1 ∧ b1.size_ = 0 ∧ a1.begin h1 = b1.fake_node ∧
      a1.elements h1 = .undefined) ∧
    (∃ h1 a1 b1, list.swap empty_pair.1 empty_pair.2.1 empty_pair.2.2 = (h1, a1, b1) ∧
      a1.size_ = 0 ∧ a1.begin h1 = b1.fake_node ∧ a1.begin h1 ≠ a1.end ∧
      a1.elements h1 = .undefined) ∧
    (∃ h1 a1 b1, list.swap swap_test.1 swap_test.2.1 swap_test.2.2 = (h1, a1, b1) ∧
      a1.elements h1 = .ok h1 [10, 11, 12, 13, 14, 15, 16, 17, 18] ∧ a1.size_ = 9 ∧
      b1.elements h1 = .ok h1 [1, 2, 3, 4, 5, 6, 7, 8, 9] ∧ b1.size_ = 9) := by
  refine ⟨⟨?_, by decide, rfl, rfl⟩, ⟨?_, by decide, rfl, rfl⟩,
    ⟨_, _, _, rfl, rfl, rfl, rfl, rfl, rfl, rfl, rfl, rfl, _, _, _, rfl, rfl, rfl, rfl, by decide⟩,
    ⟨_, _, _, rfl, rfl, rfl, rfl, rfl⟩,
    ⟨_, _, _, rfl, rfl, rfl, by decide, rfl⟩,
    ⟨_, _, _, rfl, by decide, rfl, by decide, rfl⟩⟩
  · simp only [list.Linked, List.cons_append, List.nil_append, List.chain'_cons,
      List.chain'_singleton, and_true]
    decide
  · simp only [list.Linked, List.cons_append, List.nil_append, List.chain'_cons,
      List.chain'_singleton, and_true]
    decide

/-- C33 fails on the code. On `multiset<int>{1, 2, 3, 3, 4}` (the multiset of
the repository's `find` test) the in-order sequence holds the 3 inserted first
at address 3 before the 3 inserted second at address 4; `lower_bound(3)` is the
iterator to the first of them, `find(3)` the iterator to the second: the
descent of `find_node` stops at the first node with an equal key on its path,
which is the upper one in the tree, not the first in in-order. -/
theorem C33_find_returns_later_duplicate :
    run id BinaryTree.empty dup_find_ops = .ok dup_find_tree () ∧
    Reachable id dup_find_tree ∧
    dup_find_tree.root_.entries = [(1, 1), (2, 2), (3, 3), (4, 3), (5, 4)] ∧
    multiset.lower_bound dup_find_tree 3 = .ok dup_find_tree (some 3) ∧
    dup_find_tree.find id 3 = some 4 ∧
    dup_find_tree.star (some 3) = .ok dup_find_tree 3 ∧
    dup_find_tree.star (some 4) = .ok dup_find_tree 3 :=
  ⟨rfl, run_reachable ⟨[], Reach.empty⟩
    (show run id BinaryTree.empty dup_find_ops = .ok dup_find_tree () from rfl),
    rfl, rfl, rfl, rfl, rfl⟩

/-- C34 fails on the code. `insert(2); insert(1); erase(find(2))`: the root
(holding 2) has exactly one child and a null parent link; `erase_node` promotes
the child to root without resetting the child's parent link (its branch for a
non-root node does set it), so the new root's parent link still holds the
address of the deleted node.  Below the root the parent links are right in
every tree built by public operations. -/
theorem C34_promoted_root_keeps_parent_link :
    run id BinaryTree.empty (promoted_ops.take 2) = .ok promoted_before () ∧
    promoted_before.find id 2 = some 1 ∧ promoted_before.root_.addr? = some 1 ∧
    promoted_before.root_.left? ≠ .null ∧ promoted_before.root_.right? = .null ∧
    promoted_before.root_.parent? = none ∧
    promoted_before.erase (promoted_before.find id 2) = .ok promoted_tree () ∧
    run id BinaryTree.empty promoted_ops = .ok promoted_tree () ∧
    Reachable id promoted_tree ∧
    promoted_tree.root_.addr? = some 2 ∧ promoted_tree.root_.parent? = some 1 ∧
    promoted_tree.root_.deref 1 = none ∧
    (∀ (dup : Bool) (t : BinaryTree Nat), Built id dup t → ChildrenOK t.root_) :=
  ⟨rfl, rfl, rfl, by decide, rfl, rfl, rfl, rfl,
    run_reachable ⟨[], Reach.empty⟩
      (show run id BinaryTree.empty promoted_ops = .ok promoted_tree () from rfl),
    rfl, rfl, rfl, fun _ _ hb => hb.wellFormed.children⟩

/-- C39 fails on the code. The set built by `insert` of 0, 4, 6, 2, 8 has
correct cached heights (3 at the root, 2 at its children).  Its copy has the
same shape but cached height 1 at every node: `copy_tree` constructs each node
with `new Node(data)`, which sets `height = 1`, and never copies or recomputes
the height.  After `insert(9); insert(7)` into the copy the node holding 4 has
a left subtree of height 2 and no right child: the stale heights made
`balance` rotate a tree that was balanced. -/
theorem C39_copy_resets_cached_heights :
    run id BinaryTree.empty copy_source_ops = .ok copy_source () ∧
    avl_balanced copy_source.root_ = true ∧ heights_cached_ok copy_source.root_ = true ∧
    BinaryTree.copy copy_source = some copy_made ∧
    copy_made.root_.toList = copy_source.root_.toList ∧
    get_height copy_source.root_ = 3 ∧ true_height copy_source.root_ = 3 ∧
    get_height copy_made.root_ = 1 ∧ true_height copy_made.root_ = 3 ∧
    get_height copy_source.root_.left? = 2 ∧ get_height copy_made.root_.left? = 1 ∧
    heights_cached_ok copy_made.root_ = false ∧
    run id copy_made [.insert 9 false, .insert 7 false] = .ok copy_grown () ∧
    avl_balanced copy_grown.root_ = false ∧
    true_height copy_grown.root_.left?.left? = 2 ∧
    true_height copy_grown.root_.left?.right? = 0 :=
  ⟨rfl, by decide, by decide, rfl, rfl, rfl, by decide, rfl, by decide, rfl, rfl, by decide, rfl,
    by decide, by decide, by decide⟩

theorem C32_witness :
    ∃ t1 it, multi_tree.insert id 2 true = .ok t1 (it, true) ∧ t1.size = multi_tree.size + 1 ∧
      ∃ pre post, multi_tree.root_.entries = pre ++ post ∧
        t1.root_.entries = pre ++ (multi_tree.fresh, 2) :: post ∧
        multi_tree.root_.toList = pre.map Prod.snd ++ post.map Prod.snd ∧
        t1.root_.toList = pre.map Prod.snd ++ 2 :: post.map Prod.snd ∧
        (∀ e ∈ pre, id e.2 ≤ id 2) ∧ (∀ e ∈ post, id 2 < id e.2) ∧
        (∀ e ∈ multi_tree.root_.entries, id e.2 = id 2 → e ∈ pre) :=
  C32_insert_duplicate_goes_last (Or.inl multi_reachable) 2

theorem C35_witness :
    avl_balanced scenario_pivot.left? = true ∧ heights_cached_ok scenario_pivot.left? = true ∧
    avl_balanced scenario_pivot.right? = true ∧ heights_cached_ok scenario_pivot.right? = true ∧
    get_balance_factor scenario_pivot = -2 ∧
    ∃ n1, balance scenario_pivot = some n1 ∧ n1.toList = scenario_pivot.toList ∧
      avl_balanced n1 = true ∧ heights_cached_ok n1 = true ∧ get_height n1 = true_height n1 :=
  ⟨by decide, by decide, by decide, by decide, rfl,
    (C35_balance_restores_avl (a := 2) (d := 20) (l := scenario_pivot.left?)
      (r := scenario_pivot.right?) (p := none) (h := 4)
      (by decide) (by decide) (by decide) (by decide)).1 (Or.inr rfl)⟩

theorem scenario_reach : Reach id scenario_history scenario_tree :=
  Reach.insert (i := some 6) (Reach.insert (i := some 5) (Reach.insert (i := some 4)
    (Reach.insert (i := some 3) (Reach.insert (i := some 2)
      (Reach.insert (i := some 1) Reach.empty rfl) rfl) rfl) rfl) rfl) rfl

theorem C38_witness :
    (∀ e ∈ scenario_history, e.isErase = false) ∧
    avl_balanced scenario_tree.root_ = true ∧ heights_cached_ok scenario_tree.root_ = true ∧
    ∀ a n, scenario_tree.root_.deref a = some n →
      true_height n.left? - true_height n.right? ≤ 1 ∧
      true_height n.right? - true_height n.left? ≤ 1 ∧
      get_height n = true_height n :=
  ⟨by decide, C38_insert_only_trees_are_avl scenario_reach (by decide)⟩

theorem C40_witness :
    heights_cached_ok stale_tree.root_ = false ∧
    (∀ a n, stale_tree.root_.deref a = some n →
      HeightsPos n ∧ rotations_have_child n ∧ rotations_have_child (update_height n) ∧
        (∃ n1, balance n = some n1) ∧ ∃ n1, balance (update_height n) = some n1) ∧
    (∀ v d, ∃ t1 r, stale_tree.insert id v d = .ok t1 r) ∧
    (∃ c, BinaryTree.copy stale_tree = some c) :=
  ⟨by decide, (C40_balance_never_rotates_missing_child stale_built).1,
    (C40_balance_never_rotates_missing_child stale_built).2.2.1,
    (C40_balance_never_rotates_missing_child stale_built).2.2.2.1⟩

/-! ## The shared memory: separation -/

theorem tcell_set (h : TreeHeap α) (a b : Nat) (v : Option (TreeCell α)) :
    (TreeHeap.mk (h.cells.set a v)).cell b =
      if a = b ∧ a < h.cells.length then v else h.cell b := by
  simp only [TreeHeap.cell, List.getD_eq_getElem?_getD, List.getElem?_set]
  by_cases hab : a = b
  · subst hab
    by_cases hl : a < h.cells.length
    · simp [hl]
    · simp [hl, List.getElem?_eq_none (not_lt.1 hl)]
  · simp [hab]

theorem tcell_append (h : TreeHeap α) (b : Nat) (v : Option (TreeCell α)) :
    (TreeHeap.mk (h.cells ++ [v])).cell b =
      if b = h.cells.length then v else h.cell b := by
  simp only [TreeHeap.cell, List.getD_eq_getElem?_getD]
  rcases lt_trichotomy b h.cells.length with hb | hb | hb
  · rw [List.getElem?_append_left hb, if_neg (ne_of_lt hb)]
  · subst hb
    simp
  · rw [if_neg (ne_of_gt hb), List.getElem?_eq_none (by simp; omega),
      List.getElem?_eq_none (by omega)]

theorem tcell_lt {h : TreeHeap α} {a : Nat} {c : TreeCell α} (hc : h.cell a = some c) :
    a < h.cells.length := by
  by_contra hl
  simp only [TreeHeap.cell, List.getD_eq_getElem?_getD,
    List.getElem?_eq_none (not_lt.1 hl)] at hc
  cases hc

theorem ptrOut_none (L : Nat) : PtrOut L none := fun _ h => by cases h

theorem kept_refl (L : Nat) (h : TreeHeap α) : Kept L h h := fun _ _ => rfl

theorem kept_trans {L : Nat} {h h1 h2 : TreeHeap α} (h01 : Kept L h h1) (h12 : Kept L h1 h2) :
    Kept L h h2 := fun a ha => (h12 a ha).trans (h01 a ha)

section separation

variable {β γ : Type} {L : Nat}

theorem safe_pure {Q : β → Prop} {x : β} (hq : Q x) : Safe L (Pure.pure x : Mem α β) Q :=
  fun h hs => ⟨hs, kept_refl L h, hq⟩

theorem safe_bind {m : Mem α β} {f : β → Mem α γ} {Q : β → Prop} {R : γ → Prop}
    (hm : Safe L m Q) (hf : ∀ x, Q x → Safe L (f x) R) : Safe L (m >>= f) R := by
  intro h hs
  have h1 := hm h hs
  show match Mem.bind m f h with
    | .ok h1 r => Sep L h1 ∧ Kept L h h1 ∧ R r
    | .throws h1 _ => Sep L h1 ∧ Kept L h h1
    | .undefined => True
    | .out_of_fuel => True
  unfold Mem.bind
  simp only [Mem.run] at h1
  cases hr : m h with
  | ok h2 x =>
    rw [hr] at h1
    obtain ⟨s2, k2, q⟩ := h1
    have h3 := hf x q h2 s2
    simp only [Mem.run] at h3
    simp only
    cases hr2 : f x h2 with
    | ok h4 y =>
      rw [hr2] at h3
      exact ⟨h3.1, kept_trans k2 h3.2.1, h3.2.2⟩
    | throws h4 e =>
      rw [hr2] at h3
      exact ⟨h3.1, kept_trans k2 h3.2⟩
    | undefined => trivial
    | out_of_fuel => trivial
  | throws h2 e =>
    rw [hr] at h1
    exact h1
  | undefined => trivial
  | out_of_fuel => trivial

theorem safe_mono {m : Mem α β} {Q R : β → Prop} (hm : Safe L m Q) (hqr : ∀ x, Q x → R x) :
    Safe L m R := by
  intro h hs
  have h1 := hm h hs
  cases hr : m.run h with
  | ok h2 x =>
    rw [hr] at h1
    exact ⟨h1.1, h1.2.1, hqr x h1.2.2⟩
  | throws h2 e =>
    rw [hr] at h1
    exact h1
  | undefined => trivial
  | out_of_fuel => trivial

theorem safe_out_of_fuel {Q : β → Prop} : Safe L (Mem.out_of_fuel : Mem α β) Q :=
  fun _ _ => trivial

theorem safe_throw {Q : β → Prop} (e : Exn) : Safe L (Mem.throw e : Mem α β) Q :=
  fun h hs => ⟨hs, kept_refl L h⟩

/-- A read through any pointer changes nothing. -/
theorem safe_load_any (p : Ptr) : Safe L (Mem.load p : Mem α (TreeCell α)) (fun _ => True) := by
  intro h hs
  simp only [Mem.run, Mem.load]
  cases p with
  | none => trivial
  | some a =>
    simp only
    cases hc : h.cell a with
    | none => trivial
    | some c => exact ⟨hs, kept_refl L h, trivial⟩

/-- A read through a pointer that is outside yields links that are outside. -/
theorem safe_load {p : Ptr} (hp : PtrOut L p) :
    Safe L (Mem.load p : Mem α (TreeCell α)) (CellOut L) := by
  intro h hs
  simp only [Mem.run, Mem.load]
  cases p with
  | none => trivial
  | some a =>
    simp only
    cases hc : h.cell a with
    | none => trivial
    | some c => exact ⟨hs, kept_refl L h, hs.2 a c (hp a rfl) hc⟩

/-- A write through a pointer that is outside, storing links that are outside. -/
theorem safe_modify {p : Ptr} {f : TreeCell α → TreeCell α} (hp : PtrOut L p)
    (hf : ∀ c, CellOut L c → CellOut L (f c)) :
    Safe L (Mem.modify p f) (fun _ => True) := by
  intro h hs
  simp only [Mem.run, Mem.modify]
  cases p with
  | none => trivial
  | some a =>
    simp only
    have ha := hp a rfl
    cases hc : h.cell a with
    | none => trivial
    | some c =>
      refine ⟨⟨by simpa using hs.1, fun b c1 hb hc1 => ?_⟩, fun b hb => ?_, trivial⟩
      · rw [tcell_set] at hc1
        split_ifs at hc1 with hab
        · obtain rfl := Option.some.inj hc1
          exact hf c (hs.2 a c ha hc)
        · exact hs.2 b c1 hb hc1
      · rw [tcell_set, if_neg (fun hab => by omega)]

theorem safe_new_node (value : α) : Safe L (Mem.new_node value) (PtrOut L) := by
  intro h hs
  simp only [Mem.run, Mem.new_node]
  refine ⟨⟨by simp; have := hs.1; omega, fun b c1 hb hc1 => ?_⟩, fun b hb => ?_, ?_⟩
  · rw [tcell_append] at hc1
    split_ifs at hc1 with hbl
    · obtain rfl := Option.some.inj hc1
      exact ⟨ptrOut_none L, ptrOut_none L, ptrOut_none L⟩
    · exact hs.2 b c1 hb hc1
  · rw [tcell_append, if_neg (fun hbl => by have := hs.1; omega)]
  · intro a ha
    obtain rfl := Option.some.inj ha
    exact hs.1

theorem safe_delete {p : Ptr} (hp : PtrOut L p) :
    Safe L (Mem.delete p : Mem α Unit) (fun _ => True) := by
  intro h hs
  simp only [Mem.run, Mem.delete]
  cases p with
  | none => exact ⟨hs, kept_refl L h, trivial⟩
  | some a =>
    simp only
    have ha := hp a rfl
    cases hc : h.cell a with
    | none => trivial
    | some c =>
      refine ⟨⟨by simpa using hs.1, fun b c1 hb hc1 => ?_⟩, fun b hb => ?_, trivial⟩
      · rw [tcell_set] at hc1
        split_ifs at hc1 with hab
        exact hs.2 b c1 hb hc1
      · rw [tcell_set, if_neg (fun hab => by omega)]

end separation

section separation

variable {β γ : Type} {L : Nat}

theorem safe_get_height {node : Ptr} (hp : PtrOut L node) :
    Safe L (Mem.get_height node : Mem α Int) (fun _ => True) := by
  unfold Mem.get_height
  cases node with
  | none => exact safe_pure trivial
  | some a => exact safe_bind (safe_load hp) fun c _ => safe_pure trivial

theorem safe_get_balance_factor {node : Ptr} (hp : PtrOut L node) :
    Safe L (Mem.get_balance_factor node : Mem α Int) (fun _ => True) := by
  unfold Mem.get_balance_factor
  cases node with
  | none => exact safe_pure trivial
  | some a =>
    exact safe_bind (safe_load hp) fun c hc =>
      safe_bind (safe_get_height hc.1) fun _ _ =>
        safe_bind (safe_get_height hc.2.1) fun _ _ => safe_pure trivial

theorem safe_update_height {node : Ptr} (hp : PtrOut L node) :
    Safe L (Mem.update_height node : Mem α Unit) (fun _ => True) := by
  unfold Mem.update_height
  exact safe_bind (safe_load hp) fun c hc =>
    safe_bind (safe_get_height hc.1) fun _ _ =>
      safe_bind (safe_get_height hc.2.1) fun _ _ =>
        safe_modify hp fun c1 hc1 => hc1

theorem safe_set_parent_if {n p : Ptr} (hn : PtrOut L n) (hp : PtrOut L p) :
    Safe L (Mem.set_parent_if n p : Mem α Unit) (fun _ => True) := by
  unfold Mem.set_parent_if
  cases n with
  | none => exact safe_pure trivial
  | some a => exact safe_modify hn fun c hc => ⟨hc.1, hc.2.1, hp⟩

theorem safe_leftmost_node (fuel : Nat) : ∀ {node : Ptr}, PtrOut L node →
    Safe L (Mem.leftmost_node fuel node : Mem α Ptr) (PtrOut L) := by
  induction fuel with
  | zero => intro node _; exact safe_out_of_fuel
  | succ fuel ih =>
    intro node hp
    unfold Mem.leftmost_node
    cases node with
    | none => exact safe_pure (ptrOut_none L)
    | some a =>
      refine safe_bind (safe_load hp) fun c hc => ?_
      split
      · exact safe_pure hp
      · exact ih hc.1

theorem safe_rightmost_node (fuel : Nat) : ∀ {node : Ptr}, PtrOut L node →
    Safe L (Mem.rightmost_node fuel node : Mem α Ptr) (PtrOut L) := by
  induction fuel with
  | zero => intro node _; exact safe_out_of_fuel
  | succ fuel ih =>
    intro node hp
    unfold Mem.rightmost_node
    cases node with
    | none => exact safe_pure (ptrOut_none L)
    | some a =>
      refine safe_bind (safe_load hp) fun c hc => ?_
      split
      · exact safe_pure hp
      · exact ih hc.2.1

theorem safe_rotate_right {old_root : Ptr} (hp : PtrOut L old_root) :
    Safe L (Mem.rotate_right old_root : Mem α Ptr) (PtrOut L) := by
  unfold Mem.rotate_right
  refine safe_bind (safe_load hp) fun o ho => ?_
  refine safe_bind (safe_load ho.1) fun n hn => ?_
  refine safe_bind (safe_modify ho.1 fun c hc => ⟨hc.1, hp, hc.2.2⟩) fun _ _ => ?_
  refine safe_bind (safe_modify hp fun c hc => ⟨hn.2.1, hc.2.1, hc.2.2⟩) fun _ _ => ?_
  refine safe_bind (safe_set_parent_if hn.2.1 hp) fun _ _ => ?_
  refine safe_bind (safe_load hp) fun o1 ho1 => ?_
  refine safe_bind (safe_modify ho.1 fun c hc => ⟨hc.1, hc.2.1, ho1.2.2⟩) fun _ _ => ?_
  refine safe_bind (safe_modify hp fun c hc => ⟨hc.1, hc.2.1, ho.1⟩) fun _ _ => ?_
  refine safe_bind (safe_update_height hp) fun _ _ => ?_
  exact safe_bind (safe_update_height ho.1) fun _ _ => safe_pure ho.1

theorem safe_rotate_left {old_root : Ptr} (hp : PtrOut L old_root) :
    Safe L (Mem.rotate_left old_root : Mem α Ptr) (PtrOut L) := by
  unfold Mem.rotate_left
  refine safe_bind (safe_load hp) fun o ho => ?_
  refine safe_bind (safe_load ho.2.1) fun n hn => ?_
  refine safe_bind (safe_modify ho.2.1 fun c hc => ⟨hp, hc.2.1, hc.2.2⟩) fun _ _ => ?_
  refine safe_bind (safe_modify hp fun c hc => ⟨hc.1, hn.1, hc.2.2⟩) fun _ _ => ?_
  refine safe_bind (safe_set_parent_if hn.1 hp) fun _ _ => ?_
  refine safe_bind (safe_load hp) fun o1 ho1 => ?_
  refine safe_bind (safe_modify ho.2.1 fun c hc => ⟨hc.1, hc.2.1, ho1.2.2⟩) fun _ _ => ?_
  refine safe_bind (safe_modify hp fun c hc => ⟨hc.1, hc.2.1, ho.2.1⟩) fun _ _ => ?_
  refine safe_bind (safe_update_height hp) fun _ _ => ?_
  exact safe_bind (safe_update_height ho.2.1) fun _ _ => safe_pure ho.2.1

theorem safe_balance {node : Ptr} (hp : PtrOut L node) :
    Safe L (Mem.balance node : Mem α Ptr) (PtrOut L) := by
  unfold Mem.balance
  refine safe_bind (safe_get_balance_factor hp) fun bf _ => ?_
  split_ifs with h1 h2
  · refine safe_bind (safe_load hp) fun c hc => ?_
    refine safe_bind (safe_get_balance_factor hc.1) fun lf _ => ?_
    split_ifs with h3
    · refine safe_bind (safe_load hp) fun c1 hc1 => ?_
      refine safe_bind (safe_rotate_left hc1.1) fun l1 hl1 => ?_
      refine safe_bind (safe_modify hp fun c2 hc2 => ⟨hl1, hc2.2.1, hc2.2.2⟩) fun _ _ => ?_
      exact safe_rotate_right hp
    · exact safe_rotate_right hp
  · refine safe_bind (safe_load hp) fun c hc => ?_
    refine safe_bind (safe_get_balance_factor hc.2.1) fun rf _ => ?_
    split_ifs with h3
    · refine safe_bind (safe_load hp) fun c1 hc1 => ?_
      refine safe_bind (safe_rotate_right hc1.2.1) fun r1 hr1 => ?_
      refine safe_bind (safe_modify hp fun c2 hc2 => ⟨hc2.1, hr1, hc2.2.2⟩) fun _ _ => ?_
      exact safe_rotate_left hp
    · exact safe_rotate_left hp
  · exact safe_pure hp

end separation

section separation

variable {β γ : Type} {L : Nat}

theorem safe_update_min_max_nodes (fuel : Nat) {t : TreeObj} (ht : ObjOut L t) :
    Safe L (Mem.update_min_max_nodes fuel t : Mem α TreeObj) (ObjOut L) := by
  unfold Mem.update_min_max_nodes
  refine safe_bind (safe_leftmost_node fuel ht.1) fun lo hlo => ?_
  refine safe_bind (safe_rightmost_node fuel ht.1) fun hi hhi => ?_
  exact safe_pure ⟨ht.1, hlo, hhi, ht.2.2.2⟩

theorem safe_erase_node {root node child : Ptr} (hr : PtrOut L root) (hn : PtrOut L node)
    (hc : PtrOut L child) :
    Safe L (Mem.erase_node root node child : Mem α Ptr) (PtrOut L) := by
  unfold Mem.erase_node
  split_ifs with h1
  · exact safe_pure hc
  · refine safe_bind (safe_load hn) fun n hn1 => ?_
    refine safe_bind (safe_load hn1.2.2) fun p hp => ?_
    refine safe_bind (?_ : Safe L _ (fun _ => True)) fun _ _ => ?_
    · split_ifs with h2
      · exact safe_modify hn1.2.2 fun c hc1 => ⟨hc, hc1.2.1, hc1.2.2⟩
      · exact safe_modify hn1.2.2 fun c hc1 => ⟨hc1.1, hc, hc1.2.2⟩
    · refine safe_bind (safe_load hn) fun n1 hn2 => ?_
      exact safe_bind (safe_set_parent_if hc hn2.2.2) fun _ _ => safe_pure hr

theorem safe_erase_two_children (fuel : Nat) {root_ node_to_remove : Ptr}
    (hr : PtrOut L root_) (hn : PtrOut L node_to_remove) :
    Safe L (Mem.erase_two_children fuel root_ node_to_remove : Mem α Ptr) (PtrOut L) := by
  unfold Mem.erase_two_children
  refine safe_bind (safe_load hn) fun n hn0 => ?_
  refine safe_bind (safe_leftmost_node fuel hn0.2.1) fun successor hs => ?_
  refine safe_bind (safe_load hs) fun s hs0 => ?_
  refine safe_bind (safe_erase_node hr hs hs0.2.1) fun root1 hr1 => ?_
  refine safe_bind (safe_load hn) fun n1 hn1 => ?_
  refine safe_bind (safe_modify hs fun c hc => ⟨hn1.1, hc.2.1, hc.2.2⟩) fun _ _ => ?_
  refine safe_bind (safe_load hn) fun n2 hn2 => ?_
  refine safe_bind (safe_modify hs fun c hc => ⟨hc.1, hn2.2.1, hc.2.2⟩) fun _ _ => ?_
  refine safe_bind (safe_load hs) fun s1 hs1 => ?_
  refine safe_bind (safe_set_parent_if hs1.1 hs) fun _ _ => ?_
  refine safe_bind (safe_load hs) fun s2 hs2 => ?_
  refine safe_bind (safe_set_parent_if hs2.2.1 hs) fun _ _ => ?_
  refine safe_bind (safe_load hn) fun n3 hn3 => ?_
  refine safe_bind (?_ : Safe L _ (PtrOut L)) fun root2 hr2 => ?_
  · split
    · refine safe_bind (safe_load hn3.2.2) fun p hp => ?_
      refine safe_bind (?_ : Safe L _ (fun _ => True)) fun _ _ => safe_pure hr1
      split_ifs with h2
      · exact safe_modify hn3.2.2 fun c hc => ⟨hs, hc.2.1, hc.2.2⟩
      · exact safe_modify hn3.2.2 fun c hc => ⟨hc.1, hs, hc.2.2⟩
    · exact safe_pure hs
  · refine safe_bind (safe_load hn) fun n4 hn4 => ?_
    exact safe_bind (safe_modify hs fun c hc => ⟨hc.1, hc.2.1, hn4.2.2⟩) fun _ _ =>
      safe_pure hr2

theorem safe_erase (fuel : Nat) {t : TreeObj} {pos : Ptr} (ht : ObjOut L t)
    (hpos : PtrOut L pos) :
    Safe L (Mem.erase fuel t pos : Mem α TreeObj) (ObjOut L) := by
  unfold Mem.erase
  split_ifs with h1
  · exact safe_throw _
  · refine safe_bind (safe_load hpos) fun n hn => ?_
    refine safe_bind (?_ : Safe L _ (PtrOut L)) fun root1 hr1 => ?_
    · have hchild : PtrOut L (if n.left ≠ none then n.left else n.right) := by
        split_ifs
        · exact hn.1
        · exact hn.2.1
      by_cases h2 : n.left = none ∨ n.right = none
      · rw [if_pos h2]
        exact safe_erase_node ht.1 hpos hchild
      · rw [if_neg h2]
        exact safe_erase_two_children fuel ht.1 hpos
    · refine safe_bind (safe_delete hpos) fun _ _ => ?_
      refine safe_bind (?_ : Safe L _ (PtrOut L)) fun root2 hr2 => ?_
      · split
        · exact safe_pure (ptrOut_none L)
        · exact safe_bind (safe_update_height hr1) fun _ _ => safe_balance hr1
      · refine safe_bind (safe_update_min_max_nodes fuel
          (t := { t with root_ := root2 }) ⟨hr2, ht.2.1, ht.2.2.1, ht.2.2.2⟩) fun t1 ht1 => ?_
        exact safe_pure ht1

theorem safe_clear_tree (fuel : Nat) : ∀ {node : Ptr}, PtrOut L node →
    Safe L (Mem.clear_tree fuel node : Mem α Unit) (fun _ => True) := by
  induction fuel with
  | zero => intro node _; exact safe_out_of_fuel
  | succ fuel ih =>
    intro node hp
    unfold Mem.clear_tree
    cases node with
    | none => exact safe_pure trivial
    | some a =>
      refine safe_bind (safe_load hp) fun c hc => ?_
      refine safe_bind (ih hc.1) fun _ _ => ?_
      refine safe_bind (safe_load hp) fun c1 hc1 => ?_
      exact safe_bind (ih hc1.2.1) fun _ _ => safe_delete hp

theorem safe_clear (fuel : Nat) {t : TreeObj} (ht : ObjOut L t) :
    Safe L (Mem.clear fuel t : Mem α TreeObj) (ObjOut L) := by
  unfold Mem.clear
  exact safe_bind (safe_clear_tree fuel ht.1) fun _ _ =>
    safe_pure ⟨ptrOut_none L, ptrOut_none L, ptrOut_none L, ht.2.2.2⟩

/-- `copy_tree` reads the source through any pointer and writes to the nodes
it creates only. -/
theorem safe_copy_tree (fuel : Nat) : ∀ (other_node : Ptr) {parent root_ : Ptr},
    PtrOut L parent → PtrOut L root_ →
    Safe L (Mem.copy_tree fuel other_node parent root_ : Mem α (Ptr × Ptr))
      (fun r => PtrOut L r.1 ∧ PtrOut L r.2) := by
  induction fuel with
  | zero => intro other_node parent root_ _ _; exact safe_out_of_fuel
  | succ fuel ih =>
    intro other_node parent root_ hp hr
    unfold Mem.copy_tree
    cases other_node with
    | none => exact safe_pure ⟨ptrOut_none L, hr⟩
    | some a =>
      refine safe_bind (safe_load_any _) fun o _ => ?_
      refine safe_bind (safe_new_node o.data) fun created hc => ?_
      refine safe_bind (safe_modify hc fun c hc1 => ⟨hc1.1, hc1.2.1, hp⟩) fun _ _ => ?_
      refine safe_bind (safe_load_any _) fun o1 _ => ?_
      have hr1 : PtrOut L (if parent = none then created else root_) := by
        split_ifs
        · exact hc
        · exact hr
      refine safe_bind (ih o1.left hc hr1) fun l hl => ?_
      refine safe_bind (safe_modify hc fun c hc1 => ⟨hl.1, hc1.2.1, hc1.2.2⟩) fun _ _ => ?_
      refine safe_bind (safe_load_any _) fun o2 _ => ?_
      refine safe_bind (ih o2.right hc hl.2) fun r hr2 => ?_
      refine safe_bind (safe_modify hc fun c hc1 => ⟨hc1.1, hr2.1, hc1.2.2⟩) fun _ _ => ?_
      exact safe_pure ⟨hc, hr2.2⟩

theorem safe_copy [Inhabited α] (fuel : Nat) (other : TreeObj) :
    Safe L (Mem.copy fuel other : Mem α TreeObj) (ObjOut L) := by
  unfold Mem.copy
  refine safe_bind (safe_new_node default) fun sentinel hs => ?_
  refine safe_bind (safe_copy_tree fuel other.root_ (ptrOut_none L) (ptrOut_none L))
    fun copied hc => ?_
  refine safe_bind (safe_balance hc.2) fun root1 hr1 => ?_
  refine safe_bind (safe_update_min_max_nodes fuel
    (t := { root_ := root1, min_node_ := none, max_node_ := none, end_node_ := sentinel,
            size_ := 0 }) ⟨hr1, ptrOut_none L, ptrOut_none L, hs⟩) fun t ht => ?_
  exact safe_pure ht

theorem safe_write {pos : Ptr} (d : α) (hp : PtrOut L pos) :
    Safe L (Mem.write pos d : Mem α Unit) (fun _ => True) := by
  unfold Mem.write
  cases pos with
  | none => exact safe_throw _
  | some a => exact safe_modify hp fun c hc => hc

theorem safe_assign {pos : Ptr} (f : α → α) (hp : PtrOut L pos) :
    Safe L (Mem.assign pos f : Mem α Unit) (fun _ => True) := by
  unfold Mem.assign
  cases pos with
  | none => exact safe_throw _
  | some a => exact safe_modify hp fun c hc => hc

section keyed
variable [LinearOrder κ] {key : α → κ}

theorem safe_find_node (fuel : Nat) (k : κ) : ∀ {node : Ptr}, PtrOut L node →
    Safe L (Mem.find_node key fuel node k : Mem α Ptr) (PtrOut L) := by
  induction fuel with
  | zero => intro node _; exact safe_out_of_fuel
  | succ fuel ih =>
    intro node hp
    unfold Mem.find_node
    cases node with
    | none => exact safe_pure (ptrOut_none L)
    | some a =>
      refine safe_bind (safe_load hp) fun c hc => ?_
      split_ifs
      · exact ih hc.1
      · exact ih hc.2.1
      · exact safe_pure hp

theorem safe_insert_fixup {node : Ptr} (b : Bool) (hp : PtrOut L node) :
    Safe L (Mem.insert_fixup node b : Mem α (Ptr × Bool)) (fun r => PtrOut L r.1) := by
  unfold Mem.insert_fixup
  split_ifs
  · refine safe_bind (safe_update_height hp) fun _ _ => ?_
    refine safe_bind (safe_balance hp) fun first hf => ?_
    refine safe_bind (safe_load hf) fun f hf1 => ?_
    refine safe_bind (safe_set_parent_if hf1.1 hf) fun _ _ => ?_
    refine safe_bind (safe_load hf) fun f1 hf2 => ?_
    exact safe_bind (safe_set_parent_if hf2.2.1 hf) fun _ _ => safe_pure hf
  · exact safe_pure hp

theorem safe_insert_node (fuel : Nat) (value : α) (dup : Bool) : ∀ {node : Ptr},
    PtrOut L node →
    Safe L (Mem.insert_node key fuel node value dup : Mem α (Ptr × Bool))
      (fun r => PtrOut L r.1) := by
  induction fuel with
  | zero => intro node _; exact safe_out_of_fuel
  | succ fuel ih =>
    intro node hp
    unfold Mem.insert_node
    cases node with
    | none => exact safe_bind (safe_new_node value) fun created hc => safe_pure hc
    | some a =>
      refine safe_bind (safe_load hp) fun c hc => ?_
      split_ifs
      · refine safe_bind (ih hc.1) fun r hr => ?_
        refine safe_bind (safe_modify hp fun c1 hc1 => ⟨hr, hc1.2.1, hc1.2.2⟩) fun _ _ => ?_
        exact safe_bind (safe_set_parent_if hr hp) fun _ _ => safe_insert_fixup r.2 hp
      · refine safe_bind (ih hc.2.1) fun r hr => ?_
        refine safe_bind (safe_modify hp fun c1 hc1 => ⟨hc1.1, hr, hc1.2.2⟩) fun _ _ => ?_
        exact safe_bind (safe_set_parent_if hr hp) fun _ _ => safe_insert_fixup r.2 hp
      · exact safe_pure hp

theorem safe_insert (fuel : Nat) {t : TreeObj} (value : α) (dup : Bool) (ht : ObjOut L t) :
    Safe L (Mem.insert key fuel t value dup : Mem α (TreeObj × Ptr × Bool))
      (fun r => ObjOut L r.1 ∧ PtrOut L r.2.1) := by
  unfold Mem.insert
  refine safe_bind (safe_insert_node fuel value dup ht.1) fun r hr => ?_
  have ht1 : ObjOut L { t with root_ := r.1 } := ⟨hr, ht.2.1, ht.2.2.1, ht.2.2.2⟩
  refine safe_bind (?_ : Safe L _ (ObjOut L)) fun t2 ht2 => ?_
  · split_ifs
    · exact safe_bind (safe_update_min_max_nodes fuel ht1) fun t3 ht3 => safe_pure ht3
    · exact safe_pure ht1
  · exact safe_bind (safe_find_node fuel _ ht2.1) fun _ hp => safe_pure ⟨ht2, hp⟩

theorem safe_find (fuel : Nat) {t : TreeObj} (k : κ) (ht : ObjOut L t) :
    Safe L (Mem.find key fuel t k : Mem α Ptr) (PtrOut L) := by
  unfold Mem.find
  refine safe_bind (safe_find_node fuel k ht.1) fun node hn => ?_
  split
  · exact safe_pure ht.2.2.2
  · exact safe_pure hn

theorem safe_at_assign (fuel : Nat) {t : TreeObj} (k : κ) (f : α → α) (ht : ObjOut L t) :
    Safe L (Mem.at_assign key fuel t k f : Mem α Unit) (fun _ => True) := by
  unfold Mem.at_assign
  refine safe_bind (safe_find fuel k ht) fun it hp => ?_
  split_ifs
  · exact safe_throw _
  · exact safe_assign f hp

theorem safe_index_assign (fuel : Nat) {t : TreeObj} (value : α) (f : α → α)
    (ht : ObjOut L t) :
    Safe L (Mem.index_assign key fuel t value f : Mem α TreeObj) (ObjOut L) := by
  unfold Mem.index_assign
  refine safe_bind (safe_insert fuel value false ht) fun r hr => ?_
  exact safe_bind (safe_assign f hr.2) fun _ _ => safe_pure hr.1

theorem safe_insert_or_assign (fuel : Nat) {t : TreeObj} (value : α) (f : α → α)
    (ht : ObjOut L t) :
    Safe L (Mem.insert_or_assign key fuel t value f : Mem α (TreeObj × Ptr × Bool))
      (fun r => ObjOut L r.1 ∧ PtrOut L r.2.1) := by
  unfold Mem.insert_or_assign
  refine safe_bind (safe_insert fuel value false ht) fun r hr => ?_
  split_ifs
  · exact safe_bind (safe_assign f hr.2) fun _ _ => safe_pure hr
  · exact safe_pure hr

theorem safe_apply (fuel : Nat) {t : TreeObj} {md : Mod α κ} (ht : ObjOut L t)
    (hm : md.Local L) : Safe L (Mem.apply key fuel t md) (ObjOut L) := by
  cases md with
  | insert value dup =>
    exact safe_bind (safe_insert fuel value dup ht) fun r hr => safe_pure hr.1
  | erase pos => exact safe_erase fuel ht hm
  | erase_key k =>
    exact safe_bind (safe_find fuel k ht) fun pos hp => safe_erase fuel ht hp
  | write pos d => exact safe_bind (safe_write d hm) fun _ _ => safe_pure ht
  | at_assign k f => exact safe_bind (safe_at_assign fuel k f ht) fun _ _ => safe_pure ht
  | index_assign value f => exact safe_index_assign fuel value f ht
  | insert_or_assign value f =>
    exact safe_bind (safe_insert_or_assign fuel value f ht) fun r hr => safe_pure hr.1
  | clear => exact safe_clear fuel ht

theorem safe_run_mods (fuel : Nat) (mods : List (Mod α κ)) : ∀ {t : TreeObj}, ObjOut L t →
    (∀ md ∈ mods, md.Local L) → Safe L (Mem.run_mods key fuel t mods) (ObjOut L) := by
  induction mods with
  | nil => intro t ht _; exact safe_pure ht
  | cons md mods ih =>
    intro t ht hm
    exact safe_bind (safe_apply fuel ht (hm md (List.mem_cons_self _ _))) fun t1 ht1 =>
      ih ht1 fun m1 h1 => hm m1 (List.mem_cons_of_mem _ h1)

end keyed

end separation

/-! ## The copy constructor in the shared memory -/

section copying

variable {β γ : Type}

theorem bind_ok {m : Mem α β} {f : β → Mem α γ} {h h1 : TreeHeap α} {x : β}
    (hm : m h = .ok h1 x) : (m >>= f) h = f x h1 := by
  show Mem.bind m f h = f x h1
  unfold Mem.bind
  rw [hm]

theorem load_spec {h : TreeHeap α} {a : Nat} {c : TreeCell α} (hc : h.cell a = some c) :
    Mem.load (some a) h = .ok h c := by
  simp only [Mem.load, hc]

theorem modify_spec {h : TreeHeap α} {a : Nat} {c : TreeCell α} (hc : h.cell a = some c)
    (f : TreeCell α → TreeCell α) :
    ∃ h1, Mem.modify (some a) f h = .ok h1 () ∧ h1.cell a = some (f c) ∧
      (∀ b, b ≠ a → h1.cell b = h.cell b) ∧ h1.cells.length = h.cells.length := by
  refine ⟨⟨h.cells.set a (some (f c))⟩, by simp only [Mem.modify, hc], ?_, fun b hb => ?_,
    by simp⟩
  · rw [tcell_set, if_pos ⟨rfl, tcell_lt hc⟩]
  · rw [tcell_set, if_neg (fun hab => hb hab.1.symm)]

theorem new_node_spec (h : TreeHeap α) (value : α) :
    ∃ h1, Mem.new_node value h = .ok h1 (some h.cells.length) ∧
      h1.cell h.cells.length = some ⟨value, none, none, none, 1⟩ ∧
      (∀ b, b ≠ h.cells.length → h1.cell b = h.cell b) ∧
      h1.cells.length = h.cells.length + 1 := by
  refine ⟨⟨h.cells ++ [some (⟨value, none, none, none, 1⟩ : TreeCell α)]⟩, rfl, ?_,
    fun b hb => ?_, by simp⟩
  · rw [tcell_append, if_pos rfl]
  · rw [tcell_append, if_neg hb]

theorem stored_congr {h h1 : TreeHeap α} {n : Node α} (hs : Stored h n)
    (he : ∀ x ∈ n.addrs, h1.cell x = h.cell x) : Stored h1 n := by
  induction n with
  | null => trivial
  | mk a d l r p ht ihl ihr =>
    obtain ⟨h0, hl, hr⟩ := hs
    refine ⟨(he a (by simp [Node.addrs])).trans h0, ihl hl fun x hx => he x ?_,
      ihr hr fun x hx => he x ?_⟩
    · simp [Node.addrs, hx]
    · simp [Node.addrs, hx]

theorem stored_lt {h : TreeHeap α} {n : Node α} (hs : Stored h n) :
    ∀ x ∈ n.addrs, x < h.cells.length := by
  induction n with
  | null => intro x hx; simp [Node.addrs] at hx
  | mk a d l r p ht ihl ihr =>
    obtain ⟨h0, hl, hr⟩ := hs
    intro x hx
    simp only [Node.addrs, List.mem_append, List.mem_cons] at hx
    rcases hx with hx | rfl | hx
    · exact ihl hl x hx
    · exact tcell_lt h0
    · exact ihr hr x hx

theorem get_height_stored {h : TreeHeap α} {n : Node α} (hs : Stored h n) :
    Mem.get_height n.addr? h = .ok h (get_height n) := by
  cases n with
  | null => rfl
  | mk a d l r p ht =>
    simp only [Node.addr?, Mem.get_height]
    rw [bind_ok (load_spec hs.1)]
    rfl

theorem get_balance_factor_stored {h : TreeHeap α} {n : Node α} (hs : Stored h n) :
    Mem.get_balance_factor n.addr? h = .ok h (get_balance_factor n) := by
  cases n with
  | null => rfl
  | mk a d l r p ht =>
    simp only [Node.addr?, Mem.get_balance_factor]
    rw [bind_ok (load_spec hs.1), bind_ok (get_height_stored hs.2.1),
      bind_ok (get_height_stored hs.2.2)]
    rfl

/-- Within [−1, 1] the pointer-level `balance` returns the node and writes
nothing. -/
theorem balance_stored_within {h : TreeHeap α} {n : Node α} (hs : Stored h n)
    (h1 : -1 ≤ get_balance_factor n) (h2 : get_balance_factor n ≤ 1) :
    Mem.balance n.addr? h = .ok h n.addr? := by
  unfold Mem.balance
  rw [bind_ok (get_balance_factor_stored hs), if_neg (by omega), if_neg (by omega)]
  rfl

theorem leftmost_node_stored {h : TreeHeap α} {n : Node α} (hs : Stored h n) :
    ∀ fuel, n.addrs.length < fuel →
      Mem.leftmost_node fuel n.addr? h = .ok h (leftmost_node n).addr? := by
  induction n with
  | null =>
    intro fuel hf
    cases fuel with
    | zero => omega
    | succ fuel => rfl
  | mk a d l r p ht ihl ihr =>
    intro fuel hf
    cases fuel with
    | zero => omega
    | succ fuel =>
      simp only [Node.addrs, List.length_append, List.length_cons] at hf
      simp only [Node.addr?, Mem.leftmost_node]
      rw [bind_ok (load_spec hs.1)]
      cases l with
      | null => rfl
      | mk la ld ll lr lp lh =>
        simp only [Node.addr?, leftmost_node]
        exact ihl hs.2.1 fuel (by omega)

theorem rightmost_node_stored {h : TreeHeap α} {n : Node α} (hs : Stored h n) :
    ∀ fuel, n.addrs.length < fuel →
      Mem.rightmost_node fuel n.addr? h = .ok h (rightmost_node n).addr? := by
  induction n with
  | null =>
    intro fuel hf
    cases fuel with
    | zero => omega
    | succ fuel => rfl
  | mk a d l r p ht ihl ihr =>
    intro fuel hf
    cases fuel with
    | zero => omega
    | succ fuel =>
      simp only [Node.addrs, List.length_append, List.length_cons] at hf
      simp only [Node.addr?, Mem.rightmost_node]
      rw [bind_ok (load_spec hs.1)]
      cases r with
      | null => rfl
      | mk ra rd rl rr rp rh =>
        simp only [Node.addr?, rightmost_node]
        exact ihr hs.2.2 fuel (by omega)

theorem get_height_copy_tree (n : Node α) (fresh : Nat) (p : Ptr) :
    get_height (copy_tree n fresh p).1 = if n.addr? = none then 0 else 1 := by
  cases n <;> simp [copy_tree, get_height, Node.addr?]

theorem get_balance_factor_copy_tree (n : Node α) (fresh : Nat) (p : Ptr) :
    -1 ≤ get_balance_factor (copy_tree n fresh p).1 ∧
      get_balance_factor (copy_tree n fresh p).1 ≤ 1 := by
  cases n with
  | null => simp [copy_tree, get_balance_factor]
  | mk a d l r q ht =>
    simp only [copy_tree, get_balance_factor_mk, get_height_copy_tree]
    split_ifs <;> omega

/-- The pointer-level `copy_tree` on a tree lying in memory: it returns, the
memory it found is unchanged, and the nodes it created hold the tree that the
first embedding's `copy_tree` computes. -/
theorem copy_tree_stored (n : Node α) : ∀ (fuel : Nat) (h : TreeHeap α) (parent root_ : Ptr),
    Stored h n → n.addrs.length < fuel →
    ∃ h1, Mem.copy_tree fuel n.addr? parent root_ h =
        .ok h1 ((copy_tree n h.cells.length parent).1.addr?,
          if parent = none ∧ n.addr? ≠ none then some h.cells.length else root_) ∧
      h1.cells.length = (copy_tree n h.cells.length parent).2 ∧
      (∀ x, x < h.cells.length → h1.cell x = h.cell x) ∧
      Stored h1 (copy_tree n h.cells.length parent).1 := by
  induction n with
  | null =>
    intro fuel h parent root_ _ hf
    cases fuel with
    | zero => omega
    | succ fuel =>
      refine ⟨h, ?_, rfl, fun _ _ => rfl, trivial⟩
      simp [Mem.copy_tree, Node.addr?, copy_tree]
      rfl
  | mk a d l r q ht ihl ihr =>
    intro fuel h parent root_ hs hf
    cases fuel with
    | zero => omega
    | succ fuel =>
      simp only [Node.addrs, List.length_append, List.length_cons] at hf
      obtain ⟨h0, hsl, hsr⟩ := hs
      have ha := tcell_lt h0
      have hll := stored_lt hsl
      have hrl := stored_lt hsr
      -- new_node
      obtain ⟨h1, e1, c1, k1, n1⟩ := new_node_spec h d
      -- new_node->parent = parent
      obtain ⟨h2, e2, c2, k2, n2⟩ := modify_spec c1 (fun c => { c with parent := parent })
      have k02 : ∀ x, x < h.cells.length → h2.cell x = h.cell x := fun x hx =>
        (k2 x (by omega)).trans (k1 x (by omega))
      -- the left subtree
      have hsl2 : Stored h2 l := stored_congr hsl fun x hx => k02 x (hll x hx)
      obtain ⟨h3, e3, n3, k3, s3⟩ := ihl fuel h2 (some h.cells.length)
        (if parent = none then some h.cells.length else root_) hsl2 (by omega)
      have hlen2 : h2.cells.length = h.cells.length + 1 := by rw [n2, n1]
      rw [hlen2] at e3 n3 k3 s3
      obtain ⟨l1, l2, l3, l4, l5, l6⟩ := copy_tree_spec l (h.cells.length + 1)
        (some h.cells.length)
      have c3 : h3.cell h.cells.length = some ⟨d, none, none, parent, 1⟩ :=
        (k3 _ (by omega)).trans c2
      -- new_node->left = ...
      obtain ⟨h4, e4, c4, k4, n4⟩ := modify_spec c3
        (fun c => { c with left := (copy_tree l (h.cells.length + 1) (some h.cells.length)).1.addr? })
      have k04 : ∀ x, x < h.cells.length → h4.cell x = h.cell x := fun x hx =>
        (k4 x (by omega)).trans ((k3 x (by omega)).trans (k02 x hx))
      -- the right subtree
      have hsr4 : Stored h4 r := stored_congr hsr fun x hx => k04 x (hrl x hx)
      obtain ⟨h5, e5, n5, k5, s5⟩ := ihr fuel h4 (some h.cells.length)
        (if parent = none then some h.cells.length else root_) hsr4 (by omega)
      have hlen4 : h4.cells.length =
          (copy_tree l (h.cells.length + 1) (some h.cells.length)).2 := by rw [n4, n3]
      rw [hlen4] at e5 n5 k5 s5
      obtain ⟨r1, r2, r3, r4, r5, r6⟩ := copy_tree_spec r
        (copy_tree l (h.cells.length + 1) (some h.cells.length)).2 (some h.cells.length)
      have hle : h.cells.length + 1 ≤
          (copy_tree l (h.cells.length + 1) (some h.cells.length)).2 := by rw [l2]; omega
      have c5 : h5.cell h.cells.length = some ⟨d,
          (copy_tree l (h.cells.length + 1) (some h.cells.length)).1.addr?, none, parent, 1⟩ :=
        (k5 _ (by omega)).trans c4
      -- new_node->right = ...
      obtain ⟨h6, e6, c6, k6, n6⟩ := modify_spec c5
        (fun c => { c with right := (copy_tree r
          (copy_tree l (h.cells.length + 1) (some h.cells.length)).2
          (some h.cells.length)).1.addr? })
      refine ⟨h6, ?_, ?_, ?_, ?_⟩
      · simp only [Node.addr?, Mem.copy_tree]
        rw [bind_ok (load_spec h0), bind_ok e1, bind_ok e2,
          bind_ok (load_spec ((k02 a ha).trans h0))]
        have hfalse : ∀ (x : Nat) (q : Prop), ¬ ((some x : Ptr) = none ∧ q) :=
          fun _ _ hc => by cases hc.1
        rw [if_neg (hfalse _ _)] at e3 e5
        rw [bind_ok e3]
        dsimp only
        rw [bind_ok e4, bind_ok (load_spec ((k04 a ha).trans h0))]
        dsimp only
        rw [bind_ok e5]
        dsimp only
        rw [bind_ok e6]
        simp only [copy_tree, Node.addr?, ne_eq, reduceCtorEq, not_false_eq_true, and_true]
        rfl
      · simp only [copy_tree]
        rw [n6, n5]
      · intro x hx
        exact (k6 x (by omega)).trans ((k5 x (by omega)).trans (k04 x hx))
      · simp only [copy_tree]
        refine ⟨c6, ?_, ?_⟩
        · refine stored_congr s3 fun x hx => ?_
          have hx3 := l3 x hx
          exact (k6 x (by omega)).trans ((k5 x (by omega)).trans (k4 x (by omega)))
        · refine stored_congr s5 fun x hx => ?_
          have hx3 := r3 x hx
          exact k6 x (by omega)

end copying

section copying

theorem update_min_max_nodes_stored {h : TreeHeap α} {m : Node α} (t : TreeObj)
    (hs : Stored h m) (hr : t.root_ = m.addr?) {fuel : Nat} (hf : m.addrs.length < fuel) :
    Mem.update_min_max_nodes fuel t h =
      .ok h { t with min_node_ := (leftmost_node m).addr?,
                     max_node_ := (rightmost_node m).addr? } := by
  unfold Mem.update_min_max_nodes
  rw [hr, bind_ok (leftmost_node_stored hs fuel hf), bind_ok (rightmost_node_stored hs fuel hf)]
  rfl

/-- The copy constructor on a tree lying in memory: it returns; the memory it
found is unchanged; the sentinel and the nodes of the copy are new, and the
nodes hold the tree that the first embedding's `copy_tree` computes. -/
theorem copy_stored [Inhabited α] {h : TreeHeap α} {n : Node α} (t : TreeObj)
    (hs : Stored h n) (hr : t.root_ = n.addr?) {fuel : Nat} (hf : n.addrs.length < fuel) :
    ∃ h1, Mem.copy fuel t h = .ok h1
        { root_ := (copy_tree n (h.cells.length + 1) none).1.addr?,
          min_node_ := (leftmost_node (copy_tree n (h.cells.length + 1) none).1).addr?,
          max_node_ := (rightmost_node (copy_tree n (h.cells.length + 1) none).1).addr?,
          end_node_ := some h.cells.length, size_ := t.size_ } ∧
      (∀ x, x < h.cells.length → h1.cell x = h.cell x) ∧
      Stored h1 (copy_tree n (h.cells.length + 1) none).1 ∧
      h1.cell h.cells.length = some ⟨default, none, none, none, 1⟩ := by
  obtain ⟨h1, e1, c1, k1, n1⟩ := new_node_spec h (default : α)
  have hs1 : Stored h1 n := stored_congr hs fun x hx => k1 x (ne_of_lt (stored_lt hs x hx))
  obtain ⟨h2, e2, n2, k2, s2⟩ := copy_tree_stored n fuel h1 none none hs1 hf
  rw [n1] at e2 n2 k2 s2
  obtain ⟨m1, m2, m3, m4, m5, m6⟩ := copy_tree_spec n (h.cells.length + 1) none
  have hroot : (if (none : Ptr) = none ∧ n.addr? ≠ none then some (h.cells.length + 1)
      else none) = (copy_tree n (h.cells.length + 1) none).1.addr? := by
    cases n <;> simp [copy_tree, Node.addr?]
  rw [hroot] at e2
  have hbf := get_balance_factor_copy_tree n (h.cells.length + 1) none
  have hlen : (copy_tree n (h.cells.length + 1) none).1.addrs.length = n.addrs.length := by
    have := congrArg List.length m1
    rw [toList_eq_map, toList_eq_map, List.length_map, List.length_map] at this
    rw [addrs_eq_map, addrs_eq_map, List.length_map, List.length_map]
    exact this
  refine ⟨h2, ?_, fun x hx => (k2 x (by omega)).trans (k1 x (by omega)), s2,
    (k2 _ (by omega)).trans c1⟩
  unfold Mem.copy
  rw [bind_ok e1, hr, bind_ok e2]
  dsimp only
  rw [bind_ok (balance_stored_within s2 hbf.1 hbf.2)]
  rw [bind_ok (update_min_max_nodes_stored _ s2 rfl (by omega))]
  rfl

end copying

section keyed
variable [LinearOrder κ] {key : α → κ}

/-- Whatever is done to a tree whose members do not point below `L`, on a
memory separated at `L`, the memory below `L` stays as it is. -/
theorem run_mods_kept {L : Nat} {h h2 : TreeHeap α} {t : TreeObj} (hsep : Sep L h)
    (ht : ObjOut L t) (fuel : Nat) {mods : List (Mod α κ)} (hm : ∀ md ∈ mods, md.Local L)
    (hrun : (Mem.run_mods key fuel t mods h).state? = some h2) : Kept L h h2 := by
  have hsafe0 : Safe L (Mem.run_mods key fuel t mods) (ObjOut L) :=
    safe_run_mods fuel mods ht hm
  have hsafe := hsafe0 h hsep
  simp only [Mem.run] at hsafe
  cases hr : Mem.run_mods key fuel t mods h with
  | ok h3 r =>
    rw [hr] at hsafe hrun
    obtain rfl : h3 = h2 := Option.some.inj hrun
    exact hsafe.2.1
  | throws h3 e =>
    rw [hr] at hsafe hrun
    obtain rfl : h3 = h2 := Option.some.inj hrun
    exact hsafe.2
  | undefined => rw [hr] at hrun; cases hrun
  | out_of_fuel => rw [hr] at hrun; cases hrun

end keyed

section keyed
variable [LinearOrder κ] {key : α → κ}

/-- C25. For every tree `t` built by public operations the copy constructor
returns a tree that holds the same values in the same in-order sequence and
has the same size.  In the shared memory, with `t` lying anywhere in it: the
constructor returns; every node that existed before — those of `t` among
them — is unchanged, so `t` is; the sentinel and the nodes of the copy are
newly allocated, and the nodes hold the in-order sequence of `t`, with the
size of `t`; and whatever sequence of `insert`, `erase`, writes through
iterators, `at(k) = …`, `m[k] = …`, `insert_or_assign` and `clear` is then
applied to the copy (the positions handed to it being iterators of the copy,
that is, null or addresses not older than the copy), as far as it returns or
throws, every node that existed before the copy is still unchanged and `t`
still lies in memory as it was. -/
theorem C25_copy_constructor [Inhabited α] {dup : Bool} {t : BinaryTree α}
    (hb : Built key dup t) :
    (∃ c, BinaryTree.copy t = some c ∧ c.root_.toList = t.root_.toList ∧ c.size = t.size ∧
      c.root_.addrs.Nodup ∧ (∀ x ∈ c.root_.addrs, 1 ≤ x ∧ x ≤ t.size) ∧
      c.end = some 0 ∧ Built key dup c) ∧
    ∀ (h : TreeHeap α) (fuel : Nat), Stored h t.root_ → t.size < fuel →
      ∃ h1 c m, Mem.copy fuel t.obj h = .ok h1 c ∧
        Stored h1 m ∧ c.root_ = m.addr? ∧ m.toList = t.root_.toList ∧ c.size_ = t.size ∧
        (∀ x ∈ m.addrs, h.cells.length < x) ∧ c.end_node_ = some h.cells.length ∧
        (∀ a, a < h.cells.length → h1.cell a = h.cell a) ∧ Stored h1 t.root_ ∧
        ∀ (fuel1 : Nat) (mods : List (Mod α κ)) (h2 : TreeHeap α),
          (∀ md ∈ mods, md.Local h.cells.length) →
          (Mem.run_mods key fuel1 c mods h1).state? = some h2 →
          (∀ a, a < h.cells.length → h2.cell a = h.cell a) ∧ Stored h2 t.root_ := by
  have hw := hb.wellFormed
  refine ⟨?_, fun h fuel hs hf => ?_⟩
  · obtain ⟨c, h1, hw1, hl, hs, hf, he⟩ := copy_spec hw
    refine ⟨c, h1, hl, hs, hw1.nodup, fun x hx => ⟨?_, ?_⟩, ?_, Built.copy hb h1⟩
    · obtain ⟨e, he1, he2, -⟩ := hw1.end_ok
      rw [he] at he1
      obtain rfl : 0 = e := Option.some.inj he1
      rcases Nat.eq_zero_or_pos x with rfl | h
      · exact absurd hx he2
      · exact h
    · have := hw1.lt_fresh x hx
      rw [hf] at this
      exact Nat.lt_succ_iff.1 this
    · rw [BinaryTree.end, he]; rfl
  · have hlen : t.root_.addrs.length < fuel := by
      have := hw.size_eq
      rw [addrs_eq_map, List.length_map, ← this]
      exact hf
    obtain ⟨h1, e1, k1, s1, -⟩ := copy_stored t.obj hs (rfl : t.obj.root_ = t.root_.addr?) hlen
    obtain ⟨m1, -, m3, -⟩ := copy_tree_spec t.root_ (h.cells.length + 1) none
    have hsep0 : Sep h.cells.length h :=
      ⟨le_refl _, fun a c ha hc => absurd (tcell_lt hc) (not_lt.2 ha)⟩
    have hsafe := safe_copy (L := h.cells.length) fuel t.obj h hsep0
    simp only [Mem.run] at hsafe
    rw [e1] at hsafe
    obtain ⟨hsep1, -, hobj⟩ := hsafe
    have hst1 : Stored h1 t.root_ := stored_congr hs fun x hx => k1 x (stored_lt hs x hx)
    refine ⟨h1, _, _, e1, s1, rfl, m1, rfl, fun x hx => ?_, rfl, k1, hst1,
      fun fuel1 mods h2 hm hrun => ?_⟩
    · have := (m3 x hx).1
      omega
    · have hk := run_mods_kept hsep1 hobj fuel1 hm hrun
      have hk2 : ∀ a, a < h.cells.length → h2.cell a = h.cell a := fun a ha =>
        (hk a ha).trans (k1 a ha)
      exact ⟨hk2, stored_congr hs fun x hx => hk2 x (stored_lt hs x hx)⟩

end keyed

theorem copy_demo_built : Built id false copy_demo :=
  Built.insert (v := 3) (Built.insert (v := 2) (Built.insert (v := 1) Built.empty rfl) rfl) rfl

theorem copy_demo_stored : Stored copy_demo_heap copy_demo.root_ :=
  ⟨rfl, ⟨rfl, trivial, trivial⟩, ⟨rfl, trivial, trivial⟩⟩

/-- The pointer-level operations build `copy_demo` where the first embedding
says: the constructor and `insert(1); insert(2); insert(3)` on empty memory
give `copy_demo_heap` and the members of `copy_demo`. -/
theorem copy_demo_from_inserts :
    (Mem.construct >>= fun t => Mem.run_mods id 4 t [Mod.insert 1 false, Mod.insert 2 false])
        (⟨[]⟩ : TreeHeap Nat) =
      .ok copy_demo_two
        { root_ := some 1, min_node_ := some 1, max_node_ := some 2, end_node_ := some 0,
          size_ := 2 } ∧
    Mem.run_mods id 4
        { root_ := some 1, min_node_ := some 1, max_node_ := some 2, end_node_ := some 0,
          size_ := 2 }
        [Mod.insert 3 false] copy_demo_two = .ok copy_demo_heap copy_demo.obj :=
  ⟨by decide, by decide⟩

/-- `s21::set<int> s2 = s1; s2.insert(4); s2.erase(s2.find(1));` evaluated:
the copy then holds 4 and not 1, the source holds 1 and not 4. -/
theorem copy_demo_modified_eval :
    Mem.copy 4 copy_demo.obj copy_demo_heap = .ok copy_demo_copied
      { root_ := some 5, min_node_ := some 6, max_node_ := some 7, end_node_ := some 4,
        size_ := 3 } ∧
    Mem.run_mods id 5
        { root_ := some 5, min_node_ := some 6, max_node_ := some 7, end_node_ := some 4,
          size_ := 3 }
        [Mod.insert 4 false, Mod.erase_key 1] copy_demo_copied =
      .ok copy_demo_modified
        { root_ := some 7, min_node_ := some 5, max_node_ := some 8, end_node_ := some 4,
          size_ := 3 } ∧
    Mem.find id 5
        { root_ := some 7, min_node_ := some 5, max_node_ := some 8, end_node_ := some 4,
          size_ := 3 } 4 copy_demo_modified = .ok copy_demo_modified (some 8) ∧
    Mem.find id 5
        { root_ := some 7, min_node_ := some 5, max_node_ := some 8, end_node_ := some 4,
          size_ := 3 } 1 copy_demo_modified = .ok copy_demo_modified (some 4) ∧
    Mem.find id 5 copy_demo.obj 4 copy_demo_modified = .ok copy_demo_modified (some 0) ∧
    Mem.find id 5 copy_demo.obj 1 copy_demo_modified = .ok copy_demo_modified (some 1) :=
  ⟨by decide, by decide, by decide, by decide, by decide, by decide⟩

/-- `s21::map<int, int> m2 = m1; m2.at(1) = 11;` evaluated on `map_demo`: the
copy's node of key 1 holds 11 afterwards, the source's node still 10. -/
theorem copy_map_assigned_eval :
    Stored copy_map_heap map_demo.root_ ∧
    Mem.copy 3 map_demo.obj copy_map_heap = .ok copy_map_copied
      { root_ := some 4, min_node_ := some 4, max_node_ := some 5, end_node_ := some 3,
        size_ := 2 } ∧
    Mem.run_mods Prod.fst 3
        { root_ := some 4, min_node_ := some 4, max_node_ := some 5, end_node_ := some 3,
          size_ := 2 }
        [Mod.at_assign 1 (fun p => (p.1, 11))] copy_map_copied =
      .ok copy_map_assigned
        { root_ := some 4, min_node_ := some 4, max_node_ := some 5, end_node_ := some 3,
          size_ := 2 } ∧
    Mem.find Prod.fst 3 map_demo.obj 1 copy_map_assigned = .ok copy_map_assigned (some 1) ∧
    (copy_map_assigned.cell 1).map (fun c => c.data) = some (1, 10) ∧
    Mem.find Prod.fst 3
        { root_ := some 4, min_node_ := some 4, max_node_ := some 5, end_node_ := some 3,
          size_ := 2 } 1 copy_map_assigned = .ok copy_map_assigned (some 4) ∧
    (copy_map_assigned.cell 4).map (fun c => c.data) = some (1, 11) :=
  ⟨⟨rfl, trivial, rfl, trivial, trivial⟩, by decide, by decide, by decide, by decide,
    by decide, by decide⟩

/-- The memory does show sharing where there is some: a tree object with the
same members as `copy_demo` (what the move constructor leaves) works on the
nodes of `copy_demo`, and its `insert(4)` writes the node of 3 at address 3. -/
theorem shared_object_changes_nodes :
    copy_demo_heap.cell 3 = some ⟨3, none, none, some 2, 1⟩ ∧
    (Mem.run_mods id 4 copy_demo.obj [Mod.insert 4 false] copy_demo_heap).state?.map
        (fun h => h.cell 3) = some (some ⟨3, none, some 4, some 2, 2⟩) :=
  ⟨by decide, by decide⟩

theorem C25_witness :
    Stored copy_demo_heap copy_demo.root_ ∧ copy_demo.size < 4 ∧
    Mem.copy 4 copy_demo.obj copy_demo_heap = .ok copy_demo_copied
      { root_ := some 5, min_node_ := some 6, max_node_ := some 7, end_node_ := some 4,
        size_ := 3 } ∧
    (∀ md ∈ [(Mod.insert 4 false : Mod Nat Nat), Mod.erase_key 1],
      md.Local copy_demo_heap.cells.length) ∧
    (Mem.run_mods id 5
        { root_ := some 5, min_node_ := some 6, max_node_ := some 7, end_node_ := some 4,
          size_ := 3 }
        [Mod.insert 4 false, Mod.erase_key 1] copy_demo_copied).state? =
      some copy_demo_modified ∧
    (∀ a, a < copy_demo_heap.cells.length →
      copy_demo_modified.cell a = copy_demo_heap.cell a) ∧
    Stored copy_demo_modified copy_demo.root_ := by
  have hloc : ∀ md ∈ [(Mod.insert 4 false : Mod Nat Nat), Mod.erase_key 1],
      md.Local copy_demo_heap.cells.length := by
    intro md hmd
    rcases List.mem_cons.1 hmd with rfl | hmd
    · exact True.intro
    · rcases List.mem_cons.1 hmd with rfl | hmd
      · exact True.intro
      · cases hmd
  have hrun := congrArg Res.state? copy_demo_modified_eval.2.1
  obtain ⟨h1, c, m, e, -, -, -, -, -, -, -, -, hframe⟩ :=
    (C25_copy_constructor copy_demo_built).2 copy_demo_heap 4 copy_demo_stored (by decide)
  rw [copy_demo_modified_eval.1] at e
  injection e with e1 e2
  subst e1 e2
  exact ⟨copy_demo_stored, by decide, copy_demo_modified_eval.1, hloc, hrun,
    hframe 5 _ _ hloc hrun⟩

end s21
